import Mathlib

/-! # MallocLab/mm.c : segregated-fit allocator

A shallow embedding of `Project/MallocLab/mm.c`.

* Memory is byte addressed (`Nat → Nat`, one byte per address); a 32-bit word is
  read and written little-endian by `load32` / `store32`.
* A C pointer is its address, a natural number; `NULL` is `0` and
  `(block_pointer)-1` is `2^64 - 1`.  Arithmetic on a `block_pointer`
  (`uint32_t*`) moves in steps of four bytes, so `block + n` is `block + 4 * n`.
* `size_t` arithmetic that can wrap is reduced modulo `2^64`; a store into a
  `uint32_t` is reduced modulo `2^32`.
* `seg_array` (the table of 12 list heads) is kept as a component of its own,
  `Heap.seg`; in the C program its 96 bytes are the first thing obtained from
  `mem_sbrk`, below the prologue, and no block word lies in it.
* `contracts.h` is not among the sources: in the functions of the allocator
  `REQUIRES` is taken in its disabled form (it expands to nothing), so the only
  run-time guard is the explicit test in `free`.  The enabled form is modelled
  apart, by `REQUIRES` and the functions named `..._checked`.
* The checker prints its findings; a line printed is a `Report`, and a checker
  function returns the lines it prints.
* `memlib.c` is not among the sources: `mem_sbrk`, `mem_heap_lo` and
  `mem_heap_hi` are modelled from the description of the heap-growth
  collaborator.
* The loop of `find_first_fit` follows successor links; it is given fuel and
  returns `none` when the fuel runs out.
-/

namespace MallocLab

/-! ## Memory -/

/-- Read the little-endian 32-bit word stored at byte address `a`. -/
def load32 (m : Nat → Nat) (a : Nat) : Nat :=
  m a % 256 + 256 * (m (a + 1) % 256) + 65536 * (m (a + 2) % 256)
    + 16777216 * (m (a + 3) % 256)

/-- Write `v` (reduced to 32 bits) little-endian at byte address `a`. -/
def store32 (m : Nat → Nat) (a v : Nat) : Nat → Nat := fun x =>
  if x = a then v % 256
  else if x = a + 1 then v / 256 % 256
  else if x = a + 2 then v / 65536 % 256
  else if x = a + 3 then v / 16777216 % 256
  else m x

/-- The allocator state: the bytes of memory, the bounds kept by the memory
system (`lo` = `mem_heap_lo()`, `brk` = one past `mem_heap_hi()`, `max` = the
address the heap may not grow beyond), and the two globals of `mm.c`. -/
structure Heap where
  mem : Nat → Nat
  lo : Nat
  brk : Nat
  max : Nat
  seg : Nat → Nat
  heap_listp : Nat

/-! ## Constants and macros -/

abbrev WSIZE : Nat := 4
abbrev DSIZE : Nat := 8
abbrev CHUNKSIZE : Nat := 1 <<< 6
abbrev BLOCKSIZE_MIN : Nat := 4
abbrev CLASS_NUMBER : Nat := 12
abbrev NULL : Nat := 0

/-- The value of `(void *) -1` and `(block_pointer) -1` on a 64-bit machine. -/
abbrev MINUS_ONE : Nat := 2 ^ 64 - 1

/-- `#define PACK(size, alloc) ((size) | (alloc << 30))`. -/
def PACK (size alloc : Nat) : Nat := size ||| (alloc <<< 30)

/-- `#define CONVERT_32_TO_64(value)`: offset to address, `0` to `NULL`. -/
def CONVERT_32_TO_64 (value : Nat) : Nat :=
  if value = 0 then NULL else 0x800000000 + value

/-- `#define CONVERT_64_TO_32(value)`: address to 32-bit offset, `NULL` to `0`;
the subtraction is done on `long` and the result cast to `uint32_t`. -/
def CONVERT_64_TO_32 (value : Nat) : Nat :=
  if value = 0 then 0 else (value + 2 ^ 64 - 0x800000000) % 2 ^ 32

/-! ## The memory system (memlib) -/

/-- Modelled from the spec: `mem_sbrk` of `memlib.c`, which is not among the
sources.  The growth primitive is monotonic and non-relocating; a successful call
extends the region by exactly `incr` bytes starting at the previous high-water
mark and returns that mark; a failing call returns `(void *) -1` and changes
nothing.  It fails exactly when the region would pass `max`. -/
def mem_sbrk (h : Heap) (incr : Nat) : Nat × Heap :=
  if h.brk + incr > h.max then (MINUS_ONE, h)
  else (h.brk, { h with brk := h.brk + incr })

/-- Modelled from the spec: `mem_heap_lo` of `memlib.c`, the low bound of the
current valid address span. -/
def mem_heap_lo (h : Heap) : Nat := h.lo

/-- Modelled from the spec: `mem_heap_hi` of `memlib.c`, the high bound of the
current valid address span (the address of the last heap byte). -/
def mem_heap_hi (h : Heap) : Nat := h.brk - 1

/-! ## Helper functions of mm.c -/

/-- `align(p, w)`: round `p` up to a multiple of `w` (a power of two). -/
def align (p w : Nat) : Nat := (p + (w - 1)) / w * w

/-- `aligned(p)`: is `p` 8-byte aligned. -/
def aligned (p : Nat) : Bool := align p 8 == p

/-- `in_heap(p)`. -/
def in_heap (h : Heap) (p : Nat) : Bool :=
  decide (p ≤ mem_heap_hi h) && decide (p ≥ mem_heap_lo h)

/-- `get(block)`: read the word at `block`. -/
def get (h : Heap) (block : Nat) : Nat := load32 h.mem block

/-- `put(block, val)`: write the word at `block`. -/
def put (h : Heap) (block val : Nat) : Heap :=
  { h with mem := store32 h.mem block val }

/-- The assignment `seg_array[i] = p`. -/
def set_seg (h : Heap) (i p : Nat) : Heap :=
  { h with seg := Function.update h.seg i p }

/-- `block_size(block)`: `block[0] & 0x3FFFFFFF`. -/
def block_size (h : Heap) (block : Nat) : Nat := get h block &&& 0x3FFFFFFF

/-- `block_free(block)`: `!(block[0] & 0x40000000)`. -/
def block_free (h : Heap) (block : Nat) : Bool := (get h block &&& 0x40000000) == 0

/-- `block_next(block)`: `block + block_size(block)`. -/
def block_next (h : Heap) (block : Nat) : Nat := block + 4 * block_size h block

/-- `block_prev(block)`: `block - block_size(block - 1)`. -/
def block_prev (h : Heap) (block : Nat) : Nat := block - 4 * block_size h (block - 4)

/-- `block_mem(block)`: `block + 1`. -/
def block_mem (block : Nat) : Nat := block + 4

/-- `block_header(block)`: `block - 1`. -/
def block_header (block : Nat) : Nat := block - 4

/-- `block_footer(block)`: `block + block_size(block) - 1`. -/
def block_footer (h : Heap) (block : Nat) : Nat := block + 4 * block_size h block - 4

/-- `block_mark(block, free)`: set or clear bit 30 of the header and copy the
header to the word `size - 1` words further (to the header itself when the size
is 0). -/
def block_mark (h : Heap) (block : Nat) (free : Bool) : Heap :=
  let size := block_size h block
  let next := if size = 0 then 0 else size - 1
  let h1 := put h block
    (if free then get h block &&& 0xBFFFFFFF else get h block ||| 0x40000000)
  put h1 (block + 4 * next) (get h1 block)

/-- `set_pred_ptr(block, pred)`: `*(block + 1) = CONVERT_64_TO_32(pred)`. -/
def set_pred_ptr (h : Heap) (block pred : Nat) : Heap :=
  put h (block + 4) (CONVERT_64_TO_32 pred)

/-- `set_succ_ptr(block, succ)`: `*(block + 2) = CONVERT_64_TO_32(succ)`. -/
def set_succ_ptr (h : Heap) (block succ : Nat) : Heap :=
  put h (block + 8) (CONVERT_64_TO_32 succ)

/-- `get_pred_ptr(block)`: `CONVERT_32_TO_64(*(block + 1))`. -/
def get_pred_ptr (h : Heap) (block : Nat) : Nat := CONVERT_32_TO_64 (get h (block + 4))

/-- `get_succ_ptr(block)`: `CONVERT_32_TO_64(*(block + 2))`. -/
def get_succ_ptr (h : Heap) (block : Nat) : Nat := CONVERT_32_TO_64 (get h (block + 8))

/-- `get_class_no(size)`. -/
def get_class_no (size : Nat) : Nat :=
  if size < 4 then 0
  else if size < 8 then 1
  else if size < 16 then 2
  else if size < 32 then 3
  else if size < 64 then 4
  else if size < 128 then 5
  else if size < 256 then 6
  else if size < 512 then 7
  else if size < 1024 then 8
  else if size < 2048 then 9
  else if size < 4096 then 10
  else 11

/-- `init_block(block, size)`: write `size` to header and footer, clear both
links, mark free.  The C function returns the constant 0, so the error branches
of its callers are never taken and are left out. -/
def init_block (h : Heap) (block size : Nat) : Heap :=
  let h1 := put h block size
  let temp := block_footer h1 block
  let h2 := put h1 temp size
  let h3 := set_pred_ptr h2 block NULL
  let h4 := set_succ_ptr h3 block NULL
  block_mark h4 block true

/-- `add_to_free_list(block)`: push `block` on the front of the list of its
class. -/
def add_to_free_list (h : Heap) (block : Nat) : Heap :=
  let size := block_size h block
  let class_no := get_class_no size
  let h1 := init_block h block size
  let h2 := block_mark h1 block true
  if h2.seg class_no = NULL then
    set_seg h2 class_no block
  else
    let h3 := set_pred_ptr h2 (h2.seg class_no) block
    let h4 := set_succ_ptr h3 block (h3.seg class_no)
    set_seg h4 class_no block

/-- The `while` loop of `find_first_fit` over one list: `none` when the fuel
runs out, `some NULL` when the list ends without a fit. -/
def find_in_list (h : Heap) (size : Nat) : Nat → Nat → Option Nat
  | 0, _ => none
  | fuel + 1, p =>
    if p = NULL then some NULL
    else if block_size h p ≥ size then some p
    else find_in_list h size fuel (get_succ_ptr h p)

/-- The `for` loop of `find_first_fit`: `n` classes are left, starting at
class `i`. -/
def find_from_class (fuel : Nat) (h : Heap) (size : Nat) : Nat → Nat → Option Nat
  | 0, _ => some NULL
  | n + 1, i =>
    match find_in_list h size fuel (h.seg i) with
    | none => none
    | some p => if p ≠ NULL then some p else find_from_class fuel h size n (i + 1)

/-- `find_first_fit(size)`. -/
def find_first_fit (fuel : Nat) (h : Heap) (size : Nat) : Option Nat :=
  let class_no := get_class_no size
  find_from_class fuel h size (CLASS_NUMBER - class_no) class_no

/-- `delete_block(block)`: unlink `block` from its list and mark it
allocated. -/
def delete_block (h : Heap) (block : Nat) : Heap :=
  let prev := get_pred_ptr h block
  let next := get_succ_ptr h block
  let h1 :=
    if prev = NULL then
      let class_no := get_class_no (block_size h block)
      if next = NULL then
        set_seg h class_no NULL
      else
        let h' := set_pred_ptr h next NULL
        set_seg h' class_no next
    else
      let h' := set_succ_ptr h prev next
      if next ≠ NULL then set_pred_ptr h' next prev else h'
  let size := block_size h1 block
  let h2 := init_block h1 block size
  block_mark h2 block false

/-- `combine_block(first, second)`: the returned pointer is `first`. -/
def combine_block (h : Heap) (first second : Nat) : Heap :=
  let first_size := block_size h first
  let second_size := block_size h second
  let h1 := put h first (first_size + second_size)
  let temp := block_footer h1 first
  put h1 temp (first_size + second_size)

/-- `coalesce(bp)`: the four cases; returns the surviving block. -/
def coalesce (h : Heap) (bp : Nat) : Nat × Heap :=
  let prev_pointer := block_prev h bp
  let next_pointer := block_next h bp
  if !block_free h prev_pointer && !block_free h next_pointer then
    (bp, h)
  else if block_free h prev_pointer && !block_free h next_pointer then
    let h1 := delete_block h prev_pointer
    (prev_pointer, combine_block h1 prev_pointer bp)
  else if !block_free h prev_pointer && block_free h next_pointer then
    let h1 := delete_block h next_pointer
    (bp, combine_block h1 bp next_pointer)
  else
    let h1 := delete_block h prev_pointer
    let h2 := delete_block h1 next_pointer
    let h3 := combine_block h2 prev_pointer bp
    (prev_pointer, combine_block h3 prev_pointer next_pointer)

/-- `extend_heap(words)`: `NULL` when `mem_sbrk` fails. -/
def extend_heap (h : Heap) (words : Nat) : Nat × Heap :=
  let size := if words % 2 ≠ 0 then words + 1 else words
  let r := mem_sbrk h (size * WSIZE % 2 ^ 64)
  if r.1 = MINUS_ONE then (NULL, r.2)
  else
    let block := block_header r.1
    let h1 := init_block r.2 block size
    (block, put h1 (block_next h1 block) (PACK 0 1))

/-- `place(bp, alloc_size)`: the subtraction is on `size_t`. -/
def place (h : Heap) (bp alloc_size : Nat) : Heap :=
  let total_size := block_size h bp
  if (total_size + 2 ^ 64 - alloc_size) % 2 ^ 64 ≤ BLOCKSIZE_MIN then
    block_mark h bp false
  else
    let h1 := put h bp alloc_size
    let temp := block_footer h1 bp
    let h2 := put h1 temp alloc_size
    let next_block := block_next h2 bp
    let h3 := init_block h2 next_block ((total_size + 2 ^ 64 - alloc_size) % 2 ^ 64)
    let h4 := block_mark h3 bp false
    add_to_free_list h4 next_block

/-- The block size in bytes that `malloc` computes from a request of `size`
bytes, the value of `word_size` before it is converted to words; the arithmetic
is on `size_t`. -/
def adjust_bytes (size : Nat) : Nat :=
  if size > BLOCKSIZE_MIN * WSIZE - DSIZE then
    DSIZE * ((size + DSIZE + (DSIZE - 1)) % 2 ^ 64 / DSIZE) % 2 ^ 64
  else BLOCKSIZE_MIN * WSIZE

/-- The size adjustment shared by `malloc` and `realloc`: the block size in
words for a request of `size` bytes. -/
def adjust (size : Nat) : Nat :=
  (if size > BLOCKSIZE_MIN * WSIZE - DSIZE then
      DSIZE * ((size + DSIZE + (DSIZE - 1)) % 2 ^ 64 / DSIZE) % 2 ^ 64
    else BLOCKSIZE_MIN * WSIZE) / WSIZE

/-- `malloc(size)`. -/
def malloc (fuel : Nat) (h : Heap) (size : Nat) : Option (Nat × Heap) :=
  if size = 0 then some (NULL, h)
  else
    let word_size := adjust size
    match find_first_fit fuel h word_size with
    | none => none
    | some bp =>
      if bp ≠ NULL then
        let h1 := delete_block h bp
        let h2 := place h1 bp word_size
        some (block_mem bp, h2)
      else
        let r := extend_heap h (max word_size CHUNKSIZE)
        if r.1 = NULL then some (MINUS_ONE, r.2)
        else
          let h2 := place r.2 r.1 word_size
          some (block_mem r.1, h2)

/-- The extension path of `malloc`, the statements after the search for a fit:
what `malloc` does and returns once `find_first_fit(word_size)` has come back
with `NULL`. -/
def malloc_extend (h : Heap) (word_size : Nat) : Option (Nat × Heap) :=
  let r := extend_heap h (max word_size CHUNKSIZE)
  if r.1 = NULL then some (MINUS_ONE, r.2)
  else
    let h2 := place r.2 r.1 word_size
    some (block_mem r.1, h2)

/-- `free(ptr)`. -/
def free (h : Heap) (ptr : Nat) : Heap :=
  if ptr = NULL ∨ in_heap h ptr = false then h
  else
    let block := block_header ptr
    let h1 := block_mark h block true
    let r := coalesce h1 block
    add_to_free_list r.2 r.1

/-- `memcpy(dst, src, n)`. -/
def memcpy (h : Heap) (dst src n : Nat) : Heap :=
  { h with mem := fun x => if dst ≤ x ∧ x < dst + n then h.mem (src + (x - dst)) else h.mem x }

/-- `realloc(oldptr, size)`. -/
def realloc (fuel : Nat) (h : Heap) (oldptr size : Nat) : Option (Nat × Heap) :=
  let word_size := adjust size
  if size = 0 then some (0, free h oldptr)
  else if oldptr = NULL then malloc fuel h size
  else
    match malloc fuel h size with
    | none => none
    | some (newptr, h1) =>
      if newptr = NULL then some (NULL, h1)
      else
        let block := block_header oldptr
        let old_size := block_size h1 block
        if old_size < word_size then
          let old_size := old_size * WSIZE
          let h2 := memcpy h1 newptr oldptr (min old_size size)
          some (newptr, free h2 oldptr)
        else
          some (oldptr, place h1 block word_size)

/-- `calloc(nmemb, size)`: the product is on `size_t`. -/
def calloc (fuel : Nat) (h : Heap) (nmemb size : Nat) : Option (Nat × Heap) :=
  let size := if size < BLOCKSIZE_MIN then BLOCKSIZE_MIN else size
  malloc fuel h (nmemb * size % 2 ^ 64)

/-- `mm_init()`: `none` stands for the unchecked failure of the first
`mem_sbrk` (the table would be written through `(void *) -1`); otherwise the
return value (0 or -1) and the state. -/
def mm_init (h : Heap) : Option (Int × Heap) :=
  let r0 := mem_sbrk h (8 * CLASS_NUMBER)
  if r0.1 = MINUS_ONE then none
  else
    let h0 : Heap := { r0.2 with seg := fun _ => NULL }
    let r1 := mem_sbrk h0 (4 * WSIZE)
    if r1.1 = MINUS_ONE then some (-1, { r1.2 with heap_listp := r1.1 })
    else
      let p := r1.1
      let h1 := put r1.2 p (PACK 2 0)
      let h2 := put h1 (p + 4) (PACK 2 1)
      let h3 := put h2 (p + 8) (PACK 2 1)
      let h4 := put h3 (p + 12) (PACK 0 0)
      let h5 : Heap := { h4 with heap_listp := p + 8 }
      let r2 := extend_heap h5 CHUNKSIZE
      if r2.1 = NULL then some (-1, r2.2)
      else
        let h6 := init_block r2.2 r2.1 (block_size r2.2 r2.1)
        some (0, add_to_free_list h6 r2.1)

/-! ## Well-formed heaps -/

/-- A block of the heap as the invariant sees it: the address of its header,
its size in words, and whether it is on a free list. -/
structure Blk where
  addr : Nat
  size : Nat
  free : Bool
deriving DecidableEq

/-- The blocks `bs` lie one after the other from address `a` to address `e`. -/
def Contig : Nat → List Blk → Nat → Prop
  | a, [], e => a = e
  | a, b :: bs, e => b.addr = a ∧ Contig (a + 4 * b.size) bs e

/-- What memory holds for one block.  A block has at least `BLOCKSIZE_MIN`
words, an even size below `2^30`; a block on a free list carries the tag
`(size, free)` in header and footer; any other block carries the tag
`(size, allocated)` in header and footer.  The one block at address `hole`, if
any, is in transit inside an operation: it is on no list and only the size
field and bit 31 of its header are known. -/
def BlockOK (h : Heap) (hole : Nat) (b : Blk) : Prop :=
  4 ≤ b.size ∧ b.size % 2 = 0 ∧ b.size < 2 ^ 30 ∧
  (b.free = true → b.addr ≠ hole ∧ get h b.addr = b.size ∧
      get h (b.addr + 4 * b.size - 4) = b.size) ∧
  (b.free = false → b.addr ≠ hole → get h b.addr = b.size + 2 ^ 30 ∧
      get h (b.addr + 4 * b.size - 4) = b.size + 2 ^ 30) ∧
  (b.addr = hole → get h b.addr = b.size ∨ get h b.addr = b.size + 2 ^ 30)

/-- The doubly linked list `l` in memory: `p` is the pointer to its first node
(`NULL` when `l` is empty), `prev` the predecessor link its first node holds. -/
def DLL (h : Heap) : Nat → Nat → List Nat → Prop
  | _, p, [] => p = NULL
  | prev, p, x :: xs =>
    p = x ∧ x ≠ NULL ∧ get_pred_ptr h x = prev ∧ DLL h x (get_succ_ptr h x) xs

/-- The representation invariant: `bs` are the blocks between prologue and
epilogue, `fl i` is the free list of class `i`.  It holds spec invariants 1
(minimum size), 2 (header = footer), 4 (every free block on exactly the list of
its class, and nothing else on a list) and 5 (alignment and bounds), together
with the sentinels and the bounds of the memory system.  Invariant 3 (no two
adjacent free blocks) is `NoAdjacentFree`. -/
structure R (h : Heap) (bs : List Blk) (fl : Nat → List Nat) (hole : Nat) : Prop where
  base_le : 0x800000000 ≤ h.lo
  lo_le : h.lo + 8 ≤ h.heap_listp
  align8 : h.heap_listp % 8 = 0
  brk_le : h.brk ≤ h.max
  max_le : h.max ≤ 0x800000000 + 2 ^ 32
  pro_hdr : get h (h.heap_listp - 4) = 2 + 2 ^ 30
  pro_ftr : get h h.heap_listp = 2 + 2 ^ 30
  epi : get h (h.brk - 4) = 2 ^ 30
  brk_ge : h.heap_listp + 8 ≤ h.brk
  contig : Contig (h.heap_listp + 4) bs (h.brk - 4)
  blocks : ∀ b ∈ bs, BlockOK h hole b
  lists : ∀ i, i < 12 → DLL h NULL (h.seg i) (fl i)
  mem_fl : ∀ i, i < 12 → ∀ x ∈ fl i, ∃ b ∈ bs, b.addr = x ∧ b.free = true ∧ get_class_no b.size = i
  fl_mem : ∀ b ∈ bs, b.free = true → b.addr ∈ fl (get_class_no b.size)
  nodup : ∀ i, i < 12 → (fl i).Nodup

/-- Spec invariant 3: no two physically adjacent blocks are both free. -/
def NoAdjacentFree : List Blk → Prop
  | [] => True
  | [_] => True
  | a :: b :: rest => ¬ (a.free = true ∧ b.free = true) ∧ NoAdjacentFree (b :: rest)

/-- A well-formed heap: some blocks and free lists represent it. -/
def WellFormed (h : Heap) : Prop := ∃ bs fl, R h bs fl 0

/-- The byte at offset `i` of the region that starts at `p`. -/
def byte_at (h : Heap) (p i : Nat) : Nat := h.mem (p + i) % 256

/-- The heap changed only at addresses that satisfy `P`. -/
def ChangedOnly (h h' : Heap) (P : Nat → Prop) : Prop :=
  ∀ x, h'.mem x ≠ h.mem x → P x

/-- Address `x` lies in a block of `bs` that is on a free list. -/
def InFree (bs : List Blk) (x : Nat) : Prop :=
  ∃ b ∈ bs, b.free = true ∧ b.addr ≤ x ∧ x < b.addr + 4 * b.size

/-- The two heaps agree on everything but the bytes of memory. -/
def SameMeta (h h' : Heap) : Prop :=
  h'.lo = h.lo ∧ h'.brk = h.brk ∧ h'.max = h.max ∧ h'.seg = h.seg ∧
    h'.heap_listp = h.heap_listp

/-- What a successful `malloc fuel h size = some (p, h')` leaves, for a heap `h`
represented by the blocks `bs`: the new heap is represented by `bs'` and `fl'`,
the block of `p` is an allocated block of `s'` words, every block that was
allocated is still there, and the block either comes out of a free block of `bs`
(the heap does not grow) or starts at the old epilogue word (the heap grows by
`max (adjust size) CHUNKSIZE` words); only bytes of free blocks, or bytes from
the old epilogue word up to the new end of the heap, have changed. -/
structure MallocOK (h : Heap) (bs : List Blk) (size p : Nat) (h' : Heap)
    (bs' : List Blk) (fl' : Nat → List Nat) (s' : Nat) : Prop where
  rep : R h' bs' fl' 0
  blk : (⟨p - 4, s', false⟩ : Blk) ∈ bs'
  p_ge : 4 ≤ p
  big : adjust size ≤ s'
  kept : ∀ c ∈ bs, c.free = false → c ∈ bs'
  origin :
    (h'.brk = h.brk ∧ (∃ b ∈ bs, b.free = true ∧ b.addr = p - 4 ∧ s' ≤ b.size) ∧
      ∀ y, ¬ InFree bs y → h'.mem y = h.mem y) ∨
    (h'.brk = h.brk + 4 * max (adjust size) CHUNKSIZE ∧ p - 4 = h.brk - 4 ∧
      s' ≤ max (adjust size) CHUNKSIZE ∧
      (∀ b ∈ bs, b.free = true → b.size < adjust size) ∧
      ∀ y, ¬ InFree bs y → (y < h.brk - 4 ∨ h'.brk ≤ y) → h'.mem y = h.mem y)

/-! ## Decision procedures and concrete heaps -/

instance Contig.dec : ∀ a bs e, Decidable (Contig a bs e)
  | a, [], e => inferInstanceAs (Decidable (a = e))
  | a, b :: bs, e =>
    have := Contig.dec (a + 4 * b.size) bs e
    inferInstanceAs (Decidable (b.addr = a ∧ Contig (a + 4 * b.size) bs e))

instance BlockOK.dec (h : Heap) (hole : Nat) (b : Blk) : Decidable (BlockOK h hole b) := by
  unfold BlockOK
  infer_instance

instance DLL.dec (h : Heap) : ∀ prev p l, Decidable (DLL h prev p l)
  | _, p, [] => inferInstanceAs (Decidable (p = NULL))
  | prev, p, x :: xs =>
    have := DLL.dec h x (get_succ_ptr h x) xs
    inferInstanceAs (Decidable (p = x ∧ x ≠ NULL ∧ get_pred_ptr h x = prev ∧
      DLL h x (get_succ_ptr h x) xs))

instance NoAdjacentFree.dec : ∀ bs, Decidable (NoAdjacentFree bs)
  | [] => inferInstanceAs (Decidable True)
  | [_] => inferInstanceAs (Decidable True)
  | a :: b :: rest =>
    have := NoAdjacentFree.dec (b :: rest)
    inferInstanceAs (Decidable (¬ (a.free = true ∧ b.free = true) ∧ NoAdjacentFree (b :: rest)))

/-- The memory system before `mm_init`: an empty heap at `0x800000000` that may
grow to 4 GiB, the range the 32-bit link encoding covers; every byte of the
memory it will hand out holds `0xAA`. -/
def start_heap : Heap :=
  { mem := fun _ => 0xAA, lo := 0x800000000, brk := 0x800000000, max := 0x800000000 + 2 ^ 32,
    seg := fun _ => 0, heap_listp := 0 }

/-- The state a call leaves (`start_heap` when the model ran out of fuel). -/
def state (r : Option (Nat × Heap)) : Heap :=
  match r with
  | some x => x.2
  | none => start_heap

/-- The heap `mm_init()` leaves on `start_heap`: one free block of 64 words. -/
def init_heap : Heap :=
  match mm_init start_heap with
  | some r => r.2
  | none => start_heap

/-- The blocks of `init_heap`. -/
def init_blocks : List Blk := [⟨0x800000000 + 108, 64, true⟩]

/-- The free lists of `init_heap`: the block is on the list of class 5. -/
def init_lists (i : Nat) : List Nat := if i = 5 then [0x800000000 + 108] else []

/-- The heap after `mm_init()` and `malloc(248)`: the one block is allocated
whole, its payload starts at `0x800000000 + 112`. -/
def full_heap : Heap := state (malloc 4 init_heap 248)

/-- The blocks of `full_heap`. -/
def full_blocks : List Blk := [⟨0x800000000 + 108, 64, false⟩]

/-- The free lists of `full_heap`: all empty. -/
def no_lists (_ : Nat) : List Nat := []

/-! ## The heap as a walk over its headers sees it -/

/-- Walking from the first block after the prologue, each step adding the size
read in the header, meets exactly the blocks `bs` and then the epilogue word;
`b.free` is what `block_free` reads in the header of `b`. -/
def Layout (h : Heap) (bs : List Blk) : Prop :=
  Contig (h.heap_listp + 4) bs (h.brk - 4) ∧
  ∀ b ∈ bs, 0 < b.size ∧ block_size h b.addr = b.size ∧ block_free h b.addr = b.free

instance Layout.dec (h : Heap) (bs : List Blk) : Decidable (Layout h bs) := by
  unfold Layout
  infer_instance

/-- Spec invariant 4 as memory shows it: the list that starts at head `i` and
follows successor links is `fl i`, it holds no address twice, and its members
are exactly the addresses of the free blocks of `bs` whose size is of class
`i`. -/
def FreeListsOK (h : Heap) (bs : List Blk) (fl : Nat → List Nat) : Prop :=
  ∀ i, i < 12 → DLL h NULL (h.seg i) (fl i) ∧ (fl i).Nodup ∧
    ∀ x, x ∈ fl i ↔ ∃ b ∈ bs, b.addr = x ∧ b.free = true ∧ get_class_no b.size = i

/-- What `place(bp, ws)` makes of the block `b` at `bp`, for `ws ≤ b.size`: the
whole block, allocated, when at most 4 words would be left over; else a block of
`ws` words, allocated, followed by the remainder, free.  For `ws = 0` the
"remainder" starts at `bp` itself and is the whole block, free again. -/
def Placed (b : Blk) (ws : Nat) (mid : List Blk) : Prop :=
  (b.size - ws ≤ 4 ∧ mid = [⟨b.addr, b.size, false⟩]) ∨
  (4 < b.size - ws ∧ 0 < ws ∧
    mid = [⟨b.addr, ws, false⟩, ⟨b.addr + 4 * ws, b.size - ws, true⟩]) ∨
  (4 < b.size - ws ∧ ws = 0 ∧ mid = [⟨b.addr, b.size, true⟩])

/-- Spec invariants 1 and 2 along the walk over the headers: the walk meets
`bs` and then the epilogue, every block has at least `BLOCKSIZE_MIN` words, and
its header word equals its footer word. -/
def BlocksOK (h : Heap) (bs : List Blk) : Prop :=
  Layout h bs ∧ ∀ b ∈ bs, 4 ≤ b.size ∧ get h b.addr = get h (block_footer h b.addr)

instance BlocksOK.dec (h : Heap) (bs : List Blk) : Decidable (BlocksOK h bs) := by
  unfold BlocksOK
  infer_instance

/-- Spec invariant 4 on a well-formed heap: the free lists of the heap hold
exactly its free blocks, each once, each on the list of its class, and no
allocated block is on a list. -/
def FreeListsInv (h : Heap) : Prop :=
  ∃ bs fl, R h bs fl 0 ∧ FreeListsOK h bs fl ∧
    ∀ c ∈ bs, c.free = false → ∀ i, i < 12 → c.addr ∉ fl i

/-- Spec invariants 1 and 2 on a well-formed heap: the walk over the headers
reaches the epilogue exactly, over blocks of at least 4 words whose header word
equals their footer word. -/
def BlocksInv (h : Heap) : Prop := ∃ bs fl, R h bs fl 0 ∧ BlocksOK h bs

/-! ## Scenario heaps -/

/-- After `mm_init()` and `q = malloc(2^64 - 15)`, a request whose size
adjustment wraps to 0 words. -/
def wrap_heap_1 : Heap := state (malloc 4 init_heap (2 ^ 64 - 15))

/-- After `mm_init()`, `q = malloc(2^64 - 15)` and `free(q)`. -/
def wrap_heap_2 : Heap := free wrap_heap_1 (0x800000000 + 112)

/-- After `mm_init()` and `malloc(216)`: a block of 56 words, allocated, then a
free block of 8 words. -/
def split_heap : Heap := state (malloc 4 init_heap 216)

/-- The blocks of `split_heap`. -/
def split_blocks : List Blk := [⟨0x800000000 + 108, 56, false⟩, ⟨0x800000000 + 332, 8, true⟩]

/-- The free lists of `split_heap`: the free block is on the list of class 2. -/
def split_lists (i : Nat) : List Nat := if i = 2 then [0x800000000 + 332] else []

/-- After `mm_init()`, `P1 = malloc(100)`. -/
def reuse_heap_1 : Heap := state (malloc 4 init_heap 100)

/-- After `mm_init()`, `P1 = malloc(100)`, `P2 = malloc(200)`. -/
def reuse_heap_2 : Heap := state (malloc 4 reuse_heap_1 200)

/-- After `mm_init()`, `P1 = malloc(100)`, `P2 = malloc(200)`, `free(P1)`. -/
def reuse_heap_3 : Heap := free reuse_heap_2 (0x800000000 + 112)

/-- After `mm_init()`, `a = malloc(8)`. -/
def frag_heap_1 : Heap := state (malloc 4 init_heap 8)

/-- After `mm_init()`, `a = malloc(8)`, `b = malloc(16)`. -/
def frag_heap_2 : Heap := state (malloc 4 frag_heap_1 16)

/-- After `mm_init()`, `a = malloc(8)`, `b = malloc(16)`, `c = malloc(32)`. -/
def frag_heap_3 : Heap := state (malloc 4 frag_heap_2 32)

/-- After `mm_init()` and the four calls `malloc(8)`, `malloc(16)`,
`malloc(32)`, `malloc(64)`. -/
def frag_heap_4 : Heap := state (malloc 4 frag_heap_3 64)

/-- After the four calls and `free(b)`. -/
def frag_heap_5 : Heap := free frag_heap_4 (0x800000000 + 128)

/-- After the four calls, `free(b)` and `free(c)`. -/
def frag_heap_6 : Heap := free frag_heap_5 (0x800000000 + 152)

/-! ## Search order and size classes as the design words them -/

/-- The members of the lists of `n` consecutive classes from class `i` on, each
list from its head along successor links, in the order the search meets
them. -/
def lists_from (fl : Nat → List Nat) : Nat → Nat → List Nat
  | 0, _ => []
  | n + 1, i => fl i ++ lists_from fl n (i + 1)

/-- The class boundaries of the free list index. -/
def class_boundaries : List Nat := [4, 8, 16, 32, 64, 128, 256, 512, 1024, 2048, 4096]

/-- The class of a size as the design words it: the index of the first boundary
strictly greater than the size, and the number of boundaries (11) when there is
none. -/
def first_boundary_above (s : Nat) : Nat :=
  class_boundaries.findIdx (fun b => decide (s < b))

/-! ## More scenario heaps -/

/-- After `mm_init()` and `malloc(232)`, a request of 60 words served from the
free block of 64 words. -/
def tight_heap : Heap := state (malloc 4 init_heap 232)

/-- The heap of `init_heap` with its one block taken off its list by
`delete_block`, as `malloc` leaves it for `place`. -/
def open_heap : Heap := delete_block init_heap (0x800000000 + 108)

/-- The one block of `open_heap`, in transit. -/
def open_blocks : List Blk := [⟨0x800000000 + 108, 64, false⟩]

/-! ## The heap checker -/

/-- A line the checker prints. -/
inductive Report where
  | bad_prologue
  | bad_epilogue
  | block_out_of_heap
  | prev_out_of_heap
  | next_out_of_heap
  | not_aligned
  | header_footer
  | consecutive_free
  | links_inconsistent
  | wrong_bucket
deriving DecidableEq

/-- `check_in_heap(bp)`: the lines it prints. -/
def check_in_heap (h : Heap) (bp : Nat) : List Report :=
  let prev_pointer := block_prev h bp
  let next_pointer := block_next h bp
  (if in_heap h bp ≠ true then [Report.block_out_of_heap] else []) ++
  (if prev_pointer ≠ NULL ∧ in_heap h prev_pointer ≠ true then [Report.prev_out_of_heap]
    else []) ++
  (if next_pointer ≠ NULL ∧ in_heap h next_pointer ≠ true then [Report.next_out_of_heap]
    else [])

/-- `checkblock_align(bp)`: the line it prints, if any. -/
def checkblock_align (bp : Nat) : List Report :=
  if aligned bp ≠ true then [Report.not_aligned] else []

/-- `check_header_footer(bp)`: the line it prints, if any. -/
def check_header_footer (h : Heap) (bp : Nat) : List Report :=
  if get h bp ≠ get h (block_footer h bp) then [Report.header_footer] else []

/-- `check_coalescing(bp)`: the line it prints, if any. -/
def check_coalescing (h : Heap) (bp : Nat) : List Report :=
  let prev_block := block_prev h bp
  if block_free h prev_block && block_free h bp then [Report.consecutive_free] else []

/-- `check_prev_next_ptr(bp)`: the line it prints, if any. -/
def check_prev_next_ptr (h : Heap) (bp : Nat) : List Report :=
  let prev_block := block_prev h bp
  if get_pred_ptr h bp = prev_block ∧ get_succ_ptr h prev_block = bp then []
  else [Report.links_inconsistent]

/-- `INT_MAX` of `limits.h`, for the 32-bit `int` of the machine. -/
abbrev INT_MAX : Int := 2 ^ 31 - 1

/-- `inverse_get_class_no(class)`. -/
def inverse_get_class_no (cls : Int) : Int :=
  if cls = 0 then 4
  else if cls = 1 then 8
  else if cls = 2 then 16
  else if cls = 3 then 32
  else if cls = 4 then 64
  else if cls = 5 then 128
  else if cls = 6 then 256
  else if cls = 7 then 512
  else if cls = 8 then 1024
  else if cls = 9 then 2048
  else if cls = 10 then 4096
  else INT_MAX

/-- The `while` loop of `check_seg_list` over one list, `range_max` already cast
to `unsigned int`: the lines it prints, `none` when the fuel runs out. -/
def check_one_list (h : Heap) (range_max : Nat) : Nat → Nat → Option (List Report)
  | 0, _ => none
  | fuel + 1, free_list_ptr =>
    if free_list_ptr = NULL then some []
    else
      match check_one_list h range_max fuel (get_succ_ptr h free_list_ptr) with
      | none => none
      | some rest =>
        some ((if block_size h free_list_ptr ≥ range_max then [Report.wrong_bucket] else [])
          ++ rest)

/-- The `for` loop of `check_seg_list`: `n` classes are left, starting at class
`i`. -/
def check_seg_from (fuel : Nat) (h : Heap) : Nat → Nat → Option (List Report)
  | 0, _ => some []
  | n + 1, i =>
    match check_one_list h (inverse_get_class_no i % 2 ^ 32).toNat fuel (h.seg i) with
    | none => none
    | some out =>
      match check_seg_from fuel h n (i + 1) with
      | none => none
      | some rest => some (out ++ rest)

/-- `check_seg_list()`: the lines it prints. -/
def check_seg_list (fuel : Nat) (h : Heap) : Option (List Report) :=
  check_seg_from fuel h CLASS_NUMBER 0

/-- The `for` loop of `mm_checkheap`: its condition reads the size at `bp`, the
address of the epilogue word, and its body checks the block at `start`; `none`
when the fuel runs out. -/
def check_blocks (h : Heap) (bp : Nat) : Nat → Nat → Option (List Report)
  | 0, _ => none
  | fuel + 1, start =>
    if block_size h bp > 0 then
      match check_blocks h bp fuel (block_next h start) with
      | none => none
      | some rest =>
        some (check_in_heap h start ++ checkblock_align start ++ check_header_footer h start ++
          check_coalescing h start ++ check_prev_next_ptr h start ++ rest)
    else some []

/-- `mm_checkheap(verbose)`: the return value and the lines printed. -/
def mm_checkheap (fuel : Nat) (h : Heap) (verbose : Int) : Option (Int × List Report) :=
  if verbose ≠ 0 then
    let r1 :=
      if block_size h h.heap_listp ≠ 2 ∨ block_free h h.heap_listp = true then
        [Report.bad_prologue]
      else []
    let bp := mem_heap_hi h + 1 - 4
    let r2 :=
      if block_size h bp ≠ 0 ∨ block_free h bp = true then [Report.bad_epilogue] else []
    match check_blocks h bp fuel (h.heap_listp + 4) with
    | none => none
    | some r3 =>
      match check_seg_list fuel h with
      | none => none
      | some r4 => some (0, r1 ++ r2 ++ r3 ++ r4)
  else some (0, [])

/-- The list `l` is what following successor links from `p` meets before it
reaches `NULL`. -/
def SuccList (h : Heap) : Nat → List Nat → Prop
  | p, [] => p = NULL
  | p, x :: xs => p = x ∧ x ≠ NULL ∧ SuccList h (get_succ_ptr h x) xs

/-! ## Contracts -/

/-- Modelled from the spec: the macro `REQUIRES` of `contracts.h`, which is not
among the sources, in its enabled form.  An operation asserts its condition; a
condition that does not hold is a programming-contract failure, not a
recoverable error: the run ends there (`none`). -/
def REQUIRES (cond : Bool) : Option Unit := if cond then some () else none

/-- `block_size(block)` with contracts enabled. -/
def block_size_checked (h : Heap) (block : Nat) : Option Nat := do
  REQUIRES (decide (block ≠ NULL))
  REQUIRES (in_heap h block)
  pure (block_size h block)

/-- `block_footer(block)` with contracts enabled. -/
def block_footer_checked (h : Heap) (block : Nat) : Option Nat := do
  REQUIRES (decide (block ≠ NULL))
  REQUIRES (in_heap h block)
  let size ← block_size_checked h block
  pure (block + 4 * size - 4)

/-- `set_pred_ptr(block, pred)` with contracts enabled. -/
def set_pred_ptr_checked (h : Heap) (block pred : Nat) : Option Heap := do
  REQUIRES (decide (block ≠ NULL))
  REQUIRES (in_heap h block)
  REQUIRES (decide (pred ≠ NULL))
  REQUIRES (in_heap h pred)
  pure (set_pred_ptr h block pred)

/-- `set_succ_ptr(block, succ)` with contracts enabled. -/
def set_succ_ptr_checked (h : Heap) (block succ : Nat) : Option Heap := do
  REQUIRES (decide (block ≠ NULL))
  REQUIRES (in_heap h block)
  REQUIRES (decide (succ ≠ NULL))
  REQUIRES (in_heap h succ)
  pure (set_succ_ptr h block succ)

/-- `block_mark(block, free)` with contracts enabled. -/
def block_mark_checked (h : Heap) (block : Nat) (free : Bool) : Option Heap := do
  REQUIRES (decide (block ≠ NULL))
  REQUIRES (in_heap h block)
  let _ ← block_size_checked h block
  pure (block_mark h block free)

/-- `init_block(block, size)` with contracts enabled. -/
def init_block_checked (h : Heap) (block size : Nat) : Option Heap := do
  REQUIRES (decide (block ≠ NULL))
  REQUIRES (in_heap h block)
  let h1 := put h block size
  let temp ← block_footer_checked h1 block
  let h2 := put h1 temp size
  let h3 ← set_pred_ptr_checked h2 block NULL
  let h4 ← set_succ_ptr_checked h3 block NULL
  block_mark_checked h4 block true

/-! ## Sentinels, delegation and further scenario heaps -/

/-- The sentinels as the code writes them: the prologue, a block of two words
(header and footer) marked allocated, right below the first block, and the
epilogue, the last word of the heap, a tag of size 0 marked allocated. -/
def Sentinels (h : Heap) : Prop :=
  (block_size h (h.heap_listp - 4) = 2 ∧ block_free h (h.heap_listp - 4) = false) ∧
  (block_size h h.heap_listp = 2 ∧ block_free h h.heap_listp = false) ∧
  (block_size h (h.brk - 4) = 0 ∧ block_free h (h.brk - 4) = false)

instance Sentinels.dec (h : Heap) : Decidable (Sentinels h) := by
  unfold Sentinels
  infer_instance

/-- `calloc` as the design words it: `malloc` of `nmemb` times the size raised
to the floor of 4, the product taken modulo `2^64`. -/
def calloc_delegate (fuel : Nat) (h : Heap) (nmemb size : Nat) : Option (Nat × Heap) :=
  malloc fuel h (nmemb * max size 4 % 2 ^ 64)

/-- After `mm_init()`, `p = malloc(216)` and `realloc(p, 100)`: the remainder
of the block of `p`, free, lies right before a free block. -/
def adjacent_heap : Heap := state (realloc 4 split_heap (0x800000000 + 112) 100)

/-- After `mm_init()`, `p = malloc(8)` and `realloc(p, 100)`, which moves the
data to a new block. -/
def moved_heap : Heap := state (realloc 4 frag_heap_1 (0x800000000 + 112) 100)

end MallocLab


namespace MallocLab

/-! ## Words in byte memory -/

theorem load32_store32_same (m : Nat → Nat) (a v : Nat) :
    load32 (store32 m a v) a = v % 2 ^ 32 := by
  simp only [load32, store32]
  have e1 : ¬ (a + 1 = a) := by omega
  have e2 : ¬ (a + 2 = a) := by omega
  have e3 : ¬ (a + 3 = a) := by omega
  have e4 : ¬ (a + 2 = a + 1) := by omega
  have e5 : ¬ (a + 3 = a + 1) := by omega
  have e6 : ¬ (a + 3 = a + 2) := by omega
  simp only [if_true, e1, e2, e3, e4, e5, e6, if_false]
  omega

theorem store32_byte (m : Nat → Nat) (a v x : Nat) (hx : x < a ∨ a + 4 ≤ x) :
    store32 m a v x = m x := by
  simp only [store32]
  have e0 : ¬ (x = a) := by omega
  have e1 : ¬ (x = a + 1) := by omega
  have e2 : ¬ (x = a + 2) := by omega
  have e3 : ¬ (x = a + 3) := by omega
  simp only [e0, e1, e2, e3, if_false]

theorem load32_store32_disj (m : Nat → Nat) (a v b : Nat) (hb : a + 4 ≤ b ∨ b + 4 ≤ a) :
    load32 (store32 m a v) b = load32 m b := by
  simp only [load32]
  rw [store32_byte m a v b (by omega), store32_byte m a v (b + 1) (by omega),
    store32_byte m a v (b + 2) (by omega), store32_byte m a v (b + 3) (by omega)]

theorem load32_lt (m : Nat → Nat) (a : Nat) : load32 m a < 2 ^ 32 := by
  simp only [load32]
  omega

theorem load32_congr (m m' : Nat → Nat) (a : Nat)
    (hm : ∀ x, a ≤ x → x < a + 4 → m' x = m x) : load32 m' a = load32 m a := by
  simp only [load32]
  rw [hm a (by omega) (by omega), hm (a + 1) (by omega) (by omega),
    hm (a + 2) (by omega) (by omega), hm (a + 3) (by omega) (by omega)]

/-! ## get and put -/

@[simp] theorem put_lo (h : Heap) (a v : Nat) : (put h a v).lo = h.lo := rfl
@[simp] theorem put_brk (h : Heap) (a v : Nat) : (put h a v).brk = h.brk := rfl
@[simp] theorem put_max (h : Heap) (a v : Nat) : (put h a v).max = h.max := rfl
@[simp] theorem put_seg (h : Heap) (a v : Nat) : (put h a v).seg = h.seg := rfl
@[simp] theorem put_heap_listp (h : Heap) (a v : Nat) : (put h a v).heap_listp = h.heap_listp := rfl

@[simp] theorem set_seg_lo (h : Heap) (i p : Nat) : (set_seg h i p).lo = h.lo := rfl
@[simp] theorem set_seg_brk (h : Heap) (i p : Nat) : (set_seg h i p).brk = h.brk := rfl
@[simp] theorem set_seg_max (h : Heap) (i p : Nat) : (set_seg h i p).max = h.max := rfl
@[simp] theorem set_seg_mem (h : Heap) (i p : Nat) : (set_seg h i p).mem = h.mem := rfl
@[simp] theorem set_seg_heap_listp (h : Heap) (i p : Nat) :
    (set_seg h i p).heap_listp = h.heap_listp := rfl
@[simp] theorem set_seg_seg (h : Heap) (i p : Nat) :
    (set_seg h i p).seg = Function.update h.seg i p := rfl
@[simp] theorem get_set_seg (h : Heap) (i p a : Nat) : get (set_seg h i p) a = get h a := rfl

theorem get_put_same (h : Heap) (a v : Nat) : get (put h a v) a = v % 2 ^ 32 :=
  load32_store32_same h.mem a v

theorem get_put_same_lt (h : Heap) (a v : Nat) (hv : v < 2 ^ 32) : get (put h a v) a = v := by
  rw [get_put_same, Nat.mod_eq_of_lt hv]

theorem get_put_disj (h : Heap) (a v b : Nat) (hb : a + 4 ≤ b ∨ b + 4 ≤ a) :
    get (put h a v) b = get h b :=
  load32_store32_disj h.mem a v b hb

theorem put_mem_out (h : Heap) (a v x : Nat) (hx : x < a ∨ a + 4 ≤ x) :
    (put h a v).mem x = h.mem x :=
  store32_byte h.mem a v x hx

theorem get_lt (h : Heap) (a : Nat) : get h a < 2 ^ 32 := load32_lt h.mem a

theorem get_congr (h h' : Heap) (a : Nat)
    (hm : ∀ x, a ≤ x → x < a + 4 → h'.mem x = h.mem x) : get h' a = get h a :=
  load32_congr h.mem h'.mem a hm

/-! ## Tag bits -/

theorem and_size_mask (v : Nat) : v &&& 0x3FFFFFFF = v % 2 ^ 30 :=
  Nat.and_pow_two_sub_one_eq_mod v 30

theorem testBit_small (s i : Nat) (hs : s < 2 ^ 30) (hi : 30 ≤ i) : s.testBit i = false := by
  apply Nat.testBit_lt_two_pow
  calc s < 2 ^ 30 := hs
    _ ≤ 2 ^ i := Nat.pow_le_pow_right (by decide) hi

theorem bit30 (i : Nat) : (0x40000000 : Nat).testBit i = decide (i = 30) := by
  have h : (2 ^ 30 : Nat).testBit i = decide (30 = i) := Nat.testBit_two_pow
  have e : (0x40000000 : Nat) = 2 ^ 30 := by norm_num
  rw [e, h]
  by_cases hi : i = 30
  · simp [hi]
  · have : ¬ (30 = i) := fun h => hi h.symm
    simp [hi, this]

theorem tag_or (s : Nat) (hs : s < 2 ^ 30) : s ||| 0x40000000 = s + 2 ^ 30 := by
  apply Nat.eq_of_testBit_eq
  intro i
  rw [Nat.testBit_or, bit30, Nat.add_comm]
  rcases Nat.lt_trichotomy i 30 with hi | hi | hi
  · rw [Nat.testBit_two_pow_add_gt hi]
    have : ¬ (i = 30) := by omega
    simp [this]
  · subst hi
    rw [Nat.testBit_two_pow_add_eq]
    simp [testBit_small s 30 hs (le_refl _)]
  · have h1 : (2 ^ 30 + s).testBit i = false := by
      apply Nat.testBit_lt_two_pow
      calc 2 ^ 30 + s < 2 ^ 31 := by omega
        _ ≤ 2 ^ i := Nat.pow_le_pow_right (by decide) (by omega)
    have : ¬ (i = 30) := by omega
    rw [h1]
    simp [this, testBit_small s i hs (by omega)]

theorem tag_or_alloc (s : Nat) (hs : s < 2 ^ 30) : (s + 2 ^ 30) ||| 0x40000000 = s + 2 ^ 30 := by
  rw [← tag_or s hs, Nat.lor_assoc, Nat.or_self]

theorem tag_and_free (s : Nat) (hs : s < 2 ^ 30) : s &&& 0x40000000 = 0 := by
  apply Nat.eq_of_testBit_eq
  intro i
  rw [Nat.testBit_and, bit30]
  by_cases hi : i = 30
  · subst hi
    simp [testBit_small s 30 hs (le_refl _)]
  · simp [hi]

theorem tag_and_alloc (s : Nat) (hs : s < 2 ^ 30) : (s + 2 ^ 30) &&& 0x40000000 = 2 ^ 30 := by
  rw [← tag_or s hs]
  have e : (2 ^ 30 : Nat) = 0x40000000 := by norm_num
  rw [e]
  apply Nat.eq_of_testBit_eq
  intro i
  rw [Nat.testBit_and, Nat.testBit_or, bit30]
  by_cases hi : i = 30
  · simp [hi]
  · simp [hi]

theorem maskBF (i : Nat) : (0xBFFFFFFF : Nat).testBit i = decide (i < 32 ∧ i ≠ 30) := by
  by_cases hi : i < 32
  · interval_cases i <;> rfl
  · have : (0xBFFFFFFF : Nat).testBit i = false := by
      apply Nat.testBit_lt_two_pow
      calc (0xBFFFFFFF : Nat) < 2 ^ 32 := by decide
        _ ≤ 2 ^ i := Nat.pow_le_pow_right (by decide) (by omega)
    simp [this, hi]

theorem tag_clear (s : Nat) (hs : s < 2 ^ 30) : s &&& 0xBFFFFFFF = s := by
  apply Nat.eq_of_testBit_eq
  intro i
  rw [Nat.testBit_and, maskBF]
  by_cases hi : 30 ≤ i
  · simp [testBit_small s i hs hi]
  · have : i < 32 ∧ i ≠ 30 := by omega
    simp [this]

theorem tag_clear_alloc (s : Nat) (hs : s < 2 ^ 30) : (s + 2 ^ 30) &&& 0xBFFFFFFF = s := by
  rw [← tag_or s hs]
  apply Nat.eq_of_testBit_eq
  intro i
  rw [Nat.testBit_and, Nat.testBit_or, maskBF, bit30]
  by_cases hi : 30 ≤ i
  · by_cases h30 : i = 30
    · subst h30
      simp [testBit_small s 30 hs (le_refl _)]
    · simp [testBit_small s i hs hi, h30]
  · have : i < 32 ∧ i ≠ 30 := by omega
    simp [this]

theorem PACK_0_1 : PACK 0 1 = 2 ^ 30 := by decide
theorem PACK_2_1 : PACK 2 1 = 2 + 2 ^ 30 := by decide
theorem PACK_2_0 : PACK 2 0 = 2 := by decide
theorem PACK_0_0 : PACK 0 0 = 0 := by decide

end MallocLab


namespace MallocLab

/-! ## Contiguous block lists -/

theorem Contig_append (l1 l2 : List Blk) (a e : Nat) :
    Contig a (l1 ++ l2) e ↔ ∃ m, Contig a l1 m ∧ Contig m l2 e := by
  induction l1 generalizing a with
  | nil =>
    constructor
    · intro h
      exact ⟨a, rfl, h⟩
    · rintro ⟨m, h1, h2⟩
      have : a = m := h1
      subst this
      exact h2
  | cons b l1 ih =>
    constructor
    · rintro ⟨hb, h⟩
      obtain ⟨m, h1, h2⟩ := (ih _).1 h
      exact ⟨m, ⟨hb, h1⟩, h2⟩
    · rintro ⟨m, ⟨hb, h1⟩, h2⟩
      exact ⟨hb, (ih _).2 ⟨m, h1, h2⟩⟩

theorem Contig_le (l : List Blk) (a e : Nat) (h : Contig a l e) : a ≤ e := by
  induction l generalizing a with
  | nil => exact le_of_eq h
  | cons b l ih =>
    have := ih _ h.2
    omega

theorem Contig_mem (l : List Blk) (a e : Nat) (h : Contig a l e) (b : Blk) (hb : b ∈ l) :
    a ≤ b.addr ∧ b.addr + 4 * b.size ≤ e := by
  induction l generalizing a with
  | nil => cases hb
  | cons c l ih =>
    rcases List.mem_cons.1 hb with hbc | hbl
    · subst hbc
      have := Contig_le _ _ _ h.2
      have := h.1
      omega
    · have := ih _ h.2 hbl
      omega

theorem Contig_unique_end (l : List Blk) (a e e' : Nat) (h : Contig a l e) (h' : Contig a l e') :
    e = e' := by
  induction l generalizing a with
  | nil =>
    have h1 : a = e := h
    have h2 : a = e' := h'
    omega
  | cons b l ih => exact ih _ h.2 h'.2

/-- Splitting the list at a member gives its neighbours' bounds. -/
theorem Contig_split (l1 l2 : List Blk) (b : Blk) (a e : Nat)
    (h : Contig a (l1 ++ b :: l2) e) :
    Contig a l1 b.addr ∧ Contig (b.addr + 4 * b.size) l2 e := by
  obtain ⟨m, h1, h2⟩ := (Contig_append _ _ _ _).1 h
  have hm : b.addr = m := h2.1
  subst hm
  exact ⟨h1, h2.2⟩

theorem Contig_join (l1 l2 : List Blk) (b : Blk) (a e : Nat)
    (h1 : Contig a l1 b.addr) (h2 : Contig (b.addr + 4 * b.size) l2 e) :
    Contig a (l1 ++ b :: l2) e :=
  (Contig_append _ _ _ _).2 ⟨b.addr, h1, rfl, h2⟩

theorem Contig_sep (l : List Blk) (a e : Nat) (h : Contig a l e)
    (hpos : ∀ b ∈ l, 0 < b.size) (b c : Blk) (hb : b ∈ l) (hc : c ∈ l) :
    b = c ∨ b.addr + 4 * b.size ≤ c.addr ∨ c.addr + 4 * c.size ≤ b.addr := by
  induction l generalizing a with
  | nil => cases hb
  | cons d l ih =>
    have hd : d.addr = a := h.1
    rcases List.mem_cons.1 hb with hbd | hbl
    · rcases List.mem_cons.1 hc with hcd | hcl
      · left
        rw [hbd, hcd]
      · right
        left
        have := Contig_mem _ _ _ h.2 c hcl
        subst hbd
        omega
    · rcases List.mem_cons.1 hc with hcd | hcl
      · right
        right
        have := Contig_mem _ _ _ h.2 b hbl
        subst hcd
        omega
      · exact ih _ h.2 (fun x hx => hpos x (List.mem_cons_of_mem _ hx)) hbl hcl

/-! ## Links -/

theorem decode_encode (p : Nat) (h0 : p = 0 ∨ (0x800000000 < p ∧ p < 0x800000000 + 2 ^ 32)) :
    CONVERT_32_TO_64 (CONVERT_64_TO_32 p % 2 ^ 32) = p := by
  unfold CONVERT_32_TO_64 CONVERT_64_TO_32 NULL
  rcases h0 with h0 | ⟨h1, h2⟩
  · subst h0
    simp
  · have hp : ¬ (p = 0) := by omega
    simp only [hp, if_false]
    have e : (p + 2 ^ 64 - 0x800000000) % 2 ^ 32 = p - 0x800000000 := by omega
    rw [e]
    have e2 : (p - 0x800000000) % 2 ^ 32 = p - 0x800000000 := by omega
    rw [e2]
    have e3 : ¬ (p - 0x800000000 = 0) := by omega
    simp only [e3, if_false]
    omega

theorem encode_lt (p : Nat) : CONVERT_64_TO_32 p < 2 ^ 32 := by
  unfold CONVERT_64_TO_32
  split
  · decide
  · exact Nat.mod_lt _ (by decide)

theorem decode_zero : CONVERT_32_TO_64 0 = 0 := by
  simp [CONVERT_32_TO_64]

theorem DLL_congr (h h' : Heap) (l : List Nat) (prev p : Nat)
    (hl : ∀ x ∈ l, get h' (x + 4) = get h (x + 4) ∧ get h' (x + 8) = get h (x + 8))
    (hd : DLL h prev p l) : DLL h' prev p l := by
  induction l generalizing prev p with
  | nil => exact hd
  | cons x xs ih =>
    obtain ⟨h1, h2, h3, h4⟩ := hd
    have hx := hl x (List.mem_cons_self _ _)
    refine ⟨h1, h2, ?_, ?_⟩
    · unfold get_pred_ptr at h3 ⊢
      rw [hx.1]
      exact h3
    · have e : get_succ_ptr h' x = get_succ_ptr h x := by
        unfold get_succ_ptr
        rw [hx.2]
      rw [e]
      exact ih x _ (fun y hy => hl y (List.mem_cons_of_mem _ hy)) h4

theorem DLL_head (h : Heap) (l : List Nat) (prev p : Nat) (hd : DLL h prev p l) :
    p = l.headD 0 := by
  cases l with
  | nil => exact hd
  | cons x xs => exact hd.1

theorem DLL_ne_zero (h : Heap) (l : List Nat) (prev p : Nat) (hd : DLL h prev p l) :
    ∀ x ∈ l, x ≠ 0 := by
  induction l generalizing prev p with
  | nil => intro x hx; cases hx
  | cons y ys ih =>
    intro x hx
    rcases List.mem_cons.1 hx with e | e
    · rw [e]; exact hd.2.1
    · exact ih _ _ hd.2.2.2 x e

/-- The successor of a member is a member whose predecessor link points back. -/
theorem DLL_succ (h : Heap) (l : List Nat) (prev p : Nat) (hd : DLL h prev p l) (x : Nat)
    (hx : x ∈ l) (hn : get_succ_ptr h x ≠ 0) :
    get_succ_ptr h x ∈ l ∧ get_pred_ptr h (get_succ_ptr h x) = x := by
  induction l generalizing prev p with
  | nil => cases hx
  | cons y ys ih =>
    obtain ⟨_, _, _, h4⟩ := hd
    rcases List.mem_cons.1 hx with e | e
    · subst e
      cases ys with
      | nil => exact absurd h4 hn
      | cons z zs =>
        obtain ⟨hz, _, hp, _⟩ := h4
        rw [hz]
        exact ⟨List.mem_cons_of_mem _ (List.mem_cons_self _ _), hp⟩
    · have := ih _ _ h4 e
      exact ⟨List.mem_cons_of_mem _ this.1, this.2⟩

/-- The predecessor of a member is `prev` for the first one, else a member
whose successor link points forward. -/
theorem DLL_pred (h : Heap) (l : List Nat) (prev p : Nat) (hd : DLL h prev p l) (x : Nat)
    (hx : x ∈ l) :
    (get_pred_ptr h x = prev ∧ p = x) ∨
    (get_pred_ptr h x ∈ l ∧ get_succ_ptr h (get_pred_ptr h x) = x) := by
  induction l generalizing prev p with
  | nil => cases hx
  | cons y ys ih =>
    obtain ⟨h1, _, h3, h4⟩ := hd
    rcases List.mem_cons.1 hx with e | e
    · subst e
      left
      exact ⟨h3, h1⟩
    · right
      rcases ih _ _ h4 e with ⟨q1, q2⟩ | ⟨q1, q2⟩
      · rw [q1]
        exact ⟨List.mem_cons_self _ _, q2⟩
      · exact ⟨List.mem_cons_of_mem _ q1, q2⟩

end MallocLab


namespace MallocLab

theorem DLL_erase (h h' : Heap) (x : Nat) (hx0 : x ≠ 0) (l : List Nat) (prev p : Nat)
    (hd : DLL h prev p l) (hnd : l.Nodup)
    (hS : ∀ y ∈ l, y ≠ x → get_succ_ptr h' y =
      if get_succ_ptr h y = x then get_succ_ptr h x else get_succ_ptr h y)
    (hP : ∀ y ∈ l, y ≠ x → get_pred_ptr h' y =
      if get_pred_ptr h y = x then get_pred_ptr h x else get_pred_ptr h y) :
    DLL h' (if prev = x then get_pred_ptr h x else prev)
      (if p = x then get_succ_ptr h x else p) (l.erase x) := by
  induction l generalizing prev p with
  | nil =>
    have hp : p = 0 := hd
    have : ¬ (p = x) := by rw [hp]; exact fun e => hx0 e.symm
    simp only [List.erase_nil, this, if_false]
    exact hd
  | cons y ys ih =>
    obtain ⟨h1, h2, h3, h4⟩ := hd
    have hnd' := List.nodup_cons.1 hnd
    by_cases hyx : y = x
    · subst hyx
      have he : (y :: ys).erase y = ys := by simp
      rw [he]
      have hpy : (if p = y then get_succ_ptr h y else p) = get_succ_ptr h y := by simp [h1]
      have hprev : (if prev = y then get_pred_ptr h y else prev) = prev := by
        split
        · rw [h3]
        · rfl
      rw [hpy, hprev]
      have := ih y (get_succ_ptr h y) h4 hnd'.2
        (fun z hz hzx => hS z (List.mem_cons_of_mem _ hz) hzx)
        (fun z hz hzx => hP z (List.mem_cons_of_mem _ hz) hzx)
      rw [List.erase_of_not_mem hnd'.1] at this
      simpa [h3] using this
    · have he : (y :: ys).erase x = y :: ys.erase x := by
        rw [List.erase_cons_tail]
        simpa using hyx
      rw [he]
      have hpx : ¬ (p = x) := by rw [h1]; exact hyx
      simp only [hpx, if_false]
      refine ⟨h1, h2, ?_, ?_⟩
      · rw [hP y (List.mem_cons_self _ _) hyx, h3]
      · rw [hS y (List.mem_cons_self _ _) hyx]
        have := ih y (get_succ_ptr h y) h4 hnd'.2
          (fun z hz hzx => hS z (List.mem_cons_of_mem _ hz) hzx)
          (fun z hz hzx => hP z (List.mem_cons_of_mem _ hz) hzx)
        simpa [hyx] using this

theorem DLL_congr_links (h h' : Heap) (l : List Nat) (prev p : Nat)
    (hl : ∀ x ∈ l, get_pred_ptr h' x = get_pred_ptr h x ∧ get_succ_ptr h' x = get_succ_ptr h x)
    (hd : DLL h prev p l) : DLL h' prev p l := by
  induction l generalizing prev p with
  | nil => exact hd
  | cons x xs ih =>
    obtain ⟨h1, h2, h3, h4⟩ := hd
    have hx := hl x (List.mem_cons_self _ _)
    refine ⟨h1, h2, ?_, ?_⟩
    · rw [hx.1]; exact h3
    · rw [hx.2]
      exact ih x _ (fun y hy => hl y (List.mem_cons_of_mem _ hy)) h4

/-- Changing the predecessor link of the first node re-roots the list. -/
theorem DLL_set_prev (h h' : Heap) (l : List Nat) (prev prev' p : Nat)
    (hnd : l.Nodup)
    (hS : ∀ x ∈ l, get_succ_ptr h' x = get_succ_ptr h x)
    (hP : ∀ x ∈ l, x ≠ p → get_pred_ptr h' x = get_pred_ptr h x)
    (hp : p ≠ 0 → get_pred_ptr h' p = prev')
    (hd : DLL h prev p l) : DLL h' prev' p l := by
  cases l with
  | nil => exact hd
  | cons x xs =>
    obtain ⟨h1, h2, _, h4⟩ := hd
    have hnd' := List.nodup_cons.1 hnd
    refine ⟨h1, h2, ?_, ?_⟩
    · rw [← h1]; exact hp (by rw [h1]; exact h2)
    · rw [hS x (List.mem_cons_self _ _)]
      apply DLL_congr_links h h' xs x _ _ h4
      intro y hy
      have hyx : y ≠ p := by
        rw [h1]
        intro e
        rw [e] at hy
        exact hnd'.1 hy
      exact ⟨hP y (List.mem_cons_of_mem _ hy) hyx, hS y (List.mem_cons_of_mem _ hy)⟩

/-! ## Tags -/

theorem block_size_eq (h : Heap) (b : Nat) : block_size h b = get h b % 2 ^ 30 :=
  and_size_mask _

theorem block_size_of_tag (h : Heap) (b s : Nat) (hs : s < 2 ^ 30)
    (hv : get h b = s ∨ get h b = s + 2 ^ 30) : block_size h b = s := by
  rw [block_size_eq]
  rcases hv with e | e <;> rw [e] <;> omega

theorem block_free_of_free (h : Heap) (b s : Nat) (hs : s < 2 ^ 30) (hv : get h b = s) :
    block_free h b = true := by
  unfold block_free
  rw [hv, tag_and_free s hs]
  rfl

theorem block_free_of_alloc (h : Heap) (b s : Nat) (hs : s < 2 ^ 30)
    (hv : get h b = s + 2 ^ 30) : block_free h b = false := by
  unfold block_free
  rw [hv, tag_and_alloc s hs]
  rfl

theorem block_mark_eq (h : Heap) (b s : Nat) (f : Bool) (hs : s < 2 ^ 30) (h1 : 1 ≤ s)
    (hv : get h b = s ∨ get h b = s + 2 ^ 30) :
    block_mark h b f =
      put (put h b (if f then s else s + 2 ^ 30)) (b + 4 * s - 4) (if f then s else s + 2 ^ 30) := by
  have hsz := block_size_of_tag h b s hs hv
  have hval : (if f then get h b &&& 0xBFFFFFFF else get h b ||| 0x40000000)
      = (if f then s else s + 2 ^ 30) := by
    cases f
    · simp only [Bool.false_eq_true, if_false]
      rcases hv with e | e <;> rw [e]
      · exact tag_or s hs
      · exact tag_or_alloc s hs
    · simp only [if_true]
      rcases hv with e | e <;> rw [e]
      · exact tag_clear s hs
      · exact tag_clear_alloc s hs
  unfold block_mark
  simp only [hsz, hval]
  have hne : ¬ (s = 0) := by omega
  simp only [hne, if_false]
  have hlt : (if f then s else s + 2 ^ 30) < 2 ^ 32 := by
    split <;> omega
  rw [get_put_same_lt _ _ _ hlt]
  have e : b + 4 * (s - 1) = b + 4 * s - 4 := by omega
  rw [e]

theorem put_put_get (h : Heap) (a b v w : Nat) (hw : w < 2 ^ 32) :
    get (put (put h a v) b w) b = w := get_put_same_lt _ _ _ hw

end MallocLab


namespace MallocLab

theorem SameMeta.refl (h : Heap) : SameMeta h h := ⟨rfl, rfl, rfl, rfl, rfl⟩

theorem SameMeta.trans {h1 h2 h3 : Heap} (a : SameMeta h1 h2) (b : SameMeta h2 h3) :
    SameMeta h1 h3 := by
  obtain ⟨a1, a2, a3, a4, a5⟩ := a
  obtain ⟨b1, b2, b3, b4, b5⟩ := b
  exact ⟨b1.trans a1, b2.trans a2, b3.trans a3, b4.trans a4, b5.trans a5⟩

theorem SameMeta_put (h : Heap) (a v : Nat) : SameMeta h (put h a v) := ⟨rfl, rfl, rfl, rfl, rfl⟩

/-! ## What the block primitives write -/

theorem block_mark_spec (h : Heap) (b s : Nat) (f : Bool) (hs : s < 2 ^ 30) (h2 : 2 ≤ s)
    (hv : get h b = s ∨ get h b = s + 2 ^ 30) :
    get (block_mark h b f) b = (if f then s else s + 2 ^ 30) ∧
    get (block_mark h b f) (b + 4 * s - 4) = (if f then s else s + 2 ^ 30) ∧
    SameMeta h (block_mark h b f) ∧
    (∀ x, (x < b ∨ b + 4 ≤ x) → (x < b + 4 * s - 4 ∨ b + 4 * s ≤ x) →
      (block_mark h b f).mem x = h.mem x) := by
  rw [block_mark_eq h b s f hs (by omega) hv]
  have hlt : (if f then s else s + 2 ^ 30) < 2 ^ 32 := by
    split <;> omega
  refine ⟨?_, ?_, ?_, ?_⟩
  · rw [get_put_disj _ _ _ _ (by omega), get_put_same_lt _ _ _ hlt]
  · rw [get_put_same_lt _ _ _ hlt]
  · exact ⟨rfl, rfl, rfl, rfl, rfl⟩
  · intro x hx1 hx2
    rw [put_mem_out _ _ _ _ (by omega), put_mem_out _ _ _ _ (by omega)]

theorem encode_null : CONVERT_64_TO_32 NULL = 0 := by
  simp [CONVERT_64_TO_32]

theorem init_block_eq (h : Heap) (b s : Nat) (h4 : 4 ≤ s) (hs : s < 2 ^ 30) :
    init_block h b s =
      put (put (put (put (put (put h b s) (b + 4 * s - 4) s) (b + 4) 0) (b + 8) 0) b s)
        (b + 4 * s - 4) s := by
  unfold init_block
  have hs32 : s < 2 ^ 32 := by omega
  have e1 : block_footer (put h b s) b = b + 4 * s - 4 := by
    unfold block_footer
    rw [block_size_of_tag _ b s hs (Or.inl (get_put_same_lt _ _ _ hs32))]
  simp only [e1, set_pred_ptr, set_succ_ptr, encode_null]
  have e2 : get (put (put (put (put h b s) (b + 4 * s - 4) s) (b + 4) 0) (b + 8) 0) b = s := by
    rw [get_put_disj _ _ _ _ (by omega), get_put_disj _ _ _ _ (by omega),
      get_put_disj _ _ _ _ (by omega), get_put_same_lt _ _ _ hs32]
  rw [block_mark_eq _ b s true hs (by omega) (Or.inl e2)]
  simp

theorem init_block_spec (h : Heap) (b s : Nat) (h4 : 4 ≤ s) (hs : s < 2 ^ 30) :
    get (init_block h b s) b = s ∧
    get (init_block h b s) (b + 4 * s - 4) = s ∧
    get (init_block h b s) (b + 4) = 0 ∧
    get (init_block h b s) (b + 8) = 0 ∧
    SameMeta h (init_block h b s) ∧
    (∀ x, (x < b ∨ b + 12 ≤ x) → (x < b + 4 * s - 4 ∨ b + 4 * s ≤ x) →
      (init_block h b s).mem x = h.mem x) := by
  rw [init_block_eq h b s h4 hs]
  have hs32 : s < 2 ^ 32 := by omega
  refine ⟨?_, ?_, ?_, ?_, ?_, ?_⟩
  · rw [get_put_disj _ _ _ _ (by omega), get_put_same_lt _ _ _ hs32]
  · rw [get_put_same_lt _ _ _ hs32]
  · rw [get_put_disj _ _ _ _ (by omega), get_put_disj _ _ _ _ (by omega),
      get_put_disj _ _ _ _ (by omega), get_put_same_lt _ _ _ (by decide)]
  · rw [get_put_disj _ _ _ _ (by omega), get_put_disj _ _ _ _ (by omega),
      get_put_same_lt _ _ _ (by decide)]
  · exact ⟨rfl, rfl, rfl, rfl, rfl⟩
  · intro x hx1 hx2
    rw [put_mem_out _ _ _ _ (by omega), put_mem_out _ _ _ _ (by omega),
      put_mem_out _ _ _ _ (by omega), put_mem_out _ _ _ _ (by omega),
      put_mem_out _ _ _ _ (by omega), put_mem_out _ _ _ _ (by omega)]

theorem combine_block_spec (h : Heap) (a c s1 s2 : Nat) (h1 : block_size h a = s1)
    (h2 : block_size h c = s2) (hpos : 1 ≤ s1 + s2) (hs : s1 + s2 < 2 ^ 30) :
    get (combine_block h a c) a = s1 + s2 ∧
    get (combine_block h a c) (a + 4 * (s1 + s2) - 4) = s1 + s2 ∧
    SameMeta h (combine_block h a c) ∧
    (∀ x, (x < a ∨ a + 4 ≤ x) → (x < a + 4 * (s1 + s2) - 4 ∨ a + 4 * (s1 + s2) ≤ x) →
      (combine_block h a c).mem x = h.mem x) := by
  unfold combine_block
  simp only [h1, h2]
  have hs32 : s1 + s2 < 2 ^ 32 := by omega
  have e1 : block_footer (put h a (s1 + s2)) a = a + 4 * (s1 + s2) - 4 := by
    unfold block_footer
    rw [block_size_of_tag _ a (s1 + s2) hs (Or.inl (get_put_same_lt _ _ _ hs32))]
  rw [e1]
  refine ⟨?_, ?_, ?_, ?_⟩
  · by_cases e : a + 4 * (s1 + s2) - 4 = a
    · rw [e, get_put_same_lt _ _ _ hs32]
    · rw [get_put_disj _ _ _ _ (by omega), get_put_same_lt _ _ _ hs32]
  · rw [get_put_same_lt _ _ _ hs32]
  · exact ⟨rfl, rfl, rfl, rfl, rfl⟩
  · intro x hx1 hx2
    rw [put_mem_out _ _ _ _ (by omega), put_mem_out _ _ _ _ (by omega)]

/-! ## Geometry of a represented heap -/

theorem R.size_ok {h : Heap} {bs : List Blk} {fl : Nat → List Nat} {hole : Nat}
    (hR : R h bs fl hole) {b : Blk} (hb : b ∈ bs) :
    4 ≤ b.size ∧ b.size % 2 = 0 ∧ b.size < 2 ^ 30 :=
  ⟨(hR.blocks b hb).1, (hR.blocks b hb).2.1, (hR.blocks b hb).2.2.1⟩

theorem R.bounds {h : Heap} {bs : List Blk} {fl : Nat → List Nat} {hole : Nat}
    (hR : R h bs fl hole) {b : Blk} (hb : b ∈ bs) :
    h.heap_listp + 4 ≤ b.addr ∧ b.addr + 4 * b.size ≤ h.brk - 4 :=
  Contig_mem _ _ _ hR.contig b hb

theorem R.range {h : Heap} {bs : List Blk} {fl : Nat → List Nat} {hole : Nat}
    (hR : R h bs fl hole) {b : Blk} (hb : b ∈ bs) :
    0x800000000 < b.addr ∧ b.addr + 4 * b.size + 4 ≤ 0x800000000 + 2 ^ 32 := by
  have h1 := hR.bounds hb
  have h2 := hR.base_le
  have h3 := hR.lo_le
  have h4 := hR.brk_le
  have h5 := hR.max_le
  have h6 := hR.brk_ge
  omega

theorem R.sep {h : Heap} {bs : List Blk} {fl : Nat → List Nat} {hole : Nat}
    (hR : R h bs fl hole) {b c : Blk} (hb : b ∈ bs) (hc : c ∈ bs) :
    b = c ∨ b.addr + 4 * b.size ≤ c.addr ∨ c.addr + 4 * c.size ≤ b.addr :=
  Contig_sep _ _ _ hR.contig (fun x hx => by have := hR.size_ok hx; omega) b c hb hc

theorem R.addr_inj {h : Heap} {bs : List Blk} {fl : Nat → List Nat} {hole : Nat}
    (hR : R h bs fl hole) {b c : Blk} (hb : b ∈ bs) (hc : c ∈ bs) (e : b.addr = c.addr) :
    b = c := by
  rcases hR.sep hb hc with h1 | h1 | h1
  · exact h1
  · have := hR.size_ok hb; omega
  · have := hR.size_ok hc; omega

theorem R.hdr {h : Heap} {bs : List Blk} {fl : Nat → List Nat} {hole : Nat}
    (hR : R h bs fl hole) {b : Blk} (hb : b ∈ bs) :
    get h b.addr = b.size ∨ get h b.addr = b.size + 2 ^ 30 := by
  obtain ⟨_, _, _, hf, ha, hh⟩ := hR.blocks b hb
  by_cases e : b.addr = hole
  · exact hh e
  · cases hfree : b.free
    · exact Or.inr (ha hfree e).1
    · exact Or.inl (hf hfree).2.1

theorem R.block_size {h : Heap} {bs : List Blk} {fl : Nat → List Nat} {hole : Nat}
    (hR : R h bs fl hole) {b : Blk} (hb : b ∈ bs) : block_size h b.addr = b.size :=
  block_size_of_tag h b.addr b.size (hR.size_ok hb).2.2 (hR.hdr hb)

theorem R.node {h : Heap} {bs : List Blk} {fl : Nat → List Nat} {hole : Nat}
    (hR : R h bs fl hole) {i x : Nat} (hi : i < 12) (hx : x ∈ fl i) :
    ∃ b ∈ bs, b.addr = x ∧ b.free = true ∧ get_class_no b.size = i :=
  hR.mem_fl i hi x hx

theorem get_class_no_lt (s : Nat) : get_class_no s < 12 := by
  unfold get_class_no
  repeat' split
  all_goals omega

end MallocLab


namespace MallocLab

theorem get_out {h h' : Heap} {a a' : Nat}
    (hout : ∀ x, x < a ∨ a' ≤ x → h'.mem x = h.mem x) (q : Nat)
    (hq : q + 4 ≤ a ∨ a' ≤ q) : get h' q = get h q :=
  get_congr h h' q (fun x h1 h2 => hout x (by omega))

theorem BlockOK_out {h h' : Heap} {hole hole' : Nat} {c : Blk} (hc : BlockOK h hole c)
    (e1 : get h' c.addr = get h c.addr)
    (e2 : get h' (c.addr + 4 * c.size - 4) = get h (c.addr + 4 * c.size - 4))
    (n1 : c.addr ≠ hole) (n2 : c.addr ≠ hole') : BlockOK h' hole' c := by
  obtain ⟨h1, h2, h3, hf, ha, _⟩ := hc
  refine ⟨h1, h2, h3, ?_, ?_, ?_⟩
  · intro hfree
    have := hf hfree
    rw [e1, e2]
    exact ⟨n2, this.2.1, this.2.2⟩
  · intro hfree _
    rw [e1, e2]
    exact ha hfree n1
  · intro e
    exact absurd e n2

theorem BlockOK_congr {h h' : Heap} {hole : Nat} {c : Blk} (hc : BlockOK h hole c)
    (e1 : get h' c.addr = get h c.addr)
    (e2 : get h' (c.addr + 4 * c.size - 4) = get h (c.addr + 4 * c.size - 4)) :
    BlockOK h' hole c := by
  obtain ⟨h1, h2, h3, hf, ha, hh⟩ := hc
  refine ⟨h1, h2, h3, ?_, ?_, ?_⟩
  · intro hfree
    rw [e1, e2]
    exact hf hfree
  · intro hfree hne
    rw [e1, e2]
    exact ha hfree hne
  · intro e
    rw [e1]
    exact hh e

/-- Rewriting the memory of a run of blocks that are on no list, into another
run of such blocks over the same address range, keeps the representation. -/
theorem R_replace {h h' : Heap} {fl : Nat → List Nat} {hole hole' : Nat}
    {l1 mid mid' l2 : List Blk} {a a' : Nat}
    (hR : R h (l1 ++ mid ++ l2) fl hole)
    (hc1 : Contig (h.heap_listp + 4) l1 a) (hcm : Contig a mid a')
    (hc2 : Contig a' l2 (h.brk - 4))
    (hmeta : SameMeta h h')
    (hout : ∀ x, x < a ∨ a' ≤ x → h'.mem x = h.mem x)
    (hmidfree : ∀ c ∈ mid, c.free = false)
    (hcm' : Contig a mid' a')
    (hmid' : ∀ c ∈ mid', BlockOK h' hole' c ∧ c.free = false)
    (hhole : hole = 0 ∨ (a ≤ hole ∧ hole < a'))
    (hhole' : hole' = 0 ∨ (a ≤ hole' ∧ hole' < a')) :
    R h' (l1 ++ mid' ++ l2) fl hole' := by
  obtain ⟨m1, m2, m3, m4, m5⟩ := hmeta
  have hle1 := Contig_le _ _ _ hc1
  have hlem := Contig_le _ _ _ hcm
  have hle2 := Contig_le _ _ _ hc2
  have hbg := hR.brk_ge
  have hb1 := hR.base_le
  have hb2 := hR.lo_le
  -- blocks of l1 and l2 keep their words
  have hl1 : ∀ c ∈ l1, BlockOK h' hole' c := by
    intro c hc
    have hcb : c ∈ l1 ++ mid ++ l2 := by simp [hc]
    have hsz := hR.size_ok hcb
    have hbd := Contig_mem _ _ _ hc1 c hc
    apply BlockOK_out (hR.blocks c hcb)
    · exact get_out hout _ (by omega)
    · exact get_out hout _ (by omega)
    · rcases hhole with e | e <;> omega
    · rcases hhole' with e | e <;> omega
  have hl2 : ∀ c ∈ l2, BlockOK h' hole' c := by
    intro c hc
    have hcb : c ∈ l1 ++ mid ++ l2 := by simp [hc]
    have hsz := hR.size_ok hcb
    have hbd := Contig_mem _ _ _ hc2 c hc
    apply BlockOK_out (hR.blocks c hcb)
    · exact get_out hout _ (by omega)
    · exact get_out hout _ (by omega)
    · rcases hhole with e | e <;> omega
    · rcases hhole' with e | e <;> omega
  -- nodes of the lists are blocks of l1 or l2
  have hnode : ∀ i, i < 12 → ∀ x ∈ fl i, ∃ b, (b ∈ l1 ∨ b ∈ l2) ∧ b.addr = x ∧ b.free = true ∧
      get_class_no b.size = i := by
    intro i hi x hx
    obtain ⟨b, hb, e1, e2, e3⟩ := hR.mem_fl i hi x hx
    have : b ∈ l1 ∨ b ∈ mid ∨ b ∈ l2 := by simpa [or_assoc] using hb
    rcases this with q | q | q
    · exact ⟨b, Or.inl q, e1, e2, e3⟩
    · have := hmidfree b q
      rw [this] at e2
      cases e2
    · exact ⟨b, Or.inr q, e1, e2, e3⟩
  refine
    { base_le := by rw [m1]; exact hR.base_le
      lo_le := by rw [m1, m5]; exact hR.lo_le
      align8 := by rw [m5]; exact hR.align8
      brk_le := by rw [m2, m3]; exact hR.brk_le
      max_le := by rw [m3]; exact hR.max_le
      pro_hdr := ?_
      pro_ftr := ?_
      epi := ?_
      brk_ge := by rw [m2, m5]; exact hR.brk_ge
      contig := ?_
      blocks := ?_
      lists := ?_
      mem_fl := ?_
      fl_mem := ?_
      nodup := hR.nodup }
  · rw [m5, get_out hout _ (by omega)]
    exact hR.pro_hdr
  · rw [m5, get_out hout _ (by omega)]
    exact hR.pro_ftr
  · rw [m2, get_out hout _ (by omega)]
    exact hR.epi
  · rw [m2, m5, List.append_assoc]
    exact (Contig_append _ _ _ _).2 ⟨a, hc1, (Contig_append _ _ _ _).2 ⟨a', hcm', hc2⟩⟩
  · intro c hc
    have : c ∈ l1 ∨ c ∈ mid' ∨ c ∈ l2 := by simpa [or_assoc] using hc
    rcases this with q | q | q
    · exact hl1 c q
    · exact (hmid' c q).1
    · exact hl2 c q
  · intro i hi
    rw [m4]
    apply DLL_congr h h' _ _ _ _ (hR.lists i hi)
    intro x hx
    obtain ⟨b, hb, e1, _, _⟩ := hnode i hi x hx
    subst e1
    rcases hb with q | q
    · have hcb : b ∈ l1 ++ mid ++ l2 := by simp [q]
      have hsz := hR.size_ok hcb
      have hbd := Contig_mem _ _ _ hc1 b q
      exact ⟨get_out hout _ (by omega), get_out hout _ (by omega)⟩
    · have hcb : b ∈ l1 ++ mid ++ l2 := by simp [q]
      have hsz := hR.size_ok hcb
      have hbd := Contig_mem _ _ _ hc2 b q
      exact ⟨get_out hout _ (by omega), get_out hout _ (by omega)⟩
  · intro i hi x hx
    obtain ⟨b, hb, e1, e2, e3⟩ := hnode i hi x hx
    refine ⟨b, ?_, e1, e2, e3⟩
    rcases hb with q | q <;> simp [q]
  · intro c hc hfree
    have : c ∈ l1 ∨ c ∈ mid' ∨ c ∈ l2 := by simpa [or_assoc] using hc
    rcases this with q | q | q
    · exact hR.fl_mem c (by simp [q]) hfree
    · have := (hmid' c q).2
      rw [this] at hfree
      cases hfree
    · exact hR.fl_mem c (by simp [q]) hfree

end MallocLab


namespace MallocLab

/-- The last two steps of `delete_block`, on a block whose header holds the size
`s` with the free tag. -/
theorem finish_spec (h1 : Heap) (x s : Nat) (h4 : 4 ≤ s) (hs : s < 2 ^ 30)
    (hv : get h1 x = s ∨ get h1 x = s + 2 ^ 30) :
    get (block_mark (init_block h1 x (block_size h1 x)) x false) x = s + 2 ^ 30 ∧
    get (block_mark (init_block h1 x (block_size h1 x)) x false) (x + 4 * s - 4) = s + 2 ^ 30 ∧
    SameMeta h1 (block_mark (init_block h1 x (block_size h1 x)) x false) ∧
    (∀ y, (y < x ∨ x + 12 ≤ y) → (y < x + 4 * s - 4 ∨ x + 4 * s ≤ y) →
      (block_mark (init_block h1 x (block_size h1 x)) x false).mem y = h1.mem y) ∧
    (∀ q, (q + 4 ≤ x ∨ x + 4 * s ≤ q) →
      get (block_mark (init_block h1 x (block_size h1 x)) x false) q = get h1 q) := by
  rw [block_size_of_tag h1 x s hs hv]
  obtain ⟨i1, i2, i3, i4, i5, i6⟩ := init_block_spec h1 x s h4 hs
  obtain ⟨b1, b2, b3, b4⟩ := block_mark_spec (init_block h1 x s) x s false hs (by omega) (Or.inl i1)
  have hb : ∀ y, (y < x ∨ x + 12 ≤ y) → (y < x + 4 * s - 4 ∨ x + 4 * s ≤ y) →
      (block_mark (init_block h1 x s) x false).mem y = h1.mem y := by
    intro y hy1 hy2
    rw [b4 y (by omega) hy2, i6 y hy1 hy2]
  refine ⟨by simpa using b1, by simpa using b2, i5.trans b3, hb, ?_⟩
  intro q hq
  apply get_congr
  intro y h1' h2'
  apply hb y <;> omega

theorem delete_block_spec (h : Heap) (x s P N : Nat)
    (hP : get_pred_ptr h x = P) (hN : get_succ_ptr h x = N)
    (hv : get h x = s) (h4 : 4 ≤ s) (hs : s < 2 ^ 30)
    (hPx : P = 0 ∨ P + 16 ≤ x ∨ x + 4 * s ≤ P)
    (hNx : N = 0 ∨ N + 16 ≤ x ∨ x + 4 * s ≤ N)
    (hPN : P = 0 ∨ N = 0 ∨ P = N ∨ P + 16 ≤ N ∨ N + 16 ≤ P) :
    get (delete_block h x) x = s + 2 ^ 30 ∧
    get (delete_block h x) (x + 4 * s - 4) = s + 2 ^ 30 ∧
    (delete_block h x).lo = h.lo ∧ (delete_block h x).brk = h.brk ∧
    (delete_block h x).max = h.max ∧ (delete_block h x).heap_listp = h.heap_listp ∧
    (delete_block h x).seg =
      (if P = 0 then Function.update h.seg (get_class_no s) N else h.seg) ∧
    (P ≠ 0 → get (delete_block h x) (P + 8) = CONVERT_64_TO_32 N) ∧
    (N ≠ 0 → get (delete_block h x) (N + 4) = CONVERT_64_TO_32 P) ∧
    (∀ y, (y < x ∨ x + 12 ≤ y) → (y < x + 4 * s - 4 ∨ x + 4 * s ≤ y) →
      (P = 0 ∨ y < P + 8 ∨ P + 12 ≤ y) → (N = 0 ∨ y < N + 4 ∨ N + 8 ≤ y) →
      (delete_block h x).mem y = h.mem y) := by
  have hsz : block_size h x = s := block_size_of_tag h x s hs (Or.inl hv)
  unfold delete_block
  simp only [hP, hN, hsz, NULL]
  by_cases p0 : P = 0
  · by_cases n0 : N = 0
    · subst p0 n0
      simp only [if_true]
      obtain ⟨f1, f2, ⟨m1, m2, m3, m4, m5⟩, f4, fw⟩ :=
        finish_spec (set_seg h (get_class_no s) 0) x s h4 hs (Or.inl hv)
      refine ⟨f1, f2, m1, m2, m3, m5, m4, ?_, ?_, ?_⟩
      · intro hc; exact absurd rfl hc
      · intro hc; exact absurd rfl hc
      · intro y h1 h2 _ _
        exact f4 y h1 h2
    · subst p0
      simp only [if_true, n0, if_false, set_pred_ptr]
      have hv1 : get (put h (N + 4) (CONVERT_64_TO_32 0)) x = s := by
        rw [get_put_disj _ _ _ _ (by omega)]; exact hv
      obtain ⟨f1, f2, ⟨m1, m2, m3, m4, m5⟩, f4, fw⟩ :=
        finish_spec (set_seg (put h (N + 4) (CONVERT_64_TO_32 0)) (get_class_no s) N)
          x s h4 hs (Or.inl hv1)
      refine ⟨f1, f2, m1, m2, m3, m5, m4, ?_, ?_, ?_⟩
      · intro hc; exact absurd rfl hc
      · intro _
        rw [fw (N + 4) (by omega)]
        exact get_put_same_lt _ _ _ (encode_lt 0)
      · intro y h1 h2 _ h4'
        rw [f4 y h1 h2]
        have h4'' : y < N + 4 ∨ N + 8 ≤ y := by simpa [n0] using h4'
        exact put_mem_out _ _ _ _ (by omega)
  · by_cases n0 : N = 0
    · subst n0
      simp only [p0, if_false, set_succ_ptr, ne_eq, not_true_eq_false]
      have hv1 : get (put h (P + 8) (CONVERT_64_TO_32 0)) x = s := by
        rw [get_put_disj _ _ _ _ (by omega)]; exact hv
      obtain ⟨f1, f2, ⟨m1, m2, m3, m4, m5⟩, f4, fw⟩ :=
        finish_spec (put h (P + 8) (CONVERT_64_TO_32 0)) x s h4 hs (Or.inl hv1)
      refine ⟨f1, f2, m1, m2, m3, m5, m4, ?_, ?_, ?_⟩
      · intro _
        rw [fw (P + 8) (by omega)]
        exact get_put_same_lt _ _ _ (encode_lt 0)
      · intro hc; exact hc.elim
      · intro y h1 h2 h3 _
        rw [f4 y h1 h2]
        have h3' : y < P + 8 ∨ P + 12 ≤ y := by simpa [p0] using h3
        exact put_mem_out _ _ _ _ (by omega)
    · simp only [p0, if_false, set_succ_ptr, set_pred_ptr, ne_eq, n0, not_false_eq_true, if_true]
      have hv1 : get (put (put h (P + 8) (CONVERT_64_TO_32 N)) (N + 4) (CONVERT_64_TO_32 P)) x
          = s := by
        rw [get_put_disj _ _ _ _ (by omega), get_put_disj _ _ _ _ (by omega)]; exact hv
      obtain ⟨f1, f2, ⟨m1, m2, m3, m4, m5⟩, f4, fw⟩ :=
        finish_spec (put (put h (P + 8) (CONVERT_64_TO_32 N)) (N + 4) (CONVERT_64_TO_32 P))
          x s h4 hs (Or.inl hv1)
      refine ⟨f1, f2, m1, m2, m3, m5, m4, ?_, ?_, ?_⟩
      · intro _
        rw [fw (P + 8) (by omega), get_put_disj _ _ _ _ (by omega)]
        exact get_put_same_lt _ _ _ (encode_lt N)
      · intro _
        rw [fw (N + 4) (by omega)]
        exact get_put_same_lt _ _ _ (encode_lt P)
      · intro y h1 h2 h3 h4'
        have h3' : y < P + 8 ∨ P + 12 ≤ y := by simpa [p0] using h3
        have h4'' : y < N + 4 ∨ N + 8 ≤ y := by simpa [n0] using h4'
        rw [f4 y h1 h2, put_mem_out _ _ _ _ (by omega), put_mem_out _ _ _ _ (by omega)]

end MallocLab


namespace MallocLab

theorem decode_encode' (p : Nat) (h0 : p = 0 ∨ (0x800000000 < p ∧ p < 0x800000000 + 2 ^ 32)) :
    CONVERT_32_TO_64 (CONVERT_64_TO_32 p) = p := by
  have := decode_encode p h0
  rwa [Nat.mod_eq_of_lt (encode_lt p)] at this

theorem DLL_succ_ne (h : Heap) (l : List Nat) (prev p : Nat) (hd : DLL h prev p l)
    (hnd : l.Nodup) (x : Nat) (hx : x ∈ l) : get_succ_ptr h x ≠ x := by
  induction l generalizing prev p with
  | nil => cases hx
  | cons y ys ih =>
    obtain ⟨_, h2, _, h4⟩ := hd
    have hnd' := List.nodup_cons.1 hnd
    rcases List.mem_cons.1 hx with e | e
    · subst e
      cases ys with
      | nil =>
        have : get_succ_ptr h x = 0 := h4
        rw [this]
        exact fun e => h2 e.symm
      | cons z zs =>
        have hz : get_succ_ptr h x = z := h4.1
        rw [hz]
        intro e
        apply hnd'.1
        rw [← e]
        exact List.mem_cons_self _ _
    · exact ih _ _ h4 hnd'.2 e

theorem DLL_head_pred (h : Heap) (l : List Nat) (prev p : Nat) (hd : DLL h prev p l)
    (hp : p ≠ 0) : p ∈ l ∧ get_pred_ptr h p = prev := by
  cases l with
  | nil => exact absurd hd hp
  | cons x xs =>
    obtain ⟨h1, _, h3, _⟩ := hd
    rw [h1]
    exact ⟨List.mem_cons_self _ _, h3⟩

theorem R.node_block_sep {h : Heap} {bs : List Blk} {fl : Nat → List Nat} {hole : Nat}
    (hR : R h bs fl hole) {j y : Nat} (hj : j < 12) (hy : y ∈ fl j) {c : Blk} (hc : c ∈ bs) :
    c.addr = y ∨ y + 16 ≤ c.addr ∨ c.addr + 4 * c.size ≤ y := by
  obtain ⟨d, hd, e1, _, _⟩ := hR.mem_fl j hj y hy
  have hsz := hR.size_ok hd
  rcases hR.sep hd hc with q | q | q
  · left; rw [← q]; exact e1
  · right; left; omega
  · right; right; omega

theorem R.node_sep {h : Heap} {bs : List Blk} {fl : Nat → List Nat} {hole : Nat}
    (hR : R h bs fl hole) {j k y z : Nat} (hj : j < 12) (hy : y ∈ fl j) (hk : k < 12)
    (hz : z ∈ fl k) : y = z ∨ y + 16 ≤ z ∨ z + 16 ≤ y := by
  obtain ⟨d, hd, e1, _, _⟩ := hR.mem_fl k hk z hz
  have hsz := hR.size_ok hd
  rcases hR.node_block_sep hj hy hd with q | q | q <;> omega

theorem R.node_range {h : Heap} {bs : List Blk} {fl : Nat → List Nat} {hole : Nat}
    (hR : R h bs fl hole) {j y : Nat} (hj : j < 12) (hy : y ∈ fl j) :
    0x800000000 < y ∧ y < 0x800000000 + 2 ^ 32 := by
  obtain ⟨d, hd, e1, _, _⟩ := hR.mem_fl j hj y hy
  have := hR.range hd
  omega

/-- A list node lies on the list of one class only. -/
theorem R.node_class {h : Heap} {bs : List Blk} {fl : Nat → List Nat} {hole : Nat}
    (hR : R h bs fl hole) {j k y : Nat} (hj : j < 12) (hy : y ∈ fl j) (hk : k < 12)
    (hy' : y ∈ fl k) : j = k := by
  obtain ⟨d, hd, e1, _, c1⟩ := hR.mem_fl j hj y hy
  obtain ⟨d', hd', e1', _, c1'⟩ := hR.mem_fl k hk y hy'
  have : d = d' := hR.addr_inj hd hd' (by rw [e1, e1'])
  subst this
  rw [← c1, ← c1']

end MallocLab


namespace MallocLab

/-- `delete_block` on a block of a free list: the block leaves its list and is
tagged allocated; everything it writes lies in blocks that were on a list. -/
theorem R_delete_block {h : Heap} {l1 l2 : List Blk} {fl : Nat → List Nat} {hole : Nat}
    {b : Blk} (hR : R h (l1 ++ b :: l2) fl hole) (hfree : b.free = true) :
    R (delete_block h b.addr) (l1 ++ ⟨b.addr, b.size, false⟩ :: l2)
      (fun j => (fl j).erase b.addr) hole ∧
    (delete_block h b.addr).brk = h.brk ∧
    (∀ y, (y < b.addr ∨ b.addr + 4 * b.size ≤ y) →
      (∀ c ∈ l1 ++ b :: l2, c.free = true → ¬ (c.addr + 4 ≤ y ∧ y < c.addr + 12)) →
      (delete_block h b.addr).mem y = h.mem y) := by
  have hb : b ∈ l1 ++ b :: l2 := by simp
  obtain ⟨h4, hev, hs⟩ := hR.size_ok hb
  obtain ⟨_, _, _, hf, _, _⟩ := hR.blocks b hb
  obtain ⟨hxh, hv, hvf⟩ := hf hfree
  have hi : get_class_no b.size < 12 := get_class_no_lt _
  have hxi : b.addr ∈ fl (get_class_no b.size) := hR.fl_mem b hb hfree
  have hdl := hR.lists _ hi
  have hx0 : b.addr ≠ 0 := by have := hR.range hb; omega
  -- the neighbours on the list
  have hNne : get_succ_ptr h b.addr ≠ b.addr := DLL_succ_ne h _ _ _ hdl (hR.nodup _ hi) _ hxi
  have hPcase := DLL_pred h _ _ _ hdl _ hxi
  have hNcase : get_succ_ptr h b.addr = 0 ∨
      (get_succ_ptr h b.addr ∈ fl (get_class_no b.size) ∧
        get_pred_ptr h (get_succ_ptr h b.addr) = b.addr) := by
    by_cases e : get_succ_ptr h b.addr = 0
    · exact Or.inl e
    · exact Or.inr (DLL_succ h _ _ _ hdl _ hxi e)
  have hPne : get_pred_ptr h b.addr ≠ b.addr := by
    intro e
    rcases hPcase with ⟨q, _⟩ | ⟨_, q⟩
    · rw [q] at e; exact hx0 e.symm
    · rw [e] at q; exact hNne q
  have hPmem : get_pred_ptr h b.addr = 0 ∨ get_pred_ptr h b.addr ∈ fl (get_class_no b.size) := by
    rcases hPcase with ⟨q, _⟩ | ⟨q, _⟩
    · exact Or.inl q
    · exact Or.inr q
  have hNmem : get_succ_ptr h b.addr = 0 ∨ get_succ_ptr h b.addr ∈ fl (get_class_no b.size) := by
    rcases hNcase with q | ⟨q, _⟩
    · exact Or.inl q
    · exact Or.inr q
  have hPx : get_pred_ptr h b.addr = 0 ∨ get_pred_ptr h b.addr + 16 ≤ b.addr ∨
      b.addr + 4 * b.size ≤ get_pred_ptr h b.addr := by
    rcases hPmem with q | q
    · exact Or.inl q
    · rcases hR.node_block_sep hi q hb with r | r | r
      · exact absurd r.symm hPne
      · exact Or.inr (Or.inl r)
      · exact Or.inr (Or.inr r)
  have hNx : get_succ_ptr h b.addr = 0 ∨ get_succ_ptr h b.addr + 16 ≤ b.addr ∨
      b.addr + 4 * b.size ≤ get_succ_ptr h b.addr := by
    rcases hNmem with q | q
    · exact Or.inl q
    · rcases hR.node_block_sep hi q hb with r | r | r
      · exact absurd r.symm hNne
      · exact Or.inr (Or.inl r)
      · exact Or.inr (Or.inr r)
  have hPN : get_pred_ptr h b.addr = 0 ∨ get_succ_ptr h b.addr = 0 ∨
      get_pred_ptr h b.addr = get_succ_ptr h b.addr ∨
      get_pred_ptr h b.addr + 16 ≤ get_succ_ptr h b.addr ∨
      get_succ_ptr h b.addr + 16 ≤ get_pred_ptr h b.addr := by
    rcases hPmem with q | q
    · exact Or.inl q
    · rcases hNmem with r | r
      · exact Or.inr (Or.inl r)
      · exact Or.inr (Or.inr (hR.node_sep hi q hi r))
  have hPr : get_pred_ptr h b.addr = 0 ∨ (0x800000000 < get_pred_ptr h b.addr ∧
      get_pred_ptr h b.addr < 0x800000000 + 2 ^ 32) := by
    rcases hPmem with q | q
    · exact Or.inl q
    · exact Or.inr (hR.node_range hi q)
  have hNr : get_succ_ptr h b.addr = 0 ∨ (0x800000000 < get_succ_ptr h b.addr ∧
      get_succ_ptr h b.addr < 0x800000000 + 2 ^ 32) := by
    rcases hNmem with q | q
    · exact Or.inl q
    · exact Or.inr (hR.node_range hi q)
  obtain ⟨d1, d2, m1, m2, m3, m5, m4, dP, dN, dF⟩ :=
    delete_block_spec h b.addr b.size _ _ rfl rfl hv h4 hs hPx hNx hPN
  generalize hPdef : get_pred_ptr h b.addr = P at *
  generalize hNdef : get_succ_ptr h b.addr = N at *
  generalize hh' : delete_block h b.addr = h' at *
  -- word-level frame
  have hw : ∀ q, (q + 4 ≤ b.addr ∨ b.addr + 4 * b.size ≤ q) →
      (P = 0 ∨ q + 4 ≤ P + 8 ∨ P + 12 ≤ q) → (N = 0 ∨ q + 4 ≤ N + 4 ∨ N + 8 ≤ q) →
      get h' q = get h q := by
    intro q q1 q2 q3
    apply get_congr
    intro y y1 y2
    apply dF y <;> omega
  obtain ⟨hc1, hc2⟩ := Contig_split _ _ _ _ _ hR.contig
  have hbg := hR.brk_ge
  have hbb := hR.bounds hb
  -- every listed node other than the block keeps its links, up to the unlinking
  have hS : ∀ j, j < 12 → ∀ y ∈ fl j, y ≠ b.addr → get_succ_ptr h' y =
      if get_succ_ptr h y = b.addr then N else get_succ_ptr h y := by
    intro j hj y hy hyx
    have hy0 : y ≠ 0 := DLL_ne_zero h _ _ _ (hR.lists j hj) y hy
    by_cases hyP : y = P
    · subst hyP
      have e1 : get_succ_ptr h y = b.addr := by
        rcases hPcase with ⟨q, _⟩ | ⟨_, q⟩
        · exact absurd q hy0
        · exact q
      rw [e1, if_pos rfl]
      unfold get_succ_ptr
      rw [dP hy0]
      exact decode_encode' N hNr
    · have e1 : get_succ_ptr h y ≠ b.addr := by
        intro e
        have := (DLL_succ h _ _ _ (hR.lists j hj) y hy (by rw [e]; exact hx0)).2
        rw [e, hPdef] at this
        exact hyP this.symm
      rw [if_neg e1]
      unfold get_succ_ptr
      rw [hw]
      · rcases hR.node_block_sep hj hy hb with r | r | r
        · exact absurd r.symm hyx
        · left; omega
        · right; omega
      · rcases hPmem with q | q
        · exact Or.inl q
        · right
          rcases hR.node_sep hj hy hi q with r | r | r
          · exact absurd r hyP
          · left; omega
          · right; omega
      · rcases hNmem with q | q
        · exact Or.inl q
        · right
          rcases hR.node_sep hj hy hi q with r | r | r <;> omega
  have hPl : ∀ j, j < 12 → ∀ y ∈ fl j, y ≠ b.addr → get_pred_ptr h' y =
      if get_pred_ptr h y = b.addr then P else get_pred_ptr h y := by
    intro j hj y hy hyx
    have hy0 : y ≠ 0 := DLL_ne_zero h _ _ _ (hR.lists j hj) y hy
    by_cases hyN : y = N
    · subst hyN
      have e1 : get_pred_ptr h y = b.addr := by
        rcases hNcase with q | ⟨_, q⟩
        · exact absurd q hy0
        · exact q
      rw [e1, if_pos rfl]
      unfold get_pred_ptr
      rw [dN hy0]
      exact decode_encode' P hPr
    · have e1 : get_pred_ptr h y ≠ b.addr := by
        intro e
        rcases DLL_pred h _ _ _ (hR.lists j hj) y hy with ⟨q, _⟩ | ⟨_, q⟩
        · rw [q] at e; exact hx0 e.symm
        · rw [e, hNdef] at q
          exact hyN q.symm
      rw [if_neg e1]
      unfold get_pred_ptr
      rw [hw]
      · rcases hR.node_block_sep hj hy hb with r | r | r
        · exact absurd r.symm hyx
        · left; omega
        · right; omega
      · rcases hPmem with q | q
        · exact Or.inl q
        · right
          rcases hR.node_sep hj hy hi q with r | r | r <;> omega
      · rcases hNmem with q | q
        · exact Or.inl q
        · right
          rcases hR.node_sep hj hy hi q with r | r | r
          · exact absurd r hyN
          · left; omega
          · right; omega
  -- the heads after the call
  have hseg : ∀ j, j < 12 → h'.seg j = if h.seg j = b.addr then N else h.seg j := by
    intro j hj
    have hjx : j ≠ get_class_no b.size → h.seg j ≠ b.addr := by
      intro hne e
      have := (DLL_head_pred h _ _ _ (hR.lists j hj) (by rw [e]; exact hx0)).1
      rw [e] at this
      exact hne (hR.node_class hj this hi hxi)
    rw [m4]
    by_cases p0 : P = 0
    · rw [if_pos p0]
      have hsi : h.seg (get_class_no b.size) = b.addr := by
        rcases hPcase with ⟨_, q⟩ | ⟨q, _⟩
        · exact q
        · rw [p0] at q
          exact absurd rfl (DLL_ne_zero h _ _ _ hdl 0 q)
      by_cases hji : j = get_class_no b.size
      · subst hji
        rw [Function.update_same, if_pos hsi]
      · rw [Function.update_noteq hji, if_neg (hjx hji)]
    · rw [if_neg p0]
      have : h.seg j ≠ b.addr := by
        intro e
        have := (DLL_head_pred h _ _ _ (hR.lists j hj) (by rw [e]; exact hx0)).2
        rw [e, hPdef] at this
        exact p0 this
      rw [if_neg this]
  -- blocks other than the one unlinked keep header and footer
  have hkeep : ∀ c ∈ l1 ++ b :: l2, c.addr ≠ b.addr →
      get h' c.addr = get h c.addr ∧
      get h' (c.addr + 4 * c.size - 4) = get h (c.addr + 4 * c.size - 4) := by
    intro c hc hne
    have hcs := hR.size_ok hc
    have hsep : c.addr + 4 * c.size ≤ b.addr ∨ b.addr + 4 * b.size ≤ c.addr := by
      rcases hR.sep hc hb with r | r | r
      · rw [r] at hne; exact absurd rfl hne
      · exact Or.inl r
      · exact Or.inr r
    have hcP : P = 0 ∨ c.addr = P ∨ P + 16 ≤ c.addr ∨ c.addr + 4 * c.size ≤ P := by
      rcases hPmem with q | q
      · exact Or.inl q
      · exact Or.inr (hR.node_block_sep hi q hc)
    have hcN : N = 0 ∨ c.addr = N ∨ N + 16 ≤ c.addr ∨ c.addr + 4 * c.size ≤ N := by
      rcases hNmem with q | q
      · exact Or.inl q
      · exact Or.inr (hR.node_block_sep hi q hc)
    constructor
    · apply hw <;> omega
    · apply hw <;> omega
  refine ⟨?_, m2, ?_⟩
  · refine
    { base_le := by rw [m1]; exact hR.base_le
      lo_le := by rw [m1, m5]; exact hR.lo_le
      align8 := by rw [m5]; exact hR.align8
      brk_le := by rw [m2, m3]; exact hR.brk_le
      max_le := by rw [m3]; exact hR.max_le
      pro_hdr := ?_
      pro_ftr := ?_
      epi := ?_
      brk_ge := by rw [m2, m5]; exact hR.brk_ge
      contig := ?_
      blocks := ?_
      lists := ?_
      mem_fl := ?_
      fl_mem := ?_
      nodup := fun j hj => (hR.nodup j hj).erase _ }
    · rw [m5, hw]
      · exact hR.pro_hdr
      · left; omega
      · rcases hPmem with q | q
        · exact Or.inl q
        · obtain ⟨d, hd, e, _, _⟩ := hR.mem_fl _ hi _ q
          have := hR.bounds hd
          right; left; omega
      · rcases hNmem with q | q
        · exact Or.inl q
        · obtain ⟨d, hd, e, _, _⟩ := hR.mem_fl _ hi _ q
          have := hR.bounds hd
          right; left; omega
    · rw [m5, hw]
      · exact hR.pro_ftr
      · left; omega
      · rcases hPmem with q | q
        · exact Or.inl q
        · obtain ⟨d, hd, e, _, _⟩ := hR.mem_fl _ hi _ q
          have := hR.bounds hd
          right; left; omega
      · rcases hNmem with q | q
        · exact Or.inl q
        · obtain ⟨d, hd, e, _, _⟩ := hR.mem_fl _ hi _ q
          have := hR.bounds hd
          right; left; omega
    · rw [m2, hw]
      · exact hR.epi
      · right; omega
      · rcases hPmem with q | q
        · exact Or.inl q
        · obtain ⟨d, hd, e, _, _⟩ := hR.mem_fl _ hi _ q
          have := hR.bounds hd
          have := hR.size_ok hd
          right; right; omega
      · rcases hNmem with q | q
        · exact Or.inl q
        · obtain ⟨d, hd, e, _, _⟩ := hR.mem_fl _ hi _ q
          have := hR.bounds hd
          have := hR.size_ok hd
          right; right; omega
    · rw [m2, m5]
      exact Contig_join l1 l2 ⟨b.addr, b.size, false⟩ _ _ hc1 hc2
    · intro c hc
      rcases List.mem_append.1 hc with q | q
      · have hcb : c ∈ l1 ++ b :: l2 := List.mem_append_left _ q
        have hbd := Contig_mem _ _ _ hc1 c q
        have hcs := hR.size_ok hcb
        have hne : c.addr ≠ b.addr := by omega
        exact BlockOK_congr (hR.blocks c hcb) (hkeep c hcb hne).1 (hkeep c hcb hne).2
      · rcases List.mem_cons.1 q with q | q
        · subst q
          refine ⟨h4, hev, hs, ?_, ?_, ?_⟩
          · intro e
            exact Bool.noConfusion e
          · intro _ _
            exact ⟨d1, d2⟩
          · intro _
            exact Or.inr d1
        · have hcb : c ∈ l1 ++ b :: l2 := List.mem_append_right _ (List.mem_cons_of_mem _ q)
          have hbd := Contig_mem _ _ _ hc2 c q
          have hcs := hR.size_ok hcb
          have hne : c.addr ≠ b.addr := by omega
          exact BlockOK_congr (hR.blocks c hcb) (hkeep c hcb hne).1 (hkeep c hcb hne).2
    · intro j hj
      have := DLL_erase h h' b.addr hx0 (fl j) 0 (h.seg j) (hR.lists j hj) (hR.nodup j hj)
        (by rw [hNdef]; exact hS j hj) (by rw [hPdef]; exact hPl j hj)
      rw [hNdef, if_neg (fun e => hx0 e.symm)] at this
      rw [hseg j hj]
      exact this
    · intro j hj y hy
      have hy' := (List.Nodup.mem_erase_iff (hR.nodup j hj)).1 hy
      obtain ⟨c, hc, e1, e2, e3⟩ := hR.mem_fl j hj y hy'.2
      refine ⟨c, ?_, e1, e2, e3⟩
      rcases List.mem_append.1 hc with q | q
      · exact List.mem_append_left _ q
      · rcases List.mem_cons.1 q with q | q
        · subst q
          exact absurd e1.symm hy'.1
        · exact List.mem_append_right _ (List.mem_cons_of_mem _ q)
    · intro c hc hcf
      rcases List.mem_append.1 hc with q | q
      · have hcb : c ∈ l1 ++ b :: l2 := List.mem_append_left _ q
        have hbd := Contig_mem _ _ _ hc1 c q
        have hcs := hR.size_ok hcb
        have hne : c.addr ≠ b.addr := by omega
        exact (List.mem_erase_of_ne hne).2 (hR.fl_mem c hcb hcf)
      · rcases List.mem_cons.1 q with q | q
        · subst q
          cases hcf
        · have hcb : c ∈ l1 ++ b :: l2 := List.mem_append_right _ (List.mem_cons_of_mem _ q)
          have hbd := Contig_mem _ _ _ hc2 c q
          have hcs := hR.size_ok hcb
          have hne : c.addr ≠ b.addr := by omega
          exact (List.mem_erase_of_ne hne).2 (hR.fl_mem c hcb hcf)
  · intro y hy hlink
    apply dF y
    · omega
    · omega
    · rcases hPmem with q | q
      · exact Or.inl q
      · obtain ⟨d, hd, e, ef, _⟩ := hR.mem_fl _ hi _ q
        have := hlink d hd ef
        right; omega
    · rcases hNmem with q | q
      · exact Or.inl q
      · obtain ⟨d, hd, e, ef, _⟩ := hR.mem_fl _ hi _ q
        have := hlink d hd ef
        right; omega

end MallocLab


namespace MallocLab

theorem add_to_free_list_spec (h : Heap) (x s H : Nat)
    (hv : get h x = s ∨ get h x = s + 2 ^ 30) (h4 : 4 ≤ s) (hs : s < 2 ^ 30)
    (hH : h.seg (get_class_no s) = H)
    (hHx : H = 0 ∨ H + 16 ≤ x ∨ x + 4 * s ≤ H) :
    get (add_to_free_list h x) x = s ∧
    get (add_to_free_list h x) (x + 4 * s - 4) = s ∧
    get (add_to_free_list h x) (x + 4) = 0 ∧
    get (add_to_free_list h x) (x + 8) = CONVERT_64_TO_32 H ∧
    (H ≠ 0 → get (add_to_free_list h x) (H + 4) = CONVERT_64_TO_32 x) ∧
    (add_to_free_list h x).lo = h.lo ∧ (add_to_free_list h x).brk = h.brk ∧
    (add_to_free_list h x).max = h.max ∧ (add_to_free_list h x).heap_listp = h.heap_listp ∧
    (add_to_free_list h x).seg = Function.update h.seg (get_class_no s) x ∧
    (∀ y, (y < x ∨ x + 12 ≤ y) → (y < x + 4 * s - 4 ∨ x + 4 * s ≤ y) →
      (H = 0 ∨ y < H + 4 ∨ H + 8 ≤ y) →
      (add_to_free_list h x).mem y = h.mem y) := by
  have hsz : block_size h x = s := block_size_of_tag h x s hs hv
  obtain ⟨i1, i2, i3, i4, ⟨n1, n2, n3, n4, n5⟩, i6⟩ := init_block_spec h x s h4 hs
  obtain ⟨b1, b2, ⟨k1, k2, k3, k4, k5⟩, b4⟩ :=
    block_mark_spec (init_block h x s) x s true hs (by omega) (Or.inl i1)
  simp only [if_true] at b1 b2
  have b3 : get (block_mark (init_block h x s) x true) (x + 4) = 0 := by
    rw [← i3]
    apply get_congr
    intro y y1 y2
    apply b4 <;> omega
  have b5 : get (block_mark (init_block h x s) x true) (x + 8) = 0 := by
    rw [← i4]
    apply get_congr
    intro y y1 y2
    apply b4 <;> omega
  have b6 : ∀ y, (y < x ∨ x + 12 ≤ y) → (y < x + 4 * s - 4 ∨ x + 4 * s ≤ y) →
      (block_mark (init_block h x s) x true).mem y = h.mem y := by
    intro y y1 y2
    rw [b4 y (by omega) y2, i6 y y1 y2]
  have hseg : (block_mark (init_block h x s) x true).seg = h.seg := k4.trans n4
  have l1 := k1.trans n1
  have l2 := k2.trans n2
  have l3 := k3.trans n3
  have l5 := k5.trans n5
  unfold add_to_free_list
  simp only [hsz]
  clear i1 i2 i3 i4 i6 b4 k1 k2 k3 k4 k5 n1 n2 n3 n4 n5
  generalize block_mark (init_block h x s) x true = h2 at *
  simp only [set_pred_ptr, set_succ_ptr, put_seg, hseg, hH, NULL]
  by_cases H0 : H = 0
  · subst H0
    simp only [if_true]
    refine ⟨?_, ?_, ?_, ?_, ?_, ?_, ?_, ?_, ?_, ?_, ?_⟩
    · rw [get_set_seg]; exact b1
    · rw [get_set_seg]; exact b2
    · rw [get_set_seg]; exact b3
    · rw [get_set_seg, b5]
      simp [CONVERT_64_TO_32]
    · intro hc; exact absurd rfl hc
    · rw [set_seg_lo]; exact l1
    · rw [set_seg_brk]; exact l2
    · rw [set_seg_max]; exact l3
    · rw [set_seg_heap_listp]; exact l5
    · rw [set_seg_seg, hseg]
    · intro y y1 y2 _
      rw [set_seg_mem]
      exact b6 y y1 y2
  · simp only [H0, if_false]
    have ex := encode_lt x
    have eH := encode_lt H
    refine ⟨?_, ?_, ?_, ?_, ?_, ?_, ?_, ?_, ?_, ?_, ?_⟩
    · rw [get_set_seg, get_put_disj _ _ _ _ (by omega), get_put_disj _ _ _ _ (by omega)]
      exact b1
    · rw [get_set_seg, get_put_disj _ _ _ _ (by omega), get_put_disj _ _ _ _ (by omega)]
      exact b2
    · rw [get_set_seg, get_put_disj _ _ _ _ (by omega), get_put_disj _ _ _ _ (by omega)]
      exact b3
    · rw [get_set_seg, get_put_same_lt _ _ _ eH]
    · intro _
      rw [get_set_seg, get_put_disj _ _ _ _ (by omega), get_put_same_lt _ _ _ ex]
    · rw [set_seg_lo, put_lo, put_lo]; exact l1
    · rw [set_seg_brk, put_brk, put_brk]; exact l2
    · rw [set_seg_max, put_max, put_max]; exact l3
    · rw [set_seg_heap_listp, put_heap_listp, put_heap_listp]; exact l5
    · rw [set_seg_seg, put_seg, put_seg, hseg]
    · intro y y1 y2 y3
      have y3' : y < H + 4 ∨ H + 8 ≤ y := by simpa [H0] using y3
      rw [set_seg_mem, put_mem_out _ _ _ _ (by omega), put_mem_out _ _ _ _ (by omega)]
      exact b6 y y1 y2

end MallocLab


namespace MallocLab

/-- `add_to_free_list` on the block in transit: it becomes the first node of the
list of its class; the only words written outside the block are the predecessor
link of the old first node. -/
theorem R_add_to_free_list {h : Heap} {l1 l2 : List Blk} {fl : Nat → List Nat} {b : Blk}
    (hR : R h (l1 ++ b :: l2) fl b.addr) (hnf : b.free = false) :
    R (add_to_free_list h b.addr) (l1 ++ ⟨b.addr, b.size, true⟩ :: l2)
      (Function.update fl (get_class_no b.size) (b.addr :: fl (get_class_no b.size))) 0 ∧
    (add_to_free_list h b.addr).brk = h.brk ∧
    (∀ y, (y < b.addr ∨ b.addr + 4 * b.size ≤ y) →
      (∀ c ∈ l1 ++ b :: l2, c.free = true → ¬ (c.addr + 4 ≤ y ∧ y < c.addr + 8)) →
      (add_to_free_list h b.addr).mem y = h.mem y) := by
  have hb : b ∈ l1 ++ b :: l2 := by simp
  obtain ⟨h4, hev, hs⟩ := hR.size_ok hb
  have hv := hR.hdr hb
  have hi : get_class_no b.size < 12 := get_class_no_lt _
  have hdl := hR.lists _ hi
  have hx0 : b.addr ≠ 0 := by have := hR.range hb; omega
  have hxr := hR.range hb
  -- the block is on no list
  have hxn : ∀ j, j < 12 → b.addr ∉ fl j := by
    intro j hj hx
    obtain ⟨d, hd, e1, e2, _⟩ := hR.mem_fl j hj _ hx
    have := hR.addr_inj hd hb e1
    rw [this, hnf] at e2
    cases e2
  -- the old head
  have hHmem : h.seg (get_class_no b.size) = 0 ∨
      h.seg (get_class_no b.size) ∈ fl (get_class_no b.size) := by
    by_cases e : h.seg (get_class_no b.size) = 0
    · exact Or.inl e
    · exact Or.inr (DLL_head_pred h _ _ _ hdl e).1
  have hHx : h.seg (get_class_no b.size) = 0 ∨ h.seg (get_class_no b.size) + 16 ≤ b.addr ∨
      b.addr + 4 * b.size ≤ h.seg (get_class_no b.size) := by
    rcases hHmem with q | q
    · exact Or.inl q
    · rcases hR.node_block_sep hi q hb with r | r | r
      · rw [← r] at q
        exact absurd q (hxn _ hi)
      · exact Or.inr (Or.inl r)
      · exact Or.inr (Or.inr r)
  have hHr : h.seg (get_class_no b.size) = 0 ∨ (0x800000000 < h.seg (get_class_no b.size) ∧
      h.seg (get_class_no b.size) < 0x800000000 + 2 ^ 32) := by
    rcases hHmem with q | q
    · exact Or.inl q
    · exact Or.inr (hR.node_range hi q)
  obtain ⟨a1, a2, a3, a4, a5, m1, m2, m3, m5, m4, aF⟩ :=
    add_to_free_list_spec h b.addr b.size _ hv h4 hs rfl hHx
  generalize hHdef : h.seg (get_class_no b.size) = H at *
  generalize hh' : add_to_free_list h b.addr = h' at *
  have hw : ∀ q, (q + 4 ≤ b.addr ∨ b.addr + 4 * b.size ≤ q) →
      (H = 0 ∨ q + 4 ≤ H + 4 ∨ H + 8 ≤ q) → get h' q = get h q := by
    intro q q1 q2
    apply get_congr
    intro y y1 y2
    apply aF y <;> omega
  obtain ⟨hc1, hc2⟩ := Contig_split _ _ _ _ _ hR.contig
  have hbg := hR.brk_ge
  have hbb := hR.bounds hb
  have hHb : H = 0 ∨ (h.heap_listp + 4 ≤ H ∧ H + 16 ≤ h.brk - 4) := by
    rcases hHmem with q | q
    · exact Or.inl q
    · obtain ⟨d, hd, e, _, _⟩ := hR.mem_fl _ hi _ q
      have := hR.bounds hd
      have := hR.size_ok hd
      right; omega
  have hkeep : ∀ c ∈ l1 ++ b :: l2, c.addr ≠ b.addr →
      get h' c.addr = get h c.addr ∧
      get h' (c.addr + 4 * c.size - 4) = get h (c.addr + 4 * c.size - 4) := by
    intro c hc hne
    have hcs := hR.size_ok hc
    have hsep : c.addr + 4 * c.size ≤ b.addr ∨ b.addr + 4 * b.size ≤ c.addr := by
      rcases hR.sep hc hb with r | r | r
      · rw [r] at hne; exact absurd rfl hne
      · exact Or.inl r
      · exact Or.inr r
    have hcH : H = 0 ∨ c.addr = H ∨ H + 16 ≤ c.addr ∨ c.addr + 4 * c.size ≤ H := by
      rcases hHmem with q | q
      · exact Or.inl q
      · exact Or.inr (hR.node_block_sep hi q hc)
    constructor
    · apply hw <;> omega
    · apply hw <;> omega
  -- links of the listed nodes
  have hlinkS : ∀ j, j < 12 → ∀ y ∈ fl j, get_succ_ptr h' y = get_succ_ptr h y := by
    intro j hj y hy
    unfold get_succ_ptr
    rw [hw]
    · rcases hR.node_block_sep hj hy hb with r | r | r
      · rw [← r] at hy; exact absurd hy (hxn j hj)
      · left; omega
      · right; omega
    · rcases hHmem with q | q
      · exact Or.inl q
      · right
        rcases hR.node_sep hj hy hi q with r | r | r <;> omega
  have hlinkP : ∀ j, j < 12 → ∀ y ∈ fl j, y ≠ H → get_pred_ptr h' y = get_pred_ptr h y := by
    intro j hj y hy hyH
    unfold get_pred_ptr
    rw [hw]
    · rcases hR.node_block_sep hj hy hb with r | r | r
      · rw [← r] at hy; exact absurd hy (hxn j hj)
      · left; omega
      · right; omega
    · rcases hHmem with q | q
      · exact Or.inl q
      · right
        rcases hR.node_sep hj hy hi q with r | r | r
        · exact absurd r hyH
        · left; omega
        · right; omega
  refine ⟨?_, m2, ?_⟩
  · refine
    { base_le := by rw [m1]; exact hR.base_le
      lo_le := by rw [m1, m5]; exact hR.lo_le
      align8 := by rw [m5]; exact hR.align8
      brk_le := by rw [m2, m3]; exact hR.brk_le
      max_le := by rw [m3]; exact hR.max_le
      pro_hdr := ?_
      pro_ftr := ?_
      epi := ?_
      brk_ge := by rw [m2, m5]; exact hR.brk_ge
      contig := ?_
      blocks := ?_
      lists := ?_
      mem_fl := ?_
      fl_mem := ?_
      nodup := ?_ }
    · rw [m5, hw]
      · exact hR.pro_hdr
      · left; omega
      · rcases hHb with q | q
        · exact Or.inl q
        · right; left; omega
    · rw [m5, hw]
      · exact hR.pro_ftr
      · left; omega
      · rcases hHb with q | q
        · exact Or.inl q
        · right; left; omega
    · rw [m2, hw]
      · exact hR.epi
      · right; omega
      · rcases hHb with q | q
        · exact Or.inl q
        · right; right; omega
    · rw [m2, m5]
      exact Contig_join l1 l2 ⟨b.addr, b.size, true⟩ _ _ hc1 hc2
    · intro c hc
      rcases List.mem_append.1 hc with q | q
      · have hcb : c ∈ l1 ++ b :: l2 := List.mem_append_left _ q
        have hbd := Contig_mem _ _ _ hc1 c q
        have hcs := hR.size_ok hcb
        have hne : c.addr ≠ b.addr := by omega
        exact BlockOK_out (hR.blocks c hcb) (hkeep c hcb hne).1 (hkeep c hcb hne).2 hne
          (by omega)
      · rcases List.mem_cons.1 q with q | q
        · subst q
          refine ⟨h4, hev, hs, ?_, ?_, ?_⟩
          · intro _
            exact ⟨hx0, a1, a2⟩
          · intro e
            exact Bool.noConfusion e
          · intro e
            exact absurd e hx0
        · have hcb : c ∈ l1 ++ b :: l2 := List.mem_append_right _ (List.mem_cons_of_mem _ q)
          have hbd := Contig_mem _ _ _ hc2 c q
          have hcs := hR.size_ok hcb
          have hne : c.addr ≠ b.addr := by omega
          exact BlockOK_out (hR.blocks c hcb) (hkeep c hcb hne).1 (hkeep c hcb hne).2 hne
            (by omega)
    · intro j hj
      rw [m4]
      by_cases hji : j = get_class_no b.size
      · subst hji
        rw [Function.update_same, Function.update_same]
        refine ⟨rfl, hx0, ?_, ?_⟩
        · unfold get_pred_ptr
          rw [a3]
          exact decode_zero
        · have e : get_succ_ptr h' b.addr = H := by
            unfold get_succ_ptr
            rw [a4]
            exact decode_encode' H hHr
          rw [e]
          apply DLL_set_prev h h' _ 0 b.addr H (hR.nodup _ hi) (hlinkS _ hi) (hlinkP _ hi) _
            hdl
          intro hH0
          unfold get_pred_ptr
          rw [a5 hH0]
          exact decode_encode' b.addr (Or.inr ⟨by omega, by omega⟩)
      · rw [Function.update_noteq hji, Function.update_noteq hji]
        apply DLL_congr_links h h' _ _ _ _ (hR.lists j hj)
        intro y hy
        refine ⟨hlinkP j hj y hy ?_, hlinkS j hj y hy⟩
        intro e
        rcases hHmem with q | q
        · rw [e] at hy
          rw [q] at hy
          exact DLL_ne_zero h _ _ _ (hR.lists j hj) 0 hy rfl
        · rw [← e] at q
          exact hji (hR.node_class hj hy hi q)
    · intro j hj y hy
      by_cases hji : j = get_class_no b.size
      · subst hji
        rw [Function.update_same] at hy
        rcases List.mem_cons.1 hy with q | q
        · exact ⟨⟨b.addr, b.size, true⟩, by simp, q.symm, rfl, rfl⟩
        · obtain ⟨c, hc, e1, e2, e3⟩ := hR.mem_fl _ hi y q
          refine ⟨c, ?_, e1, e2, e3⟩
          rcases List.mem_append.1 hc with r | r
          · exact List.mem_append_left _ r
          · rcases List.mem_cons.1 r with r | r
            · subst r
              rw [hnf] at e2
              cases e2
            · exact List.mem_append_right _ (List.mem_cons_of_mem _ r)
      · rw [Function.update_noteq hji] at hy
        obtain ⟨c, hc, e1, e2, e3⟩ := hR.mem_fl j hj y hy
        refine ⟨c, ?_, e1, e2, e3⟩
        rcases List.mem_append.1 hc with r | r
        · exact List.mem_append_left _ r
        · rcases List.mem_cons.1 r with r | r
          · subst r
            rw [hnf] at e2
            cases e2
          · exact List.mem_append_right _ (List.mem_cons_of_mem _ r)
    · intro c hc hcf
      have hold : ∀ c', c' ∈ l1 ++ b :: l2 → c'.free = true →
          c'.addr ∈ Function.update fl (get_class_no b.size)
            (b.addr :: fl (get_class_no b.size)) (get_class_no c'.size) := by
        intro c' hc' hf'
        have := hR.fl_mem c' hc' hf'
        by_cases e : get_class_no c'.size = get_class_no b.size
        · rw [e, Function.update_same]
          rw [e] at this
          exact List.mem_cons_of_mem _ this
        · rw [Function.update_noteq e]
          exact this
      rcases List.mem_append.1 hc with q | q
      · exact hold c (List.mem_append_left _ q) hcf
      · rcases List.mem_cons.1 q with q | q
        · subst q
          show b.addr ∈ Function.update fl (get_class_no b.size) _ (get_class_no b.size)
          rw [Function.update_same]
          exact List.mem_cons_self _ _
        · exact hold c (List.mem_append_right _ (List.mem_cons_of_mem _ q)) hcf
    · intro j hj
      by_cases hji : j = get_class_no b.size
      · subst hji
        rw [Function.update_same]
        exact List.nodup_cons.2 ⟨hxn _ hi, hR.nodup _ hi⟩
      · rw [Function.update_noteq hji]
        exact hR.nodup j hj
  · intro y hy hlink
    apply aF y
    · omega
    · omega
    · rcases hHmem with q | q
      · exact Or.inl q
      · obtain ⟨d, hd, e, ef, _⟩ := hR.mem_fl _ hi _ q
        have := hlink d hd ef
        right; omega

end MallocLab


namespace MallocLab

theorem place_nosplit_eq (h : Heap) (x ws t : Nat) (hv : get h x = t ∨ get h x = t + 2 ^ 30)
    (ht : t < 2 ^ 30) (hle : ws ≤ t) (hrem : t - ws ≤ 4) :
    place h x ws = block_mark h x false := by
  unfold place
  have hsz := block_size_of_tag h x t ht hv
  simp only [hsz]
  have e : (t + 2 ^ 64 - ws) % 2 ^ 64 = t - ws := by omega
  rw [e, if_pos hrem]

theorem place_split_eq (h : Heap) (x ws t : Nat) (hv : get h x = t ∨ get h x = t + 2 ^ 30)
    (ht : t < 2 ^ 30) (h4 : 4 ≤ ws) (hle : ws ≤ t) (hrem : 4 < t - ws) :
    place h x ws = add_to_free_list
      (block_mark (init_block (put (put h x ws) (x + 4 * ws - 4) ws) (x + 4 * ws) (t - ws))
        x false) (x + 4 * ws) := by
  unfold place
  have hsz := block_size_of_tag h x t ht hv
  simp only [hsz]
  have e : (t + 2 ^ 64 - ws) % 2 ^ 64 = t - ws := by omega
  have hws : ws < 2 ^ 30 := by omega
  have hws32 : ws < 2 ^ 32 := by omega
  rw [e, if_neg (show ¬ (t - ws ≤ 4) by omega)]
  have e1 : block_footer (put h x ws) x = x + 4 * ws - 4 := by
    unfold block_footer
    rw [block_size_of_tag _ x ws hws (Or.inl (get_put_same_lt _ _ _ hws32))]
  have e2 : block_next (put (put h x ws) (x + 4 * ws - 4) ws) x = x + 4 * ws := by
    unfold block_next
    rw [block_size_of_tag _ x ws hws (Or.inl (by
      rw [get_put_disj _ _ _ _ (by omega), get_put_same_lt _ _ _ hws32]))]
  simp only [e1, e2]

/-- What the memory phase of a split leaves: the front part tagged allocated,
the remainder tagged free with cleared links, nothing written outside the
header of the block and the words from the new footer on. -/
theorem split_mem_spec (h : Heap) (x ws t : Nat) (ht : t < 2 ^ 30) (h4 : 4 ≤ ws)
    (hle : ws ≤ t) (hrem : 4 < t - ws) :
    get (block_mark (init_block (put (put h x ws) (x + 4 * ws - 4) ws) (x + 4 * ws) (t - ws))
        x false) x = ws + 2 ^ 30 ∧
    get (block_mark (init_block (put (put h x ws) (x + 4 * ws - 4) ws) (x + 4 * ws) (t - ws))
        x false) (x + 4 * ws - 4) = ws + 2 ^ 30 ∧
    get (block_mark (init_block (put (put h x ws) (x + 4 * ws - 4) ws) (x + 4 * ws) (t - ws))
        x false) (x + 4 * ws) = t - ws ∧
    get (block_mark (init_block (put (put h x ws) (x + 4 * ws - 4) ws) (x + 4 * ws) (t - ws))
        x false) (x + 4 * ws + 4 * (t - ws) - 4) = t - ws ∧
    SameMeta h (block_mark (init_block (put (put h x ws) (x + 4 * ws - 4) ws) (x + 4 * ws)
        (t - ws)) x false) ∧
    (∀ y, (y < x ∨ x + 4 ≤ y) → (y < x + 4 * ws - 4 ∨ x + 4 * t ≤ y) →
      (block_mark (init_block (put (put h x ws) (x + 4 * ws - 4) ws) (x + 4 * ws) (t - ws))
        x false).mem y = h.mem y) := by
  have hws : ws < 2 ^ 30 := by omega
  have hws32 : ws < 2 ^ 32 := by omega
  have g0 : get (put (put h x ws) (x + 4 * ws - 4) ws) x = ws := by
    rw [get_put_disj _ _ _ _ (by omega), get_put_same_lt _ _ _ hws32]
  have f0 : ∀ y, (y < x ∨ x + 4 ≤ y) → (y < x + 4 * ws - 4 ∨ x + 4 * ws ≤ y) →
      (put (put h x ws) (x + 4 * ws - 4) ws).mem y = h.mem y := by
    intro y y1 y2
    rw [put_mem_out _ _ _ _ (by omega), put_mem_out _ _ _ _ (by omega)]
  have m0 : SameMeta h (put (put h x ws) (x + 4 * ws - 4) ws) :=
    (SameMeta_put _ _ _).trans (SameMeta_put _ _ _)
  generalize put (put h x ws) (x + 4 * ws - 4) ws = h2 at *
  obtain ⟨i1, i2, _, _, i5, i6⟩ := init_block_spec h2 (x + 4 * ws) (t - ws) (by omega) (by omega)
  have g3 : get (init_block h2 (x + 4 * ws) (t - ws)) x = ws := by
    refine Eq.trans ?_ g0
    apply get_congr
    intro y y1 y2
    apply i6 <;> omega
  generalize init_block h2 (x + 4 * ws) (t - ws) = h3 at *
  obtain ⟨b1, b2, b3, b4⟩ := block_mark_spec h3 x ws false hws (by omega) (Or.inl g3)
  simp only [Bool.false_eq_true, if_false] at b1 b2
  generalize block_mark h3 x false = h4 at *
  refine ⟨b1, b2, ?_, ?_, ?_, ?_⟩
  · refine Eq.trans ?_ i1
    apply get_congr
    intro y y1 y2
    apply b4 <;> omega
  · refine Eq.trans ?_ i2
    apply get_congr
    intro y y1 y2
    apply b4 <;> omega
  · exact (m0.trans i5).trans b3
  · intro y y1 y2
    rw [b4 y (by omega) (by omega), i6 y (by omega) (by omega), f0 y (by omega) (by omega)]

end MallocLab


namespace MallocLab

theorem R_place_nosplit {h : Heap} {l1 l2 : List Blk} {fl : Nat → List Nat} {b : Blk}
    {ws : Nat} (hR : R h (l1 ++ b :: l2) fl b.addr) (hnf : b.free = false)
    (hle : ws ≤ b.size) (hrem : b.size - ws ≤ 4) :
    R (place h b.addr ws) (l1 ++ b :: l2) fl 0 ∧
    (place h b.addr ws).brk = h.brk ∧
    (∀ y, (y < b.addr ∨ b.addr + 4 ≤ y) →
      (y < b.addr + 4 * ws - 4 ∨ b.addr + 4 * b.size ≤ y) →
      (place h b.addr ws).mem y = h.mem y) := by
  have hb : b ∈ l1 ++ b :: l2 := by simp
  obtain ⟨h4, hev, hs⟩ := hR.size_ok hb
  have hv := hR.hdr hb
  rw [place_nosplit_eq h b.addr ws b.size hv hs hle hrem]
  obtain ⟨b1, b2, b3, b4⟩ := block_mark_spec h b.addr b.size false hs (by omega) hv
  simp only [Bool.false_eq_true, if_false] at b1 b2
  obtain ⟨hc1, hc2⟩ := Contig_split _ _ _ _ _ hR.contig
  have hx0 : b.addr ≠ 0 := by have := hR.range hb; omega
  have e : l1 ++ b :: l2 = l1 ++ [b] ++ l2 := by simp
  refine ⟨?_, b3.2.1, ?_⟩
  · rw [e]
    rw [e] at hR
    apply R_replace hR hc1 (show Contig b.addr [b] (b.addr + 4 * b.size) from ⟨rfl, rfl⟩) hc2 b3
    · intro y hy
      apply b4 <;> omega
    · intro c hc
      rw [List.mem_singleton.1 hc]
      exact hnf
    · exact ⟨rfl, rfl⟩
    · intro c hc
      rw [List.mem_singleton.1 hc]
      refine ⟨⟨h4, hev, hs, ?_, ?_, ?_⟩, hnf⟩
      · intro hf
        rw [hnf] at hf
        cases hf
      · intro _ _
        exact ⟨b1, b2⟩
      · intro e0
        exact absurd e0 hx0
    · right; omega
    · left; rfl
  · intro y y1 y2
    apply b4 <;> omega

theorem R_place_split {h : Heap} {l1 l2 : List Blk} {fl : Nat → List Nat} {b : Blk}
    {ws : Nat} (hR : R h (l1 ++ b :: l2) fl b.addr) (hnf : b.free = false)
    (h4w : 4 ≤ ws) (hevw : ws % 2 = 0) (hle : ws ≤ b.size) (hrem : 4 < b.size - ws) :
    R (place h b.addr ws)
      (l1 ++ ⟨b.addr, ws, false⟩ :: ⟨b.addr + 4 * ws, b.size - ws, true⟩ :: l2)
      (Function.update fl (get_class_no (b.size - ws))
        ((b.addr + 4 * ws) :: fl (get_class_no (b.size - ws)))) 0 ∧
    (place h b.addr ws).brk = h.brk ∧
    (∀ y, (y < b.addr ∨ b.addr + 4 ≤ y) →
      (y < b.addr + 4 * ws - 4 ∨ b.addr + 4 * b.size ≤ y) →
      (∀ c ∈ l1 ++ b :: l2, c.free = true → ¬ (c.addr + 4 ≤ y ∧ y < c.addr + 8)) →
      (place h b.addr ws).mem y = h.mem y) := by
  have hb : b ∈ l1 ++ b :: l2 := by simp
  obtain ⟨h4, hev, hs⟩ := hR.size_ok hb
  have hv := hR.hdr hb
  rw [place_split_eq h b.addr ws b.size hv hs h4w hle hrem]
  obtain ⟨s1, s2, s3, s4, s5, s6⟩ := split_mem_spec h b.addr ws b.size hs h4w hle hrem
  generalize block_mark (init_block (put (put h b.addr ws) (b.addr + 4 * ws - 4) ws)
    (b.addr + 4 * ws) (b.size - ws)) b.addr false = hm at *
  obtain ⟨hc1, hc2⟩ := Contig_split _ _ _ _ _ hR.contig
  have hx0 : b.addr ≠ 0 := by have := hR.range hb; omega
  have e : l1 ++ b :: l2 = l1 ++ [b] ++ l2 := by simp
  have hRm : R hm (l1 ++ [⟨b.addr, ws, false⟩, ⟨b.addr + 4 * ws, b.size - ws, false⟩] ++ l2) fl
      (b.addr + 4 * ws) := by
    have hR' := hR
    rw [e] at hR'
    apply R_replace hR' hc1 (show Contig b.addr [b] (b.addr + 4 * b.size) from ⟨rfl, rfl⟩) hc2 s5
    · intro y hy
      apply s6 <;> omega
    · intro c hc
      rw [List.mem_singleton.1 hc]
      exact hnf
    · refine ⟨rfl, rfl, ?_⟩
      show b.addr + 4 * ws + 4 * (b.size - ws) = b.addr + 4 * b.size
      omega
    · intro c hc
      rcases List.mem_cons.1 hc with q | q
      · subst q
        refine ⟨⟨h4w, hevw, (by dsimp only; omega), ?_, ?_, ?_⟩, rfl⟩
        · intro hf
          exact Bool.noConfusion hf
        · intro _ _
          exact ⟨s1, s2⟩
        · intro e0
          exact Or.inr s1
      · rw [List.mem_singleton.1 q]
        refine ⟨⟨(by dsimp only; omega), (by dsimp only; omega), (by dsimp only; omega), ?_, ?_, ?_⟩, rfl⟩
        · intro hf
          exact Bool.noConfusion hf
        · intro _ hne
          exact absurd rfl hne
        · intro _
          exact Or.inl s3
    · right; omega
    · right
      show b.addr ≤ b.addr + 4 * ws ∧ b.addr + 4 * ws < b.addr + 4 * b.size
      omega
  have e2 : l1 ++ [⟨b.addr, ws, false⟩, ⟨b.addr + 4 * ws, b.size - ws, false⟩] ++ l2
      = (l1 ++ [⟨b.addr, ws, false⟩]) ++ (⟨b.addr + 4 * ws, b.size - ws, false⟩ : Blk) :: l2 := by
    simp
  rw [e2] at hRm
  obtain ⟨r1, r2, r3⟩ := R_add_to_free_list
    (b := (⟨b.addr + 4 * ws, b.size - ws, false⟩ : Blk)) hRm rfl
  have e3 : (l1 ++ [⟨b.addr, ws, false⟩]) ++ (⟨b.addr + 4 * ws, b.size - ws, true⟩ : Blk) :: l2
      = l1 ++ ⟨b.addr, ws, false⟩ :: ⟨b.addr + 4 * ws, b.size - ws, true⟩ :: l2 := by
    simp
  refine ⟨?_, ?_, ?_⟩
  · rw [← e3]
    exact r1
  · rw [r2]
    exact s5.2.1
  · intro y y1 y2 y3
    by_cases hin : y < b.addr ∨ b.addr + 4 * b.size ≤ y
    · rw [r3 y (by
          show y < b.addr + 4 * ws ∨ b.addr + 4 * ws + 4 * (b.size - ws) ≤ y
          omega)]
      · apply s6 <;> omega
      · intro c hc hcf
        apply y3 c _ hcf
        have : c ∈ l1 ∨ c = ⟨b.addr, ws, false⟩ ∨ c = ⟨b.addr + 4 * ws, b.size - ws, false⟩ ∨
            c ∈ l2 := by
          simpa [or_assoc] using hc
        rcases this with q | q | q | q
        · exact List.mem_append_left _ q
        · rw [q] at hcf
          exact Bool.noConfusion hcf
        · rw [q] at hcf
          exact Bool.noConfusion hcf
        · exact List.mem_append_right _ (List.mem_cons_of_mem _ q)
    · rw [r3 y (by
          show y < b.addr + 4 * ws ∨ b.addr + 4 * ws + 4 * (b.size - ws) ≤ y
          omega)]
      · apply s6 <;> omega
      · intro c hc hcf
        have : c ∈ l1 ∨ c = ⟨b.addr, ws, false⟩ ∨ c = ⟨b.addr + 4 * ws, b.size - ws, false⟩ ∨
            c ∈ l2 := by
          simpa [or_assoc] using hc
        rcases this with q | q | q | q
        · have := Contig_mem _ _ _ hc1 c q
          have := hR.size_ok (show c ∈ l1 ++ b :: l2 from List.mem_append_left _ q)
          omega
        · rw [q] at hcf
          exact Bool.noConfusion hcf
        · rw [q] at hcf
          exact Bool.noConfusion hcf
        · have := Contig_mem _ _ _ hc2 c q
          omega

end MallocLab


namespace MallocLab

/-! ## The search -/

theorem find_in_list_spec (h : Heap) (size : Nat) (l : List Nat) (prev p fuel : Nat)
    (hd : DLL h prev p l) (hf : l.length < fuel) :
    ∃ r, find_in_list h size fuel p = some r ∧
      ((r = 0 ∧ ∀ x ∈ l, block_size h x < size) ∨ (r ∈ l ∧ size ≤ block_size h r)) := by
  induction l generalizing prev p fuel with
  | nil =>
    have hp : p = 0 := hd
    cases fuel with
    | zero => cases hf
    | succ f =>
      refine ⟨0, ?_, Or.inl ⟨rfl, fun x hx => by cases hx⟩⟩
      simp [find_in_list, hp]
  | cons y ys ih =>
    obtain ⟨h1, h2, _, h4⟩ := hd
    cases fuel with
    | zero => cases hf
    | succ f =>
      have hp0 : ¬ (p = NULL) := by rw [h1]; exact h2
      by_cases hfit : block_size h y ≥ size
      · refine ⟨y, ?_, Or.inr ⟨List.mem_cons_self _ _, hfit⟩⟩
        rw [find_in_list, if_neg hp0, h1, if_pos hfit]
      · obtain ⟨r, hr, hcase⟩ := ih y (get_succ_ptr h y) f h4 (by simpa using hf)
        refine ⟨r, ?_, ?_⟩
        · rw [find_in_list, if_neg hp0, h1, if_neg hfit]
          exact hr
        · rcases hcase with ⟨r0, hall⟩ | ⟨rm, rfit⟩
          · left
            refine ⟨r0, ?_⟩
            intro x hx
            rcases List.mem_cons.1 hx with e | e
            · rw [e]; omega
            · exact hall x e
          · right
            exact ⟨List.mem_cons_of_mem _ rm, rfit⟩

theorem find_from_class_spec (h : Heap) (size fuel : Nat) (fl : Nat → List Nat) (n i : Nat)
    (hd : ∀ j, i ≤ j → j < i + n → DLL h NULL (h.seg j) (fl j) ∧ (fl j).length < fuel) :
    ∃ r, find_from_class fuel h size n i = some r ∧
      ((r = 0 ∧ ∀ j, i ≤ j → j < i + n → ∀ x ∈ fl j, block_size h x < size) ∨
       (r ≠ 0 ∧ ∃ j, i ≤ j ∧ j < i + n ∧ r ∈ fl j ∧ size ≤ block_size h r)) := by
  induction n generalizing i with
  | zero =>
    refine ⟨0, rfl, Or.inl ⟨rfl, ?_⟩⟩
    intro j h1 h2
    omega
  | succ n ih =>
    obtain ⟨hdl, hlen⟩ := hd i (le_refl _) (by omega)
    obtain ⟨r, hr, hcase⟩ := find_in_list_spec h size (fl i) NULL (h.seg i) fuel hdl hlen
    rcases hcase with ⟨r0, hall⟩ | ⟨rm, rfit⟩
    · obtain ⟨r', hr', hcase'⟩ := ih (i + 1) (fun j h1 h2 => hd j (by omega) (by omega))
      refine ⟨r', ?_, ?_⟩
      · rw [find_from_class, hr]
        simp only [r0, NULL, ne_eq, not_true_eq_false, if_false]
        exact hr'
      · rcases hcase' with ⟨q0, qall⟩ | ⟨q0, j, j1, j2, j3, j4⟩
        · left
          refine ⟨q0, ?_⟩
          intro j j1 j2
          by_cases e : j = i
          · rw [e]; exact hall
          · exact qall j (by omega) (by omega)
        · right
          exact ⟨q0, j, by omega, by omega, j3, j4⟩
    · have hr0 : r ≠ 0 := DLL_ne_zero h _ _ _ hdl r rm
      refine ⟨r, ?_, Or.inr ⟨hr0, i, le_refl _, by omega, rm, rfit⟩⟩
      rw [find_from_class, hr]
      simp only [NULL, ne_eq, hr0, not_false_eq_true, if_true]

theorem lengths_bounded (fl : Nat → List Nat) (n : Nat) :
    ∃ N, ∀ j, j < n → (fl j).length < N := by
  induction n with
  | zero => exact ⟨0, fun j hj => by omega⟩
  | succ n ih =>
    obtain ⟨N, hN⟩ := ih
    refine ⟨max N ((fl n).length + 1), ?_⟩
    intro j hj
    by_cases e : j = n
    · rw [e]
      exact lt_of_lt_of_le (Nat.lt_succ_self _) (le_max_right _ _)
    · exact lt_of_lt_of_le (hN j (by omega)) (le_max_left _ _)

/-- On a represented heap the search returns: `NULL` when no block of the lists
searched fits, else a listed block that fits. -/
theorem find_first_fit_spec {h : Heap} {bs : List Blk} {fl : Nat → List Nat} {hole : Nat}
    (hR : R h bs fl hole) (size : Nat) :
    ∃ N, ∀ fuel, N ≤ fuel → ∃ r, find_first_fit fuel h size = some r ∧
      ((r = 0 ∧ ∀ j, get_class_no size ≤ j → j < 12 → ∀ x ∈ fl j, block_size h x < size) ∨
       (r ≠ 0 ∧ ∃ b ∈ bs, b.addr = r ∧ b.free = true ∧ size ≤ b.size)) := by
  obtain ⟨N, hN⟩ := lengths_bounded fl 12
  refine ⟨N, ?_⟩
  intro fuel hfuel
  have hc := get_class_no_lt size
  obtain ⟨r, hr, hcase⟩ := find_from_class_spec h size fuel fl (12 - get_class_no size)
    (get_class_no size) (fun j h1 h2 =>
      ⟨hR.lists j (by omega), lt_of_lt_of_le (hN j (by omega)) hfuel⟩)
  refine ⟨r, hr, ?_⟩
  rcases hcase with ⟨r0, hall⟩ | ⟨r0, j, j1, j2, j3, j4⟩
  · left
    exact ⟨r0, fun j h1 h2 => hall j h1 (by omega)⟩
  · right
    obtain ⟨b, hb, e1, e2, _⟩ := hR.mem_fl j (by omega) r j3
    refine ⟨r0, b, hb, e1, e2, ?_⟩
    rw [← e1, hR.block_size hb] at j4
    exact j4

end MallocLab


namespace MallocLab

/-! ## Growing the heap -/

theorem mem_sbrk_fail (h : Heap) (incr : Nat) (hf : h.brk + incr > h.max) :
    mem_sbrk h incr = (MINUS_ONE, h) := by
  unfold mem_sbrk
  rw [if_pos hf]

theorem mem_sbrk_ok (h : Heap) (incr : Nat) (hf : h.brk + incr ≤ h.max) :
    mem_sbrk h incr = (h.brk, { h with brk := h.brk + incr }) := by
  unfold mem_sbrk
  rw [if_neg (show ¬ (h.brk + incr > h.max) by omega)]

theorem extend_heap_fail (h : Heap) (words : Nat) (hev : words % 2 = 0)
    (hw : words * 4 < 2 ^ 64) (hfail : h.brk + 4 * words > h.max) :
    extend_heap h words = (NULL, h) := by
  unfold extend_heap
  have e1 : (if words % 2 ≠ 0 then words + 1 else words) = words := by
    rw [if_neg (show ¬ (words % 2 ≠ 0) by omega)]
  have e2 : words * WSIZE % 2 ^ 64 = 4 * words := by
    show words * 4 % 2 ^ 64 = 4 * words
    omega
  simp only [e1, e2, mem_sbrk_fail h (4 * words) hfail, if_true]

theorem extend_heap_ok_eq (h : Heap) (words : Nat) (hev : words % 2 = 0) (h4 : 4 ≤ words)
    (hs : words < 2 ^ 30) (hok : h.brk + 4 * words ≤ h.max) (hbrk : h.brk < 2 ^ 64 - 1)
    (hb4 : 4 ≤ h.brk) :
    extend_heap h words =
      (h.brk - 4, put (init_block { h with brk := h.brk + 4 * words } (h.brk - 4) words)
        (h.brk + 4 * words - 4) (2 ^ 30)) := by
  unfold extend_heap
  have e1 : (if words % 2 ≠ 0 then words + 1 else words) = words := by
    rw [if_neg (show ¬ (words % 2 ≠ 0) by omega)]
  have e2 : words * WSIZE % 2 ^ 64 = 4 * words := by
    show words * 4 % 2 ^ 64 = 4 * words
    omega
  have e3 : ¬ (h.brk = MINUS_ONE) := by
    show ¬ (h.brk = 2 ^ 64 - 1)
    omega
  have e4 : block_next (init_block { h with brk := h.brk + 4 * words } (h.brk - 4) words)
      (h.brk - 4) = h.brk + 4 * words - 4 := by
    unfold block_next
    rw [block_size_of_tag _ _ words hs (Or.inl (init_block_spec _ _ _ h4 hs).1)]
    omega
  simp only [e1, e2, mem_sbrk_ok h (4 * words) hok, e3, if_false, block_header, PACK_0_1, e4]

/-- A successful `extend_heap`: a new block in transit starts at the old
epilogue word, a new epilogue ends the heap, and nothing below the old epilogue
word is written. -/
theorem R_extend {h : Heap} {bs : List Blk} {fl : Nat → List Nat} {words : Nat}
    (hR : R h bs fl 0) (hev : words % 2 = 0) (h4 : 4 ≤ words)
    (hok : h.brk + 4 * words ≤ h.max) :
    (extend_heap h words).1 = h.brk - 4 ∧
    R (extend_heap h words).2 (bs ++ [⟨h.brk - 4, words, false⟩]) fl (h.brk - 4) ∧
    (extend_heap h words).2.brk = h.brk + 4 * words ∧
    (∀ y, (y < h.brk - 4 ∨ h.brk + 4 * words ≤ y) →
      (extend_heap h words).2.mem y = h.mem y) := by
  have hbg := hR.brk_ge
  have hb1 := hR.base_le
  have hb2 := hR.lo_le
  have hb3 := hR.brk_le
  have hb4 := hR.max_le
  have hs : words < 2 ^ 30 := by omega
  rw [extend_heap_ok_eq h words hev h4 hs hok (by omega) (by omega)]
  obtain ⟨i1, i2, _, _, ⟨m1, m2, m3, m4, m5⟩, i6⟩ :=
    init_block_spec { h with brk := h.brk + 4 * words } (h.brk - 4) words h4 hs
  have mm : ∀ y, ({ h with brk := h.brk + 4 * words } : Heap).mem y = h.mem y := fun _ => rfl
  have k1 : ({ h with brk := h.brk + 4 * words } : Heap).lo = h.lo := rfl
  have k2 : ({ h with brk := h.brk + 4 * words } : Heap).brk = h.brk + 4 * words := rfl
  have k3 : ({ h with brk := h.brk + 4 * words } : Heap).max = h.max := rfl
  have k4 : ({ h with brk := h.brk + 4 * words } : Heap).seg = h.seg := rfl
  have k5 : ({ h with brk := h.brk + 4 * words } : Heap).heap_listp = h.heap_listp := rfl
  generalize ({ h with brk := h.brk + 4 * words } : Heap) = h0 at *
  generalize init_block h0 (h.brk - 4) words = h1 at *
  have hmem : ∀ y, (y < h.brk - 4 ∨ h.brk + 4 * words ≤ y) →
      (put h1 (h.brk + 4 * words - 4) (2 ^ 30)).mem y = h.mem y := by
    intro y hy
    rw [put_mem_out _ _ _ _ (by omega), i6 y (by omega) (by omega), mm]
  have hw : ∀ q, q + 4 ≤ h.brk - 4 →
      get (put h1 (h.brk + 4 * words - 4) (2 ^ 30)) q = get h q := by
    intro q hq
    apply get_congr
    intro y y1 y2
    exact hmem y (Or.inl (by omega))
  have hnew1 : get (put h1 (h.brk + 4 * words - 4) (2 ^ 30)) (h.brk - 4) = words := by
    rw [get_put_disj _ _ _ _ (by omega)]
    exact i1
  refine ⟨rfl, ?_, ?_, hmem⟩
  · refine
    { base_le := by rw [put_lo, m1, k1]; exact hR.base_le
      lo_le := by rw [put_lo, put_heap_listp, m1, m5, k1, k5]; exact hR.lo_le
      align8 := by rw [put_heap_listp, m5, k5]; exact hR.align8
      brk_le := by rw [put_brk, put_max, m2, m3, k2, k3]; exact hok
      max_le := by rw [put_max, m3, k3]; exact hR.max_le
      pro_hdr := ?_
      pro_ftr := ?_
      epi := ?_
      brk_ge := by rw [put_brk, put_heap_listp, m2, m5, k2, k5]; omega
      contig := ?_
      blocks := ?_
      lists := ?_
      mem_fl := ?_
      fl_mem := ?_
      nodup := hR.nodup }
    · rw [put_heap_listp, m5, k5, hw _ (by omega)]
      exact hR.pro_hdr
    · rw [put_heap_listp, m5, k5, hw _ (by omega)]
      exact hR.pro_ftr
    · rw [put_brk, m2, k2, get_put_same_lt _ _ _ (by decide)]
    · rw [put_brk, put_heap_listp, m2, m5, k2, k5]
      refine (Contig_append _ _ _ _).2 ⟨h.brk - 4, hR.contig, rfl, ?_⟩
      show h.brk - 4 + 4 * words = h.brk + 4 * words - 4
      omega
    · intro c hc
      rcases List.mem_append.1 hc with q | q
      · have hbd := hR.bounds q
        have hcs := hR.size_ok q
        exact BlockOK_out (hR.blocks c q) (hw _ (by omega)) (hw _ (by omega)) (by omega)
          (by omega)
      · rw [List.mem_singleton.1 q]
        refine ⟨h4, hev, hs, ?_, ?_, ?_⟩
        · intro hf
          exact Bool.noConfusion hf
        · intro _ hne
          exact absurd rfl hne
        · intro _
          exact Or.inl hnew1
    · intro j hj
      rw [put_seg, m4, k4]
      apply DLL_congr h _ _ _ _ _ (hR.lists j hj)
      intro x hx
      obtain ⟨d, hd, e, _, _⟩ := hR.mem_fl j hj x hx
      have hbd := hR.bounds hd
      have hcs := hR.size_ok hd
      exact ⟨hw _ (by omega), hw _ (by omega)⟩
    · intro j hj x hx
      obtain ⟨d, hd, e1, e2, e3⟩ := hR.mem_fl j hj x hx
      exact ⟨d, List.mem_append_left _ hd, e1, e2, e3⟩
    · intro c hc hcf
      rcases List.mem_append.1 hc with q | q
      · exact hR.fl_mem c q hcf
      · rw [List.mem_singleton.1 q] at hcf
        exact Bool.noConfusion hcf
  · rw [put_brk, m2, k2]

end MallocLab


namespace MallocLab

/-! ## The size adjustment -/

theorem adjust_eq (size : Nat) :
    adjust size = (if size > 8 then 8 * ((size + 15) % 2 ^ 64 / 8) % 2 ^ 64 else 16) / 4 := by
  unfold adjust
  rfl

theorem adjust_spec (size : Nat) (h1 : 1 ≤ size) (h2 : size + 15 < 2 ^ 64) :
    4 ≤ adjust size ∧ adjust size % 2 = 0 ∧ size + 8 ≤ 4 * adjust size ∧
    4 * adjust size < size + 16 := by
  rw [adjust_eq]
  split <;> omega

theorem adjust_lt (size : Nat) : adjust size * 4 < 2 ^ 64 := by
  rw [adjust_eq]
  split <;> omega

/-- A block on no list may be taken as the block in transit. -/
theorem R_open {h : Heap} {bs : List Blk} {fl : Nat → List Nat} (hR : R h bs fl 0)
    {b : Blk} (hb : b ∈ bs) (hnf : b.free = false) : R h bs fl b.addr := by
  refine
    { base_le := hR.base_le
      lo_le := hR.lo_le
      align8 := hR.align8
      brk_le := hR.brk_le
      max_le := hR.max_le
      pro_hdr := hR.pro_hdr
      pro_ftr := hR.pro_ftr
      epi := hR.epi
      brk_ge := hR.brk_ge
      contig := hR.contig
      blocks := ?_
      lists := hR.lists
      mem_fl := hR.mem_fl
      fl_mem := hR.fl_mem
      nodup := hR.nodup }
  intro c hc
  obtain ⟨c1, c2, c3, cf, ca, _⟩ := hR.blocks c hc
  have hc0 : c.addr ≠ 0 := by have := hR.range hc; omega
  refine ⟨c1, c2, c3, ?_, ?_, ?_⟩
  · intro hf
    refine ⟨?_, (cf hf).2⟩
    intro e
    have := hR.addr_inj hc hb e
    rw [this, hnf] at hf
    exact Bool.noConfusion hf
  · intro hf _
    exact ca hf hc0
  · intro _
    exact hR.hdr hc

end MallocLab


namespace MallocLab

theorem CHUNKSIZE_eq : CHUNKSIZE = 64 := by decide

theorem get_class_no_eq_0 (s : Nat) (h2 : s < 4) : get_class_no s = 0 := by
  unfold get_class_no
  rw [if_pos h2]

theorem get_class_no_eq_1 (s : Nat) (h1 : 4 ≤ s) (h2 : s < 8) : get_class_no s = 1 := by
  unfold get_class_no
  rw [if_neg (show ¬ (s < 4) by omega), if_pos h2]

theorem get_class_no_eq_2 (s : Nat) (h1 : 8 ≤ s) (h2 : s < 16) : get_class_no s = 2 := by
  unfold get_class_no
  rw [if_neg (show ¬ (s < 4) by omega), if_neg (show ¬ (s < 8) by omega), if_pos h2]

theorem get_class_no_eq_3 (s : Nat) (h1 : 16 ≤ s) (h2 : s < 32) : get_class_no s = 3 := by
  unfold get_class_no
  rw [if_neg (show ¬ (s < 4) by omega), if_neg (show ¬ (s < 8) by omega), if_neg (show ¬ (s < 16) by omega), if_pos h2]

theorem get_class_no_eq_4 (s : Nat) (h1 : 32 ≤ s) (h2 : s < 64) : get_class_no s = 4 := by
  unfold get_class_no
  rw [if_neg (show ¬ (s < 4) by omega), if_neg (show ¬ (s < 8) by omega), if_neg (show ¬ (s < 16) by omega), if_neg (show ¬ (s < 32) by omega), if_pos h2]

theorem get_class_no_eq_5 (s : Nat) (h1 : 64 ≤ s) (h2 : s < 128) : get_class_no s = 5 := by
  unfold get_class_no
  rw [if_neg (show ¬ (s < 4) by omega), if_neg (show ¬ (s < 8) by omega), if_neg (show ¬ (s < 16) by omega), if_neg (show ¬ (s < 32) by omega), if_neg (show ¬ (s < 64) by omega), if_pos h2]

theorem get_class_no_eq_6 (s : Nat) (h1 : 128 ≤ s) (h2 : s < 256) : get_class_no s = 6 := by
  unfold get_class_no
  rw [if_neg (show ¬ (s < 4) by omega), if_neg (show ¬ (s < 8) by omega), if_neg (show ¬ (s < 16) by omega), if_neg (show ¬ (s < 32) by omega), if_neg (show ¬ (s < 64) by omega), if_neg (show ¬ (s < 128) by omega), if_pos h2]

theorem get_class_no_eq_7 (s : Nat) (h1 : 256 ≤ s) (h2 : s < 512) : get_class_no s = 7 := by
  unfold get_class_no
  rw [if_neg (show ¬ (s < 4) by omega), if_neg (show ¬ (s < 8) by omega), if_neg (show ¬ (s < 16) by omega), if_neg (show ¬ (s < 32) by omega), if_neg (show ¬ (s < 64) by omega), if_neg (show ¬ (s < 128) by omega), if_neg (show ¬ (s < 256) by omega), if_pos h2]

theorem get_class_no_eq_8 (s : Nat) (h1 : 512 ≤ s) (h2 : s < 1024) : get_class_no s = 8 := by
  unfold get_class_no
  rw [if_neg (show ¬ (s < 4) by omega), if_neg (show ¬ (s < 8) by omega), if_neg (show ¬ (s < 16) by omega), if_neg (show ¬ (s < 32) by omega), if_neg (show ¬ (s < 64) by omega), if_neg (show ¬ (s < 128) by omega), if_neg (show ¬ (s < 256) by omega), if_neg (show ¬ (s < 512) by omega), if_pos h2]

theorem get_class_no_eq_9 (s : Nat) (h1 : 1024 ≤ s) (h2 : s < 2048) : get_class_no s = 9 := by
  unfold get_class_no
  rw [if_neg (show ¬ (s < 4) by omega), if_neg (show ¬ (s < 8) by omega), if_neg (show ¬ (s < 16) by omega), if_neg (show ¬ (s < 32) by omega), if_neg (show ¬ (s < 64) by omega), if_neg (show ¬ (s < 128) by omega), if_neg (show ¬ (s < 256) by omega), if_neg (show ¬ (s < 512) by omega), if_neg (show ¬ (s < 1024) by omega), if_pos h2]

theorem get_class_no_eq_10 (s : Nat) (h1 : 2048 ≤ s) (h2 : s < 4096) : get_class_no s = 10 := by
  unfold get_class_no
  rw [if_neg (show ¬ (s < 4) by omega), if_neg (show ¬ (s < 8) by omega), if_neg (show ¬ (s < 16) by omega), if_neg (show ¬ (s < 32) by omega), if_neg (show ¬ (s < 64) by omega), if_neg (show ¬ (s < 128) by omega), if_neg (show ¬ (s < 256) by omega), if_neg (show ¬ (s < 512) by omega), if_neg (show ¬ (s < 1024) by omega), if_neg (show ¬ (s < 2048) by omega), if_pos h2]

theorem get_class_no_eq_11 (s : Nat) (h1 : 4096 ≤ s) : get_class_no s = 11 := by
  unfold get_class_no
  rw [if_neg (show ¬ (s < 4) by omega), if_neg (show ¬ (s < 8) by omega), if_neg (show ¬ (s < 16) by omega), if_neg (show ¬ (s < 32) by omega), if_neg (show ¬ (s < 64) by omega), if_neg (show ¬ (s < 128) by omega), if_neg (show ¬ (s < 256) by omega), if_neg (show ¬ (s < 512) by omega), if_neg (show ¬ (s < 1024) by omega), if_neg (show ¬ (s < 2048) by omega), if_neg (show ¬ (s < 4096) by omega)]

theorem get_class_no_cases (s : Nat) :
    (s < 4 ∧ get_class_no s = 0) ∨
    (4 ≤ s ∧ s < 8 ∧ get_class_no s = 1) ∨
    (8 ≤ s ∧ s < 16 ∧ get_class_no s = 2) ∨
    (16 ≤ s ∧ s < 32 ∧ get_class_no s = 3) ∨
    (32 ≤ s ∧ s < 64 ∧ get_class_no s = 4) ∨
    (64 ≤ s ∧ s < 128 ∧ get_class_no s = 5) ∨
    (128 ≤ s ∧ s < 256 ∧ get_class_no s = 6) ∨
    (256 ≤ s ∧ s < 512 ∧ get_class_no s = 7) ∨
    (512 ≤ s ∧ s < 1024 ∧ get_class_no s = 8) ∨
    (1024 ≤ s ∧ s < 2048 ∧ get_class_no s = 9) ∨
    (2048 ≤ s ∧ s < 4096 ∧ get_class_no s = 10) ∨
    (4096 ≤ s ∧ get_class_no s = 11) := by
  by_cases h0 : s < 4
  · exact Or.inl (⟨h0, get_class_no_eq_0 s h0⟩)
  by_cases h1 : s < 8
  · exact Or.inr (Or.inl (⟨by omega, h1, get_class_no_eq_1 s (by omega) h1⟩))
  by_cases h2 : s < 16
  · exact Or.inr (Or.inr (Or.inl (⟨by omega, h2, get_class_no_eq_2 s (by omega) h2⟩)))
  by_cases h3 : s < 32
  · exact Or.inr (Or.inr (Or.inr (Or.inl (⟨by omega, h3, get_class_no_eq_3 s (by omega) h3⟩))))
  by_cases h4 : s < 64
  · exact Or.inr (Or.inr (Or.inr (Or.inr (Or.inl (⟨by omega, h4, get_class_no_eq_4 s (by omega) h4⟩)))))
  by_cases h5 : s < 128
  · exact Or.inr (Or.inr (Or.inr (Or.inr (Or.inr (Or.inl (⟨by omega, h5, get_class_no_eq_5 s (by omega) h5⟩))))))
  by_cases h6 : s < 256
  · exact Or.inr (Or.inr (Or.inr (Or.inr (Or.inr (Or.inr (Or.inl (⟨by omega, h6, get_class_no_eq_6 s (by omega) h6⟩)))))))
  by_cases h7 : s < 512
  · exact Or.inr (Or.inr (Or.inr (Or.inr (Or.inr (Or.inr (Or.inr (Or.inl (⟨by omega, h7, get_class_no_eq_7 s (by omega) h7⟩))))))))
  by_cases h8 : s < 1024
  · exact Or.inr (Or.inr (Or.inr (Or.inr (Or.inr (Or.inr (Or.inr (Or.inr (Or.inl (⟨by omega, h8, get_class_no_eq_8 s (by omega) h8⟩)))))))))
  by_cases h9 : s < 2048
  · exact Or.inr (Or.inr (Or.inr (Or.inr (Or.inr (Or.inr (Or.inr (Or.inr (Or.inr (Or.inl (⟨by omega, h9, get_class_no_eq_9 s (by omega) h9⟩))))))))))
  by_cases h10 : s < 4096
  · exact Or.inr (Or.inr (Or.inr (Or.inr (Or.inr (Or.inr (Or.inr (Or.inr (Or.inr (Or.inr (Or.inl (⟨by omega, h10, get_class_no_eq_10 s (by omega) h10⟩)))))))))))
  exact Or.inr (Or.inr (Or.inr (Or.inr (Or.inr (Or.inr (Or.inr (Or.inr (Or.inr (Or.inr (Or.inr (⟨by omega, get_class_no_eq_11 s (by omega)⟩)))))))))))

theorem get_class_no_mono (s1 s2 : Nat) (h : s1 ≤ s2) : get_class_no s1 ≤ get_class_no s2 := by
  have a := get_class_no_cases s1
  have b := get_class_no_cases s2
  generalize get_class_no s1 = c1 at *
  generalize get_class_no s2 = c2 at *
  omega

/-- A free block lies inside the range `InFree` speaks of. -/
theorem InFree_of_mem {bs : List Blk} {b : Blk} (hb : b ∈ bs) (hf : b.free = true) {y : Nat}
    (h1 : b.addr ≤ y) (h2 : y < b.addr + 4 * b.size) : InFree bs y :=
  ⟨b, hb, hf, h1, h2⟩

theorem not_link_of_not_InFree {h : Heap} {bs : List Blk} {fl : Nat → List Nat} {hole : Nat}
    (hR : R h bs fl hole) {y : Nat} (hy : ¬ InFree bs y) :
    ∀ c ∈ bs, c.free = true → ¬ (c.addr + 4 ≤ y ∧ y < c.addr + 12) := by
  intro c hc hf hin
  have := hR.size_ok hc
  exact hy ⟨c, hc, hf, by omega, by omega⟩

/-- The fit path of `malloc`: unlink a listed block, then place. -/
theorem malloc_fit {h : Heap} {l1 l2 : List Blk} {fl : Nat → List Nat} {b : Blk} {ws : Nat}
    (hR : R h (l1 ++ b :: l2) fl 0) (hf : b.free = true) (h4 : 4 ≤ ws) (hev : ws % 2 = 0)
    (hle : ws ≤ b.size) :
    ∃ bs' fl' s', R (place (delete_block h b.addr) b.addr ws) bs' fl' 0 ∧
      (⟨b.addr, s', false⟩ : Blk) ∈ bs' ∧ ws ≤ s' ∧ s' ≤ b.size ∧
      (∀ c ∈ l1 ++ b :: l2, c.free = false → c ∈ bs') ∧
      (place (delete_block h b.addr) b.addr ws).brk = h.brk ∧
      (∀ y, ¬ InFree (l1 ++ b :: l2) y →
        (place (delete_block h b.addr) b.addr ws).mem y = h.mem y) := by
  have hb : b ∈ l1 ++ b :: l2 := by simp
  obtain ⟨d1, d2, d3⟩ := R_delete_block hR hf
  have hb' : (⟨b.addr, b.size, false⟩ : Blk) ∈ l1 ++ ⟨b.addr, b.size, false⟩ :: l2 := by simp
  have hRo := R_open d1 hb' rfl
  have hkept : ∀ c ∈ l1 ++ b :: l2, c.free = false → c ∈ l1 ∨ c ∈ l2 := by
    intro c hc hcf
    rcases List.mem_append.1 hc with q | q
    · exact Or.inl q
    · rcases List.mem_cons.1 q with q | q
      · rw [q, hf] at hcf
        exact Bool.noConfusion hcf
      · exact Or.inr q
  have hfree' : ∀ c ∈ l1 ++ (⟨b.addr, b.size, false⟩ : Blk) :: l2, c.free = true →
      c ∈ l1 ++ b :: l2 := by
    intro c hc hcf
    rcases List.mem_append.1 hc with q | q
    · exact List.mem_append_left _ q
    · rcases List.mem_cons.1 q with q | q
      · rw [q] at hcf
        exact Bool.noConfusion hcf
      · exact List.mem_append_right _ (List.mem_cons_of_mem _ q)
  have hdframe : ∀ y, ¬ InFree (l1 ++ b :: l2) y → (delete_block h b.addr).mem y = h.mem y := by
    intro y hy
    apply d3 y
    · by_contra hc
      exact hy ⟨b, hb, hf, by omega, by omega⟩
    · intro c hc hcf hin
      exact not_link_of_not_InFree hR hy c hc hcf ⟨hin.1, by omega⟩
  by_cases hrem : b.size - ws ≤ 4
  · obtain ⟨p1, p2, p3⟩ := @R_place_nosplit _ _ _ _ ⟨b.addr, b.size, false⟩ ws hRo rfl hle
      hrem
    refine ⟨_, _, b.size, p1, hb', hle, le_refl _, ?_, ?_, ?_⟩
    · intro c hc hcf
      rcases hkept c hc hcf with q | q
      · exact List.mem_append_left _ q
      · exact List.mem_append_right _ (List.mem_cons_of_mem _ q)
    · rw [p2, d2]
    · intro y hy
      have hout : y < b.addr ∨ b.addr + 4 * b.size ≤ y := by
        by_contra hc
        exact hy ⟨b, hb, hf, by omega, by omega⟩
      have hsz := hR.size_ok hb
      rw [p3 y (by dsimp only; omega) (by dsimp only; omega)]
      exact hdframe y hy
  · obtain ⟨p1, p2, p3⟩ := @R_place_split _ _ _ _ ⟨b.addr, b.size, false⟩ ws hRo rfl h4 hev
      hle (by dsimp only; omega)
    refine ⟨_, _, ws, p1, by simp, le_refl _, hle, ?_, ?_, ?_⟩
    · intro c hc hcf
      rcases hkept c hc hcf with q | q
      · exact List.mem_append_left _ q
      · exact List.mem_append_right _ (List.mem_cons_of_mem _ (List.mem_cons_of_mem _ q))
    · rw [p2, d2]
    · intro y hy
      have hout : y < b.addr ∨ b.addr + 4 * b.size ≤ y := by
        by_contra hc
        exact hy ⟨b, hb, hf, by omega, by omega⟩
      have hsz := hR.size_ok hb
      rw [p3 y (by dsimp only; omega) (by dsimp only; omega)]
      · exact hdframe y hy
      · intro c hc hcf hin
        exact not_link_of_not_InFree hR hy c (hfree' c hc hcf) hcf ⟨hin.1, by omega⟩

end MallocLab


namespace MallocLab

/-- The extension path of `malloc` when `mem_sbrk` succeeds. -/
theorem malloc_ext {h : Heap} {bs : List Blk} {fl : Nat → List Nat} {ws W : Nat}
    (hR : R h bs fl 0) (h4 : 4 ≤ ws) (hev : ws % 2 = 0) (hle : ws ≤ W) (hWev : W % 2 = 0)
    (hok : h.brk + 4 * W ≤ h.max) :
    (extend_heap h W).1 = h.brk - 4 ∧
    ∃ bs' fl' s', R (place (extend_heap h W).2 (h.brk - 4) ws) bs' fl' 0 ∧
      (⟨h.brk - 4, s', false⟩ : Blk) ∈ bs' ∧ ws ≤ s' ∧ s' ≤ W ∧
      (∀ c ∈ bs, c.free = false → c ∈ bs') ∧
      (place (extend_heap h W).2 (h.brk - 4) ws).brk = h.brk + 4 * W ∧
      (∀ y, ¬ InFree bs y → (y < h.brk - 4 ∨ h.brk + 4 * W ≤ y) →
        (place (extend_heap h W).2 (h.brk - 4) ws).mem y = h.mem y) := by
  obtain ⟨x1, x2, x3, x4⟩ := R_extend hR hWev (by omega) hok
  refine ⟨x1, ?_⟩
  generalize (extend_heap h W).2 = h1 at *
  have hfree' : ∀ c ∈ bs ++ [(⟨h.brk - 4, W, false⟩ : Blk)], c.free = true → c ∈ bs := by
    intro c hc hcf
    rcases List.mem_append.1 hc with q | q
    · exact q
    · rw [List.mem_singleton.1 q] at hcf
      exact Bool.noConfusion hcf
  have hbg := hR.brk_ge
  by_cases hrem : W - ws ≤ 4
  · obtain ⟨p1, p2, p3⟩ := @R_place_nosplit _ _ _ _ ⟨h.brk - 4, W, false⟩ ws x2 rfl hle hrem
    refine ⟨_, _, W, p1, by simp, hle, le_refl _, ?_, ?_, ?_⟩
    · intro c hc _
      exact List.mem_append_left _ hc
    · rw [p2, x3]
    · intro y hy hout
      rw [p3 y (by dsimp only; omega) (by dsimp only; omega)]
      exact x4 y hout
  · obtain ⟨p1, p2, p3⟩ := @R_place_split _ _ _ _ ⟨h.brk - 4, W, false⟩ ws x2 rfl h4 hev
      hle (by dsimp only; omega)
    refine ⟨_, _, ws, p1, by simp, le_refl _, hle, ?_, ?_, ?_⟩
    · intro c hc _
      exact List.mem_append_left _ hc
    · rw [p2, x3]
    · intro y hy hout
      rw [p3 y (by dsimp only; omega) (by dsimp only; omega)]
      · exact x4 y hout
      · intro c hc hcf hin
        exact not_link_of_not_InFree hR hy c (hfree' c hc hcf) hcf ⟨hin.1, by omega⟩

/-- `malloc` on a represented heap, for a request whose size adjustment does not
wrap: with enough fuel it returns; either `mem_sbrk` was needed and failed, and
the result is `(block_pointer) -1` with the heap unchanged, or it succeeds as
`MallocOK` describes. -/
theorem malloc_spec {h : Heap} {bs : List Blk} {fl : Nat → List Nat} (hR : R h bs fl 0)
    (size : Nat) (h1 : 1 ≤ size) (h2 : size + 15 < 2 ^ 64) :
    ∃ N, ∀ fuel, N ≤ fuel → ∃ p h', malloc fuel h size = some (p, h') ∧
      ((p = MINUS_ONE ∧ h' = h ∧ h.brk + 4 * max (adjust size) CHUNKSIZE > h.max ∧
          ∀ b ∈ bs, b.free = true → b.size < adjust size) ∨
       ∃ bs' fl' s', MallocOK h bs size p h' bs' fl' s') := by
  obtain ⟨a4, aev, age, alt⟩ := adjust_spec size h1 h2
  have alt64 := adjust_lt size
  obtain ⟨N, hN⟩ := find_first_fit_spec hR (adjust size)
  refine ⟨N, fun fuel hf => ?_⟩
  obtain ⟨r, hr, hcase⟩ := hN fuel hf
  have hsz : ¬ size = 0 := by omega
  unfold malloc
  rw [if_neg hsz]
  simp only [hr]
  rcases hcase with ⟨r0, hall⟩ | ⟨r0, b, hb, e1, e2, e3⟩
  · -- no fit: extend
    have hnofit : ∀ b ∈ bs, b.free = true → b.size < adjust size := by
      intro b hb hbf
      by_contra hc
      have hge : adjust size ≤ b.size := by omega
      have := hall (get_class_no b.size) (get_class_no_mono _ _ hge) (get_class_no_lt _)
        b.addr (hR.fl_mem b hb hbf)
      rw [hR.block_size hb] at this
      omega
    subst r0
    simp only [NULL, ne_eq, not_true_eq_false, if_false]
    have hW : max (adjust size) CHUNKSIZE % 2 = 0 := by
      rw [CHUNKSIZE_eq]
      omega
    by_cases hok : h.brk + 4 * max (adjust size) CHUNKSIZE ≤ h.max
    · obtain ⟨x1, bs', fl', s', q1, q2, q3, q4, q5, q6, q7⟩ :=
        malloc_ext (W := max (adjust size) CHUNKSIZE) hR a4 aev (le_max_left _ _) hW hok
      have hbg := hR.brk_ge
      have hb1 := hR.base_le
      have hb2 := hR.lo_le
      have hne : ¬ ((extend_heap h (max (adjust size) CHUNKSIZE)).1 = 0) := by
        rw [x1]; omega
      rw [if_neg hne, x1]
      refine ⟨_, _, rfl, Or.inr ⟨bs', fl', s', ?_⟩⟩
      have e : block_mem (h.brk - 4) - 4 = h.brk - 4 := by
        unfold block_mem; omega
      refine
        { rep := q1
          blk := by rw [e]; exact q2
          p_ge := by unfold block_mem; omega
          big := q3
          kept := q5
          origin := Or.inr ⟨q6, e, q4, hnofit, ?_⟩ }
      intro y hy hout
      rw [q6] at hout
      exact q7 y hy hout
    · have hfail := extend_heap_fail h (max (adjust size) CHUNKSIZE) hW
        (by rw [CHUNKSIZE_eq]; omega) (by omega)
      rw [hfail]
      simp only [if_true]
      exact ⟨_, _, rfl, Or.inl ⟨rfl, rfl, by omega, hnofit⟩⟩
  · -- a fit
    obtain ⟨l1, l2, hbs⟩ := List.append_of_mem hb
    subst hbs
    simp only [NULL, ne_eq, r0, not_false_eq_true, if_true]
    obtain ⟨bs', fl', s', q1, q2, q3, q4, q5, q6, q7⟩ :=
      @malloc_fit _ _ _ _ _ (adjust size) hR e2 a4 aev e3
    have hrg := hR.range hb
    rw [← e1]
    refine ⟨_, _, rfl, Or.inr ⟨bs', fl', s', ?_⟩⟩
    have e : block_mem b.addr - 4 = b.addr := by
      unfold block_mem; omega
    exact
      { rep := q1
        blk := by rw [e]; exact q2
        p_ge := by unfold block_mem; omega
        big := q3
        kept := q5
        origin := Or.inl ⟨q6, ⟨b, hb, e2, e.symm, q4⟩, q7⟩ }

end MallocLab


namespace MallocLab

/-! ## Release -/

/-- The first step of `free`: the block is tagged free and is in transit. -/
theorem R_mark_free {h : Heap} {l1 l2 : List Blk} {fl : Nat → List Nat} {b : Blk}
    (hR : R h (l1 ++ b :: l2) fl 0) (hnf : b.free = false) :
    R (block_mark h b.addr true) (l1 ++ b :: l2) fl b.addr ∧
    (block_mark h b.addr true).brk = h.brk ∧
    (∀ y, (y < b.addr ∨ b.addr + 4 * b.size ≤ y) →
      (block_mark h b.addr true).mem y = h.mem y) := by
  have hb : b ∈ l1 ++ b :: l2 := by simp
  obtain ⟨h4, hev, hs⟩ := hR.size_ok hb
  have hv := hR.hdr hb
  obtain ⟨b1, b2, b3, b4⟩ := block_mark_spec h b.addr b.size true hs (by omega) hv
  simp only [if_true] at b1 b2
  obtain ⟨hc1, hc2⟩ := Contig_split _ _ _ _ _ hR.contig
  have e : l1 ++ b :: l2 = l1 ++ [b] ++ l2 := by simp
  refine ⟨?_, b3.2.1, ?_⟩
  · rw [e]
    rw [e] at hR
    apply R_replace hR hc1 (show Contig b.addr [b] (b.addr + 4 * b.size) from ⟨rfl, rfl⟩) hc2 b3
    · intro y hy
      apply b4 <;> omega
    · intro c hc
      rw [List.mem_singleton.1 hc]
      exact hnf
    · exact ⟨rfl, rfl⟩
    · intro c hc
      rw [List.mem_singleton.1 hc]
      refine ⟨⟨h4, hev, hs, ?_, ?_, ?_⟩, hnf⟩
      · intro hf
        rw [hnf] at hf
        cases hf
      · intro _ hne
        exact absurd rfl hne
      · intro _
        exact Or.inl b1
    · left; rfl
    · right; omega
  · intro y hy
    apply b4 <;> omega

/-- `combine_block` on two neighbours that are on no list, one of them in
transit: one block in transit. -/
theorem R_combine {h : Heap} {l1 l2 : List Blk} {fl : Nat → List Nat} {hole : Nat}
    {c1 c2 : Blk} (hR : R h (l1 ++ c1 :: c2 :: l2) fl hole)
    (hf1 : c1.free = false) (hf2 : c2.free = false)
    (hh : hole = c1.addr ∨ hole = c2.addr) :
    R (combine_block h c1.addr c2.addr) (l1 ++ ⟨c1.addr, c1.size + c2.size, false⟩ :: l2) fl
      c1.addr ∧
    (combine_block h c1.addr c2.addr).brk = h.brk ∧
    (∀ y, (y < c1.addr ∨ c1.addr + 4 * (c1.size + c2.size) ≤ y) →
      (combine_block h c1.addr c2.addr).mem y = h.mem y) := by
  have hm1 : c1 ∈ l1 ++ c1 :: c2 :: l2 := by simp
  have hm2 : c2 ∈ l1 ++ c1 :: c2 :: l2 := by simp
  obtain ⟨a4, aev, as⟩ := hR.size_ok hm1
  obtain ⟨b4, bev, bs⟩ := hR.size_ok hm2
  have hr2 := hR.range hm2
  have hr1 := hR.range hm1
  obtain ⟨hc1, hc2⟩ := Contig_split _ _ _ _ _ hR.contig
  obtain ⟨hadj, hc3⟩ := hc2
  have hsum : c1.size + c2.size < 2 ^ 30 := by omega
  obtain ⟨k1, k2, k3, k4⟩ := combine_block_spec h c1.addr c2.addr c1.size c2.size
    (hR.block_size hm1) (hR.block_size hm2) (by omega) hsum
  have e : l1 ++ c1 :: c2 :: l2 = l1 ++ [c1, c2] ++ l2 := by simp
  have e' : l1 ++ (⟨c1.addr, c1.size + c2.size, false⟩ : Blk) :: l2
      = l1 ++ [⟨c1.addr, c1.size + c2.size, false⟩] ++ l2 := by simp
  refine ⟨?_, k3.2.1, ?_⟩
  · rw [e']
    rw [e] at hR
    apply @R_replace _ _ _ _ _ _ _ _ _ (c1.addr) (c1.addr + 4 * (c1.size + c2.size)) hR hc1 _ _ k3
    · intro y hy
      apply k4 <;> omega
    · intro c hc
      rcases List.mem_cons.1 hc with q | q
      · rw [q]; exact hf1
      · rw [List.mem_singleton.1 q]; exact hf2
    · exact ⟨rfl, rfl⟩
    · intro c hc
      rw [List.mem_singleton.1 hc]
      refine ⟨⟨(by dsimp only; omega), (by dsimp only; omega), hsum, ?_, ?_, ?_⟩, rfl⟩
      · intro hf
        exact Bool.noConfusion hf
      · intro _ hne
        exact absurd rfl hne
      · intro _
        exact Or.inl k1
    · right
      rcases hh with q | q <;> omega
    · right; omega
    · refine ⟨rfl, hadj, ?_⟩
      show c1.addr + 4 * c1.size + 4 * c2.size = c1.addr + 4 * (c1.size + c2.size)
      omega
    · have : c1.addr + 4 * c1.size + 4 * c2.size = c1.addr + 4 * (c1.size + c2.size) := by
        omega
      rw [← this]
      exact hc3
  · intro y hy
    apply k4 <;> omega

/-- What `coalesce` reads on the left of the block in transit. -/
theorem prev_view {h : Heap} {l1 l2 : List Blk} {fl : Nat → List Nat} {b : Blk}
    (hR : R h (l1 ++ b :: l2) fl b.addr) :
    (l1 = [] ∧ block_free h (block_prev h b.addr) = false) ∨
    (∃ l1' p, l1 = l1' ++ [p] ∧ block_prev h b.addr = p.addr ∧
      block_free h p.addr = p.free) := by
  obtain ⟨hc1, _⟩ := Contig_split _ _ _ _ _ hR.contig
  have hbg := hR.brk_ge
  have hb1 := hR.base_le
  have hb2 := hR.lo_le
  rcases List.eq_nil_or_concat l1 with q | ⟨l1', p, q⟩
  · left
    subst q
    have hx : h.heap_listp + 4 = b.addr := hc1
    refine ⟨rfl, ?_⟩
    have e1 : block_size h (b.addr - 4) = 2 := by
      have : b.addr - 4 = h.heap_listp := by omega
      rw [this]
      exact block_size_of_tag h _ 2 (by decide) (Or.inr hR.pro_ftr)
    unfold block_prev
    rw [e1]
    have : b.addr - 4 * 2 = h.heap_listp - 4 := by omega
    rw [this]
    exact block_free_of_alloc h _ 2 (by decide) hR.pro_hdr
  · right
    rw [List.concat_eq_append] at q
    subst q
    refine ⟨l1', p, rfl, ?_⟩
    have hp : p ∈ l1' ++ [p] ++ b :: l2 := by simp
    obtain ⟨p4, pev, ps⟩ := hR.size_ok hp
    obtain ⟨_, hcp⟩ := (Contig_append _ _ _ _).1 hc1
    obtain ⟨m, _, hpa, hpe⟩ := (Contig_append l1' [p] _ _).1 hc1
    have hend : p.addr + 4 * p.size = b.addr := by
      have : m + 4 * p.size = b.addr := hpe
      omega
    obtain ⟨_, _, _, pf, pa, _⟩ := hR.blocks p hp
    have hne : p.addr ≠ b.addr := by omega
    have hftr : get h (b.addr - 4) = p.size ∨ get h (b.addr - 4) = p.size + 2 ^ 30 := by
      have : b.addr - 4 = p.addr + 4 * p.size - 4 := by omega
      rw [this]
      cases hpf : p.free
      · exact Or.inr (pa hpf hne).2
      · exact Or.inl (pf hpf).2.2
    have e1 : block_size h (b.addr - 4) = p.size := block_size_of_tag h _ _ ps hftr
    constructor
    · unfold block_prev
      rw [e1]
      omega
    · cases hpf : p.free
      · exact block_free_of_alloc h _ _ ps (pa hpf hne).1
      · exact block_free_of_free h _ _ ps (pf hpf).2.1

/-- What `coalesce` reads on the right of the block in transit. -/
theorem next_view {h : Heap} {l1 l2 : List Blk} {fl : Nat → List Nat} {b : Blk}
    (hR : R h (l1 ++ b :: l2) fl b.addr) :
    block_next h b.addr = b.addr + 4 * b.size ∧
    ((l2 = [] ∧ block_free h (b.addr + 4 * b.size) = false) ∨
     (∃ n l2', l2 = n :: l2' ∧ n.addr = b.addr + 4 * b.size ∧
       block_free h n.addr = n.free)) := by
  have hb : b ∈ l1 ++ b :: l2 := by simp
  obtain ⟨_, hc2⟩ := Contig_split _ _ _ _ _ hR.contig
  constructor
  · unfold block_next
    rw [hR.block_size hb]
  · cases l2 with
    | nil =>
      left
      have hx : b.addr + 4 * b.size = h.brk - 4 := hc2
      refine ⟨rfl, ?_⟩
      rw [hx]
      exact block_free_of_alloc h _ 0 (by decide) (by rw [hR.epi]; norm_num)
    | cons n l2' =>
      right
      refine ⟨n, l2', rfl, hc2.1, ?_⟩
      have hn : n ∈ l1 ++ b :: n :: l2' := by simp
      obtain ⟨n4, _, ns⟩ := hR.size_ok hn
      obtain ⟨_, _, _, nf, na, _⟩ := hR.blocks n hn
      have hne : n.addr ≠ b.addr := by
        have := hR.size_ok hb
        have := hc2.1
        omega
      cases hnf : n.free
      · exact block_free_of_alloc h _ _ ns (na hnf hne).1
      · exact block_free_of_free h _ _ ns (nf hnf).2.1

end MallocLab


namespace MallocLab

theorem prev_alt {h : Heap} {l1 l2 : List Blk} {fl : Nat → List Nat} {b : Blk}
    (hR : R h (l1 ++ b :: l2) fl b.addr) :
    (block_free h (block_prev h b.addr) = false ∧ ∀ l1' p, l1 = l1' ++ [p] → p.free = false) ∨
    (∃ l1' p, l1 = l1' ++ [p] ∧ block_prev h b.addr = p.addr ∧
      block_free h (block_prev h b.addr) = true ∧ p.free = true) := by
  rcases prev_view hR with ⟨q1, q2⟩ | ⟨l1', p, q1, q2, q3⟩
  · left
    refine ⟨q2, ?_⟩
    intro l1' p e
    rw [q1] at e
    simp at e
  · cases hpf : p.free
    · left
      rw [q2, q3]
      refine ⟨hpf, ?_⟩
      intro l1'' p' e
      rw [q1] at e
      have := List.append_inj_right' e rfl
      simp only [List.cons.injEq, and_true] at this
      rw [← this]
      exact hpf
    · right
      exact ⟨l1', p, q1, q2, by rw [q2, q3]; exact hpf, hpf⟩

theorem next_alt {h : Heap} {l1 l2 : List Blk} {fl : Nat → List Nat} {b : Blk}
    (hR : R h (l1 ++ b :: l2) fl b.addr) :
    (block_free h (block_next h b.addr) = false ∧ ∀ n l2', l2 = n :: l2' → n.free = false) ∨
    (∃ n l2', l2 = n :: l2' ∧ block_next h b.addr = n.addr ∧
      block_free h (block_next h b.addr) = true ∧ n.free = true) := by
  obtain ⟨e0, hcase⟩ := next_view hR
  rcases hcase with ⟨q1, q2⟩ | ⟨n, l2', q1, q2, q3⟩
  · left
    rw [e0]
    refine ⟨q2, ?_⟩
    intro n l2' e
    rw [q1] at e
    cases e
  · cases hnf : n.free
    · left
      rw [e0, ← q2, q3]
      refine ⟨hnf, ?_⟩
      intro n' l2'' e
      rw [q1] at e
      injection e with e1 e2
      rw [← e1]
      exact hnf
    · right
      exact ⟨n, l2', q1, by rw [e0, q2], by rw [e0, ← q2, q3]; exact hnf, hnf⟩

theorem free_sub (l1 l2 : List Blk) (b : Blk) :
    ∀ c ∈ l1 ++ (⟨b.addr, b.size, false⟩ : Blk) :: l2, c.free = true → c ∈ l1 ++ b :: l2 := by
  intro c hc hcf
  rcases List.mem_append.1 hc with q | q
  · exact List.mem_append_left _ q
  · rcases List.mem_cons.1 q with q | q
    · rw [q] at hcf
      exact Bool.noConfusion hcf
    · exact List.mem_append_right _ (List.mem_cons_of_mem _ q)

/-- Frame of `delete_block` in terms of the free blocks. -/
theorem delete_block_frame {h : Heap} {l1 l2 : List Blk} {fl : Nat → List Nat} {hole : Nat}
    {b : Blk} (hR : R h (l1 ++ b :: l2) fl hole) (hfree : b.free = true) (y : Nat)
    (hy : ¬ InFree (l1 ++ b :: l2) y) : (delete_block h b.addr).mem y = h.mem y := by
  have hb : b ∈ l1 ++ b :: l2 := by simp
  apply (R_delete_block hR hfree).2.2 y
  · by_contra hc
    exact hy ⟨b, hb, hfree, by omega, by omega⟩
  · intro c hc hcf hin
    exact not_link_of_not_InFree hR hy c hc hcf ⟨hin.1, by omega⟩

end MallocLab


namespace MallocLab

theorem coalesce_case1 (h : Heap) (x : Nat) (hp : block_free h (block_prev h x) = false)
    (hn : block_free h (block_next h x) = false) : coalesce h x = (x, h) := by
  unfold coalesce
  simp [hp, hn]

theorem coalesce_case2 (h : Heap) (x : Nat) (hp : block_free h (block_prev h x) = true)
    (hn : block_free h (block_next h x) = false) :
    coalesce h x = (block_prev h x,
      combine_block (delete_block h (block_prev h x)) (block_prev h x) x) := by
  unfold coalesce
  simp [hp, hn]

theorem coalesce_case3 (h : Heap) (x : Nat) (hp : block_free h (block_prev h x) = false)
    (hn : block_free h (block_next h x) = true) :
    coalesce h x = (x, combine_block (delete_block h (block_next h x)) x (block_next h x)) := by
  unfold coalesce
  simp [hp, hn]

theorem coalesce_case4 (h : Heap) (x : Nat) (hp : block_free h (block_prev h x) = true)
    (hn : block_free h (block_next h x) = true) :
    coalesce h x = (block_prev h x,
      combine_block
        (combine_block (delete_block (delete_block h (block_prev h x)) (block_next h x))
          (block_prev h x) x)
        (block_prev h x) (block_next h x)) := by
  unfold coalesce
  simp [hp, hn]

/-- `coalesce` on the block in transit: free neighbours are unlinked and merged
into it; the result is again one block in transit. -/
theorem coalesce_spec {h : Heap} {l1 l2 : List Blk} {fl : Nat → List Nat} {b : Blk}
    (hR : R h (l1 ++ b :: l2) fl b.addr) (hnf : b.free = false) :
    ∃ m1 m2 c fl',
      R (coalesce h b.addr).2 (m1 ++ c :: m2) fl' c.addr ∧
      (coalesce h b.addr).1 = c.addr ∧ c.free = false ∧
      ((m1 = l1 ∧ c.addr = b.addr ∧ ∀ l1' p, l1 = l1' ++ [p] → p.free = false) ∨
        (∃ p, l1 = m1 ++ [p] ∧ p.free = true ∧ c.addr = p.addr)) ∧
      ((m2 = l2 ∧ c.addr + 4 * c.size = b.addr + 4 * b.size ∧
          ∀ n l2', l2 = n :: l2' → n.free = false) ∨
        (∃ n, l2 = n :: m2 ∧ n.free = true ∧
          c.addr + 4 * c.size = n.addr + 4 * n.size)) ∧
      (coalesce h b.addr).2.brk = h.brk ∧
      (∀ y, ¬ InFree (l1 ++ b :: l2) y → (y < b.addr ∨ b.addr + 4 * b.size ≤ y) →
        (coalesce h b.addr).2.mem y = h.mem y) := by
  have hb : b ∈ l1 ++ b :: l2 := by simp
  have hbs := hR.size_ok hb
  rcases prev_alt hR with ⟨hp, hpl⟩ | ⟨l1', p, hl1, hpa, hp, hpf⟩
  · rcases next_alt hR with ⟨hn, hnl⟩ | ⟨n, l2', hl2, hna, hn, hnfr⟩
    · -- case 1
      rw [coalesce_case1 h b.addr hp hn]
      exact ⟨l1, l2, b, fl, hR, rfl, hnf, Or.inl ⟨rfl, rfl, hpl⟩, Or.inl ⟨rfl, rfl, hnl⟩, rfl,
        fun y _ _ => rfl⟩
    · -- case 3
      rw [coalesce_case3 h b.addr hp hn, hna]
      subst hl2
      have e1 : l1 ++ b :: n :: l2' = (l1 ++ [b]) ++ n :: l2' := by simp
      have hR1 := hR
      rw [e1] at hR1
      obtain ⟨d1, d2, _⟩ := R_delete_block hR1 hnfr
      have e2 : (l1 ++ [b]) ++ (⟨n.addr, n.size, false⟩ : Blk) :: l2'
          = l1 ++ b :: ⟨n.addr, n.size, false⟩ :: l2' := by simp
      rw [e2] at d1
      obtain ⟨k1, k2, k3⟩ := @R_combine _ _ _ _ _ b ⟨n.addr, n.size, false⟩ d1 hnf rfl
        (Or.inl rfl)
      have hnadj : n.addr = b.addr + 4 * b.size := by
        have := (next_view hR).1
        rw [← this, hna]
      refine ⟨l1, l2', ⟨b.addr, b.size + n.size, false⟩, _, k1, rfl, rfl,
        Or.inl ⟨rfl, rfl, hpl⟩, Or.inr ⟨n, rfl, hnfr, ?_⟩, ?_, ?_⟩
      · show b.addr + 4 * (b.size + n.size) = n.addr + 4 * n.size
        omega
      · rw [k2, d2]
      · intro y hy hout
        have hyn : y < n.addr ∨ n.addr + 4 * n.size ≤ y := by
          by_contra hc
          exact hy ⟨n, by simp, hnfr, by omega, by omega⟩
        rw [k3 y (by dsimp only; omega)]
        apply delete_block_frame hR1 hnfr y
        rw [← e1]
        exact hy
  · subst hl1
    have hpadj : p.addr + 4 * p.size = b.addr := by
      obtain ⟨hc1, _⟩ := Contig_split _ _ _ _ _ hR.contig
      obtain ⟨m, _, hpa', hpe⟩ := (Contig_append l1' [p] _ _).1 hc1
      have : m + 4 * p.size = b.addr := hpe
      omega
    have hpm : p ∈ l1' ++ [p] ++ b :: l2 := by simp
    have hps := hR.size_ok hpm
    have e1 : l1' ++ [p] ++ b :: l2 = l1' ++ p :: (b :: l2) := by simp
    have hR1 := hR
    rw [e1] at hR1
    obtain ⟨d1, d2, _⟩ := R_delete_block hR1 hpf
    rcases next_alt hR with ⟨hn, hnl⟩ | ⟨n, l2', hl2, hna, hn, hnfr⟩
    · -- case 2
      rw [coalesce_case2 h b.addr hp hn, hpa]
      obtain ⟨k1, k2, k3⟩ := @R_combine _ _ _ _ _ ⟨p.addr, p.size, false⟩ b d1 rfl hnf
        (Or.inr rfl)
      refine ⟨l1', l2, ⟨p.addr, p.size + b.size, false⟩, _, k1, rfl, rfl,
        Or.inr ⟨p, rfl, hpf, rfl⟩, Or.inl ⟨rfl, ?_, hnl⟩, ?_, ?_⟩
      · show p.addr + 4 * (p.size + b.size) = b.addr + 4 * b.size
        omega
      · rw [k2, d2]
      · intro y hy hout
        have hyp : y < p.addr ∨ p.addr + 4 * p.size ≤ y := by
          by_contra hc
          exact hy ⟨p, hpm, hpf, by omega, by omega⟩
        rw [k3 y (by dsimp only; omega)]
        apply delete_block_frame hR1 hpf y
        rw [← e1]
        exact hy
    · -- case 4
      rw [coalesce_case4 h b.addr hp hn, hpa, hna]
      subst hl2
      have hnadj : n.addr = b.addr + 4 * b.size := by
        have := (next_view hR).1
        rw [← this, hna]
      have hnm : n ∈ l1' ++ [p] ++ b :: n :: l2' := by simp
      have hns := hR.size_ok hnm
      have e2 : l1' ++ (⟨p.addr, p.size, false⟩ : Blk) :: (b :: n :: l2')
          = (l1' ++ [⟨p.addr, p.size, false⟩, b]) ++ n :: l2' := by simp
      have d1' := d1
      rw [e2] at d1'
      obtain ⟨g1, g2, _⟩ := R_delete_block d1' hnfr
      have e3 : (l1' ++ [⟨p.addr, p.size, false⟩, b]) ++ (⟨n.addr, n.size, false⟩ : Blk) :: l2'
          = l1' ++ (⟨p.addr, p.size, false⟩ : Blk) :: b :: (⟨n.addr, n.size, false⟩ :: l2') := by
        simp
      rw [e3] at g1
      obtain ⟨k1, k2, k3⟩ := @R_combine _ _ _ _ _ ⟨p.addr, p.size, false⟩ b g1 rfl hnf
        (Or.inr rfl)
      obtain ⟨j1, j2, j3⟩ := @R_combine _ _ _ _ _ ⟨p.addr, p.size + b.size, false⟩
        ⟨n.addr, n.size, false⟩ k1 rfl rfl (Or.inl rfl)
      refine ⟨l1', l2', ⟨p.addr, p.size + b.size + n.size, false⟩, _, j1, rfl, rfl,
        Or.inr ⟨p, rfl, hpf, rfl⟩, Or.inr ⟨n, rfl, hnfr, ?_⟩, ?_, ?_⟩
      · show p.addr + 4 * (p.size + b.size + n.size) = n.addr + 4 * n.size
        omega
      · rw [j2, k2, g2, d2]
      · intro y hy hout
        have hyp : y < p.addr ∨ p.addr + 4 * p.size ≤ y := by
          by_contra hc
          exact hy ⟨p, hpm, hpf, by omega, by omega⟩
        have hyn : y < n.addr ∨ n.addr + 4 * n.size ≤ y := by
          by_contra hc
          exact hy ⟨n, hnm, hnfr, by omega, by omega⟩
        rw [j3 y (by dsimp only; omega), k3 y (by dsimp only; omega)]
        have hy1 : ¬ InFree (l1' ++ p :: (b :: n :: l2')) y := by
          rw [← e1]
          exact hy
        rw [delete_block_frame d1' hnfr y ?_]
        · exact delete_block_frame hR1 hpf y hy1
        · rw [← e2]
          rintro ⟨c, hc, hcf, hin⟩
          exact hy1 ⟨c, free_sub l1' (b :: n :: l2') p c hc hcf, hcf, hin⟩

end MallocLab


namespace MallocLab

theorem free_eq (h : Heap) (x : Nat) (_h0 : x + 4 ≠ 0) (hin : in_heap h (x + 4) = true) :
    free h (x + 4) =
      add_to_free_list (coalesce (block_mark h x true) x).2 (coalesce (block_mark h x true) x).1 := by
  unfold free
  have : ¬ (x + 4 = NULL ∨ in_heap h (x + 4) = false) := by
    rw [hin]
    simp [NULL]
  rw [if_neg this]
  have e : block_header (x + 4) = x := by
    unfold block_header
    omega
  simp only [e]

/-- `free` on the payload pointer of an allocated block of a represented heap:
the block, merged with its free neighbours, is on the list of its class; the
bytes changed lie in the block or in blocks that were free. -/
theorem free_spec {h : Heap} {bs : List Blk} {fl : Nat → List Nat} (hR : R h bs fl 0)
    {b : Blk} (hb : b ∈ bs) (hnf : b.free = false) :
    ∃ (l1 l2 m1 m2 : List Blk) (c : Blk) (fl' : Nat → List Nat), bs = l1 ++ b :: l2 ∧
      R (free h (b.addr + 4)) (m1 ++ ⟨c.addr, c.size, true⟩ :: m2) fl' 0 ∧
      ((m1 = l1 ∧ c.addr = b.addr ∧ ∀ l1' p, l1 = l1' ++ [p] → p.free = false) ∨
        (∃ p, l1 = m1 ++ [p] ∧ p.free = true ∧ c.addr = p.addr)) ∧
      ((m2 = l2 ∧ c.addr + 4 * c.size = b.addr + 4 * b.size ∧
          ∀ n l2', l2 = n :: l2' → n.free = false) ∨
        (∃ n, l2 = n :: m2 ∧ n.free = true ∧
          c.addr + 4 * c.size = n.addr + 4 * n.size)) ∧
      (free h (b.addr + 4)).brk = h.brk ∧
      (∀ y, ¬ InFree bs y → (y < b.addr ∨ b.addr + 4 * b.size ≤ y) →
        (free h (b.addr + 4)).mem y = h.mem y) := by
  obtain ⟨l1, l2, hbs⟩ := List.append_of_mem hb
  subst hbs
  have hbd := hR.bounds hb
  have hsz := hR.size_ok hb
  have hb1 := hR.base_le
  have hb2 := hR.lo_le
  have hin : in_heap h (b.addr + 4) = true := by
    unfold in_heap mem_heap_hi mem_heap_lo
    simp only [Bool.and_eq_true, decide_eq_true_eq]
    omega
  rw [free_eq h b.addr (by omega) hin]
  obtain ⟨f1, f2, f3⟩ := R_mark_free hR hnf
  obtain ⟨m1, m2, c, fl', c1, c2, c3, c4, c5, c6, c7⟩ := coalesce_spec f1 hnf
  rw [c2]
  obtain ⟨a1, a2, a3⟩ := R_add_to_free_list c1 c3
  obtain ⟨hcc1, hcc2⟩ := Contig_split _ _ _ _ _ hR.contig
  refine ⟨l1, l2, m1, m2, c, _, rfl, a1, c4, c5, by rw [a2, c6, f2], ?_⟩
  intro y hy hout
  -- the merged block covers the block and its free neighbours only
  have hlo : b.addr ≤ c.addr ∨ ∃ p, p ∈ l1 ++ b :: l2 ∧ p.free = true ∧ c.addr = p.addr ∧
      p.addr + 4 * p.size = b.addr := by
    rcases c4 with ⟨_, q, _⟩ | ⟨p, q1, q2, q3⟩
    · left; omega
    · right
      refine ⟨p, by rw [q1]; simp, q2, q3, ?_⟩
      rw [q1] at hcc1
      obtain ⟨m, _, hpa, hpe⟩ := (Contig_append m1 [p] _ _).1 hcc1
      have : m + 4 * p.size = b.addr := hpe
      omega
  have hhi : c.addr + 4 * c.size ≤ b.addr + 4 * b.size ∨
      ∃ n, n ∈ l1 ++ b :: l2 ∧ n.free = true ∧ c.addr + 4 * c.size = n.addr + 4 * n.size ∧
        n.addr = b.addr + 4 * b.size := by
    rcases c5 with ⟨_, q, _⟩ | ⟨n, q1, q2, q3⟩
    · left; omega
    · right
      refine ⟨n, by rw [q1]; simp, q2, q3, ?_⟩
      rw [q1] at hcc2
      exact hcc2.1
  have hyc : y < c.addr ∨ c.addr + 4 * c.size ≤ y := by
    rcases hlo with q | ⟨p, pm, pf, pa, pe⟩
    · rcases hhi with r | ⟨n, nm, nf, na, ne⟩
      · omega
      · by_contra hc
        exact hy ⟨n, nm, nf, by omega, by omega⟩
    · rcases hhi with r | ⟨n, nm, nf, na, ne⟩
      · by_contra hc
        exact hy ⟨p, pm, pf, by omega, by omega⟩
      · by_contra hc
        by_cases hl : y < b.addr
        · exact hy ⟨p, pm, pf, by omega, by omega⟩
        · exact hy ⟨n, nm, nf, by omega, by omega⟩
  have hsub : ∀ d ∈ m1 ++ c :: m2, d.free = true → d ∈ l1 ++ b :: l2 := by
    intro d hd hdf
    rcases List.mem_append.1 hd with q | q
    · rcases c4 with ⟨e, _, _⟩ | ⟨p, e, _, _⟩
      · rw [e] at q
        exact List.mem_append_left _ q
      · rw [e]
        exact List.mem_append_left _ (List.mem_append_left _ q)
    · rcases List.mem_cons.1 q with q | q
      · rw [q, c3] at hdf
        exact Bool.noConfusion hdf
      · rcases c5 with ⟨e, _, _⟩ | ⟨n, e, _, _⟩
        · rw [e] at q
          exact List.mem_append_right _ (List.mem_cons_of_mem _ q)
        · rw [e]
          exact List.mem_append_right _ (List.mem_cons_of_mem _ (List.mem_cons_of_mem _ q))
  rw [a3 y hyc, c7 y hy hout, f3 y hout]
  intro d hd hdf hin'
  exact not_link_of_not_InFree hR hy d (hsub d hd hdf) hdf ⟨hin'.1, by omega⟩

end MallocLab


namespace MallocLab

/-! ## Reallocation -/

/-- `place` on a block that is on no list, both branches. -/
theorem R_place {h : Heap} {l1 l2 : List Blk} {fl : Nat → List Nat} {b : Blk} {ws : Nat}
    (hR : R h (l1 ++ b :: l2) fl 0) (hnf : b.free = false)
    (h4w : 4 ≤ ws) (hevw : ws % 2 = 0) (hle : ws ≤ b.size) :
    ∃ bs' fl' s', R (place h b.addr ws) bs' fl' 0 ∧
      (⟨b.addr, s', false⟩ : Blk) ∈ bs' ∧ ws ≤ s' ∧ s' ≤ b.size ∧
      (∀ c ∈ l1 ++ b :: l2, c.free = false → c ≠ b → c ∈ bs') ∧
      (place h b.addr ws).brk = h.brk ∧
      (∀ y, (y < b.addr ∨ b.addr + 4 ≤ y) →
        (y < b.addr + 4 * ws - 4 ∨ b.addr + 4 * b.size ≤ y) →
        ¬ InFree (l1 ++ b :: l2) y → (place h b.addr ws).mem y = h.mem y) := by
  have hb : b ∈ l1 ++ b :: l2 := by simp
  have hRo := R_open hR hb hnf
  have hkept : ∀ c ∈ l1 ++ b :: l2, c ≠ b → c ∈ l1 ∨ c ∈ l2 := by
    intro c hc hne
    rcases List.mem_append.1 hc with q | q
    · exact Or.inl q
    · rcases List.mem_cons.1 q with q | q
      · exact absurd q hne
      · exact Or.inr q
  by_cases hrem : b.size - ws ≤ 4
  · obtain ⟨p1, p2, p3⟩ := @R_place_nosplit _ _ _ _ _ ws hRo hnf hle hrem
    refine ⟨_, _, b.size, p1, ?_, hle, le_refl _, ?_, p2, ?_⟩
    · have : (⟨b.addr, b.size, false⟩ : Blk) = b := by
        cases b
        simp only [Blk.mk.injEq, true_and]
        exact hnf.symm
      rw [this]
      exact hb
    · intro c hc _ hne
      exact hc
    · intro y y1 y2 _
      exact p3 y y1 y2
  · obtain ⟨p1, p2, p3⟩ := @R_place_split _ _ _ _ _ ws hRo hnf h4w hevw hle (by omega)
    refine ⟨_, _, ws, p1, by simp, le_refl _, hle, ?_, p2, ?_⟩
    · intro c hc _ hne
      rcases hkept c hc hne with q | q
      · exact List.mem_append_left _ q
      · exact List.mem_append_right _ (List.mem_cons_of_mem _ (List.mem_cons_of_mem _ q))
    · intro y y1 y2 hy
      apply p3 y y1 y2
      intro c hc hcf hin
      exact not_link_of_not_InFree hR hy c hc hcf ⟨hin.1, by omega⟩

/-- Copying into the payload of an allocated block keeps the representation. -/
theorem R_memcpy {h : Heap} {bs : List Blk} {fl : Nat → List Nat} (hR : R h bs fl 0)
    {c : Blk} (hc : c ∈ bs) (hnf : c.free = false) (src n : Nat) (hn : n ≤ 4 * c.size - 8) :
    R (memcpy h (c.addr + 4) src n) bs fl 0 ∧
    (memcpy h (c.addr + 4) src n).brk = h.brk ∧
    (∀ y, (y < c.addr + 4 ∨ c.addr + 4 + n ≤ y) →
      (memcpy h (c.addr + 4) src n).mem y = h.mem y) ∧
    (∀ y, c.addr + 4 ≤ y → y < c.addr + 4 + n →
      (memcpy h (c.addr + 4) src n).mem y = h.mem (src + (y - (c.addr + 4)))) := by
  obtain ⟨l1, l2, hbs⟩ := List.append_of_mem hc
  subst hbs
  obtain ⟨h4, hev, hs⟩ := hR.size_ok hc
  obtain ⟨hc1, hc2⟩ := Contig_split _ _ _ _ _ hR.contig
  have hout : ∀ y, (y < c.addr + 4 ∨ c.addr + 4 + n ≤ y) →
      (memcpy h (c.addr + 4) src n).mem y = h.mem y := by
    intro y hy
    show (if c.addr + 4 ≤ y ∧ y < c.addr + 4 + n then _ else _) = _
    rw [if_neg (by omega)]
  have hx0 : c.addr ≠ 0 := by have := hR.range hc; omega
  have e : l1 ++ c :: l2 = l1 ++ [c] ++ l2 := by simp
  refine ⟨?_, rfl, hout, ?_⟩
  · have hR' := hR
    rw [e] at hR'
    rw [e]
    apply R_replace hR' hc1 (show Contig c.addr [c] (c.addr + 4 * c.size) from ⟨rfl, rfl⟩) hc2
      (show SameMeta h (memcpy h (c.addr + 4) src n) from ⟨rfl, rfl, rfl, rfl, rfl⟩)
    · intro y hy
      exact hout y (by omega)
    · intro d hd
      rw [List.mem_singleton.1 hd]
      exact hnf
    · exact ⟨rfl, rfl⟩
    · intro d hd
      rw [List.mem_singleton.1 hd]
      refine ⟨?_, hnf⟩
      apply BlockOK_congr (hR.blocks c hc)
      · apply get_congr
        intro y y1 y2
        exact hout y (by omega)
      · apply get_congr
        intro y y1 y2
        exact hout y (by omega)
    · left; rfl
    · left; rfl
  · intro y y1 y2
    show (if c.addr + 4 ≤ y ∧ y < c.addr + 4 + n then _ else _) = _
    rw [if_pos ⟨y1, y2⟩]

/-- An allocated block lies in no free block. -/
theorem not_InFree_of_alloc {h : Heap} {bs : List Blk} {fl : Nat → List Nat} {hole : Nat}
    (hR : R h bs fl hole) {c : Blk} (hc : c ∈ bs) (hnf : c.free = false) {y : Nat}
    (h1 : c.addr ≤ y) (h2 : y < c.addr + 4 * c.size) : ¬ InFree bs y := by
  rintro ⟨d, hd, hdf, d1, d2⟩
  rcases hR.sep hc hd with q | q | q
  · rw [q, hdf] at hnf
    exact Bool.noConfusion hnf
  · omega
  · omega

end MallocLab


namespace MallocLab

theorem realloc_eq (fuel : Nat) (h : Heap) (x size p : Nat) (h1 : Heap)
    (hs : size ≠ 0) (hx : x + 4 ≠ 0) (hm : malloc fuel h size = some (p, h1)) (hp : p ≠ 0) :
    realloc fuel h (x + 4) size =
      if block_size h1 x < adjust size then
        some (p, free (memcpy h1 p (x + 4) (min (block_size h1 x * 4) size)) (x + 4))
      else some (x + 4, place h1 x (adjust size)) := by
  unfold realloc
  have e : block_header (x + 4) = x := by
    unfold block_header
    omega
  simp only [hs, if_false, NULL, hx, hm, hp, e, WSIZE]

theorem kept_of_merge (l1 l2 m1 m2 : List Blk) (b c' : Blk)
    (hm1 : m1 = l1 ∨ ∃ p, l1 = m1 ++ [p] ∧ p.free = true)
    (hm2 : m2 = l2 ∨ ∃ n, l2 = n :: m2 ∧ n.free = true) :
    ∀ d ∈ l1 ++ b :: l2, d.free = false → d ≠ b → d ∈ m1 ++ c' :: m2 := by
  intro d hd hdf hne
  rcases List.mem_append.1 hd with q | q
  · rcases hm1 with e | ⟨p, e, pf⟩
    · rw [e]
      exact List.mem_append_left _ q
    · rw [e] at q
      rcases List.mem_append.1 q with r | r
      · exact List.mem_append_left _ r
      · rw [List.mem_singleton.1 r, pf] at hdf
        exact Bool.noConfusion hdf
  · rcases List.mem_cons.1 q with q | q
    · exact absurd q hne
    · rcases hm2 with e | ⟨n, e, nf⟩
      · rw [e]
        exact List.mem_append_right _ (List.mem_cons_of_mem _ q)
      · rw [e] at q
        rcases List.mem_cons.1 q with r | r
        · rw [r, nf] at hdf
          exact Bool.noConfusion hdf
        · exact List.mem_append_right _ (List.mem_cons_of_mem _ r)

/-- `realloc` of an allocated block to a size whose adjustment does not wrap.
Unless the result is `(block_pointer) -1` (the copy path after a failed
extension, which cannot happen when the memory system can grant the extension),
the returned block is allocated, large enough, and holds the old payload
bytes. -/
theorem realloc_spec {h : Heap} {bs : List Blk} {fl : Nat → List Nat} (hR : R h bs fl 0)
    {b : Blk} (hb : b ∈ bs) (hnf : b.free = false) (size : Nat) (h1 : 1 ≤ size)
    (h2 : size + 15 < 2 ^ 64) :
    ∃ N, ∀ fuel, N ≤ fuel → ∃ q h', realloc fuel h (b.addr + 4) size = some (q, h') ∧
      ((q ≠ MINUS_ONE ∨ h.brk + 4 * max (adjust size) CHUNKSIZE ≤ h.max) →
        q ≠ MINUS_ONE ∧
        (∃ bs' fl' s', R h' bs' fl' 0 ∧ (⟨q - 4, s', false⟩ : Blk) ∈ bs' ∧ adjust size ≤ s') ∧
        (∀ i, i < size → i < 4 * b.size - 8 → h'.mem (q + i) = h.mem (b.addr + 4 + i))) := by
  obtain ⟨a4, aev, age, alt⟩ := adjust_spec size h1 h2
  obtain ⟨N, hN⟩ := malloc_spec hR size h1 h2
  refine ⟨N, fun fuel hf => ?_⟩
  obtain ⟨p, hm, hmeq, hcase⟩ := hN fuel hf
  have hbd := hR.bounds hb
  have hbs := hR.size_ok hb
  have hbr := hR.range hb
  rcases hcase with ⟨e1, e2, e3, _⟩ | ⟨bs', fl', s', ok⟩
  · -- the inner malloc failed: the heap is unchanged
    subst e1 e2
    rw [realloc_eq fuel hm b.addr size MINUS_ONE hm (by omega) (by omega) hmeq (by decide),
      hR.block_size hb]
    by_cases hlt : b.size < adjust size
    · rw [if_pos hlt]
      refine ⟨_, _, rfl, fun hq => ?_⟩
      rcases hq with hq | hq
      · exact absurd rfl hq
      · omega
    · rw [if_neg hlt]
      refine ⟨_, _, rfl, fun _ => ?_⟩
      obtain ⟨l1, l2, hl⟩ := List.append_of_mem hb
      subst hl
      obtain ⟨bs'', fl'', s'', p1, p2, p3, p4, _, _, p7⟩ :=
        @R_place _ _ _ _ _ (adjust size) hR hnf a4 aev (by omega)
      have e : b.addr + 4 - 4 = b.addr := by omega
      refine ⟨by unfold MINUS_ONE; omega, ⟨bs'', fl'', s'', p1, by rw [e]; exact p2, p3⟩, ?_⟩
      intro i i1 i2
      apply p7 <;> first | omega | exact not_InFree_of_alloc hR hb hnf (by omega) (by omega)
  · -- the inner malloc succeeded
    have hb' : b ∈ bs' := ok.kept b hb hnf
    have hp0 : p ≠ 0 := by have := ok.p_ge; omega
    have hframe : ∀ y, b.addr ≤ y → y < b.addr + 4 * b.size → hm.mem y = h.mem y := by
      intro y y1 y2
      have hnI := not_InFree_of_alloc hR hb hnf y1 y2
      rcases ok.origin with ⟨_, _, f⟩ | ⟨_, _, _, _, f⟩
      · exact f y hnI
      · exact f y hnI (Or.inl (by omega))
    rw [realloc_eq fuel h b.addr size p hm (by omega) (by omega) hmeq hp0,
      ok.rep.block_size hb']
    by_cases hlt : b.size < adjust size
    · -- copy, then release the old block
      rw [if_pos hlt]
      refine ⟨_, _, rfl, fun _ => ?_⟩
      have hc := ok.blk
      have hcs := ok.rep.size_ok hc
      have hpe : p - 4 + 4 = p := by have := ok.p_ge; omega
      have hbig := ok.big
      have hn : min (b.size * 4) size ≤ 4 * s' - 8 := by
        have : min (b.size * 4) size ≤ size := min_le_right _ _
        omega
      obtain ⟨m1, m2, m3, m4⟩ := R_memcpy (c := ⟨p - 4, s', false⟩) ok.rep hc rfl (b.addr + 4)
        (min (b.size * 4) size) hn
      simp only [hpe] at m1 m2 m3 m4
      obtain ⟨l1, l2, n1, n2, c, fl'', fbs, f1, f2, f3, _, f5⟩ := free_spec m1 hb' hnf
      have hsep : p - 4 + 4 * s' ≤ b.addr ∨ b.addr + 4 * b.size ≤ p - 4 := by
        rcases ok.rep.sep hc hb' with q | q | q
        · have : s' = b.size := by rw [← q]
          omega
        · exact Or.inl q
        · exact Or.inr q
      have hkeep : ∀ y, p - 4 ≤ y → y < p - 4 + 4 * s' →
          (free (memcpy hm p (b.addr + 4) (min (b.size * 4) size)) (b.addr + 4)).mem y
            = (memcpy hm p (b.addr + 4) (min (b.size * 4) size)).mem y := by
        intro y y1 y2
        apply f5 y
        · exact not_InFree_of_alloc m1 hc rfl y1 y2
        · omega
      -- the released block and the new block are different blocks of the new heap
      have hnewblk : ∃ bs3 fl3, R (free (memcpy hm p (b.addr + 4) (min (b.size * 4) size))
          (b.addr + 4)) bs3 fl3 0 ∧ (⟨p - 4, s', false⟩ : Blk) ∈ bs3 := by
        refine ⟨_, _, f1, ?_⟩
        apply kept_of_merge l1 l2 n1 n2 b _ _ _ _ (by rw [← fbs]; exact hc) rfl
        · intro e
          have : s' = b.size := by rw [← e]
          omega
        · rcases f2 with ⟨e, _, _⟩ | ⟨pp, e, pf, _⟩
          · exact Or.inl e
          · exact Or.inr ⟨pp, e, pf⟩
        · rcases f3 with ⟨e, _, _⟩ | ⟨nn, e, nf, _⟩
          · exact Or.inl e
          · exact Or.inr ⟨nn, e, nf⟩
      obtain ⟨bs3, fl3, r1, r2⟩ := hnewblk
      have hpm : p ≠ MINUS_ONE := by
        have := ok.rep.range hc
        have := ok.rep.brk_le
        have := ok.rep.max_le
        unfold MINUS_ONE
        dsimp only at *
        omega
      refine ⟨hpm, ⟨bs3, fl3, s', r1, r2, hbig⟩, ?_⟩
      intro i i1 i2
      rw [hkeep (p + i) (by omega) (by omega), m4 (p + i) (by omega) (by
        have : i < min (b.size * 4) size := by
          rw [lt_min_iff]
          omega
        omega)]
      have : b.addr + 4 + (p + i - p) = b.addr + 4 + i := by omega
      rw [this]
      exact hframe _ (by omega) (by omega)
    · -- reuse in place
      rw [if_neg hlt]
      refine ⟨_, _, rfl, fun _ => ?_⟩
      obtain ⟨l1, l2, hl⟩ := List.append_of_mem hb'
      subst hl
      obtain ⟨bs'', fl'', s'', p1, p2, p3, p4, _, _, p7⟩ :=
        @R_place _ _ _ _ _ (adjust size) ok.rep hnf a4 aev (by omega)
      have e : b.addr + 4 - 4 = b.addr := by omega
      refine ⟨by unfold MINUS_ONE; omega, ⟨bs'', fl'', s'', p1, by rw [e]; exact p2, p3⟩, ?_⟩
      intro i i1 i2
      rw [p7 (b.addr + 4 + i) (by omega) (by omega)
        (not_InFree_of_alloc ok.rep hb' hnf (by omega) (by omega))]
      exact hframe _ (by omega) (by omega)

end MallocLab


namespace MallocLab

/-! ## Requests whose size adjustment wraps

For `size` within 15 of `2^64` the adjustment yields 0 or 2 words.  Only the
extent of the block handed out is followed here. -/

theorem adjust_wrap (size : Nat) (h1 : 2 ^ 64 ≤ size + 15) (h2 : size < 2 ^ 64) :
    adjust size = 0 ∨ adjust size = 2 := by
  rw [adjust_eq]
  rw [if_pos (show size > 8 by omega)]
  omega

/-- The old first node of the class of a block in transit lies outside it. -/
theorem head_outside {h : Heap} {l1 l2 : List Blk} {fl : Nat → List Nat} {b : Blk}
    (hR : R h (l1 ++ b :: l2) fl b.addr) (hnf : b.free = false) (k : Nat) (hk : k < 12) :
    h.seg k = 0 ∨ h.seg k + 16 ≤ b.addr ∨ b.addr + 4 * b.size ≤ h.seg k := by
  have hb : b ∈ l1 ++ b :: l2 := by simp
  by_cases e : h.seg k = 0
  · exact Or.inl e
  · have hm := (DLL_head_pred h _ _ _ (hR.lists k hk) e).1
    rcases hR.node_block_sep hk hm hb with r | r | r
    · obtain ⟨d, hd, e1, e2, _⟩ := hR.mem_fl k hk _ hm
      have := hR.addr_inj hd hb (by rw [e1, r])
      rw [this, hnf] at e2
      exact Bool.noConfusion e2
    · exact Or.inr (Or.inl r)
    · exact Or.inr (Or.inr r)

theorem place_two {h : Heap} {l1 l2 : List Blk} {fl : Nat → List Nat} {b : Blk}
    (hR : R h (l1 ++ b :: l2) fl b.addr) (hnf : b.free = false) (hrem : 4 < b.size - 2) :
    block_size (place h b.addr 2) b.addr = 2 ∧ (place h b.addr 2).brk = h.brk := by
  have hb : b ∈ l1 ++ b :: l2 := by simp
  obtain ⟨h4, hev, hs⟩ := hR.size_ok hb
  have hv := hR.hdr hb
  have hrg := hR.range hb
  have hsz := block_size_of_tag h b.addr b.size hs hv
  have hH := head_outside hR hnf (get_class_no (b.size - 2)) (get_class_no_lt _)
  have e : (b.size + 2 ^ 64 - 2) % 2 ^ 64 = b.size - 2 := by omega
  have e1 : block_footer (put h b.addr 2) b.addr = b.addr + 4 := by
    unfold block_footer
    rw [block_size_of_tag _ b.addr 2 (by decide) (Or.inl (get_put_same_lt _ _ _ (by decide)))]
    omega
  have g2 : get (put (put h b.addr 2) (b.addr + 4) 2) b.addr = 2 := by
    rw [get_put_disj _ _ _ _ (by omega), get_put_same_lt _ _ _ (by decide)]
  have e2 : block_next (put (put h b.addr 2) (b.addr + 4) 2) b.addr = b.addr + 8 := by
    unfold block_next
    rw [block_size_of_tag _ b.addr 2 (by decide) (Or.inl g2)]
  have hpl : place h b.addr 2 = add_to_free_list
      (block_mark (init_block (put (put h b.addr 2) (b.addr + 4) 2) (b.addr + 8) (b.size - 2))
        b.addr false) (b.addr + 8) := by
    unfold place
    simp only [hsz, e]
    rw [if_neg (show ¬ (b.size - 2 ≤ 4) by omega)]
    simp only [e1, e2]
  rw [hpl]
  have m0 : SameMeta h (put (put h b.addr 2) (b.addr + 4) 2) :=
    (SameMeta_put _ _ _).trans (SameMeta_put _ _ _)
  generalize put (put h b.addr 2) (b.addr + 4) 2 = h2 at *
  obtain ⟨i1, _, _, _, i5, i6⟩ := init_block_spec h2 (b.addr + 8) (b.size - 2) (by omega)
    (by omega)
  have g3 : get (init_block h2 (b.addr + 8) (b.size - 2)) b.addr = 2 := by
    refine Eq.trans ?_ g2
    apply get_congr
    intro y y1 y2
    apply i6 <;> omega
  generalize init_block h2 (b.addr + 8) (b.size - 2) = h3 at *
  obtain ⟨b1, _, b3, b4⟩ := block_mark_spec h3 b.addr 2 false (by decide) (le_refl _)
    (Or.inl g3)
  simp only [Bool.false_eq_true, if_false] at b1
  have g4 : get (block_mark h3 b.addr false) (b.addr + 8) = b.size - 2 := by
    refine Eq.trans ?_ i1
    apply get_congr
    intro y y1 y2
    apply b4 <;> omega
  have m4 := (m0.trans i5).trans b3
  generalize block_mark h3 b.addr false = h4' at *
  obtain ⟨m1, m2, m3, ms, m5⟩ := m4
  rw [← ms] at hH
  obtain ⟨_, _, _, _, _, _, abrk, _, _, _, aF⟩ :=
    add_to_free_list_spec h4' (b.addr + 8) (b.size - 2) _ (Or.inl g4) (by omega) (by omega) rfl
      (by omega)
  constructor
  · have : get (add_to_free_list h4' (b.addr + 8)) b.addr = get h4' b.addr := by
      apply get_congr
      intro y y1 y2
      apply aF <;> omega
    rw [block_size_eq, this, b1]
    norm_num
  · rw [abrk, m2]

theorem place_zero {h : Heap} {l1 l2 : List Blk} {fl : Nat → List Nat} {b : Blk}
    (hR : R h (l1 ++ b :: l2) fl b.addr) (hnf : b.free = false) (hrem : 4 < b.size) :
    block_size (place h b.addr 0) b.addr = b.size ∧ (place h b.addr 0).brk = h.brk := by
  have hb : b ∈ l1 ++ b :: l2 := by simp
  obtain ⟨h4, hev, hs⟩ := hR.size_ok hb
  have hv := hR.hdr hb
  have hrg := hR.range hb
  have hsz := block_size_of_tag h b.addr b.size hs hv
  have hH := head_outside hR hnf (get_class_no b.size) (get_class_no_lt _)
  have e : (b.size + 2 ^ 64 - 0) % 2 ^ 64 = b.size := by omega
  have e1 : block_footer (put h b.addr 0) b.addr = b.addr - 4 := by
    unfold block_footer
    rw [block_size_of_tag _ b.addr 0 (by decide) (Or.inl (get_put_same_lt _ _ _ (by decide)))]
    omega
  have g2 : get (put (put h b.addr 0) (b.addr - 4) 0) b.addr = 0 := by
    rw [get_put_disj _ _ _ _ (by omega), get_put_same_lt _ _ _ (by decide)]
  have e2 : block_next (put (put h b.addr 0) (b.addr - 4) 0) b.addr = b.addr := by
    unfold block_next
    rw [block_size_of_tag _ b.addr 0 (by decide) (Or.inl g2)]
    omega
  have hpl : place h b.addr 0 = add_to_free_list
      (block_mark (init_block (put (put h b.addr 0) (b.addr - 4) 0) b.addr b.size)
        b.addr false) b.addr := by
    unfold place
    simp only [hsz, e]
    rw [if_neg (show ¬ (b.size ≤ 4) by omega)]
    simp only [e1, e2]
  rw [hpl]
  have m0 : SameMeta h (put (put h b.addr 0) (b.addr - 4) 0) :=
    (SameMeta_put _ _ _).trans (SameMeta_put _ _ _)
  generalize put (put h b.addr 0) (b.addr - 4) 0 = h2 at *
  obtain ⟨i1, _, _, _, i5, _⟩ := init_block_spec h2 b.addr b.size h4 hs
  generalize init_block h2 b.addr b.size = h3 at *
  obtain ⟨b1, _, b3, _⟩ := block_mark_spec h3 b.addr b.size false hs (by omega) (Or.inl i1)
  simp only [Bool.false_eq_true, if_false] at b1
  have m4 := (m0.trans i5).trans b3
  generalize block_mark h3 b.addr false = h4' at *
  obtain ⟨m1, m2, m3, ms, m5⟩ := m4
  rw [← ms] at hH
  obtain ⟨a1, _, _, _, _, _, abrk, _, _, _, _⟩ :=
    add_to_free_list_spec h4' b.addr b.size _ (Or.inr b1) h4 hs rfl hH
  constructor
  · rw [block_size_eq, a1]
    omega
  · rw [abrk, m2]

/-- `place` for a wrapped request: the block handed out does not extend beyond
the block it was cut from. -/
theorem place_small {h : Heap} {l1 l2 : List Blk} {fl : Nat → List Nat} {b : Blk} {ws : Nat}
    (hR : R h (l1 ++ b :: l2) fl b.addr) (hnf : b.free = false) (hws : ws = 0 ∨ ws = 2) :
    block_size (place h b.addr ws) b.addr ≤ b.size ∧ (place h b.addr ws).brk = h.brk := by
  have hb : b ∈ l1 ++ b :: l2 := by simp
  obtain ⟨h4, hev, hs⟩ := hR.size_ok hb
  by_cases hrem : b.size - ws ≤ 4
  · obtain ⟨p1, p2, _⟩ := @R_place_nosplit _ _ _ _ _ ws hR hnf (by omega) hrem
    exact ⟨le_of_eq (p1.block_size hb), p2⟩
  · rcases hws with e | e
    · subst e
      obtain ⟨q1, q2⟩ := place_zero hR hnf (by omega)
      exact ⟨le_of_eq q1, q2⟩
    · subst e
      obtain ⟨q1, q2⟩ := place_two hR hnf (by omega)
      exact ⟨by omega, q2⟩

end MallocLab


namespace MallocLab

/-- The extent of the block `malloc` hands out, for every request size of type
`size_t`: it lies inside a block that was free, or it starts at the old epilogue
word and ends before the new one. -/
theorem malloc_extent {h : Heap} {bs : List Blk} {fl : Nat → List Nat} (hR : R h bs fl 0)
    (size : Nat) (h1 : 1 ≤ size) (h2 : size < 2 ^ 64) :
    ∃ N, ∀ fuel, N ≤ fuel → ∃ p h', malloc fuel h size = some (p, h') ∧
      (p = MINUS_ONE ∨
        (4 ≤ p ∧
          ((h'.brk = h.brk ∧ ∃ b ∈ bs, b.free = true ∧ b.addr = p - 4 ∧
              block_size h' (p - 4) ≤ b.size) ∨
           (h'.brk = h.brk + 4 * max (adjust size) CHUNKSIZE ∧ p - 4 = h.brk - 4 ∧
              block_size h' (p - 4) ≤ max (adjust size) CHUNKSIZE)))) := by
  by_cases hw : size + 15 < 2 ^ 64
  · obtain ⟨N, hN⟩ := malloc_spec hR size h1 hw
    refine ⟨N, fun fuel hf => ?_⟩
    obtain ⟨p, h', hm, hcase⟩ := hN fuel hf
    refine ⟨p, h', hm, ?_⟩
    rcases hcase with ⟨e, _⟩ | ⟨bs', fl', s', ok⟩
    · exact Or.inl e
    · right
      refine ⟨ok.p_ge, ?_⟩
      have hsz : block_size h' (p - 4) = s' := ok.rep.block_size ok.blk
      rw [hsz]
      rcases ok.origin with ⟨o1, o2, _⟩ | ⟨o1, o2, o3, _⟩
      · exact Or.inl ⟨o1, o2⟩
      · exact Or.inr ⟨o1, o2, o3⟩
  · have hws := adjust_wrap size (by omega) h2
    obtain ⟨N, hN⟩ := find_first_fit_spec hR (adjust size)
    refine ⟨N, fun fuel hf => ?_⟩
    obtain ⟨r, hr, hcase⟩ := hN fuel hf
    have hsz : ¬ size = 0 := by omega
    unfold malloc
    rw [if_neg hsz]
    simp only [hr]
    have hbg := hR.brk_ge
    have hb1 := hR.base_le
    have hb2 := hR.lo_le
    rcases hcase with ⟨r0, _⟩ | ⟨r0, b, hb, e1, e2, e3⟩
    · subst r0
      simp only [NULL, ne_eq, not_true_eq_false, if_false]
      have hW : max (adjust size) CHUNKSIZE = 64 := by
        rw [CHUNKSIZE_eq]
        rcases hws with e | e <;> rw [e] <;> rfl
      rw [hW]
      by_cases hok : h.brk + 4 * 64 ≤ h.max
      · obtain ⟨x1, x2, x3, _⟩ := @R_extend _ _ _ 64 hR (by decide) (by decide) hok
        have hne : ¬ ((extend_heap h 64).1 = 0) := by
          rw [x1]; omega
        rw [if_neg hne, x1]
        obtain ⟨q1, q2⟩ := @place_small _ _ [] _ ⟨h.brk - 4, 64, false⟩ (adjust size) x2 rfl hws
        refine ⟨_, _, rfl, Or.inr ⟨by unfold block_mem; omega, Or.inr ⟨?_, ?_, ?_⟩⟩⟩
        · rw [q2, x3]
        · unfold block_mem; omega
        · have e : block_mem (h.brk - 4) - 4 = h.brk - 4 := by
            unfold block_mem; omega
          rw [e]
          exact q1
      · have hfail := extend_heap_fail h 64 (by decide) (by decide) (by omega)
        rw [hfail]
        simp only [if_true]
        exact ⟨_, _, rfl, Or.inl rfl⟩
    · obtain ⟨l1, l2, hbs⟩ := List.append_of_mem hb
      subst hbs
      simp only [NULL, ne_eq, r0, not_false_eq_true, if_true]
      obtain ⟨d1, d2, _⟩ := R_delete_block hR e2
      have hb' : (⟨b.addr, b.size, false⟩ : Blk) ∈ l1 ++ ⟨b.addr, b.size, false⟩ :: l2 := by
        simp
      have hRo := R_open d1 hb' rfl
      obtain ⟨q1, q2⟩ := @place_small _ _ _ _ ⟨b.addr, b.size, false⟩ (adjust size) hRo rfl
        hws
      have hrg := hR.range hb
      rw [← e1]
      have e : block_mem b.addr - 4 = b.addr := by
        unfold block_mem; omega
      refine ⟨_, _, rfl, Or.inr ⟨by unfold block_mem; omega, Or.inl ⟨?_, b, hb, e2, e.symm, ?_⟩⟩⟩
      · rw [q2, d2]
      · rw [e]
        exact q1

end MallocLab


namespace MallocLab

/-! ## Concrete heaps -/

set_option maxRecDepth 1000000 in
/-- The heap after `mm_init()` is represented by its one free block. -/
theorem init_heap_R : R init_heap init_blocks init_lists 0 where
  base_le := by decide
  lo_le := by decide
  align8 := by decide
  brk_le := by decide
  max_le := by decide
  pro_hdr := by decide
  pro_ftr := by decide
  epi := by decide
  brk_ge := by decide
  contig := by decide
  blocks := by decide
  lists := by decide
  mem_fl := by decide
  fl_mem := by decide
  nodup := by decide

set_option maxRecDepth 1000000 in
/-- The heap after `mm_init()` and `malloc(248)` is represented by its one
allocated block. -/
theorem full_heap_R : R full_heap full_blocks no_lists 0 where
  base_le := by decide
  lo_le := by decide
  align8 := by decide
  brk_le := by decide
  max_le := by decide
  pro_hdr := by decide
  pro_ftr := by decide
  epi := by decide
  brk_ge := by decide
  contig := by decide
  blocks := by decide
  lists := by decide
  mem_fl := by decide
  fl_mem := by decide
  nodup := by decide

/-! ## Facts shared by the contract theorems -/

/-- An allocated block of a represented heap, seen through its payload pointer:
the pointer is not `NULL`, the header says allocated, and the payload covers
every request that fits the block. -/
theorem served {h : Heap} {bs : List Blk} {fl : Nat → List Nat} (hR : R h bs fl 0)
    {p s size : Nat} (hm : (⟨p - 4, s, false⟩ : Blk) ∈ bs) (hs : size + 8 ≤ 4 * s) :
    p ≠ NULL ∧
    (∃ bs' fl', R h bs' fl' 0 ∧
      (⟨block_header p, block_size h (block_header p), false⟩ : Blk) ∈ bs') ∧
    block_free h (block_header p) = false ∧
    size ≤ 4 * block_size h (block_header p) - 8 := by
  have hsz := hR.size_ok hm
  have hrg := hR.range hm
  have hbs := hR.block_size hm
  obtain ⟨_, _, _, _, ha, _⟩ := hR.blocks _ hm
  dsimp only at hsz hrg hbs ha
  have hhd := (ha rfl (by omega)).1
  have e : block_header p = p - 4 := rfl
  rw [e, hbs]
  refine ⟨?_, ⟨bs, fl, hR, hm⟩, block_free_of_alloc h (p - 4) s hsz.2.2 hhd, by omega⟩
  unfold NULL
  omega

/-- Block headers of a represented heap sit at addresses `4` modulo `8`. -/
theorem Contig_align : ∀ (bs : List Blk) (a e : Nat), Contig a bs e → a % 8 = 4 →
    (∀ b ∈ bs, b.size % 2 = 0) → ∀ b ∈ bs, b.addr % 8 = 4
  | [], _, _, _, _, _ => fun b hb => absurd hb (List.not_mem_nil b)
  | c :: cs, a, e, hc, ha, hev => by
    intro b hb
    have hc0 : c.addr = a ∧ Contig (a + 4 * c.size) cs e := hc
    rcases List.mem_cons.1 hb with q | q
    · rw [q, hc0.1]
      exact ha
    · have hce := hev c (List.mem_cons_self _ _)
      exact Contig_align cs (a + 4 * c.size) e hc0.2 (by omega)
        (fun x hx => hev x (List.mem_cons_of_mem _ hx)) b q

/-- Payload pointers of a represented heap are 8-byte aligned. -/
theorem R.payload_aligned {h : Heap} {bs : List Blk} {fl : Nat → List Nat} {hole : Nat}
    (hR : R h bs fl hole) {b : Blk} (hb : b ∈ bs) : block_mem b.addr % 8 = 0 := by
  have h1 := hR.align8
  have h2 := Contig_align bs _ _ hR.contig (by omega) (fun x hx => (hR.size_ok hx).2.1) b hb
  unfold block_mem
  omega

/-- On a represented heap and for a request whose adjustment does not wrap,
`malloc` returns `(block_pointer) -1` or an 8-byte aligned payload pointer. -/
theorem malloc_aligned {h : Heap} {bs : List Blk} {fl : Nat → List Nat} (hR : R h bs fl 0)
    (size : Nat) (h1 : 1 ≤ size) (h2 : size + 15 < 2 ^ 64) :
    ∃ N, ∀ fuel, N ≤ fuel → ∃ p h', malloc fuel h size = some (p, h') ∧
      (p = MINUS_ONE ∨ p % 8 = 0) := by
  obtain ⟨N, hN⟩ := malloc_spec hR size h1 h2
  refine ⟨N, fun fuel hf => ?_⟩
  obtain ⟨p, h', hm, hcase⟩ := hN fuel hf
  refine ⟨p, h', hm, ?_⟩
  rcases hcase with ⟨e, _⟩ | ⟨bs', fl', s', ok⟩
  · exact Or.inl e
  · right
    have ha : (p - 4 + 4) % 8 = 0 := ok.rep.payload_aligned ok.blk
    have := ok.p_ge
    omega

end MallocLab


namespace MallocLab

/-! ## The contract of the allocator (claims C1 to C10) -/

set_option maxRecDepth 1000000 in
/-- C1, evaluated at the failing input: `mm_init()` succeeds on an 8-byte aligned
heap limited to 4 GiB; `malloc(2^33)` then finds no fit, `mem_sbrk` refuses the
extension, and the value returned is `(block_pointer) -1`, which is neither
`NULL` nor 8-byte aligned. -/
theorem malloc_failure_returns_minus_one :
    (mm_init start_heap).map Prod.fst = some 0 ∧
    mem_heap_lo start_heap % 8 = 0 ∧
    (malloc 4 init_heap (2 ^ 33)).map Prod.fst = some MINUS_ONE ∧
    MINUS_ONE ≠ NULL ∧ MINUS_ONE % 8 = 7 := by
  decide

set_option maxRecDepth 1000000 in
/-- C2, counterexample: on the well-formed heap after `mm_init()`, the request
`2^64 - 1` is adjusted (on `size_t`) to a block of 2 words, below `2^30`;
`malloc` succeeds and returns the payload pointer of an allocated block of 2
words, whose usable payload `4 * 2 - 8 = 0` bytes is below the request. -/
theorem malloc_wrapped_request_is_short :
    R init_heap init_blocks init_lists 0 ∧ NoAdjacentFree init_blocks ∧
    1 ≤ 2 ^ 64 - 1 ∧ adjust (2 ^ 64 - 1) < 2 ^ 30 ∧
    (malloc 4 init_heap (2 ^ 64 - 1)).map
        (fun r => (r.1, block_free r.2 (block_header r.1), block_size r.2 (block_header r.1))) =
      some (0x800000000 + 112, false, 2) ∧
    ¬ (2 ^ 64 - 1 ≤ 4 * 2 - 8) :=
  ⟨init_heap_R, by decide, by decide, by decide, by decide, by decide⟩

/-- C2, amended to requests of at most `2^64 - 16` bytes (the size adjustment
does not wrap): on a well-formed heap, for a request of `size ≥ 1` bytes whose
adjusted block size is below `2^30` words, whenever `malloc(size)`,
`realloc(q, size)` (`q` being `NULL` or the payload pointer of an allocated
block) or `calloc(n, s)` with `n * s = size` returns (given enough fuel for the
free-list walk) something other than `(block_pointer) -1`, the result is the
non-null payload pointer of a block of the new well-formed heap that is marked
allocated and whose usable payload, `4 * block_size - 8` bytes, is at least
`size`. -/
theorem payload_covers_request {h : Heap} {bs : List Blk} {fl : Nat → List Nat}
    (hR : R h bs fl 0) (size : Nat) (h1 : 1 ≤ size) (h2 : size ≤ 2 ^ 64 - 16)
    (h3 : adjust size < 2 ^ 30) :
    (∃ N, ∀ fuel, N ≤ fuel → ∃ p h', malloc fuel h size = some (p, h') ∧
      (p ≠ MINUS_ONE →
        p ≠ NULL ∧
        (∃ bs' fl', R h' bs' fl' 0 ∧
          (⟨block_header p, block_size h' (block_header p), false⟩ : Blk) ∈ bs') ∧
        block_free h' (block_header p) = false ∧
        size ≤ 4 * block_size h' (block_header p) - 8)) ∧
    (∀ q, (q = NULL ∨ ∃ b ∈ bs, b.free = false ∧ q = block_mem b.addr) →
      ∃ N, ∀ fuel, N ≤ fuel → ∃ p h', realloc fuel h q size = some (p, h') ∧
        (p ≠ MINUS_ONE →
          p ≠ NULL ∧
          (∃ bs' fl', R h' bs' fl' 0 ∧
            (⟨block_header p, block_size h' (block_header p), false⟩ : Blk) ∈ bs') ∧
          block_free h' (block_header p) = false ∧
          size ≤ 4 * block_size h' (block_header p) - 8)) ∧
    (∀ n s, n * s = size →
      ∃ N, ∀ fuel, N ≤ fuel → ∃ p h', calloc fuel h n s = some (p, h') ∧
        (p ≠ MINUS_ONE →
          p ≠ NULL ∧
          (∃ bs' fl', R h' bs' fl' 0 ∧
            (⟨block_header p, block_size h' (block_header p), false⟩ : Blk) ∈ bs') ∧
          block_free h' (block_header p) = false ∧
          size ≤ 4 * block_size h' (block_header p) - 8)) := by
  have hw : size + 15 < 2 ^ 64 := by omega
  obtain ⟨a4, aev, age, alt⟩ := adjust_spec size h1 hw
  -- the part on `malloc`, for any request at least as large as `size`
  have hmal : ∀ r, size ≤ r → r + 15 < 2 ^ 64 →
      ∃ N, ∀ fuel, N ≤ fuel → ∃ p h', malloc fuel h r = some (p, h') ∧
        (p ≠ MINUS_ONE →
          p ≠ NULL ∧
          (∃ bs' fl', R h' bs' fl' 0 ∧
            (⟨block_header p, block_size h' (block_header p), false⟩ : Blk) ∈ bs') ∧
          block_free h' (block_header p) = false ∧
          size ≤ 4 * block_size h' (block_header p) - 8) := by
    intro r hr hrw
    obtain ⟨b4, bev, bge, blt⟩ := adjust_spec r (by omega) hrw
    obtain ⟨N, hN⟩ := malloc_spec hR r (by omega) hrw
    refine ⟨N, fun fuel hf => ?_⟩
    obtain ⟨p, h', hm, hcase⟩ := hN fuel hf
    refine ⟨p, h', hm, fun hp => ?_⟩
    rcases hcase with ⟨e, _⟩ | ⟨bs', fl', s', ok⟩
    · exact absurd e hp
    · have := ok.big
      exact served ok.rep ok.blk (by omega)
  refine ⟨hmal size (le_refl _) hw, ?_, ?_⟩
  · rintro q (hq | ⟨b, hb, hnf, hq⟩)
    · obtain ⟨N, hN⟩ := hmal size (le_refl _) hw
      refine ⟨N, fun fuel hf => ?_⟩
      have e : realloc fuel h q size = malloc fuel h size := by
        unfold realloc
        have hs : ¬ size = 0 := by omega
        simp only [hs, if_false, hq, if_true]
      rw [e]
      exact hN fuel hf
    · obtain ⟨N, hN⟩ := realloc_spec hR hb hnf size h1 hw
      refine ⟨N, fun fuel hf => ?_⟩
      obtain ⟨p, h', hm, hcase⟩ := hN fuel hf
      have hq' : q = b.addr + 4 := hq
      rw [hq']
      refine ⟨p, h', hm, fun hp => ?_⟩
      obtain ⟨_, ⟨bs', fl', s', r1, r2, r3⟩, _⟩ := hcase (Or.inl hp)
      exact served r1 r2 (by omega)
  · intro n s hns
    have hn1 : 1 ≤ n := by
      rcases Nat.eq_zero_or_pos n with e | e
      · rw [e, Nat.zero_mul] at hns
        omega
      · exact e
    have hs1 : 1 ≤ s := by
      rcases Nat.eq_zero_or_pos s with e | e
      · rw [e, Nat.mul_zero] at hns
        omega
      · exact e
    have hlo : n * s ≤ n * (if s < BLOCKSIZE_MIN then BLOCKSIZE_MIN else s) := by
      apply Nat.mul_le_mul_left
      split <;> omega
    have hhi : n * (if s < BLOCKSIZE_MIN then BLOCKSIZE_MIN else s) ≤ n * (4 * s) := by
      apply Nat.mul_le_mul_left
      split
      · show 4 ≤ 4 * s
        omega
      · omega
    have hhi' : n * (4 * s) = 4 * (n * s) := by
      rw [Nat.mul_left_comm]
    have hmod : n * (if s < BLOCKSIZE_MIN then BLOCKSIZE_MIN else s) % 2 ^ 64 =
        n * (if s < BLOCKSIZE_MIN then BLOCKSIZE_MIN else s) :=
      Nat.mod_eq_of_lt (by omega)
    obtain ⟨N, hN⟩ := hmal (n * (if s < BLOCKSIZE_MIN then BLOCKSIZE_MIN else s)) (by omega)
      (by omega)
    refine ⟨N, fun fuel hf => ?_⟩
    have e : calloc fuel h n s =
        malloc fuel h (n * (if s < BLOCKSIZE_MIN then BLOCKSIZE_MIN else s)) := by
      unfold calloc
      simp only [hmod]
    rw [e]
    exact hN fuel hf

/-- C2, witness: the amended claim at the heap after `mm_init()` and
`malloc(248)`, for a request of 100 bytes. -/
theorem payload_covers_request_witness :
    (R full_heap full_blocks no_lists 0 ∧ 1 ≤ 100 ∧ 100 ≤ 2 ^ 64 - 16 ∧ adjust 100 < 2 ^ 30) ∧
    ((∃ N, ∀ fuel, N ≤ fuel → ∃ p h', malloc fuel full_heap 100 = some (p, h') ∧
      (p ≠ MINUS_ONE →
        p ≠ NULL ∧
        (∃ bs' fl', R h' bs' fl' 0 ∧
          (⟨block_header p, block_size h' (block_header p), false⟩ : Blk) ∈ bs') ∧
        block_free h' (block_header p) = false ∧
        100 ≤ 4 * block_size h' (block_header p) - 8)) ∧
    (∀ q, (q = NULL ∨ ∃ b ∈ full_blocks, b.free = false ∧ q = block_mem b.addr) →
      ∃ N, ∀ fuel, N ≤ fuel → ∃ p h', realloc fuel full_heap q 100 = some (p, h') ∧
        (p ≠ MINUS_ONE →
          p ≠ NULL ∧
          (∃ bs' fl', R h' bs' fl' 0 ∧
            (⟨block_header p, block_size h' (block_header p), false⟩ : Blk) ∈ bs') ∧
          block_free h' (block_header p) = false ∧
          100 ≤ 4 * block_size h' (block_header p) - 8)) ∧
    (∀ n s, n * s = 100 →
      ∃ N, ∀ fuel, N ≤ fuel → ∃ p h', calloc fuel full_heap n s = some (p, h') ∧
        (p ≠ MINUS_ONE →
          p ≠ NULL ∧
          (∃ bs' fl', R h' bs' fl' 0 ∧
            (⟨block_header p, block_size h' (block_header p), false⟩ : Blk) ∈ bs') ∧
          block_free h' (block_header p) = false ∧
          100 ≤ 4 * block_size h' (block_header p) - 8))) :=
  ⟨⟨full_heap_R, by decide, by decide, by decide⟩,
    payload_covers_request full_heap_R 100 (by decide) (by decide) (by decide)⟩

end MallocLab


namespace MallocLab

set_option maxRecDepth 1000000 in
/-- C3, counterexample: on the well-formed heap after `mm_init()` the epilogue
header `PACK(0, 1)` is the word at `brk - 4`; `malloc(1000)` finds no fit,
extends the heap, and returns a block of 252 words whose header is that very
word: the block overlaps the epilogue that was marked allocated before the
call. -/
theorem malloc_extension_takes_old_epilogue :
    R init_heap init_blocks init_lists 0 ∧ NoAdjacentFree init_blocks ∧
    get init_heap (init_heap.brk - 4) = PACK 0 1 ∧
    (malloc 4 init_heap 1000).map
        (fun r => (r.1, block_header r.1, block_size r.2 (block_header r.1))) =
      some (init_heap.brk, init_heap.brk - 4, 252) ∧
    (init_heap.brk - 4 ≤ init_heap.brk - 4 ∧ init_heap.brk - 4 < init_heap.brk - 4 + 4 * 252) :=
  ⟨init_heap_R, by decide, by decide, by decide, by decide⟩

/-- C3, amended (the epilogue is the one the call leaves): on a well-formed heap
and for every `size ≥ 1` of type `size_t`, `malloc(size)` returns (given enough
fuel for the free-list walk), and unless it returns `(block_pointer) -1` the
byte range of the returned block, from its header to the end of its footer,
is disjoint from the range of every block that was allocated before the call,
starts above the prologue, and ends at or before the epilogue word of the new
heap.  Either the heap did not grow, or it grew and the block's header is the
word that held the epilogue header before the call. -/
theorem malloc_block_is_disjoint {h : Heap} {bs : List Blk} {fl : Nat → List Nat}
    (hR : R h bs fl 0) (size : Nat) (h1 : 1 ≤ size) (h2 : size < 2 ^ 64) :
    ∃ N, ∀ fuel, N ≤ fuel → ∃ p h', malloc fuel h size = some (p, h') ∧
      (p ≠ MINUS_ONE →
        (∀ c ∈ bs, c.free = false →
          block_header p + 4 * block_size h' (block_header p) ≤ c.addr ∨
          c.addr + 4 * c.size ≤ block_header p) ∧
        h.heap_listp + 4 ≤ block_header p ∧
        block_header p + 4 * block_size h' (block_header p) ≤ h'.brk - 4 ∧
        (h'.brk = h.brk ∨ (h.brk < h'.brk ∧ block_header p = h.brk - 4))) := by
  obtain ⟨N, hN⟩ := malloc_extent hR size h1 h2
  refine ⟨N, fun fuel hf => ?_⟩
  obtain ⟨p, h', hm, hcase⟩ := hN fuel hf
  refine ⟨p, h', hm, fun hp => ?_⟩
  have e : block_header p = p - 4 := rfl
  rw [e]
  have hbg := hR.brk_ge
  rcases hcase with e1 | ⟨_, ⟨b1, b, hb, hbf, hba, hbs⟩ | ⟨x1, x2, x3⟩⟩
  · exact absurd e1 hp
  · have hbd := hR.bounds hb
    refine ⟨fun c hc hcf => ?_, by omega, by omega, Or.inl b1⟩
    rcases hR.sep hb hc with q | q | q
    · rw [q, hcf] at hbf
      exact Bool.noConfusion hbf
    · omega
    · omega
  · have hmx : 64 ≤ max (adjust size) CHUNKSIZE := by
      rw [CHUNKSIZE_eq]
      exact le_max_right _ _
    refine ⟨fun c hc hcf => ?_, by omega, by omega, Or.inr ⟨by omega, x2⟩⟩
    have hbd := hR.bounds hc
    omega

/-- C3, witness: the amended claim at the heap after `mm_init()` and
`malloc(248)`, for a request of 100 bytes. -/
theorem malloc_block_is_disjoint_witness :
    (R full_heap full_blocks no_lists 0 ∧ 1 ≤ 100 ∧ 100 < 2 ^ 64) ∧
    ∃ N, ∀ fuel, N ≤ fuel → ∃ p h', malloc fuel full_heap 100 = some (p, h') ∧
      (p ≠ MINUS_ONE →
        (∀ c ∈ full_blocks, c.free = false →
          block_header p + 4 * block_size h' (block_header p) ≤ c.addr ∨
          c.addr + 4 * c.size ≤ block_header p) ∧
        full_heap.heap_listp + 4 ≤ block_header p ∧
        block_header p + 4 * block_size h' (block_header p) ≤ h'.brk - 4 ∧
        (h'.brk = full_heap.brk ∨
          (full_heap.brk < h'.brk ∧ block_header p = full_heap.brk - 4))) :=
  ⟨⟨full_heap_R, by decide, by decide⟩,
    malloc_block_is_disjoint full_heap_R 100 (by decide) (by decide)⟩

set_option maxRecDepth 1000000 in
/-- C4, counterexample: on the well-formed heap after `mm_init()`, the request
`2^64 - 15` is adjusted (on `size_t`) to 0 words; `malloc` takes the free block at
`0x800000000 + 108`, the heap does not grow, and the footer of the prologue, the
word at `heap_listp`, is overwritten with 0: a word below every block of the
heap, so in no free block and not in the block being allocated. -/
theorem malloc_wrapped_request_writes_prologue :
    R init_heap init_blocks init_lists 0 ∧ NoAdjacentFree init_blocks ∧
    get init_heap init_heap.heap_listp = PACK 2 1 ∧
    (malloc 4 init_heap (2 ^ 64 - 15)).map
        (fun r => (block_header r.1, r.2.brk, get r.2 init_heap.heap_listp)) =
      some (0x800000000 + 108, init_heap.brk, 0) ∧
    (∀ b ∈ init_blocks, init_heap.heap_listp + 4 ≤ b.addr) :=
  ⟨init_heap_R, by decide, by decide, by decide!, by decide!⟩

/-- C4, amended to requests of at most `2^64 - 16` bytes (the size adjustment
does not wrap): on a well-formed heap, `malloc(size)` changes only bytes that lie
in a block that was free, in the block it returns, or in the newly extended
space, and `free(p)`, for `p` the payload pointer of an allocated block, changes
only bytes that lie in a block that was free or in the block being freed; both
leave every byte of every other allocated block unchanged. -/
theorem malloc_and_free_frame {h : Heap} {bs : List Blk} {fl : Nat → List Nat}
    (hR : R h bs fl 0) :
    (∀ size, size ≤ 2 ^ 64 - 16 →
      ∃ N, ∀ fuel, N ≤ fuel → ∃ p h', malloc fuel h size = some (p, h') ∧
        (∀ y, h'.mem y ≠ h.mem y →
          InFree bs y ∨
          (block_header p ≤ y ∧ y < block_header p + 4 * block_size h' (block_header p)) ∨
          (h.brk ≤ y ∧ y < h'.brk)) ∧
        (∀ c ∈ bs, c.free = false → ∀ y, c.addr ≤ y → y < c.addr + 4 * c.size →
          h'.mem y = h.mem y)) ∧
    (∀ b ∈ bs, b.free = false →
      (∀ y, (free h (block_mem b.addr)).mem y ≠ h.mem y →
        InFree bs y ∨ (b.addr ≤ y ∧ y < b.addr + 4 * b.size)) ∧
      (∀ c ∈ bs, c.free = false → c ≠ b → ∀ y, c.addr ≤ y → y < c.addr + 4 * c.size →
        (free h (block_mem b.addr)).mem y = h.mem y)) := by
  constructor
  · intro size h2
    by_cases h0 : size = 0
    · refine ⟨0, fun fuel _ => ⟨NULL, h, ?_, fun y hy => absurd rfl hy, fun _ _ _ _ _ _ => rfl⟩⟩
      unfold malloc
      rw [if_pos h0]
    · obtain ⟨N, hN⟩ := malloc_spec hR size (by omega) (by omega)
      refine ⟨N, fun fuel hf => ?_⟩
      obtain ⟨p, h', hm, hcase⟩ := hN fuel hf
      refine ⟨p, h', hm, ?_⟩
      rcases hcase with ⟨_, e, _⟩ | ⟨bs', fl', s', ok⟩
      · rw [e]
        exact ⟨fun y hy => absurd rfl hy, fun _ _ _ _ _ _ => rfl⟩
      · have hsz : block_size h' (block_header p) = s' := ok.rep.block_size ok.blk
        have hs4 := (ok.rep.size_ok ok.blk).1
        have hbp : block_header p = p - 4 := rfl
        rw [hsz, hbp]
        rcases ok.origin with ⟨o1, _, f⟩ | ⟨o1, o2, o3, _, f⟩
        · constructor
          · intro y hy
            by_contra hn
            exact hy (f y (fun hI => hn (Or.inl hI)))
          · intro c hc hcf y y1 y2
            exact f y (not_InFree_of_alloc hR hc hcf y1 y2)
        · constructor
          · intro y hy
            by_contra hn
            simp only [not_or, not_and, not_lt] at hn
            obtain ⟨n1, n2, n3⟩ := hn
            apply hy
            apply f y n1
            by_cases hlt : y < h.brk - 4
            · exact Or.inl hlt
            · right
              by_contra hlt2
              have hs4' : 4 ≤ s' := hs4
              have q1 := n2 (by omega)
              have q2 := n3 (by omega)
              omega
          · intro c hc hcf y y1 y2
            have hbd := hR.bounds hc
            exact f y (not_InFree_of_alloc hR hc hcf y1 y2) (Or.inl (by omega))
  · intro b hb hnf
    obtain ⟨_, _, _, _, _, _, _, _, _, _, _, f⟩ := free_spec hR hb hnf
    have e : block_mem b.addr = b.addr + 4 := rfl
    rw [e]
    constructor
    · intro y hy
      by_contra hn
      simp only [not_or, not_and, not_lt] at hn
      obtain ⟨n1, n2⟩ := hn
      apply hy
      apply f y n1
      by_cases hlt : y < b.addr
      · exact Or.inl hlt
      · exact Or.inr (n2 (by omega))
    · intro c hc hcf hne y y1 y2
      apply f y (not_InFree_of_alloc hR hc hcf y1 y2)
      rcases hR.sep hb hc with q | q | q
      · exact absurd q.symm hne
      · omega
      · omega

/-- C4, witness: the amended claim at the heap after `mm_init()` and
`malloc(248)`, whose one block is allocated. -/
theorem malloc_and_free_frame_witness :
    R full_heap full_blocks no_lists 0 ∧
    ((∀ size, size ≤ 2 ^ 64 - 16 →
      ∃ N, ∀ fuel, N ≤ fuel → ∃ p h', malloc fuel full_heap size = some (p, h') ∧
        (∀ y, h'.mem y ≠ full_heap.mem y →
          InFree full_blocks y ∨
          (block_header p ≤ y ∧ y < block_header p + 4 * block_size h' (block_header p)) ∨
          (full_heap.brk ≤ y ∧ y < h'.brk)) ∧
        (∀ c ∈ full_blocks, c.free = false → ∀ y, c.addr ≤ y → y < c.addr + 4 * c.size →
          h'.mem y = full_heap.mem y)) ∧
    (∀ b ∈ full_blocks, b.free = false →
      (∀ y, (free full_heap (block_mem b.addr)).mem y ≠ full_heap.mem y →
        InFree full_blocks y ∨ (b.addr ≤ y ∧ y < b.addr + 4 * b.size)) ∧
      (∀ c ∈ full_blocks, c.free = false → c ≠ b → ∀ y, c.addr ≤ y →
        y < c.addr + 4 * c.size →
        (free full_heap (block_mem b.addr)).mem y = full_heap.mem y))) :=
  ⟨full_heap_R, malloc_and_free_frame full_heap_R⟩

end MallocLab


namespace MallocLab

/-- C5: on every heap state, `malloc(0)` returns `NULL` and, for every `n`,
`calloc(0, n)` returns `NULL`; the state returned is the state given, so the heap
words, the high-water mark and the free-list table are unchanged. -/
theorem malloc_zero_calloc_zero (fuel : Nat) (h : Heap) (n : Nat) :
    malloc fuel h 0 = some (NULL, h) ∧ calloc fuel h 0 n = some (NULL, h) := by
  have e : malloc fuel h 0 = some (NULL, h) := by
    unfold malloc
    rw [if_pos rfl]
  refine ⟨e, ?_⟩
  unfold calloc
  simp only [Nat.zero_mul, Nat.zero_mod]
  exact e

/-- C6: on every heap state, for a pointer `p` that is `NULL` or lies outside
`[mem_heap_lo, mem_heap_hi]`, `free(p)` returns at its guard: the state is
unchanged, every heap word and every free-list head included. -/
theorem free_outside_heap (h : Heap) (p : Nat)
    (hp : p = NULL ∨ p < mem_heap_lo h ∨ mem_heap_hi h < p) : free h p = h := by
  unfold free
  apply if_pos
  rcases hp with e | e | e
  · exact Or.inl e
  · right
    unfold in_heap
    simp only [Bool.and_eq_false_imp, decide_eq_true_eq, decide_eq_false_iff_not, ge_iff_le,
      not_le]
    exact fun _ => e
  · right
    unfold in_heap
    simp only [Bool.and_eq_false_imp, decide_eq_true_eq, decide_eq_false_iff_not, ge_iff_le,
      not_le]
    intro q
    omega

set_option maxRecDepth 1000000 in
/-- C6, witness: the first address past the heap after `mm_init()`. -/
theorem free_outside_heap_witness :
    (0x800000000 + 368 = NULL ∨ 0x800000000 + 368 < mem_heap_lo init_heap ∨
      mem_heap_hi init_heap < 0x800000000 + 368) ∧
    free init_heap (0x800000000 + 368) = init_heap :=
  ⟨by decide, free_outside_heap init_heap (0x800000000 + 368) (by decide)⟩

set_option maxRecDepth 1000000 in
/-- C7, evaluated at the failing input: after `mm_init()` on a heap whose bytes
hold `0xAA`, `calloc(10, 4)` returns the non-null pointer `0x800000000 + 112`, and
byte 8 of the 40 bytes requested still holds `0xAA`. -/
theorem calloc_does_not_clear :
    0 < 10 * 4 ∧ 8 < 10 * 4 ∧
    (calloc 4 init_heap 10 4).map (fun r => (r.1, byte_at r.2 r.1 8)) =
      some (0x800000000 + 112, 0xAA) ∧
    0x800000000 + 112 ≠ NULL := by
  decide

/-- C8: `realloc(p, 0)` returns `NULL` and leaves exactly the state `free(p)`
leaves, on every heap and for every pointer `p` (the payload pointers of the
allocated blocks of a well-formed heap among them). -/
theorem realloc_zero_is_free (fuel : Nat) (h : Heap) (p : Nat) :
    realloc fuel h p 0 = some (NULL, free h p) := by
  unfold realloc
  simp only [if_true]

/-- C9: on every heap state and for every size `n`, `realloc(NULL, n)` returns
the pointer and leaves the state that `malloc(n)` does. -/
theorem realloc_null_is_malloc (fuel : Nat) (h : Heap) (n : Nat) :
    realloc fuel h NULL n = malloc fuel h n := by
  unfold realloc
  by_cases hn : n = 0
  · subst hn
    have e : free h NULL = h := by
      unfold free
      exact if_pos (Or.inl rfl)
    have e2 : malloc fuel h 0 = some (NULL, h) := by
      unfold malloc
      rw [if_pos rfl]
    simp only [if_true, e, e2]
  · simp only [hn, if_false, if_true]

set_option maxRecDepth 1000000 in
/-- C10, counterexample: the heap after `mm_init()` and `malloc(248)` is
well-formed and its one block, obtained for 248 bytes, has its payload at
`0x800000000 + 112`.  For `realloc` of that pointer to `2^64 - 15` bytes the
request is adjusted (on `size_t`) to 0 words, the heap extension succeeds (the
heap grows by 256 bytes), the old pointer is returned, and byte 4 of the payload,
which was 0, holds 108 after the call. -/
theorem realloc_wrapped_request_loses_payload :
    R full_heap full_blocks no_lists 0 ∧ NoAdjacentFree full_blocks ∧
    (malloc 4 init_heap 248).map Prod.fst = some (0x800000000 + 112) ∧
    (4 < 248 ∧ 248 < 2 ^ 64 - 15) ∧
    full_heap.brk = 0x800000000 + 368 ∧
    (realloc 4 full_heap (0x800000000 + 112) (2 ^ 64 - 15)).map
        (fun r => (r.1, r.2.brk, byte_at r.2 r.1 4)) =
      some (0x800000000 + 112, 0x800000000 + 368 + 256, 108) ∧
    byte_at full_heap (0x800000000 + 112) 4 = 0 :=
  ⟨full_heap_R, by decide, by decide, by decide, by decide, by decide!, by decide⟩

/-- C10, amended to new sizes of at most `2^64 - 16` bytes (the size adjustment
does not wrap): on a well-formed heap, for the payload pointer of an allocated
block whose payload holds `oldSize` bytes and every `newSize > oldSize`,
`realloc` returns (given enough fuel for the free-list walk); when the memory
system can grant the extension `malloc` would ask for, the result is not
`(block_pointer) -1`; and whenever the result `q` is not `(block_pointer) -1`,
byte `i` of `q` after the call equals byte `i` of the old payload before the
call, for every `i < oldSize`. -/
theorem realloc_keeps_payload {h : Heap} {bs : List Blk} {fl : Nat → List Nat}
    (hR : R h bs fl 0) {b : Blk} (hb : b ∈ bs) (hnf : b.free = false)
    (oldSize newSize : Nat) (hold : oldSize ≤ 4 * b.size - 8) (hgt : oldSize < newSize)
    (hnw : newSize ≤ 2 ^ 64 - 16) :
    ∃ N, ∀ fuel, N ≤ fuel → ∃ q h', realloc fuel h (block_mem b.addr) newSize = some (q, h') ∧
      (h.brk + 4 * max (adjust newSize) CHUNKSIZE ≤ h.max → q ≠ MINUS_ONE) ∧
      (q ≠ MINUS_ONE → ∀ i, i < oldSize → byte_at h' q i = byte_at h (block_mem b.addr) i) := by
  obtain ⟨N, hN⟩ := realloc_spec hR hb hnf newSize (by omega) (by omega)
  refine ⟨N, fun fuel hf => ?_⟩
  obtain ⟨q, h', hm, hcase⟩ := hN fuel hf
  have e : block_mem b.addr = b.addr + 4 := rfl
  rw [e]
  refine ⟨q, h', hm, fun hext => (hcase (Or.inr hext)).1, fun hq i hi => ?_⟩
  obtain ⟨_, _, f⟩ := hcase (Or.inl hq)
  unfold byte_at
  rw [f i (by omega) (by omega)]

/-- C10, witness: the amended claim at the heap after `mm_init()` and
`malloc(248)`, for the block obtained for 248 bytes and the new size 300. -/
theorem realloc_keeps_payload_witness :
    (R full_heap full_blocks no_lists 0 ∧
      (⟨0x800000000 + 108, 64, false⟩ : Blk) ∈ full_blocks ∧
      248 ≤ 4 * 64 - 8 ∧ 248 < 300 ∧ 300 ≤ 2 ^ 64 - 16) ∧
    ∃ N, ∀ fuel, N ≤ fuel →
      ∃ q h', realloc fuel full_heap (block_mem (0x800000000 + 108)) 300 = some (q, h') ∧
        (full_heap.brk + 4 * max (adjust 300) CHUNKSIZE ≤ full_heap.max → q ≠ MINUS_ONE) ∧
        (q ≠ MINUS_ONE → ∀ i, i < 248 →
          byte_at h' q i = byte_at full_heap (block_mem (0x800000000 + 108)) i) :=
  ⟨⟨full_heap_R, by decide, by decide, by decide, by decide⟩,
    realloc_keeps_payload full_heap_R (b := ⟨0x800000000 + 108, 64, false⟩) (by decide) rfl
      248 300 (by decide) (by decide) (by decide)⟩

end MallocLab


namespace MallocLab

/-! ## Adjacent free blocks -/

theorem NoAdjacentFree_tail {a : Blk} {l : List Blk} (hn : NoAdjacentFree (a :: l)) :
    NoAdjacentFree l := by
  cases l with
  | nil => trivial
  | cons b t => exact hn.2

theorem NoAdjacentFree_append_cons (l1 : List Blk) (b : Blk) (l2 : List Blk) :
    NoAdjacentFree (l1 ++ b :: l2) ↔ NoAdjacentFree (l1 ++ [b]) ∧ NoAdjacentFree (b :: l2) := by
  induction l1 with
  | nil =>
    show NoAdjacentFree (b :: l2) ↔ NoAdjacentFree [b] ∧ NoAdjacentFree (b :: l2)
    exact ⟨fun hn => ⟨trivial, hn⟩, fun hn => hn.2⟩
  | cons x t ih =>
    cases t with
    | nil =>
      show (¬ (x.free = true ∧ b.free = true) ∧ NoAdjacentFree (b :: l2)) ↔
        (¬ (x.free = true ∧ b.free = true) ∧ NoAdjacentFree [b]) ∧ NoAdjacentFree (b :: l2)
      exact ⟨fun hn => ⟨⟨hn.1, trivial⟩, hn.2⟩, fun hn => ⟨hn.1.1, hn.2⟩⟩
    | cons y u =>
      show (¬ (x.free = true ∧ y.free = true) ∧ NoAdjacentFree (y :: u ++ b :: l2)) ↔
        (¬ (x.free = true ∧ y.free = true) ∧ NoAdjacentFree (y :: u ++ [b])) ∧
          NoAdjacentFree (b :: l2)
      rw [ih]
      exact ⟨fun hn => ⟨⟨hn.1, hn.2.1⟩, hn.2.2⟩, fun hn => ⟨hn.1.1, hn.1.2, hn.2⟩⟩

theorem NoAdjacentFree_cons_congr {a b : Blk} (e : a.free = b.free) (l : List Blk) :
    NoAdjacentFree (a :: l) ↔ NoAdjacentFree (b :: l) := by
  cases l with
  | nil => exact ⟨fun _ => trivial, fun _ => trivial⟩
  | cons y u =>
    show (¬ (a.free = true ∧ y.free = true) ∧ _) ↔ (¬ (b.free = true ∧ y.free = true) ∧ _)
    rw [e]

theorem NoAdjacentFree_snoc_congr {a b : Blk} (e : a.free = b.free) (l : List Blk) :
    NoAdjacentFree (l ++ [a]) ↔ NoAdjacentFree (l ++ [b]) := by
  induction l with
  | nil => exact ⟨fun _ => trivial, fun _ => trivial⟩
  | cons x t ih =>
    cases t with
    | nil =>
      show (¬ (x.free = true ∧ a.free = true) ∧ NoAdjacentFree [a]) ↔
        (¬ (x.free = true ∧ b.free = true) ∧ NoAdjacentFree [b])
      rw [e]
      exact ⟨fun hn => ⟨hn.1, trivial⟩, fun hn => ⟨hn.1, trivial⟩⟩
    | cons y u =>
      show (¬ (x.free = true ∧ y.free = true) ∧ NoAdjacentFree (y :: u ++ [a])) ↔
        (¬ (x.free = true ∧ y.free = true) ∧ NoAdjacentFree (y :: u ++ [b]))
      rw [ih]

theorem NoAdjacentFree_cons_alloc {b : Blk} (hb : b.free = false) (l : List Blk) :
    NoAdjacentFree (b :: l) ↔ NoAdjacentFree l := by
  cases l with
  | nil => exact ⟨fun _ => trivial, fun _ => trivial⟩
  | cons y u =>
    show (¬ (b.free = true ∧ y.free = true) ∧ NoAdjacentFree (y :: u)) ↔ NoAdjacentFree (y :: u)
    rw [hb]
    exact ⟨fun hn => hn.2, fun hn => ⟨fun q => Bool.noConfusion q.1, hn⟩⟩

theorem NoAdjacentFree_snoc_alloc {b : Blk} (hb : b.free = false) (l : List Blk) :
    NoAdjacentFree (l ++ [b]) ↔ NoAdjacentFree l := by
  induction l with
  | nil => exact ⟨fun _ => trivial, fun _ => trivial⟩
  | cons x t ih =>
    cases t with
    | nil =>
      show (¬ (x.free = true ∧ b.free = true) ∧ NoAdjacentFree [b]) ↔ NoAdjacentFree [x]
      rw [hb]
      exact ⟨fun _ => trivial, fun _ => ⟨fun q => Bool.noConfusion q.2, trivial⟩⟩
    | cons y u =>
      show (¬ (x.free = true ∧ y.free = true) ∧ NoAdjacentFree (y :: u ++ [b])) ↔
        (¬ (x.free = true ∧ y.free = true) ∧ NoAdjacentFree (y :: u))
      rw [ih]

/-- With no free block at all, no two adjacent blocks are free, and a block may
be appended. -/
theorem NoAdjacentFree_snoc_of_none {l : List Blk} (hl : ∀ c ∈ l, c.free = false) (b : Blk) :
    NoAdjacentFree (l ++ [b]) := by
  induction l with
  | nil => trivial
  | cons x t ih =>
    have hx := hl x (List.mem_cons_self _ _)
    have ht := ih (fun c hc => hl c (List.mem_cons_of_mem _ hc))
    cases t with
    | nil =>
      show ¬ (x.free = true ∧ b.free = true) ∧ NoAdjacentFree [b]
      rw [hx]
      exact ⟨fun q => Bool.noConfusion q.1, trivial⟩
    | cons y u =>
      show ¬ (x.free = true ∧ y.free = true) ∧ NoAdjacentFree (y :: u ++ [b])
      rw [hx]
      exact ⟨fun q => Bool.noConfusion q.1, ht⟩

/-! ## From the representation to the walk over the headers -/

theorem R.block_free {h : Heap} {bs : List Blk} {fl : Nat → List Nat} (hR : R h bs fl 0)
    {b : Blk} (hb : b ∈ bs) : block_free h b.addr = b.free := by
  obtain ⟨_, _, hs, hf, ha, _⟩ := hR.blocks b hb
  have hrg := hR.range hb
  cases hfree : b.free
  · exact block_free_of_alloc h b.addr b.size hs (ha hfree (by omega)).1
  · exact block_free_of_free h b.addr b.size hs (hf hfree).2.1

theorem R.layout {h : Heap} {bs : List Blk} {fl : Nat → List Nat} (hR : R h bs fl 0) :
    Layout h bs :=
  ⟨hR.contig, fun b hb => ⟨by have := hR.size_ok hb; omega, hR.block_size hb, hR.block_free hb⟩⟩

end MallocLab


namespace MallocLab

/-! ## The layout `place` leaves, for every request -/

theorem BlockOK.reads_free {h : Heap} {hole : Nat} {c : Blk} (hc : BlockOK h hole c)
    (hne : c.addr ≠ hole) : block_free h c.addr = c.free := by
  obtain ⟨_, _, hs, hf, ha, _⟩ := hc
  cases hfree : c.free
  · exact block_free_of_alloc h c.addr c.size hs (ha hfree hne).1
  · exact block_free_of_free h c.addr c.size hs (hf hfree).2.1

theorem block_size_congr {h h' : Heap} {a : Nat} (e : get h' a = get h a) :
    block_size h' a = block_size h a := by
  rw [block_size_eq, block_size_eq, e]

theorem block_free_congr {h h' : Heap} {a : Nat} (e : get h' a = get h a) :
    block_free h' a = block_free h a := by
  unfold block_free
  rw [e]

/-- The blocks around a block in transit keep their headers when an operation
writes only inside the block, in the word below it, and in predecessor links of
listed blocks; the walk over the headers then meets `mid` in place of the
block. -/
theorem Layout_replace {h h' : Heap} {l1 l2 : List Blk} {fl : Nat → List Nat} {b : Blk}
    {mid : List Blk} (hR : R h (l1 ++ b :: l2) fl b.addr)
    (hl : h'.heap_listp = h.heap_listp) (hk : h'.brk = h.brk)
    (hfr : ∀ y, (y < b.addr - 4 ∨ b.addr + 4 * b.size ≤ y) →
      (∀ c ∈ l1 ++ b :: l2, c.free = true → ¬ (c.addr + 4 ≤ y ∧ y < c.addr + 8)) →
      h'.mem y = h.mem y)
    (hc : Contig b.addr mid (b.addr + 4 * b.size))
    (hmid : ∀ c ∈ mid, 0 < c.size ∧ block_size h' c.addr = c.size ∧
      block_free h' c.addr = c.free) :
    Layout h' (l1 ++ mid ++ l2) := by
  have hb : b ∈ l1 ++ b :: l2 := by simp
  obtain ⟨hc1, hc2⟩ := Contig_split _ _ _ _ _ hR.contig
  have hbs := hR.size_ok hb
  have hout : ∀ c ∈ l1 ++ b :: l2, (c.addr + 4 * c.size ≤ b.addr ∨ b.addr + 4 * b.size ≤ c.addr) →
      0 < c.size ∧ block_size h' c.addr = c.size ∧ block_free h' c.addr = c.free := by
    intro c hcm hpos
    have hcs := hR.size_ok hcm
    have hg : get h' c.addr = get h c.addr := by
      apply get_congr
      intro y y1 y2
      apply hfr y (by omega)
      intro d hd hdf hin
      have hds := hR.size_ok hd
      rcases hR.sep hcm hd with q | q | q
      · rw [← q] at hin
        omega
      · omega
      · omega
    refine ⟨by omega, ?_, ?_⟩
    · rw [block_size_congr hg]
      exact hR.block_size hcm
    · rw [block_free_congr hg]
      exact (hR.blocks c hcm).reads_free (by omega)
  constructor
  · rw [hl, hk, List.append_assoc]
    exact (Contig_append _ _ _ _).2 ⟨b.addr, hc1, (Contig_append _ _ _ _).2 ⟨_, hc, hc2⟩⟩
  · intro c hcm
    rcases List.mem_append.1 hcm with q | q
    · rcases List.mem_append.1 q with q | q
      · have := Contig_mem _ _ _ hc1 c q
        exact hout c (List.mem_append_left _ q) (Or.inl this.2)
      · exact hmid c q
    · have := Contig_mem _ _ _ hc2 c q
      exact hout c (List.mem_append_right _ (List.mem_cons_of_mem _ q)) (Or.inr this.1)

/-- A byte outside the predecessor links of the listed blocks is outside the
predecessor link of every first node. -/
theorem head_link_free {h : Heap} {bs : List Blk} {fl : Nat → List Nat} {hole : Nat}
    (hR : R h bs fl hole) (k : Nat) (hk : k < 12) (y : Nat)
    (hlink : ∀ c ∈ bs, c.free = true → ¬ (c.addr + 4 ≤ y ∧ y < c.addr + 8)) :
    h.seg k = 0 ∨ y < h.seg k + 4 ∨ h.seg k + 8 ≤ y := by
  by_cases hne : h.seg k = 0
  · exact Or.inl hne
  · right
    have hm := (DLL_head_pred h _ _ _ (hR.lists _ hk) hne).1
    obtain ⟨d, hd, e1, e2, _⟩ := hR.mem_fl _ hk _ hm
    have := hlink d hd e2
    rw [e1] at this
    omega

/-- `place(bp, 2)` on a block of at least 8 words: the words it leaves in the
two headers, and what it does not write. -/
theorem place_two_facts {h : Heap} {l1 l2 : List Blk} {fl : Nat → List Nat} {b : Blk}
    (hR : R h (l1 ++ b :: l2) fl b.addr) (hnf : b.free = false) (hrem : 4 < b.size - 2) :
    get (place h b.addr 2) b.addr = 2 + 2 ^ 30 ∧
    get (place h b.addr 2) (b.addr + 8) = b.size - 2 ∧
    (place h b.addr 2).heap_listp = h.heap_listp ∧
    (place h b.addr 2).brk = h.brk ∧
    (∀ y, (y < b.addr ∨ b.addr + 4 * b.size ≤ y) →
      (h.seg (get_class_no (b.size - 2)) = 0 ∨ y < h.seg (get_class_no (b.size - 2)) + 4 ∨
        h.seg (get_class_no (b.size - 2)) + 8 ≤ y) →
      (place h b.addr 2).mem y = h.mem y) := by
  have hb : b ∈ l1 ++ b :: l2 := by simp
  obtain ⟨h4, hev, hs⟩ := hR.size_ok hb
  have hv := hR.hdr hb
  have hrg := hR.range hb
  have hsz := block_size_of_tag h b.addr b.size hs hv
  have e : (b.size + 2 ^ 64 - 2) % 2 ^ 64 = b.size - 2 := by omega
  have e1 : block_footer (put h b.addr 2) b.addr = b.addr + 4 := by
    unfold block_footer
    rw [block_size_of_tag _ b.addr 2 (by decide) (Or.inl (get_put_same_lt _ _ _ (by decide)))]
    omega
  have g2 : get (put (put h b.addr 2) (b.addr + 4) 2) b.addr = 2 := by
    rw [get_put_disj _ _ _ _ (by omega), get_put_same_lt _ _ _ (by decide)]
  have e2 : block_next (put (put h b.addr 2) (b.addr + 4) 2) b.addr = b.addr + 8 := by
    unfold block_next
    rw [block_size_of_tag _ b.addr 2 (by decide) (Or.inl g2)]
  have hpl : place h b.addr 2 = add_to_free_list
      (block_mark (init_block (put (put h b.addr 2) (b.addr + 4) 2) (b.addr + 8) (b.size - 2))
        b.addr false) (b.addr + 8) := by
    unfold place
    simp only [hsz, e]
    rw [if_neg (show ¬ (b.size - 2 ≤ 4) by omega)]
    simp only [e1, e2]
  rw [hpl]
  clear hpl e1 e2 e hsz hv
  have m0 : SameMeta h (put (put h b.addr 2) (b.addr + 4) 2) :=
    (SameMeta_put _ _ _).trans (SameMeta_put _ _ _)
  have f0 : ∀ y, (y < b.addr ∨ b.addr + 8 ≤ y) →
      (put (put h b.addr 2) (b.addr + 4) 2).mem y = h.mem y := by
    intro y hy
    rw [put_mem_out _ _ _ _ (by omega), put_mem_out _ _ _ _ (by omega)]
  generalize put (put h b.addr 2) (b.addr + 4) 2 = h2 at g2 m0 f0 ⊢
  obtain ⟨i1, _, _, _, i5, i6⟩ := init_block_spec h2 (b.addr + 8) (b.size - 2) (by omega)
    (by omega)
  have g3 : get (init_block h2 (b.addr + 8) (b.size - 2)) b.addr = 2 := by
    refine Eq.trans ?_ g2
    apply get_congr
    intro y y1 y2
    apply i6 <;> omega
  have f1 : ∀ y, (y < b.addr ∨ b.addr + 4 * b.size ≤ y) →
      (init_block h2 (b.addr + 8) (b.size - 2)).mem y = h.mem y := by
    intro y hy
    rw [i6 y (by omega) (by omega)]
    exact f0 y (by omega)
  have m1 := m0.trans i5
  clear g2 f0 i6 m0 i5
  generalize init_block h2 (b.addr + 8) (b.size - 2) = h3 at i1 g3 f1 m1 ⊢
  obtain ⟨b1, _, b3, b4⟩ := block_mark_spec h3 b.addr 2 false (by decide) (le_refl _)
    (Or.inl g3)
  simp only [Bool.false_eq_true, if_false] at b1
  have g4 : get (block_mark h3 b.addr false) (b.addr + 8) = b.size - 2 := by
    refine Eq.trans ?_ i1
    apply get_congr
    intro y y1 y2
    apply b4 <;> omega
  have f2 : ∀ y, (y < b.addr ∨ b.addr + 4 * b.size ≤ y) →
      (block_mark h3 b.addr false).mem y = h.mem y := by
    intro y hy
    rw [b4 y (by omega) (by omega)]
    exact f1 y hy
  have m4 := m1.trans b3
  clear g3 i1 f1 m1 b3 b4
  generalize block_mark h3 b.addr false = h4' at b1 g4 f2 m4 ⊢
  obtain ⟨m1, m2, m3, ms, m5⟩ := m4
  have hH := head_outside hR hnf (get_class_no (b.size - 2)) (get_class_no_lt _)
  rw [← ms] at hH
  obtain ⟨a1, _, _, _, _, _, abrk, _, alp, _, aF⟩ :=
    add_to_free_list_spec h4' (b.addr + 8) (b.size - 2) _ (Or.inl g4) (by omega) (by omega) rfl
      (by omega)
  refine ⟨?_, a1, alp.trans m5, abrk.trans m2, ?_⟩
  · refine Eq.trans ?_ b1
    apply get_congr
    intro y y1 y2
    apply aF <;> omega
  · intro y hy hlink
    rw [ms] at aF
    clear hH
    rcases hy with hy | hy
    · rw [aF y (Or.inl (by omega)) (Or.inl (by omega)) hlink, f2 y (Or.inl hy)]
    · rw [aF y (Or.inr (by omega)) (Or.inr (by omega)) hlink, f2 y (Or.inr hy)]

/-- `place(bp, 2)` on a block of at least 8 words, in full: a block of 2 words,
allocated, then the remainder, free. -/
theorem place_two_layout {h : Heap} {l1 l2 : List Blk} {fl : Nat → List Nat} {b : Blk}
    (hR : R h (l1 ++ b :: l2) fl b.addr) (hnf : b.free = false) (hrem : 4 < b.size - 2) :
    Layout (place h b.addr 2)
      (l1 ++ [⟨b.addr, 2, false⟩, ⟨b.addr + 4 * 2, b.size - 2, true⟩] ++ l2) := by
  have hb : b ∈ l1 ++ b :: l2 := by simp
  obtain ⟨h4, hev, hs⟩ := hR.size_ok hb
  obtain ⟨ga, a1, p1, p2, p3⟩ := place_two_facts hR hnf hrem
  apply Layout_replace hR p1 p2
  · intro y hy hlink
    exact p3 y (by omega) (head_link_free hR _ (get_class_no_lt _) y hlink)
  · refine ⟨rfl, rfl, ?_⟩
    show b.addr + 4 * 2 + 4 * (b.size - 2) = b.addr + 4 * b.size
    omega
  · intro c hc
    simp only [List.mem_cons, List.mem_singleton, List.not_mem_nil, or_false] at hc
    rcases hc with q | q
    · rw [q]
      refine ⟨Nat.succ_pos 1, ?_, ?_⟩
      · exact block_size_of_tag _ _ 2 (by decide) (Or.inr ga)
      · exact block_free_of_alloc _ _ 2 (by decide) ga
    · rw [q]
      have e8 : b.addr + 4 * 2 = b.addr + 8 := by omega
      refine ⟨by dsimp only; omega, ?_, ?_⟩
      · dsimp only
        rw [e8]
        exact block_size_of_tag _ _ (b.size - 2) (by omega) (Or.inl a1)
      · dsimp only
        rw [e8]
        exact block_free_of_free _ _ (b.size - 2) (by omega) a1

/-- `place(bp, 0)` on a block of more than 4 words: the word it leaves in the
header, and what it does not write. -/
theorem place_zero_facts {h : Heap} {l1 l2 : List Blk} {fl : Nat → List Nat} {b : Blk}
    (hR : R h (l1 ++ b :: l2) fl b.addr) (hnf : b.free = false) (hrem : 4 < b.size) :
    get (place h b.addr 0) b.addr = b.size ∧
    (place h b.addr 0).heap_listp = h.heap_listp ∧
    (place h b.addr 0).brk = h.brk ∧
    (∀ y, (y < b.addr - 4 ∨ b.addr + 4 * b.size ≤ y) →
      (h.seg (get_class_no b.size) = 0 ∨ y < h.seg (get_class_no b.size) + 4 ∨
        h.seg (get_class_no b.size) + 8 ≤ y) →
      (place h b.addr 0).mem y = h.mem y) := by
  have hb : b ∈ l1 ++ b :: l2 := by simp
  obtain ⟨h4, hev, hs⟩ := hR.size_ok hb
  have hv := hR.hdr hb
  have hrg := hR.range hb
  have hsz := block_size_of_tag h b.addr b.size hs hv
  have e : (b.size + 2 ^ 64 - 0) % 2 ^ 64 = b.size := by omega
  have e1 : block_footer (put h b.addr 0) b.addr = b.addr - 4 := by
    unfold block_footer
    rw [block_size_of_tag _ b.addr 0 (by decide) (Or.inl (get_put_same_lt _ _ _ (by decide)))]
    omega
  have g2 : get (put (put h b.addr 0) (b.addr - 4) 0) b.addr = 0 := by
    rw [get_put_disj _ _ _ _ (by omega), get_put_same_lt _ _ _ (by decide)]
  have e2 : block_next (put (put h b.addr 0) (b.addr - 4) 0) b.addr = b.addr := by
    unfold block_next
    rw [block_size_of_tag _ b.addr 0 (by decide) (Or.inl g2)]
    omega
  have hpl : place h b.addr 0 = add_to_free_list
      (block_mark (init_block (put (put h b.addr 0) (b.addr - 4) 0) b.addr b.size)
        b.addr false) b.addr := by
    unfold place
    simp only [hsz, e]
    rw [if_neg (show ¬ (b.size ≤ 4) by omega)]
    simp only [e1, e2]
  rw [hpl]
  clear hpl e1 e2 e hsz hv g2
  have m0 : SameMeta h (put (put h b.addr 0) (b.addr - 4) 0) :=
    (SameMeta_put _ _ _).trans (SameMeta_put _ _ _)
  have f0 : ∀ y, (y < b.addr - 4 ∨ b.addr + 4 ≤ y) →
      (put (put h b.addr 0) (b.addr - 4) 0).mem y = h.mem y := by
    intro y hy
    rw [put_mem_out _ _ _ _ (by omega), put_mem_out _ _ _ _ (by omega)]
  generalize put (put h b.addr 0) (b.addr - 4) 0 = h2 at m0 f0 ⊢
  obtain ⟨i1, _, _, _, i5, i6⟩ := init_block_spec h2 b.addr b.size h4 hs
  have f1 : ∀ y, (y < b.addr - 4 ∨ b.addr + 4 * b.size ≤ y) →
      (init_block h2 b.addr b.size).mem y = h.mem y := by
    intro y hy
    rw [i6 y (by omega) (by omega)]
    exact f0 y (by omega)
  have m1 := m0.trans i5
  clear f0 i6 m0 i5
  generalize init_block h2 b.addr b.size = h3 at i1 f1 m1 ⊢
  obtain ⟨b1, _, b3, b4⟩ := block_mark_spec h3 b.addr b.size false hs (by omega) (Or.inl i1)
  simp only [Bool.false_eq_true, if_false] at b1
  have f2 : ∀ y, (y < b.addr - 4 ∨ b.addr + 4 * b.size ≤ y) →
      (block_mark h3 b.addr false).mem y = h.mem y := by
    intro y hy
    rw [b4 y (by omega) (by omega)]
    exact f1 y hy
  have m4 := m1.trans b3
  clear i1 f1 m1 b3 b4
  generalize block_mark h3 b.addr false = h4' at b1 f2 m4 ⊢
  obtain ⟨m1, m2, m3, ms, m5⟩ := m4
  have hH := head_outside hR hnf (get_class_no b.size) (get_class_no_lt _)
  rw [← ms] at hH
  obtain ⟨a1, _, _, _, _, _, abrk, _, alp, _, aF⟩ :=
    add_to_free_list_spec h4' b.addr b.size _ (Or.inr b1) h4 hs rfl hH
  refine ⟨a1, alp.trans m5, abrk.trans m2, ?_⟩
  intro y hy hlink
  rw [ms] at aF
  clear hH
  rcases hy with hy | hy
  · rw [aF y (Or.inl (by omega)) (Or.inl (by omega)) hlink, f2 y (Or.inl hy)]
  · rw [aF y (Or.inr (by omega)) (Or.inr (by omega)) hlink, f2 y (Or.inr hy)]

/-- `place(bp, 0)` on a block of more than 4 words, in full: the footer word
below the block is cleared and the whole block is put back on its list, tagged
free. -/
theorem place_zero_layout {h : Heap} {l1 l2 : List Blk} {fl : Nat → List Nat} {b : Blk}
    (hR : R h (l1 ++ b :: l2) fl b.addr) (hnf : b.free = false) (hrem : 4 < b.size) :
    Layout (place h b.addr 0) (l1 ++ [⟨b.addr, b.size, true⟩] ++ l2) := by
  have hb : b ∈ l1 ++ b :: l2 := by simp
  obtain ⟨h4, hev, hs⟩ := hR.size_ok hb
  obtain ⟨a1, p1, p2, p3⟩ := place_zero_facts hR hnf hrem
  apply Layout_replace hR p1 p2
  · intro y hy hlink
    exact p3 y hy (head_link_free hR _ (get_class_no_lt _) y hlink)
  · exact ⟨rfl, rfl⟩
  · intro c hc
    rw [List.mem_singleton.1 hc]
    refine ⟨by dsimp only; omega, ?_, ?_⟩
    · exact block_size_of_tag _ _ b.size hs (Or.inl a1)
    · exact block_free_of_free _ _ b.size hs a1

/-- `place(bp, ws)` on a block in transit, for every even `ws` up to the size
of the block: the walk over the headers meets what `Placed` describes in place
of the block; for `ws ≥ 4` the heap is represented again. -/
theorem place_shape {h : Heap} {l1 l2 : List Blk} {fl : Nat → List Nat} {b : Blk} {w : Nat}
    (hR : R h (l1 ++ b :: l2) fl b.addr) (hnf : b.free = false) (hev : w % 2 = 0)
    (hle : w ≤ b.size) :
    (place h b.addr w).brk = h.brk ∧
    ∃ mid, Placed b w mid ∧ Layout (place h b.addr w) (l1 ++ mid ++ l2) ∧
      (4 ≤ w → ∃ fl', R (place h b.addr w) (l1 ++ mid ++ l2) fl' 0) := by
  have hb : b ∈ l1 ++ b :: l2 := by simp
  obtain ⟨h4, hbev, hs⟩ := hR.size_ok hb
  have hbe : b = ⟨b.addr, b.size, false⟩ := by
    cases b
    simp only at hnf
    simp only [hnf]
  by_cases hrem : b.size - w ≤ 4
  · obtain ⟨p1, p2, _⟩ := @R_place_nosplit _ _ _ _ _ w hR hnf hle hrem
    refine ⟨p2, [⟨b.addr, b.size, false⟩], Or.inl ⟨hrem, rfl⟩, ?_⟩
    have e : l1 ++ [(⟨b.addr, b.size, false⟩ : Blk)] ++ l2 = l1 ++ b :: l2 := by
      rw [← hbe]
      simp
    rw [e]
    exact ⟨p1.layout, fun _ => ⟨_, p1⟩⟩
  · by_cases h4w : 4 ≤ w
    · obtain ⟨p1, p2, _⟩ := @R_place_split _ _ _ _ _ w hR hnf h4w hev hle (by omega)
      refine ⟨p2, [⟨b.addr, w, false⟩, ⟨b.addr + 4 * w, b.size - w, true⟩],
        Or.inr (Or.inl ⟨by omega, by omega, rfl⟩), ?_⟩
      have e : l1 ++ [(⟨b.addr, w, false⟩ : Blk), ⟨b.addr + 4 * w, b.size - w, true⟩] ++ l2 =
          l1 ++ ⟨b.addr, w, false⟩ :: ⟨b.addr + 4 * w, b.size - w, true⟩ :: l2 := by
        simp
      rw [e]
      exact ⟨p1.layout, fun _ => ⟨_, p1⟩⟩
    · have hw : w = 0 ∨ w = 2 := by omega
      rcases hw with e | e
      · subst e
        obtain ⟨_, _, p2, _⟩ := place_zero_facts hR hnf (by omega)
        exact ⟨p2, [⟨b.addr, b.size, true⟩], Or.inr (Or.inr ⟨by omega, rfl, rfl⟩),
          place_zero_layout hR hnf (by omega), fun q => absurd q (by decide)⟩
      · subst e
        obtain ⟨_, _, _, p2, _⟩ := place_two_facts hR hnf (by omega)
        exact ⟨p2, [⟨b.addr, 2, false⟩, ⟨b.addr + 4 * 2, b.size - 2, true⟩],
          Or.inr (Or.inl ⟨by omega, by decide, rfl⟩),
          place_two_layout hR hnf (by omega), fun q => absurd q (by decide)⟩

end MallocLab


namespace MallocLab

/-! ## The shape of the heap after `malloc`, for every request -/

/-- No free block of a represented heap fits when the search finds nothing. -/
theorem nofit_of_search {h : Heap} {bs : List Blk} {fl : Nat → List Nat} (hR : R h bs fl 0)
    (w : Nat)
    (hall : ∀ j, get_class_no w ≤ j → j < 12 → ∀ x ∈ fl j, block_size h x < w) :
    ∀ b ∈ bs, b.free = true → b.size < w := by
  intro b hb hbf
  by_contra hc
  have hge : w ≤ b.size := by omega
  have := hall (get_class_no b.size) (get_class_no_mono _ _ hge) (get_class_no_lt _)
    b.addr (hR.fl_mem b hb hbf)
  rw [hR.block_size hb] at this
  omega

theorem adjust_even (size : Nat) : adjust size % 2 = 0 := by
  rw [adjust_eq]
  split <;> omega

/-- `malloc` on a represented heap, for every request of type `size_t`: with
enough fuel it returns, and one of three things has happened.  No free block
fits and `mem_sbrk` refuses: the result is `(block_pointer) -1` and the heap is
unchanged.  A free block `b` fits: the heap does not grow and `place` has been
applied to `b`.  No free block fits and `mem_sbrk` grants
`max (adjust size) CHUNKSIZE` words: `place` has been applied to the new block,
which starts at the old epilogue word.  For a request whose adjustment does not
wrap the new heap is represented again. -/
theorem malloc_shape {h : Heap} {bs : List Blk} {fl : Nat → List Nat} (hR : R h bs fl 0)
    (size : Nat) (h1 : 1 ≤ size) (h2 : size < 2 ^ 64) :
    ∃ N, ∀ fuel, N ≤ fuel → ∃ p h', malloc fuel h size = some (p, h') ∧
      ((p = MINUS_ONE ∧ h' = h ∧ (∀ b ∈ bs, b.free = true → b.size < adjust size) ∧
          h.brk + 4 * max (adjust size) CHUNKSIZE > h.max) ∨
       (∃ l1 b l2 mid, bs = l1 ++ b :: l2 ∧ b.free = true ∧ adjust size ≤ b.size ∧
          p = block_mem b.addr ∧ h'.brk = h.brk ∧
          Placed ⟨b.addr, b.size, false⟩ (adjust size) mid ∧
          Layout h' (l1 ++ mid ++ l2) ∧
          (size + 15 < 2 ^ 64 → ∃ fl', R h' (l1 ++ mid ++ l2) fl' 0)) ∨
       ((∀ b ∈ bs, b.free = true → b.size < adjust size) ∧
          h.brk + 4 * max (adjust size) CHUNKSIZE ≤ h.max ∧
          p = block_mem (h.brk - 4) ∧
          h'.brk = h.brk + 4 * max (adjust size) CHUNKSIZE ∧
          ∃ mid, Placed ⟨h.brk - 4, max (adjust size) CHUNKSIZE, false⟩ (adjust size) mid ∧
            Layout h' (bs ++ mid) ∧
            (size + 15 < 2 ^ 64 → ∃ fl', R h' (bs ++ mid) fl' 0))) := by
  have aev := adjust_even size
  have alt64 := adjust_lt size
  have a4 : size + 15 < 2 ^ 64 → 4 ≤ adjust size := fun hw => (adjust_spec size h1 hw).1
  obtain ⟨N, hN⟩ := find_first_fit_spec hR (adjust size)
  refine ⟨N, fun fuel hf => ?_⟩
  obtain ⟨r, hr, hcase⟩ := hN fuel hf
  have hsz : ¬ size = 0 := by omega
  unfold malloc
  rw [if_neg hsz]
  simp only [hr]
  have hbg := hR.brk_ge
  have hb1 := hR.base_le
  have hb2 := hR.lo_le
  rcases hcase with ⟨r0, hall⟩ | ⟨r0, b, hb, e1, e2, e3⟩
  · -- no fit: extend
    have hnofit := nofit_of_search hR (adjust size) hall
    subst r0
    simp only [NULL, ne_eq, not_true_eq_false, if_false]
    have hW : max (adjust size) CHUNKSIZE % 2 = 0 := by
      rw [CHUNKSIZE_eq]
      omega
    have hW4 : 4 ≤ max (adjust size) CHUNKSIZE := by
      rw [CHUNKSIZE_eq]
      omega
    by_cases hok : h.brk + 4 * max (adjust size) CHUNKSIZE ≤ h.max
    · obtain ⟨x1, x2, x3, _⟩ := R_extend hR hW hW4 hok
      have hne : ¬ ((extend_heap h (max (adjust size) CHUNKSIZE)).1 = 0) := by
        rw [x1]; omega
      rw [if_neg hne, x1]
      obtain ⟨q1, mid, q2, q3, q4⟩ :=
        @place_shape _ _ [] _ ⟨h.brk - 4, max (adjust size) CHUNKSIZE, false⟩ (adjust size)
          x2 rfl aev (le_max_left _ _)
      rw [List.append_nil] at q3 q4
      refine ⟨_, _, rfl, Or.inr (Or.inr ⟨hnofit, hok, rfl, ?_, mid, q2, q3, ?_⟩)⟩
      · rw [q1, x3]
      · intro hw
        exact q4 (a4 hw)
    · have hfail := extend_heap_fail h (max (adjust size) CHUNKSIZE) hW
        (by rw [CHUNKSIZE_eq]; omega) (by omega)
      rw [hfail]
      simp only [if_true]
      exact ⟨_, _, rfl, Or.inl ⟨rfl, rfl, hnofit, by omega⟩⟩
  · -- a fit
    obtain ⟨l1, l2, hbs⟩ := List.append_of_mem hb
    subst hbs
    simp only [NULL, ne_eq, r0, not_false_eq_true, if_true]
    obtain ⟨d1, d2, _⟩ := R_delete_block hR e2
    have hb' : (⟨b.addr, b.size, false⟩ : Blk) ∈ l1 ++ ⟨b.addr, b.size, false⟩ :: l2 := by
      simp
    have hRo := R_open d1 hb' rfl
    obtain ⟨q1, mid, q2, q3, q4⟩ :=
      @place_shape _ _ _ _ ⟨b.addr, b.size, false⟩ (adjust size) hRo rfl aev e3
    rw [← e1]
    refine ⟨_, _, rfl, Or.inr (Or.inl ⟨l1, b, l2, mid, rfl, e2, e3, rfl, ?_, q2, q3, ?_⟩)⟩
    · rw [q1, d2]
    · intro hw
      exact q4 (a4 hw)

end MallocLab


namespace MallocLab

/-! ## Initialisation -/

/-- The first extension, requested by `mm_init` on a heap that holds only the
prologue: the new block, in transit, is the only block. -/
theorem R_first_extend {h : Heap} {words : Nat}
    (hb1 : 0x800000000 ≤ h.lo) (hb2 : h.lo + 8 ≤ h.heap_listp) (hal : h.heap_listp % 8 = 0)
    (hbrk : h.brk = h.heap_listp + 8) (hmax : h.max ≤ 0x800000000 + 2 ^ 32)
    (hp1 : get h (h.heap_listp - 4) = 2 + 2 ^ 30) (hp2 : get h h.heap_listp = 2 + 2 ^ 30)
    (hseg : ∀ i, i < 12 → h.seg i = 0)
    (hev : words % 2 = 0) (h4 : 4 ≤ words) (hok : h.brk + 4 * words ≤ h.max) :
    (extend_heap h words).1 = h.brk - 4 ∧
    R (extend_heap h words).2 ([] ++ ⟨h.brk - 4, words, false⟩ :: []) (fun _ => [])
      (h.brk - 4) ∧
    (extend_heap h words).2.brk = h.brk + 4 * words ∧
    (extend_heap h words).2.heap_listp = h.heap_listp := by
  have hs : words < 2 ^ 30 := by omega
  rw [extend_heap_ok_eq h words hev h4 hs hok (by omega) (by omega)]
  obtain ⟨i1, i2, _, _, ⟨m1, m2, m3, m4, m5⟩, i6⟩ :=
    init_block_spec { h with brk := h.brk + 4 * words } (h.brk - 4) words h4 hs
  have mm : ∀ y, ({ h with brk := h.brk + 4 * words } : Heap).mem y = h.mem y := fun _ => rfl
  have k1 : ({ h with brk := h.brk + 4 * words } : Heap).lo = h.lo := rfl
  have k2 : ({ h with brk := h.brk + 4 * words } : Heap).brk = h.brk + 4 * words := rfl
  have k3 : ({ h with brk := h.brk + 4 * words } : Heap).max = h.max := rfl
  have k4 : ({ h with brk := h.brk + 4 * words } : Heap).seg = h.seg := rfl
  have k5 : ({ h with brk := h.brk + 4 * words } : Heap).heap_listp = h.heap_listp := rfl
  generalize ({ h with brk := h.brk + 4 * words } : Heap) = h0 at *
  generalize init_block h0 (h.brk - 4) words = h1 at *
  have hmem : ∀ y, y < h.brk - 4 →
      (put h1 (h.brk + 4 * words - 4) (2 ^ 30)).mem y = h.mem y := by
    intro y hy
    rw [put_mem_out _ _ _ _ (by omega), i6 y (by omega) (by omega), mm]
  have hw : ∀ q, q + 4 ≤ h.brk - 4 →
      get (put h1 (h.brk + 4 * words - 4) (2 ^ 30)) q = get h q := by
    intro q hq
    apply get_congr
    intro y y1 y2
    exact hmem y (by omega)
  have hnew1 : get (put h1 (h.brk + 4 * words - 4) (2 ^ 30)) (h.brk - 4) = words := by
    rw [get_put_disj _ _ _ _ (by omega)]
    exact i1
  refine ⟨rfl, ?_, by rw [put_brk, m2, k2], by rw [put_heap_listp, m5, k5]⟩
  refine
    { base_le := by rw [put_lo, m1, k1]; exact hb1
      lo_le := by rw [put_lo, put_heap_listp, m1, m5, k1, k5]; exact hb2
      align8 := by rw [put_heap_listp, m5, k5]; exact hal
      brk_le := by rw [put_brk, put_max, m2, m3, k2, k3]; exact hok
      max_le := by rw [put_max, m3, k3]; exact hmax
      pro_hdr := ?_
      pro_ftr := ?_
      epi := ?_
      brk_ge := by rw [put_brk, put_heap_listp, m2, m5, k2, k5]; omega
      contig := ?_
      blocks := ?_
      lists := ?_
      mem_fl := ?_
      fl_mem := ?_
      nodup := fun _ _ => List.nodup_nil }
  · rw [put_heap_listp, m5, k5, hw _ (by omega)]
    exact hp1
  · rw [put_heap_listp, m5, k5, hw _ (by omega)]
    exact hp2
  · rw [put_brk, m2, k2, get_put_same_lt _ _ _ (by decide)]
  · rw [put_brk, put_heap_listp, m2, m5, k2, k5]
    refine ⟨?_, ?_⟩
    · show h.brk - 4 = h.heap_listp + 4
      omega
    · show h.heap_listp + 4 + 4 * words = h.brk + 4 * words - 4
      omega
  · intro c hc
    rw [List.nil_append, List.mem_singleton] at hc
    rw [hc]
    refine ⟨h4, hev, hs, ?_, ?_, ?_⟩
    · intro hf
      exact Bool.noConfusion hf
    · intro _ hne
      exact absurd rfl hne
    · intro _
      exact Or.inl hnew1
  · intro j hj
    rw [put_seg, m4, k4]
    exact hseg j hj
  · intro j _ x hx
    exact absurd hx (List.not_mem_nil x)
  · intro c hc hcf
    rw [List.nil_append, List.mem_singleton] at hc
    rw [hc] at hcf
    exact Bool.noConfusion hcf

/-- `init_block` on the block in transit, with its own size: the block stays in
transit. -/
theorem R_init_hole {h : Heap} {l1 l2 : List Blk} {fl : Nat → List Nat} {b : Blk}
    (hR : R h (l1 ++ b :: l2) fl b.addr) (hnf : b.free = false) :
    R (init_block h b.addr b.size) (l1 ++ b :: l2) fl b.addr ∧
    (init_block h b.addr b.size).brk = h.brk ∧
    (init_block h b.addr b.size).heap_listp = h.heap_listp := by
  have hb : b ∈ l1 ++ b :: l2 := by simp
  obtain ⟨h4, hev, hs⟩ := hR.size_ok hb
  obtain ⟨i1, _, _, _, i5, i6⟩ := init_block_spec h b.addr b.size h4 hs
  obtain ⟨hc1, hc2⟩ := Contig_split _ _ _ _ _ hR.contig
  have e : l1 ++ b :: l2 = l1 ++ [b] ++ l2 := by simp
  refine ⟨?_, i5.2.1, i5.2.2.2.2⟩
  rw [e]
  rw [e] at hR
  apply R_replace hR hc1 (show Contig b.addr [b] (b.addr + 4 * b.size) from ⟨rfl, rfl⟩) hc2 i5
  · intro y hy
    apply i6 <;> omega
  · intro c hc
    rw [List.mem_singleton.1 hc]
    exact hnf
  · exact ⟨rfl, rfl⟩
  · intro c hc
    rw [List.mem_singleton.1 hc]
    refine ⟨⟨h4, hev, hs, ?_, ?_, ?_⟩, hnf⟩
    · intro hf
      rw [hnf] at hf
      cases hf
    · intro _ hne
      exact absurd rfl hne
    · intro _
      exact Or.inl i1
  · right; omega
  · right; omega

end MallocLab


namespace MallocLab

theorem mm_init_eq (h0 : Heap) (hmax : h0.max ≤ 0x800000000 + 2 ^ 32)
    (hok : h0.brk + 112 ≤ h0.max) :
    mm_init h0 =
      (let h5 : Heap :=
        { put (put (put (put
            { ({ ({ h0 with brk := h0.brk + 96 } : Heap) with seg := fun _ => NULL } : Heap) with
              brk := h0.brk + 96 + 16 }
            (h0.brk + 96) 2) (h0.brk + 96 + 4) (2 + 2 ^ 30)) (h0.brk + 96 + 8) (2 + 2 ^ 30))
            (h0.brk + 96 + 12) 0 with heap_listp := h0.brk + 96 + 8 }
       if (extend_heap h5 CHUNKSIZE).1 = NULL then some (-1, (extend_heap h5 CHUNKSIZE).2)
       else some (0, add_to_free_list
          (init_block (extend_heap h5 CHUNKSIZE).2 (extend_heap h5 CHUNKSIZE).1
            (block_size (extend_heap h5 CHUNKSIZE).2 (extend_heap h5 CHUNKSIZE).1))
          (extend_heap h5 CHUNKSIZE).1)) := by
  unfold mm_init
  have e0 : mem_sbrk h0 (8 * CLASS_NUMBER) = (h0.brk, { h0 with brk := h0.brk + 96 }) :=
    mem_sbrk_ok h0 96 (by omega)
  have n0 : ¬ (h0.brk = MINUS_ONE) := by
    show ¬ (h0.brk = 2 ^ 64 - 1)
    omega
  simp only [e0, n0, if_false]
  have e1 : mem_sbrk
      { ({ h0 with brk := h0.brk + 96 } : Heap) with seg := fun _ => NULL } (4 * WSIZE) =
      (h0.brk + 96,
        { ({ ({ h0 with brk := h0.brk + 96 } : Heap) with seg := fun _ => NULL } : Heap) with
          brk := h0.brk + 96 + 16 }) :=
    mem_sbrk_ok _ 16 (show h0.brk + 96 + 16 ≤ h0.max by omega)
  have n1 : ¬ (h0.brk + 96 = MINUS_ONE) := by
    show ¬ (h0.brk + 96 = 2 ^ 64 - 1)
    omega
  simp only [e1, n1, if_false, PACK_2_0, PACK_2_1, PACK_0_0]

theorem add_to_free_list_heap_listp (h : Heap) (x : Nat) :
    (add_to_free_list h x).heap_listp = h.heap_listp := by
  unfold add_to_free_list
  dsimp only
  split <;> rfl

/-- `mm_init()` on an empty or used memory system whose high-water mark is 8-byte
aligned: it returns 0 exactly when the memory system can grant 368 bytes, and
then the heap is represented by one free block of `CHUNKSIZE` words, alone on
the list of class 5. -/
theorem mm_init_spec (h0 : Heap) (hb1 : 0x800000000 ≤ h0.lo) (hb2 : h0.lo ≤ h0.brk)
    (hal : h0.brk % 8 = 0) (hmax : h0.max ≤ 0x800000000 + 2 ^ 32) :
    (h0.brk + 368 ≤ h0.max → ∃ h', mm_init h0 = some (0, h') ∧
      R h' ([] ++ ⟨h0.brk + 108, 64, true⟩ :: [])
        (Function.update (fun _ => []) 5 [h0.brk + 108]) 0 ∧
      h'.brk = h0.brk + 368 ∧ h'.heap_listp = h0.brk + 104) ∧
    (∀ h', mm_init h0 = some (0, h') → h0.brk + 368 ≤ h0.max) := by
  have key : h0.brk + 112 ≤ h0.max →
      (h0.brk + 368 ≤ h0.max → ∃ h', mm_init h0 = some (0, h') ∧
        R h' ([] ++ ⟨h0.brk + 108, 64, true⟩ :: [])
          (Function.update (fun _ => []) 5 [h0.brk + 108]) 0 ∧
        h'.brk = h0.brk + 368 ∧ h'.heap_listp = h0.brk + 104) ∧
      (∀ h', mm_init h0 = some (0, h') → h0.brk + 368 ≤ h0.max) := by
    intro hok
    rw [mm_init_eq h0 hmax hok]
    have g1 : get (put (put (put (put
            ({ ({ ({ h0 with brk := h0.brk + 96 } : Heap) with seg := fun _ => NULL } : Heap) with
              brk := h0.brk + 96 + 16 } : Heap)
            (h0.brk + 96) 2) (h0.brk + 96 + 4) (2 + 2 ^ 30)) (h0.brk + 96 + 8) (2 + 2 ^ 30))
            (h0.brk + 96 + 12) 0) (h0.brk + 96 + 4) = 2 + 2 ^ 30 := by
      rw [get_put_disj _ _ _ _ (by omega), get_put_disj _ _ _ _ (by omega),
        get_put_same_lt _ _ _ (by decide)]
    have g2 : get (put (put (put (put
            ({ ({ ({ h0 with brk := h0.brk + 96 } : Heap) with seg := fun _ => NULL } : Heap) with
              brk := h0.brk + 96 + 16 } : Heap)
            (h0.brk + 96) 2) (h0.brk + 96 + 4) (2 + 2 ^ 30)) (h0.brk + 96 + 8) (2 + 2 ^ 30))
            (h0.brk + 96 + 12) 0) (h0.brk + 96 + 8) = 2 + 2 ^ 30 := by
      rw [get_put_disj _ _ _ _ (by omega), get_put_same_lt _ _ _ (by decide)]
    have k1 : (put (put (put (put
            ({ ({ ({ h0 with brk := h0.brk + 96 } : Heap) with seg := fun _ => NULL } : Heap) with
              brk := h0.brk + 96 + 16 } : Heap)
            (h0.brk + 96) 2) (h0.brk + 96 + 4) (2 + 2 ^ 30)) (h0.brk + 96 + 8) (2 + 2 ^ 30))
            (h0.brk + 96 + 12) 0).lo = h0.lo := rfl
    have k2 : (put (put (put (put
            ({ ({ ({ h0 with brk := h0.brk + 96 } : Heap) with seg := fun _ => NULL } : Heap) with
              brk := h0.brk + 96 + 16 } : Heap)
            (h0.brk + 96) 2) (h0.brk + 96 + 4) (2 + 2 ^ 30)) (h0.brk + 96 + 8) (2 + 2 ^ 30))
            (h0.brk + 96 + 12) 0).brk = h0.brk + 96 + 16 := rfl
    have k3 : (put (put (put (put
            ({ ({ ({ h0 with brk := h0.brk + 96 } : Heap) with seg := fun _ => NULL } : Heap) with
              brk := h0.brk + 96 + 16 } : Heap)
            (h0.brk + 96) 2) (h0.brk + 96 + 4) (2 + 2 ^ 30)) (h0.brk + 96 + 8) (2 + 2 ^ 30))
            (h0.brk + 96 + 12) 0).max = h0.max := rfl
    have k4 : ∀ i, (put (put (put (put
            ({ ({ ({ h0 with brk := h0.brk + 96 } : Heap) with seg := fun _ => NULL } : Heap) with
              brk := h0.brk + 96 + 16 } : Heap)
            (h0.brk + 96) 2) (h0.brk + 96 + 4) (2 + 2 ^ 30)) (h0.brk + 96 + 8) (2 + 2 ^ 30))
            (h0.brk + 96 + 12) 0).seg i = 0 := fun _ => rfl
    generalize (put (put (put (put
            ({ ({ ({ h0 with brk := h0.brk + 96 } : Heap) with seg := fun _ => NULL } : Heap) with
              brk := h0.brk + 96 + 16 } : Heap)
            (h0.brk + 96) 2) (h0.brk + 96 + 4) (2 + 2 ^ 30)) (h0.brk + 96 + 8) (2 + 2 ^ 30))
            (h0.brk + 96 + 12) 0) = h4 at g1 g2 k1 k2 k3 k4 ⊢
    dsimp only
    have j1 : ({ h4 with heap_listp := h0.brk + 96 + 8 } : Heap).lo = h0.lo := k1
    have j2 : ({ h4 with heap_listp := h0.brk + 96 + 8 } : Heap).brk = h0.brk + 96 + 16 := k2
    have j3 : ({ h4 with heap_listp := h0.brk + 96 + 8 } : Heap).max = h0.max := k3
    have j4 : ∀ i, ({ h4 with heap_listp := h0.brk + 96 + 8 } : Heap).seg i = 0 := k4
    have j5 : ({ h4 with heap_listp := h0.brk + 96 + 8 } : Heap).heap_listp = h0.brk + 96 + 8 :=
      rfl
    have j6 : get ({ h4 with heap_listp := h0.brk + 96 + 8 } : Heap) (h0.brk + 96 + 4) =
        2 + 2 ^ 30 := g1
    have j7 : get ({ h4 with heap_listp := h0.brk + 96 + 8 } : Heap) (h0.brk + 96 + 8) =
        2 + 2 ^ 30 := g2
    generalize ({ h4 with heap_listp := h0.brk + 96 + 8 } : Heap) = h5 at j1 j2 j3 j4 j5 j6 j7 ⊢
    clear g1 g2 k1 k2 k3 k4
    by_cases hext : h0.brk + 368 ≤ h0.max
    · obtain ⟨x1, x2, x3, x4⟩ := @R_first_extend h5 CHUNKSIZE (by rw [j1]; exact hb1)
        (by rw [j1, j5]; omega) (by rw [j5]; omega) (by rw [j2, j5]) (by rw [j3]; exact hmax)
        (by rw [j5]; exact j6) (by rw [j5]; exact j7) (fun i _ => j4 i) (by decide) (by decide)
        (by rw [j2, j3, CHUNKSIZE_eq]; omega)
      have hne : ¬ ((extend_heap h5 CHUNKSIZE).1 = NULL) := by
        rw [x1, j2]
        show ¬ (h0.brk + 96 + 16 - 4 = 0)
        omega
      rw [if_neg hne]
      refine ⟨fun _ => ?_, fun _ _ => hext⟩
      rw [x1]
      have hsz := x2.block_size (show (⟨h5.brk - 4, CHUNKSIZE, false⟩ : Blk) ∈
        [] ++ ⟨h5.brk - 4, CHUNKSIZE, false⟩ :: [] by simp)
      rw [hsz]
      obtain ⟨y1, y2, y3⟩ := @R_init_hole _ [] [] _ ⟨h5.brk - 4, CHUNKSIZE, false⟩ x2 rfl
      obtain ⟨z1, z2, z3⟩ := @R_add_to_free_list _ [] [] _ ⟨h5.brk - 4, CHUNKSIZE, false⟩ y1 rfl
      have ea : h5.brk - 4 = h0.brk + 108 := by rw [j2]; omega
      have ec : get_class_no CHUNKSIZE = 5 := by decide
      have es : CHUNKSIZE = 64 := CHUNKSIZE_eq
      simp only [ea, ec, es] at z1 z2 z3 y2 y3 x3 x4 ⊢
      refine ⟨_, rfl, z1, ?_, ?_⟩
      · rw [z2, y2, x3, j2]
      · rw [add_to_free_list_heap_listp, y3, x4, j5]
    · have hfail := extend_heap_fail h5 CHUNKSIZE (by decide) (by decide)
        (by rw [j2, j3, CHUNKSIZE_eq]; omega)
      rw [hfail]
      simp only [if_true]
      refine ⟨fun q => absurd q hext, fun h' e => ?_⟩
      simp only [Option.some.injEq, Prod.mk.injEq] at e
      exact absurd e.1 (by decide)
  by_cases hok : h0.brk + 112 ≤ h0.max
  · exact key hok
  · refine ⟨fun q => absurd (show h0.brk + 112 ≤ h0.max by omega) hok, fun h' e => ?_⟩
    exfalso
    unfold mm_init at e
    by_cases hok0 : h0.brk + 96 ≤ h0.max
    · have e0 : mem_sbrk h0 (8 * CLASS_NUMBER) = (h0.brk, { h0 with brk := h0.brk + 96 }) :=
        mem_sbrk_ok h0 96 hok0
      have n0 : ¬ (h0.brk = MINUS_ONE) := by
        show ¬ (h0.brk = 2 ^ 64 - 1)
        omega
      have e1 : mem_sbrk
          { ({ h0 with brk := h0.brk + 96 } : Heap) with seg := fun _ => NULL } (4 * WSIZE) =
          (MINUS_ONE,
            { ({ h0 with brk := h0.brk + 96 } : Heap) with seg := fun _ => NULL }) :=
        mem_sbrk_fail _ 16 (show h0.brk + 96 + 16 > h0.max by omega)
      simp only [e0, n0, if_false, e1, if_true, Option.some.injEq, Prod.mk.injEq] at e
      exact absurd e.1 (by decide)
    · have e0 : mem_sbrk h0 (8 * CLASS_NUMBER) = (MINUS_ONE, h0) :=
        mem_sbrk_fail h0 96 (by omega)
      simp only [e0, if_true] at e
      exact Option.noConfusion e

end MallocLab


namespace MallocLab

/-! ## Adjacent free blocks across `free` and `malloc` -/

theorem NoAdjacentFree_init (l : List Blk) (x : Blk) (hn : NoAdjacentFree (l ++ [x])) :
    NoAdjacentFree l := by
  induction l with
  | nil => trivial
  | cons a t ih =>
    cases t with
    | nil => trivial
    | cons y u =>
      have hn' : ¬ (a.free = true ∧ y.free = true) ∧ NoAdjacentFree (y :: u ++ [x]) := hn
      exact ⟨hn'.1, ih hn'.2⟩

/-- A free block may follow a list whose last block is not free. -/
theorem NoAdjacentFree_snoc_of_last {l : List Blk} (hn : NoAdjacentFree l)
    (hlast : ∀ l' p, l = l' ++ [p] → p.free = false) (x : Blk) :
    NoAdjacentFree (l ++ [x]) := by
  rcases List.eq_nil_or_concat l with e | ⟨l', p, e⟩
  · rw [e]
    trivial
  · rw [List.concat_eq_append] at e
    have hp := hlast l' p e
    rw [e, List.append_assoc]
    show NoAdjacentFree (l' ++ p :: [x])
    rw [NoAdjacentFree_append_cons]
    rw [e] at hn
    refine ⟨hn, ?_⟩
    show ¬ (p.free = true ∧ x.free = true) ∧ NoAdjacentFree [x]
    rw [hp]
    exact ⟨fun q => Bool.noConfusion q.1, trivial⟩

/-- A free block may precede a list whose first block is not free. -/
theorem NoAdjacentFree_cons_of_first {l : List Blk} (hn : NoAdjacentFree l)
    (hfirst : ∀ n l', l = n :: l' → n.free = false) (x : Blk) :
    NoAdjacentFree (x :: l) := by
  cases l with
  | nil => trivial
  | cons n l' =>
    have hp := hfirst n l' rfl
    show ¬ (x.free = true ∧ n.free = true) ∧ NoAdjacentFree (n :: l')
    rw [hp]
    exact ⟨fun q => Bool.noConfusion q.2, hn⟩

/-- `free` on a represented heap without adjacent free blocks leaves a
represented heap without adjacent free blocks. -/
theorem free_naf {h : Heap} {bs : List Blk} {fl : Nat → List Nat} (hR : R h bs fl 0)
    (hn : NoAdjacentFree bs) {b : Blk} (hb : b ∈ bs) (hnf : b.free = false) :
    ∃ bs' fl', R (free h (b.addr + 4)) bs' fl' 0 ∧ NoAdjacentFree bs' := by
  obtain ⟨l1, l2, m1, m2, c, fl', e, f1, f2, f3, _, _⟩ := free_spec hR hb hnf
  refine ⟨_, _, f1, ?_⟩
  rw [e, NoAdjacentFree_append_cons] at hn
  obtain ⟨hn1, hn2⟩ := hn
  rw [NoAdjacentFree_append_cons]
  constructor
  · rcases f2 with ⟨e1, _, hlast⟩ | ⟨p, e1, pf, _⟩
    · rw [e1]
      exact NoAdjacentFree_snoc_of_last (NoAdjacentFree_init _ _ hn1) hlast _
    · rw [e1, List.append_assoc] at hn1
      have hn1' : NoAdjacentFree (m1 ++ p :: [b]) := hn1
      rw [NoAdjacentFree_append_cons] at hn1'
      exact (NoAdjacentFree_snoc_congr (show p.free = (⟨c.addr, c.size, true⟩ : Blk).free from pf)
        m1).1 hn1'.1
  · rcases f3 with ⟨e1, _, hfirst⟩ | ⟨n, e1, nf, _⟩
    · rw [e1]
      exact NoAdjacentFree_cons_of_first (NoAdjacentFree_tail hn2) hfirst _
    · rw [e1] at hn2
      exact (NoAdjacentFree_cons_congr (show n.free = (⟨c.addr, c.size, true⟩ : Blk).free from nf)
        m2).1 (NoAdjacentFree_tail hn2)

/-- What `place` leaves in place of a free block keeps the heap without adjacent
free blocks. -/
theorem NoAdjacentFree_placed_fit {l1 l2 mid : List Blk} {b : Blk} {w : Nat}
    (hn : NoAdjacentFree (l1 ++ b :: l2)) (hbf : b.free = true)
    (hp : Placed ⟨b.addr, b.size, false⟩ w mid) : NoAdjacentFree (l1 ++ mid ++ l2) := by
  rw [NoAdjacentFree_append_cons] at hn
  obtain ⟨hn1, hn2⟩ := hn
  rcases hp with ⟨_, e⟩ | ⟨_, _, e⟩ | ⟨_, _, e⟩
  · rw [e, List.append_assoc]
    show NoAdjacentFree (l1 ++ ⟨b.addr, b.size, false⟩ :: l2)
    rw [NoAdjacentFree_append_cons]
    exact ⟨(NoAdjacentFree_snoc_alloc rfl l1).2 (NoAdjacentFree_init _ _ hn1),
      (NoAdjacentFree_cons_alloc rfl l2).2 (NoAdjacentFree_tail hn2)⟩
  · rw [e, List.append_assoc]
    show NoAdjacentFree (l1 ++ ⟨b.addr, w, false⟩ :: (⟨b.addr + 4 * w, b.size - w, true⟩ :: l2))
    rw [NoAdjacentFree_append_cons]
    refine ⟨(NoAdjacentFree_snoc_alloc rfl l1).2 (NoAdjacentFree_init _ _ hn1), ?_⟩
    rw [NoAdjacentFree_cons_alloc rfl]
    exact (NoAdjacentFree_cons_congr (show b.free =
      (⟨b.addr + 4 * w, b.size - w, true⟩ : Blk).free from hbf) l2).1 hn2
  · rw [e, List.append_assoc]
    show NoAdjacentFree (l1 ++ ⟨b.addr, b.size, true⟩ :: l2)
    rw [NoAdjacentFree_append_cons]
    exact ⟨(NoAdjacentFree_snoc_congr (show b.free = (⟨b.addr, b.size, true⟩ : Blk).free from hbf)
        l1).1 hn1,
      (NoAdjacentFree_cons_congr (show b.free = (⟨b.addr, b.size, true⟩ : Blk).free from hbf)
        l2).1 hn2⟩

/-- What `place` leaves of the block of an extension keeps the heap without
adjacent free blocks. -/
theorem NoAdjacentFree_placed_ext {bs mid : List Blk} {b : Blk} {w : Nat}
    (hn : NoAdjacentFree bs) (hnofit : ∀ c ∈ bs, c.free = true → c.size < w)
    (hp : Placed b w mid) : NoAdjacentFree (bs ++ mid) := by
  rcases hp with ⟨_, e⟩ | ⟨_, _, e⟩ | ⟨_, e0, e⟩
  · rw [e]
    exact (NoAdjacentFree_snoc_alloc rfl bs).2 hn
  · rw [e]
    show NoAdjacentFree (bs ++ ⟨b.addr, w, false⟩ :: [⟨b.addr + 4 * w, b.size - w, true⟩])
    rw [NoAdjacentFree_append_cons]
    refine ⟨(NoAdjacentFree_snoc_alloc rfl bs).2 hn, ?_⟩
    exact ⟨fun q => Bool.noConfusion q.1, trivial⟩
  · rw [e]
    apply NoAdjacentFree_snoc_of_none
    intro c hc
    cases hcf : c.free
    · rfl
    · have := hnofit c hc hcf
      omega

/-- `malloc`, for every request of type `size_t`, on a represented heap without
adjacent free blocks: the walk over the headers of the new heap meets no two
adjacent free blocks. -/
theorem malloc_naf {h : Heap} {bs : List Blk} {fl : Nat → List Nat} (hR : R h bs fl 0)
    (hn : NoAdjacentFree bs) (size : Nat) (h1 : 1 ≤ size) (h2 : size < 2 ^ 64) :
    ∃ N, ∀ fuel, N ≤ fuel → ∃ p h', malloc fuel h size = some (p, h') ∧
      ∃ bs', Layout h' bs' ∧ NoAdjacentFree bs' := by
  obtain ⟨N, hN⟩ := malloc_shape hR size h1 h2
  refine ⟨N, fun fuel hf => ?_⟩
  obtain ⟨p, h', hm, hcase⟩ := hN fuel hf
  refine ⟨p, h', hm, ?_⟩
  rcases hcase with ⟨_, e, _, _⟩ | ⟨l1, b, l2, mid, e, hbf, _, _, _, hp, hl, _⟩ |
    ⟨hnofit, _, _, _, mid, hp, hl, _⟩
  · rw [e]
    exact ⟨bs, hR.layout, hn⟩
  · rw [e] at hn
    exact ⟨_, hl, NoAdjacentFree_placed_fit hn hbf hp⟩
  · exact ⟨_, hl, NoAdjacentFree_placed_ext hn hnofit hp⟩

end MallocLab


namespace MallocLab

/-! ## The representation is kept by every operation -/

theorem R.blocks_ok {h : Heap} {bs : List Blk} {fl : Nat → List Nat} (hR : R h bs fl 0) :
    BlocksOK h bs := by
  refine ⟨hR.layout, fun b hb => ?_⟩
  obtain ⟨h4, _, hs, hf, ha, _⟩ := hR.blocks b hb
  have hrg := hR.range hb
  have e : block_footer h b.addr = b.addr + 4 * b.size - 4 := by
    unfold block_footer
    rw [hR.block_size hb]
  rw [e]
  refine ⟨h4, ?_⟩
  cases hfree : b.free
  · obtain ⟨q1, q2⟩ := ha hfree (by omega)
    rw [q1, q2]
  · obtain ⟨_, q1, q2⟩ := hf hfree
    rw [q1, q2]

theorem R.free_lists_ok {h : Heap} {bs : List Blk} {fl : Nat → List Nat} (hR : R h bs fl 0) :
    FreeListsOK h bs fl ∧ ∀ c ∈ bs, c.free = false → ∀ i, i < 12 → c.addr ∉ fl i := by
  constructor
  · intro i hi
    refine ⟨hR.lists i hi, hR.nodup i hi, fun x => ⟨fun hx => hR.mem_fl i hi x hx, ?_⟩⟩
    rintro ⟨b, hb, e1, e2, e3⟩
    rw [← e1, ← e3]
    exact hR.fl_mem b hb e2
  · intro c hc hcf i hi hx
    obtain ⟨d, hd, e1, e2, _⟩ := hR.mem_fl i hi _ hx
    have := hR.addr_inj hd hc e1
    rw [this, hcf] at e2
    exact Bool.noConfusion e2

theorem malloc_keeps_R {h : Heap} {bs : List Blk} {fl : Nat → List Nat} (hR : R h bs fl 0)
    (size : Nat) (hs : size + 15 < 2 ^ 64) :
    ∃ N, ∀ fuel, N ≤ fuel → ∃ p h', malloc fuel h size = some (p, h') ∧
      ∃ bs' fl', R h' bs' fl' 0 := by
  by_cases h0 : size = 0
  · refine ⟨0, fun fuel _ => ⟨NULL, h, ?_, bs, fl, hR⟩⟩
    unfold malloc
    rw [if_pos h0]
  · obtain ⟨N, hN⟩ := malloc_spec hR size (by omega) hs
    refine ⟨N, fun fuel hf => ?_⟩
    obtain ⟨p, h', hm, hcase⟩ := hN fuel hf
    refine ⟨p, h', hm, ?_⟩
    rcases hcase with ⟨_, e, _⟩ | ⟨bs', fl', s', ok⟩
    · rw [e]
      exact ⟨bs, fl, hR⟩
    · exact ⟨bs', fl', ok.rep⟩

theorem free_keeps_R {h : Heap} {bs : List Blk} {fl : Nat → List Nat} (hR : R h bs fl 0)
    {b : Blk} (hb : b ∈ bs) (hnf : b.free = false) :
    ∃ bs' fl', R (free h (b.addr + 4)) bs' fl' 0 := by
  obtain ⟨_, _, m1, m2, c, fl', _, f1, _⟩ := free_spec hR hb hnf
  exact ⟨_, _, f1⟩

theorem calloc_keeps_R {h : Heap} {bs : List Blk} {fl : Nat → List Nat} (hR : R h bs fl 0)
    (n s : Nat) (hs : n * (if s < BLOCKSIZE_MIN then BLOCKSIZE_MIN else s) + 15 < 2 ^ 64) :
    ∃ N, ∀ fuel, N ≤ fuel → ∃ p h', calloc fuel h n s = some (p, h') ∧
      ∃ bs' fl', R h' bs' fl' 0 := by
  have hmod : n * (if s < BLOCKSIZE_MIN then BLOCKSIZE_MIN else s) % 2 ^ 64 =
      n * (if s < BLOCKSIZE_MIN then BLOCKSIZE_MIN else s) :=
    Nat.mod_eq_of_lt (by omega)
  have e : ∀ fuel, calloc fuel h n s =
      malloc fuel h (n * (if s < BLOCKSIZE_MIN then BLOCKSIZE_MIN else s)) := by
    intro fuel
    unfold calloc
    simp only [hmod]
  obtain ⟨N, hN⟩ := malloc_keeps_R hR _ hs
  refine ⟨N, fun fuel hf => ?_⟩
  rw [e]
  exact hN fuel hf

theorem realloc_keeps_R {h : Heap} {bs : List Blk} {fl : Nat → List Nat} (hR : R h bs fl 0)
    (p : Nat) (hp : p = NULL ∨ ∃ b ∈ bs, b.free = false ∧ p = b.addr + 4)
    (size : Nat) (hs : size + 15 < 2 ^ 64) :
    ∃ N, ∀ fuel, N ≤ fuel → ∃ q h', realloc fuel h p size = some (q, h') ∧
      (q ≠ MINUS_ONE → ∃ bs' fl', R h' bs' fl' 0) := by
  by_cases h0 : size = 0
  · refine ⟨0, fun fuel _ => ⟨0, free h p, ?_, fun _ => ?_⟩⟩
    · unfold realloc
      simp only [h0, if_true]
    · rcases hp with e | ⟨b, hb, hnf, e⟩
      · have : free h p = h := by
          unfold free
          exact if_pos (Or.inl e)
        rw [this]
        exact ⟨bs, fl, hR⟩
      · rw [e]
        exact free_keeps_R hR hb hnf
  · rcases hp with e | ⟨b, hb, hnf, e⟩
    · obtain ⟨N, hN⟩ := malloc_keeps_R hR size hs
      refine ⟨N, fun fuel hf => ?_⟩
      have er : realloc fuel h p size = malloc fuel h size := by
        unfold realloc
        simp only [h0, if_false, e, if_true]
      rw [er]
      obtain ⟨q, h', hm, hr⟩ := hN fuel hf
      exact ⟨q, h', hm, fun _ => hr⟩
    · obtain ⟨N, hN⟩ := realloc_spec hR hb hnf size (by omega) hs
      refine ⟨N, fun fuel hf => ?_⟩
      obtain ⟨q, h', hm, hcase⟩ := hN fuel hf
      rw [e]
      refine ⟨q, h', hm, fun hq => ?_⟩
      obtain ⟨_, ⟨bs', fl', _, r1, _⟩, _⟩ := hcase (Or.inl hq)
      exact ⟨bs', fl', r1⟩

theorem mm_init_keeps_R (h0 h' : Heap) (hb1 : 0x800000000 ≤ h0.lo) (hb2 : h0.lo ≤ h0.brk)
    (hal : h0.brk % 8 = 0) (hmax : h0.max ≤ 0x800000000 + 2 ^ 32)
    (hi : mm_init h0 = some (0, h')) : ∃ bs' fl', R h' bs' fl' 0 := by
  obtain ⟨k1, k2⟩ := mm_init_spec h0 hb1 hb2 hal hmax
  obtain ⟨h'', e, r, _⟩ := k1 (k2 h' hi)
  rw [hi] at e
  simp only [Option.some.injEq, Prod.mk.injEq, true_and] at e
  rw [e]
  exact ⟨_, _, r⟩

/-! ## Scenario heaps -/

set_option maxRecDepth 1000000 in
/-- The heap after `mm_init()` and `malloc(216)` is represented by its two
blocks. -/
theorem split_heap_R : R split_heap split_blocks split_lists 0 where
  base_le := by decide
  lo_le := by decide
  align8 := by decide
  brk_le := by decide
  max_le := by decide
  pro_hdr := by decide
  pro_ftr := by decide
  epi := by decide
  brk_ge := by decide
  contig := by decide
  blocks := by decide
  lists := by decide
  mem_fl := by decide
  fl_mem := by decide
  nodup := by decide

end MallocLab


namespace MallocLab

/-! ## Reallocation in place, failure, and adjacent free blocks (claims C11 to C15) -/

set_option maxRecDepth 1000000 in
/-- C11, evaluated at the failing input: on the heap after `mm_init()` and
`p = malloc(248)` (one allocated block of 64 words, no free block) the block of
`p` already satisfies the adjusted size of 100 bytes, 28 words.
`realloc(p, 100)` returns `p`, but it has called `malloc(100)` first: the heap
has grown by 256 bytes and the walk over the headers meets, after the two blocks
that `place` makes of the block of `p`, a further allocated block of 28 words
and a free block of 36 words.  `place` alone leaves the high-water mark where it
was. -/
theorem realloc_in_place_calls_malloc :
    R full_heap full_blocks no_lists 0 ∧
    ((⟨0x800000000 + 108, 64, false⟩ : Blk) ∈ full_blocks ∧ 0 < 100 ∧ adjust 100 ≤ 64) ∧
    full_heap.brk = 0x800000000 + 368 ∧
    (realloc 4 full_heap (0x800000000 + 112) 100).map (fun r => (r.1, r.2.brk)) =
      some (0x800000000 + 112, 0x800000000 + 368 + 256) ∧
    Layout (state (realloc 4 full_heap (0x800000000 + 112) 100))
      [⟨0x800000000 + 108, 28, false⟩, ⟨0x800000000 + 220, 36, true⟩,
        ⟨0x800000000 + 364, 28, false⟩, ⟨0x800000000 + 476, 36, true⟩] ∧
    (place full_heap (0x800000000 + 108) (adjust 100)).brk = 0x800000000 + 368 ∧
    Layout (place full_heap (0x800000000 + 108) (adjust 100))
      [⟨0x800000000 + 108, 28, false⟩, ⟨0x800000000 + 220, 36, true⟩] :=
  ⟨full_heap_R, by decide, by decide, by decide!, by decide!, by decide!, by decide!⟩

set_option maxRecDepth 1000000 in
/-- C12, evaluated at the failing input: on the well-formed heap after
`mm_init()` no free block fits a request of `2^33` bytes and `mem_sbrk` refuses
the extension `malloc` asks for; `malloc(2^33)` leaves the high-water mark and
the free-list head where they were, and returns `(block_pointer) -1`, which is
not `NULL`. -/
theorem malloc_failure_is_minus_one :
    R init_heap init_blocks init_lists 0 ∧
    (1 ≤ 2 ^ 33 ∧ ∀ b ∈ init_blocks, b.size < adjust (2 ^ 33)) ∧
    (mem_sbrk init_heap (4 * max (adjust (2 ^ 33)) CHUNKSIZE)).1 = MINUS_ONE ∧
    (init_heap.brk = 0x800000000 + 368 ∧ init_heap.seg 5 = 0x800000000 + 108) ∧
    (malloc 4 init_heap (2 ^ 33)).map (fun r => (r.1, r.2.brk, r.2.seg 5)) =
      some (MINUS_ONE, 0x800000000 + 368, 0x800000000 + 108) ∧
    MINUS_ONE ≠ NULL :=
  ⟨init_heap_R, by decide, by decide!, by decide, by decide!, by decide⟩

/-- C13: on a well-formed heap in which no two physically adjacent blocks are
both free, for the payload pointer of an allocated block, the heap after `free`
is well-formed and the walk over its headers meets no two adjacent free
blocks. -/
theorem free_keeps_no_adjacent_free {h : Heap} {bs : List Blk} {fl : Nat → List Nat}
    (hR : R h bs fl 0) (hn : NoAdjacentFree bs) {b : Blk} (hb : b ∈ bs)
    (hnf : b.free = false) :
    ∃ bs' fl', R (free h (block_mem b.addr)) bs' fl' 0 ∧
      Layout (free h (block_mem b.addr)) bs' ∧ NoAdjacentFree bs' := by
  obtain ⟨bs', fl', r, n⟩ := free_naf hR hn hb hnf
  exact ⟨bs', fl', r, r.layout, n⟩

set_option maxRecDepth 1000000 in
/-- C13, witness: the heap after `mm_init()` and `malloc(216)`, whose allocated
block is followed by a free block. -/
theorem free_keeps_no_adjacent_free_witness :
    (R split_heap split_blocks split_lists 0 ∧ NoAdjacentFree split_blocks ∧
      (⟨0x800000000 + 108, 56, false⟩ : Blk) ∈ split_blocks) ∧
    ∃ bs' fl', R (free split_heap (block_mem (0x800000000 + 108))) bs' fl' 0 ∧
      Layout (free split_heap (block_mem (0x800000000 + 108))) bs' ∧ NoAdjacentFree bs' :=
  ⟨⟨split_heap_R, by decide, by decide⟩,
    free_keeps_no_adjacent_free split_heap_R (by decide)
      (b := ⟨0x800000000 + 108, 56, false⟩) (by decide) rfl⟩

/-- C14: on a well-formed heap in which no two physically adjacent blocks are
both free, for every `size ≥ 1` of type `size_t`, `malloc(size)` returns (given
enough fuel for the free-list walk) and the walk over the headers of the heap it
leaves, on the fit path as on the extension path, reaches the epilogue and meets
no two adjacent free blocks. -/
theorem malloc_keeps_no_adjacent_free {h : Heap} {bs : List Blk} {fl : Nat → List Nat}
    (hR : R h bs fl 0) (hn : NoAdjacentFree bs) (size : Nat) (h1 : 1 ≤ size)
    (h2 : size < 2 ^ 64) :
    ∃ N, ∀ fuel, N ≤ fuel → ∃ p h', malloc fuel h size = some (p, h') ∧
      ∃ bs', Layout h' bs' ∧ NoAdjacentFree bs' :=
  malloc_naf hR hn size h1 h2

set_option maxRecDepth 1000000 in
/-- C14, witness: `malloc(100)` on the heap after `mm_init()` and `malloc(216)`,
whose last block is free and too small, so that the heap is extended. -/
theorem malloc_keeps_no_adjacent_free_witness :
    (R split_heap split_blocks split_lists 0 ∧ NoAdjacentFree split_blocks ∧ 1 ≤ 100 ∧
      100 < 2 ^ 64) ∧
    ∃ N, ∀ fuel, N ≤ fuel → ∃ p h', malloc fuel split_heap 100 = some (p, h') ∧
      ∃ bs', Layout h' bs' ∧ NoAdjacentFree bs' :=
  ⟨⟨split_heap_R, by decide, by decide, by decide⟩,
    malloc_keeps_no_adjacent_free split_heap_R (by decide) 100 (by decide) (by decide)⟩

set_option maxRecDepth 1000000 in
/-- C15, evaluated at the failing input: the heap after `mm_init()` and
`p = malloc(216)` is well-formed, with an allocated block of 56 words followed by
a free block of 8 words.  `realloc(p, 100)` returns `p`; the walk over the
headers of the heap it leaves meets the remainder of the block of `p`, free, 28
words, right before the free block of 8 words. -/
theorem realloc_in_place_leaves_adjacent_free :
    R split_heap split_blocks split_lists 0 ∧ NoAdjacentFree split_blocks ∧
    ((⟨0x800000000 + 108, 56, false⟩ : Blk) ∈ split_blocks ∧ 0 < 100) ∧
    (realloc 4 split_heap (0x800000000 + 112) 100).map Prod.fst = some (0x800000000 + 112) ∧
    Layout (state (realloc 4 split_heap (0x800000000 + 112) 100))
      [⟨0x800000000 + 108, 28, false⟩, ⟨0x800000000 + 220, 28, true⟩,
        ⟨0x800000000 + 332, 8, true⟩, ⟨0x800000000 + 364, 28, false⟩,
        ⟨0x800000000 + 476, 36, true⟩] ∧
    ¬ NoAdjacentFree
      [⟨0x800000000 + 108, 28, false⟩, ⟨0x800000000 + 220, 28, true⟩,
        ⟨0x800000000 + 332, 8, true⟩, ⟨0x800000000 + 364, 28, false⟩,
        ⟨0x800000000 + 476, 36, true⟩] :=
  ⟨split_heap_R, by decide, by decide, by decide!, by decide!, by decide⟩

end MallocLab


namespace MallocLab

/-! ## Invariants, scenarios and the size adjustment (claims C16 to C20) -/

theorem FreeListsInv_of_R {h : Heap} (hw : ∃ bs fl, R h bs fl 0) : FreeListsInv h := by
  obtain ⟨bs, fl, hR⟩ := hw
  exact ⟨bs, fl, hR, hR.free_lists_ok.1, hR.free_lists_ok.2⟩

theorem BlocksInv_of_R {h : Heap} (hw : ∃ bs fl, R h bs fl 0) : BlocksInv h := by
  obtain ⟨bs, fl, hR⟩ := hw
  exact ⟨bs, fl, hR, hR.blocks_ok⟩

set_option maxRecDepth 1000000 in
set_option maxHeartbeats 4000000 in
/-- C16, counterexample: the heap after `mm_init()` is well-formed.  The valid
call `q = malloc(2^64 - 15)`, whose request is adjusted (on `size_t`) to 0
words, returns `0x800000000 + 112`, and the block it has handed out is the first
node of free list 5 and is tagged free.  After the further valid call `free(q)`
the free lists hold exactly one node, the only block, tagged free, of the class
of the size its header holds; the valid call `malloc(300)` then leaves, as first
node of free list 4, an address beyond the end of the heap. -/
theorem wrapped_request_breaks_free_lists :
    R init_heap init_blocks init_lists 0 ∧
    (malloc 4 init_heap (2 ^ 64 - 15)).map
        (fun r => (r.1, block_header r.1, r.2.seg 5, block_free r.2 (block_header r.1))) =
      some (0x800000000 + 112, 0x800000000 + 108, 0x800000000 + 108, true) ∧
    (wrap_heap_2.heap_listp + 4 = 0x800000000 + 108 ∧
      block_free wrap_heap_2 (0x800000000 + 108) = true ∧
      get_class_no (block_size wrap_heap_2 (0x800000000 + 108)) = 6 ∧
      wrap_heap_2.seg 6 = 0x800000000 + 108 ∧
      get_succ_ptr wrap_heap_2 (0x800000000 + 108) = NULL ∧
      ∀ i, i < 12 → i ≠ 6 → wrap_heap_2.seg i = NULL) ∧
    (malloc 4 wrap_heap_2 300).map (fun r => (r.2.seg 4, r.2.brk)) =
      some (0x800000000 + 420, 0x800000000 + 368) :=
  ⟨init_heap_R, by decide!, by decide!, by decide!⟩

/-- C16, amended to well-formed heaps and to requests of at most `2^64 - 16`
bytes (for `calloc`, the product with the element size raised to 4): after a
successful `mm_init()`, and after every `malloc`, `free`, `realloc` or `calloc`
on a well-formed heap (`free` and `realloc` on the payload pointer of an
allocated block, `realloc` also on `NULL`) that does not return
`(block_pointer) -1`, the heap is well-formed and the lists that start at the 12
heads and follow successor links hold exactly the free blocks met between
prologue and epilogue, each once, each on the list of the class of its size; no
allocated block is on a list. -/
theorem free_lists_invariant {h : Heap} {bs : List Blk} {fl : Nat → List Nat}
    (hR : R h bs fl 0) :
    (∀ h0 h', 0x800000000 ≤ h0.lo → h0.lo ≤ h0.brk → h0.brk % 8 = 0 →
      h0.max ≤ 0x800000000 + 2 ^ 32 → mm_init h0 = some (0, h') → FreeListsInv h') ∧
    (∀ size, size ≤ 2 ^ 64 - 16 →
      ∃ N, ∀ fuel, N ≤ fuel → ∃ p h', malloc fuel h size = some (p, h') ∧ FreeListsInv h') ∧
    (∀ b ∈ bs, b.free = false → FreeListsInv (free h (block_mem b.addr))) ∧
    (∀ p size, (p = NULL ∨ ∃ b ∈ bs, b.free = false ∧ p = block_mem b.addr) →
      size ≤ 2 ^ 64 - 16 →
      ∃ N, ∀ fuel, N ≤ fuel → ∃ q h', realloc fuel h p size = some (q, h') ∧
        (q ≠ MINUS_ONE → FreeListsInv h')) ∧
    (∀ n s, n * (if s < BLOCKSIZE_MIN then BLOCKSIZE_MIN else s) ≤ 2 ^ 64 - 16 →
      ∃ N, ∀ fuel, N ≤ fuel → ∃ p h', calloc fuel h n s = some (p, h') ∧ FreeListsInv h') := by
  refine ⟨?_, ?_, ?_, ?_, ?_⟩
  · intro h0 h' a1 a2 a3 a4 hi
    exact FreeListsInv_of_R (mm_init_keeps_R h0 h' a1 a2 a3 a4 hi)
  · intro size hs
    obtain ⟨N, hN⟩ := malloc_keeps_R hR size (by omega)
    refine ⟨N, fun fuel hf => ?_⟩
    obtain ⟨p, h', hm, hr⟩ := hN fuel hf
    exact ⟨p, h', hm, FreeListsInv_of_R hr⟩
  · intro b hb hnf
    exact FreeListsInv_of_R (free_keeps_R hR hb hnf)
  · intro p size hp hs
    obtain ⟨N, hN⟩ := realloc_keeps_R hR p hp size (by omega)
    refine ⟨N, fun fuel hf => ?_⟩
    obtain ⟨q, h', hm, hr⟩ := hN fuel hf
    exact ⟨q, h', hm, fun hq => FreeListsInv_of_R (hr hq)⟩
  · intro n s hs
    obtain ⟨N, hN⟩ := calloc_keeps_R hR n s (by omega)
    refine ⟨N, fun fuel hf => ?_⟩
    obtain ⟨p, h', hm, hr⟩ := hN fuel hf
    exact ⟨p, h', hm, FreeListsInv_of_R hr⟩

/-- C16, witness: the amended claim at the heap after `mm_init()` and
`malloc(216)`, which has an allocated block and a free block. -/
theorem free_lists_invariant_witness :
    R split_heap split_blocks split_lists 0 ∧
    ((∀ h0 h', 0x800000000 ≤ h0.lo → h0.lo ≤ h0.brk → h0.brk % 8 = 0 →
      h0.max ≤ 0x800000000 + 2 ^ 32 → mm_init h0 = some (0, h') → FreeListsInv h') ∧
    (∀ size, size ≤ 2 ^ 64 - 16 →
      ∃ N, ∀ fuel, N ≤ fuel → ∃ p h', malloc fuel split_heap size = some (p, h') ∧
        FreeListsInv h') ∧
    (∀ b ∈ split_blocks, b.free = false → FreeListsInv (free split_heap (block_mem b.addr))) ∧
    (∀ p size, (p = NULL ∨ ∃ b ∈ split_blocks, b.free = false ∧ p = block_mem b.addr) →
      size ≤ 2 ^ 64 - 16 →
      ∃ N, ∀ fuel, N ≤ fuel → ∃ q h', realloc fuel split_heap p size = some (q, h') ∧
        (q ≠ MINUS_ONE → FreeListsInv h')) ∧
    (∀ n s, n * (if s < BLOCKSIZE_MIN then BLOCKSIZE_MIN else s) ≤ 2 ^ 64 - 16 →
      ∃ N, ∀ fuel, N ≤ fuel → ∃ p h', calloc fuel split_heap n s = some (p, h') ∧
        FreeListsInv h')) :=
  ⟨split_heap_R, free_lists_invariant split_heap_R⟩

set_option maxRecDepth 1000000 in
set_option maxHeartbeats 4000000 in
/-- C17, counterexample: the heap after `mm_init()` is well-formed, its one
block has 64 words and equal header and footer words.  After the valid call
`malloc(2^64 - 1)`, whose request is adjusted (on `size_t`) to 2 words, the walk
over the headers meets first a block of 2 words, fewer than the 4 words of
header, footer and two link slots.  After the valid call `q = malloc(2^64 - 15)`
instead, adjusted to 0 words, the walk still finds the one block of 64 words
with equal header and footer words (the word cleared is the footer of the
prologue); the valid call `free(q)` on that heap then leaves a header of 128
words, so that the walk steps from `0x800000000 + 108` past the epilogue word at
`0x800000000 + 364`. -/
theorem wrapped_request_breaks_block_layout :
    R init_heap init_blocks init_lists 0 ∧ BlocksOK init_heap init_blocks ∧
    ((malloc 4 init_heap (2 ^ 64 - 1)).map Prod.fst = some (0x800000000 + 112) ∧
      Layout (state (malloc 4 init_heap (2 ^ 64 - 1)))
        [⟨0x800000000 + 108, 2, false⟩, ⟨0x800000000 + 116, 62, true⟩] ∧
      ¬ (4 ≤ block_size (state (malloc 4 init_heap (2 ^ 64 - 1))) (0x800000000 + 108))) ∧
    ((malloc 4 init_heap (2 ^ 64 - 15)).map Prod.fst = some (0x800000000 + 112) ∧
      BlocksOK wrap_heap_1 init_blocks ∧
      wrap_heap_2.heap_listp + 4 = 0x800000000 + 108 ∧
      block_next wrap_heap_2 (0x800000000 + 108) = 0x800000000 + 620 ∧
      wrap_heap_2.brk - 4 = 0x800000000 + 364) :=
  ⟨init_heap_R, init_heap_R.blocks_ok, ⟨by decide!, by decide!, by decide!⟩,
    ⟨by decide!, by decide!, by decide!, by decide!, by decide!⟩⟩

/-- C17, amended to well-formed heaps and to requests of at most `2^64 - 16`
bytes (for `calloc`, the product with the element size raised to 4): after a
successful `mm_init()`, and after every `malloc`, `free`, `realloc` or `calloc`
on a well-formed heap (`free` and `realloc` on the payload pointer of an
allocated block, `realloc` also on `NULL`) that does not return
`(block_pointer) -1`, the heap is well-formed: walking from the first block by
adding each block's size reaches the epilogue exactly, and every block on the
way has at least 4 words and a header word equal to its footer word. -/
theorem block_layout_invariant {h : Heap} {bs : List Blk} {fl : Nat → List Nat}
    (hR : R h bs fl 0) :
    (∀ h0 h', 0x800000000 ≤ h0.lo → h0.lo ≤ h0.brk → h0.brk % 8 = 0 →
      h0.max ≤ 0x800000000 + 2 ^ 32 → mm_init h0 = some (0, h') → BlocksInv h') ∧
    (∀ size, size ≤ 2 ^ 64 - 16 →
      ∃ N, ∀ fuel, N ≤ fuel → ∃ p h', malloc fuel h size = some (p, h') ∧ BlocksInv h') ∧
    (∀ b ∈ bs, b.free = false → BlocksInv (free h (block_mem b.addr))) ∧
    (∀ p size, (p = NULL ∨ ∃ b ∈ bs, b.free = false ∧ p = block_mem b.addr) →
      size ≤ 2 ^ 64 - 16 →
      ∃ N, ∀ fuel, N ≤ fuel → ∃ q h', realloc fuel h p size = some (q, h') ∧
        (q ≠ MINUS_ONE → BlocksInv h')) ∧
    (∀ n s, n * (if s < BLOCKSIZE_MIN then BLOCKSIZE_MIN else s) ≤ 2 ^ 64 - 16 →
      ∃ N, ∀ fuel, N ≤ fuel → ∃ p h', calloc fuel h n s = some (p, h') ∧ BlocksInv h') := by
  refine ⟨?_, ?_, ?_, ?_, ?_⟩
  · intro h0 h' a1 a2 a3 a4 hi
    exact BlocksInv_of_R (mm_init_keeps_R h0 h' a1 a2 a3 a4 hi)
  · intro size hs
    obtain ⟨N, hN⟩ := malloc_keeps_R hR size (by omega)
    refine ⟨N, fun fuel hf => ?_⟩
    obtain ⟨p, h', hm, hr⟩ := hN fuel hf
    exact ⟨p, h', hm, BlocksInv_of_R hr⟩
  · intro b hb hnf
    exact BlocksInv_of_R (free_keeps_R hR hb hnf)
  · intro p size hp hs
    obtain ⟨N, hN⟩ := realloc_keeps_R hR p hp size (by omega)
    refine ⟨N, fun fuel hf => ?_⟩
    obtain ⟨q, h', hm, hr⟩ := hN fuel hf
    exact ⟨q, h', hm, fun hq => BlocksInv_of_R (hr hq)⟩
  · intro n s hs
    obtain ⟨N, hN⟩ := calloc_keeps_R hR n s (by omega)
    refine ⟨N, fun fuel hf => ?_⟩
    obtain ⟨p, h', hm, hr⟩ := hN fuel hf
    exact ⟨p, h', hm, BlocksInv_of_R hr⟩

/-- C17, witness: the amended claim at the heap after `mm_init()` and
`malloc(216)`, which has an allocated block and a free block. -/
theorem block_layout_invariant_witness :
    R split_heap split_blocks split_lists 0 ∧
    ((∀ h0 h', 0x800000000 ≤ h0.lo → h0.lo ≤ h0.brk → h0.brk % 8 = 0 →
      h0.max ≤ 0x800000000 + 2 ^ 32 → mm_init h0 = some (0, h') → BlocksInv h') ∧
    (∀ size, size ≤ 2 ^ 64 - 16 →
      ∃ N, ∀ fuel, N ≤ fuel → ∃ p h', malloc fuel split_heap size = some (p, h') ∧
        BlocksInv h') ∧
    (∀ b ∈ split_blocks, b.free = false → BlocksInv (free split_heap (block_mem b.addr))) ∧
    (∀ p size, (p = NULL ∨ ∃ b ∈ split_blocks, b.free = false ∧ p = block_mem b.addr) →
      size ≤ 2 ^ 64 - 16 →
      ∃ N, ∀ fuel, N ≤ fuel → ∃ q h', realloc fuel split_heap p size = some (q, h') ∧
        (q ≠ MINUS_ONE → BlocksInv h')) ∧
    (∀ n s, n * (if s < BLOCKSIZE_MIN then BLOCKSIZE_MIN else s) ≤ 2 ^ 64 - 16 →
      ∃ N, ∀ fuel, N ≤ fuel → ∃ p h', calloc fuel split_heap n s = some (p, h') ∧
        BlocksInv h')) :=
  ⟨split_heap_R, block_layout_invariant split_heap_R⟩

set_option maxRecDepth 1000000 in
/-- C18: starting from the heap after `mm_init()`, `P1 = malloc(100)` is
`0x800000000 + 112` and `P2 = malloc(200)` is `0x800000000 + 368`, whose block
starts past the end of the block of `P1`; after `free(P1)`, `malloc(90)` returns
`P1`, which lies in `[P1, P1 + 100)`, and leaves the high-water mark where it
was.  In general, on a well-formed heap, `malloc` of a request `size ≥ 1` whose
adjusted size fits a free block returns (given enough fuel for the free-list
walk) and leaves the high-water mark where it was. -/
theorem reuse_before_growth {h : Heap} {bs : List Blk} {fl : Nat → List Nat}
    (hR : R h bs fl 0) (size : Nat) (h1 : 1 ≤ size) (h2 : size < 2 ^ 64)
    (hfit : ∃ b ∈ bs, b.free = true ∧ adjust size ≤ b.size) :
    ((mm_init start_heap).map Prod.fst = some 0 ∧
      (malloc 4 init_heap 100).map Prod.fst = some (0x800000000 + 112) ∧
      (malloc 4 reuse_heap_1 200).map Prod.fst = some (0x800000000 + 368) ∧
      block_header (0x800000000 + 112) +
          4 * block_size reuse_heap_2 (block_header (0x800000000 + 112)) ≤
        block_header (0x800000000 + 368) ∧
      reuse_heap_3.brk = 0x800000000 + 624 ∧
      (malloc 4 reuse_heap_3 90).map (fun r => (r.1, r.2.brk)) =
        some (0x800000000 + 112, 0x800000000 + 624) ∧
      (0x800000000 + 112 ≤ 0x800000000 + 112 ∧ 0x800000000 + 112 < 0x800000000 + 112 + 100)) ∧
    ∃ N, ∀ fuel, N ≤ fuel → ∃ p h', malloc fuel h size = some (p, h') ∧ p ≠ MINUS_ONE ∧
      h'.brk = h.brk := by
  refine ⟨⟨by decide, by decide!, by decide!, by decide!, by decide!, by decide!, by decide⟩, ?_⟩
  obtain ⟨b0, hb0, hbf0, hle0⟩ := hfit
  obtain ⟨N, hN⟩ := malloc_shape hR size h1 h2
  refine ⟨N, fun fuel hf => ?_⟩
  obtain ⟨p, h', hm, hcase⟩ := hN fuel hf
  refine ⟨p, h', hm, ?_⟩
  rcases hcase with ⟨_, _, hnofit, _⟩ | ⟨l1, b, l2, mid, e, hbf, _, hp, hk, _⟩ |
    ⟨hnofit, _⟩
  · have := hnofit b0 hb0 hbf0
    omega
  · refine ⟨?_, hk⟩
    have hb : b ∈ bs := by
      rw [e]
      simp
    have := hR.range hb
    rw [hp]
    unfold block_mem MINUS_ONE
    omega
  · have := hnofit b0 hb0 hbf0
    omega

set_option maxRecDepth 1000000 in
/-- C18, witness: the general part at the heap after `mm_init()`, for a request
of 90 bytes, which the free block of 64 words fits. -/
theorem reuse_before_growth_witness :
    (R init_heap init_blocks init_lists 0 ∧ 1 ≤ 90 ∧ 90 < 2 ^ 64 ∧
      ∃ b ∈ init_blocks, b.free = true ∧ adjust 90 ≤ b.size) ∧
    ∃ N, ∀ fuel, N ≤ fuel → ∃ p h', malloc fuel init_heap 90 = some (p, h') ∧
      p ≠ MINUS_ONE ∧ h'.brk = init_heap.brk :=
  ⟨⟨init_heap_R, by decide, by decide, by decide⟩,
    (reuse_before_growth init_heap_R 90 (by decide) (by decide) (by decide)).2⟩

set_option maxRecDepth 1000000 in
/-- C19: starting from the heap after `mm_init()`, `a = malloc(8)`,
`b = malloc(16)`, `c = malloc(32)` and `d = malloc(64)` occupy the first four
blocks of the heap, in that order and one right after the other.  After
`free(b)` and `free(c)` one free block of 16 words spans exactly the former
blocks of `b` (6 words) and `c` (10 words); its payload has 56 bytes, and
`malloc(56)` returns `b`, in that block, allocated whole, with the high-water
mark where it was. -/
theorem coalescing_defeats_fragmentation :
    (mm_init start_heap).map Prod.fst = some 0 ∧
    ((malloc 4 init_heap 8).map Prod.fst = some (0x800000000 + 112) ∧
      (malloc 4 frag_heap_1 16).map Prod.fst = some (0x800000000 + 128) ∧
      (malloc 4 frag_heap_2 32).map Prod.fst = some (0x800000000 + 152) ∧
      (malloc 4 frag_heap_3 64).map Prod.fst = some (0x800000000 + 192)) ∧
    Layout frag_heap_4
      [⟨0x800000000 + 108, 4, false⟩, ⟨0x800000000 + 124, 6, false⟩,
        ⟨0x800000000 + 148, 10, false⟩, ⟨0x800000000 + 188, 18, false⟩,
        ⟨0x800000000 + 260, 26, true⟩] ∧
    Layout frag_heap_6
      [⟨0x800000000 + 108, 4, false⟩, ⟨0x800000000 + 124, 16, true⟩,
        ⟨0x800000000 + 188, 18, false⟩, ⟨0x800000000 + 260, 26, true⟩] ∧
    (16 = 6 + 10 ∧ 4 * 16 - 8 = 56 ∧ adjust 56 = 16) ∧
    frag_heap_6.brk = 0x800000000 + 368 ∧
    (malloc 4 frag_heap_6 56).map (fun r => (r.1, r.2.brk)) =
      some (0x800000000 + 128, 0x800000000 + 368) ∧
    Layout (state (malloc 4 frag_heap_6 56))
      [⟨0x800000000 + 108, 4, false⟩, ⟨0x800000000 + 124, 16, false⟩,
        ⟨0x800000000 + 188, 18, false⟩, ⟨0x800000000 + 260, 26, true⟩] :=
  ⟨by decide, ⟨by decide!, by decide!, by decide!, by decide!⟩, by decide!, by decide!,
    by decide, by decide!, by decide!, by decide!⟩

/-- C20: for every request size with `1 ≤ size ≤ 2^64 - 16`, the adjusted block
size that `malloc` and `realloc` compute, in bytes, is the least multiple of 8
that is at least `size + 8`; it is `8 * ((size + 15) / 8)` on both branches of
the computation, and the size in words is even and at least 4. -/
theorem adjust_is_least_multiple (size : Nat) (h1 : 1 ≤ size) (h2 : size ≤ 2 ^ 64 - 16) :
    adjust size * WSIZE = 8 * ((size + 15) / 8) ∧
    (adjust size * WSIZE) % 8 = 0 ∧ size + 8 ≤ adjust size * WSIZE ∧
    (∀ m, m % 8 = 0 → size + 8 ≤ m → adjust size * WSIZE ≤ m) ∧
    adjust size % 2 = 0 ∧ 4 ≤ adjust size := by
  have e : adjust size * 4 = 8 * ((size + 15) / 8) := by
    rw [adjust_eq]
    split <;> omega
  refine ⟨e, ?_, ?_, ?_, ?_, ?_⟩
  · show adjust size * 4 % 8 = 0
    omega
  · show size + 8 ≤ adjust size * 4
    omega
  · intro m hm hle
    show adjust size * 4 ≤ m
    omega
  · omega
  · omega

/-- C20, witness: a request of 100 bytes. -/
theorem adjust_is_least_multiple_witness :
    (1 ≤ 100 ∧ 100 ≤ 2 ^ 64 - 16) ∧
    (adjust 100 * WSIZE = 8 * ((100 + 15) / 8) ∧
      (adjust 100 * WSIZE) % 8 = 0 ∧ 100 + 8 ≤ adjust 100 * WSIZE ∧
      (∀ m, m % 8 = 0 → 100 + 8 ≤ m → adjust 100 * WSIZE ≤ m) ∧
      adjust 100 % 2 = 0 ∧ 4 ≤ adjust 100) :=
  ⟨by decide, adjust_is_least_multiple 100 (by decide) (by decide)⟩

end MallocLab


namespace MallocLab

/-! ## The size adjustment in bytes, the search order, the class table -/

theorem adjust_bytes_words (size : Nat) : adjust size = adjust_bytes size / WSIZE := rfl

theorem adjust_bytes_eq (size : Nat) :
    adjust_bytes size = if size > 8 then 8 * ((size + 15) % 2 ^ 64 / 8) % 2 ^ 64 else 16 := by
  unfold adjust_bytes
  have e : size + DSIZE + (DSIZE - 1) = size + 15 := by
    show size + 8 + (8 - 1) = size + 15
    omega
  rw [e]
  rfl

/-- Without wrap-around the adjusted size in bytes is the request plus the 8
bytes of header and footer, rounded up to a multiple of 8. -/
theorem adjust_bytes_spec (size : Nat) (h1 : 1 ≤ size) (h2 : size + 15 < 2 ^ 64) :
    size + 8 ≤ adjust_bytes size ∧ adjust_bytes size < size + 16 ∧
    adjust_bytes size % 8 = 0 ∧ adjust_bytes size = 4 * adjust size := by
  have e : adjust_bytes size = if size > 8 then 8 * ((size + 15) / 8) else 16 := by
    rw [adjust_bytes_eq]
    split <;> omega
  have e2 : adjust size = adjust_bytes size / 4 := rfl
  rw [e2, e]
  split <;> omega

theorem find_append {α : Type} (p : α → Bool) (xs ys : List α) :
    ((xs ++ ys).find? p).getD = fun d =>
      match xs.find? p with
      | some x => x
      | none => (ys.find? p).getD d := by
  funext d
  induction xs with
  | nil => simp
  | cons x xs ih =>
    by_cases hx : p x = true
    · simp [List.find?, hx]
    · have hx' : p x = false := by simpa using hx
      simp only [List.cons_append, List.find?, hx']
      exact ih

theorem mem_lists_from (fl : Nat → List Nat) (n i x : Nat) :
    x ∈ lists_from fl n i ↔ ∃ j, i ≤ j ∧ j < i + n ∧ x ∈ fl j := by
  induction n generalizing i with
  | zero =>
    simp only [lists_from, List.not_mem_nil, false_iff]
    rintro ⟨j, a, b, _⟩
    omega
  | succ n ih =>
    simp only [lists_from, List.mem_append, ih]
    constructor
    · rintro (hx | ⟨j, a, b, c⟩)
      · exact ⟨i, le_refl _, by omega, hx⟩
      · exact ⟨j, by omega, by omega, c⟩
    · rintro ⟨j, a, b, c⟩
      by_cases e : j = i
      · left
        rw [← e]
        exact c
      · right
        exact ⟨j, by omega, by omega, c⟩

/-- The walk over one list returns the first member that fits. -/
theorem find_in_list_first (h : Heap) (size : Nat) (l : List Nat) (prev p fuel : Nat)
    (hd : DLL h prev p l) (hf : l.length < fuel) :
    find_in_list h size fuel p =
      some ((l.find? (fun x => decide (size ≤ block_size h x))).getD NULL) := by
  induction l generalizing prev p fuel with
  | nil =>
    have hp : p = 0 := hd
    cases fuel with
    | zero => cases hf
    | succ f => simp [find_in_list, hp]
  | cons y ys ih =>
    obtain ⟨h1, h2, _, h4⟩ := hd
    cases fuel with
    | zero => cases hf
    | succ f =>
      have hp0 : ¬ (p = NULL) := by rw [h1]; exact h2
      by_cases hfit : block_size h y ≥ size
      · rw [find_in_list, if_neg hp0, h1, if_pos hfit]
        simp [List.find?, hfit]
      · rw [find_in_list, if_neg hp0, h1, if_neg hfit,
          ih y (get_succ_ptr h y) f h4 (by simpa using hf)]
        have : decide (size ≤ block_size h y) = false := by simpa using hfit
        simp [List.find?, this]

/-- The loop over the classes returns the first member that fits, in the order
of `lists_from`. -/
theorem find_from_class_first (h : Heap) (size fuel : Nat) (fl : Nat → List Nat) (n i : Nat)
    (hd : ∀ j, i ≤ j → j < i + n → DLL h NULL (h.seg j) (fl j) ∧ (fl j).length < fuel) :
    find_from_class fuel h size n i =
      some (((lists_from fl n i).find? (fun x => decide (size ≤ block_size h x))).getD NULL) := by
  induction n generalizing i with
  | zero => rfl
  | succ n ih =>
    obtain ⟨hdl, hlen⟩ := hd i (le_refl _) (by omega)
    have h1 := find_in_list_first h size (fl i) NULL (h.seg i) fuel hdl hlen
    have h2 := ih (i + 1) (fun j a b => hd j (by omega) (by omega))
    rw [find_from_class, h1]
    show (if _ then _ else _) = _
    rw [lists_from, find_append]
    cases hfi : (fl i).find? (fun x => decide (size ≤ block_size h x)) with
    | none =>
      simp only [Option.getD_none, NULL, ne_eq, not_true_eq_false, if_false]
      exact h2
    | some x =>
      have hx : x ∈ fl i := List.mem_of_find?_eq_some hfi
      have hx0 : x ≠ 0 := DLL_ne_zero h (fl i) NULL (h.seg i) hdl x hx
      simp only [Option.getD_some, NULL, ne_eq, hx0, not_false_eq_true, if_true]

/-- The search returns the first member that fits among the lists of the
classes from `get_class_no size` up; the lists of the classes below need not
even be well formed. -/
theorem find_first_fit_first (h : Heap) (fl : Nat → List Nat) (size : Nat)
    (hd : ∀ j, get_class_no size ≤ j → j < 12 → DLL h NULL (h.seg j) (fl j)) :
    ∃ N, ∀ fuel, N ≤ fuel → find_first_fit fuel h size =
      some (((lists_from fl (12 - get_class_no size) (get_class_no size)).find?
        (fun x => decide (size ≤ block_size h x))).getD NULL) := by
  obtain ⟨N, hN⟩ := lengths_bounded fl 12
  refine ⟨N, fun fuel hfuel => ?_⟩
  have hc := get_class_no_lt size
  exact find_from_class_first h size fuel fl (12 - get_class_no size) (get_class_no size)
    (fun j a b => ⟨hd j a (by omega), lt_of_lt_of_le (hN j (by omega)) hfuel⟩)

theorem first_boundary_above_eq (s : Nat) : first_boundary_above s = get_class_no s := by
  simp only [first_boundary_above, class_boundaries, List.findIdx_cons, List.findIdx_nil,
    get_class_no]
  by_cases c1 : s < 4
  · simp [c1]
  by_cases c2 : s < 8
  · simp [c1, c2]
  by_cases c3 : s < 16
  · simp [c1, c2, c3]
  by_cases c4 : s < 32
  · simp [c1, c2, c3, c4]
  by_cases c5 : s < 64
  · simp [c1, c2, c3, c4, c5]
  by_cases c6 : s < 128
  · simp [c1, c2, c3, c4, c5, c6]
  by_cases c7 : s < 256
  · simp [c1, c2, c3, c4, c5, c6, c7]
  by_cases c8 : s < 512
  · simp [c1, c2, c3, c4, c5, c6, c7, c8]
  by_cases c9 : s < 1024
  · simp [c1, c2, c3, c4, c5, c6, c7, c8, c9]
  by_cases c10 : s < 2048
  · simp [c1, c2, c3, c4, c5, c6, c7, c8, c9, c10]
  by_cases c11 : s < 4096
  · simp [c1, c2, c3, c4, c5, c6, c7, c8, c9, c10, c11]
  simp [c1, c2, c3, c4, c5, c6, c7, c8, c9, c10, c11]

end MallocLab


namespace MallocLab

/-! ## The two paths of malloc -/

/-- `place` writes nothing from the epilogue word on. -/
theorem place_keeps_top {h : Heap} {l1 l2 : List Blk} {fl : Nat → List Nat} {b : Blk} {w : Nat}
    (hR : R h (l1 ++ b :: l2) fl b.addr) (hnf : b.free = false) (hev : w % 2 = 0)
    (hle : w ≤ b.size) (y : Nat) (hy : h.brk - 4 ≤ y) :
    (place h b.addr w).mem y = h.mem y := by
  have hb : b ∈ l1 ++ b :: l2 := by simp
  have hbd := hR.bounds hb
  have hbs := hR.size_ok hb
  have hlink : ∀ c ∈ l1 ++ b :: l2, c.free = true → ¬ (c.addr + 4 ≤ y ∧ y < c.addr + 8) := by
    intro c hc _
    have := hR.bounds hc
    have := hR.size_ok hc
    omega
  by_cases hrem : b.size - w ≤ 4
  · exact (R_place_nosplit hR hnf hle hrem).2.2 y (by omega) (by omega)
  · by_cases hw4 : 4 ≤ w
    · exact (R_place_split hR hnf hw4 hev hle (by omega)).2.2 y (by omega) (by omega) hlink
    · have hw : w = 0 ∨ w = 2 := by omega
      rcases hw with hw | hw
      · subst hw
        have hk := head_link_free hR (get_class_no b.size) (get_class_no_lt _) y hlink
        exact (place_zero_facts hR hnf (by omega)).2.2.2 y (by omega) hk
      · subst hw
        have hk := head_link_free hR (get_class_no (b.size - 2)) (get_class_no_lt _) y hlink
        exact (place_two_facts hR hnf (by omega)).2.2.2.2 y (by omega) hk

/-- The search finds nothing exactly when no free block of the heap fits. -/
theorem search_complete {h : Heap} {bs : List Blk} {fl : Nat → List Nat} (hR : R h bs fl 0)
    (w : Nat) :
    ∃ N, ∀ fuel, N ≤ fuel → ∃ r, find_first_fit fuel h w = some r ∧
      (r = NULL ↔ ∀ b ∈ bs, b.free = true → b.size < w) ∧
      (r ≠ NULL → ∃ b ∈ bs, b.addr = r ∧ b.free = true ∧ w ≤ b.size) := by
  obtain ⟨N, hN⟩ := find_first_fit_spec hR w
  refine ⟨N, fun fuel hf => ?_⟩
  obtain ⟨r, hr, hcase⟩ := hN fuel hf
  refine ⟨r, hr, ?_, ?_⟩
  · rcases hcase with ⟨r0, hall⟩ | ⟨r0, b, hb, e1, e2, e3⟩
    · exact ⟨fun _ => nofit_of_search hR w hall, fun _ => r0⟩
    · constructor
      · intro e
        exact absurd e r0
      · intro hno
        have := hno b hb e2
        omega
  · intro hne
    rcases hcase with ⟨r0, _⟩ | ⟨_, b, hb, e1, e2, e3⟩
    · exact absurd r0 hne
    · exact ⟨b, hb, e1, e2, e3⟩

/-- The extension path of `malloc`: when no free block fits and `mem_sbrk`
grants the words, the heap grows by `max (adjust size) CHUNKSIZE` words, the new
block starts at the old epilogue word, and the last word of the heap is a new
epilogue tag. -/
theorem malloc_grow {h : Heap} {bs : List Blk} {fl : Nat → List Nat} (hR : R h bs fl 0)
    (size : Nat) (h1 : 1 ≤ size) (h2 : size < 2 ^ 64)
    (hnofit : ∀ b ∈ bs, b.free = true → b.size < adjust size)
    (hok : h.brk + 4 * max (adjust size) CHUNKSIZE ≤ h.max) :
    ∃ N, ∀ fuel, N ≤ fuel → ∃ h', malloc fuel h size = some (block_mem (h.brk - 4), h') ∧
      h'.brk = h.brk + 4 * max (adjust size) CHUNKSIZE ∧
      get h (h.brk - 4) = PACK 0 1 ∧ get h' (h'.brk - 4) = PACK 0 1 ∧
      ∃ mid, Placed ⟨h.brk - 4, max (adjust size) CHUNKSIZE, false⟩ (adjust size) mid ∧
        Layout h' (bs ++ mid) := by
  have aev := adjust_even size
  obtain ⟨N, hN⟩ := search_complete hR (adjust size)
  refine ⟨N, fun fuel hf => ?_⟩
  obtain ⟨r, hr, hiff, _⟩ := hN fuel hf
  have r0 : r = 0 := hiff.2 hnofit
  subst r0
  have hsz : ¬ size = 0 := by omega
  unfold malloc
  rw [if_neg hsz]
  simp only [hr]
  simp only [NULL, ne_eq, not_true_eq_false, if_false]
  have hbg := hR.brk_ge
  have hb1 := hR.base_le
  have hb2 := hR.lo_le
  have hW : max (adjust size) CHUNKSIZE % 2 = 0 := by
    rw [CHUNKSIZE_eq]
    omega
  have hW4 : 4 ≤ max (adjust size) CHUNKSIZE := by
    rw [CHUNKSIZE_eq]
    omega
  obtain ⟨x1, x2, x3, _⟩ := R_extend hR hW hW4 hok
  have hne : ¬ ((extend_heap h (max (adjust size) CHUNKSIZE)).1 = 0) := by
    rw [x1]; omega
  rw [if_neg hne, x1]
  obtain ⟨q1, mid, q2, q3, _⟩ :=
    @place_shape _ _ [] _ ⟨h.brk - 4, max (adjust size) CHUNKSIZE, false⟩ (adjust size)
      x2 rfl aev (le_max_left _ _)
  rw [List.append_nil] at q3
  have hepi := x2.epi
  have htop := fun y => @place_keeps_top _ _ [] _ ⟨h.brk - 4, max (adjust size) CHUNKSIZE, false⟩
    (adjust size) x2 rfl aev (le_max_left _ _) y
  refine ⟨_, rfl, ?_, ?_, ?_, mid, q2, q3⟩
  · rw [q1, x3]
  · rw [PACK_0_1]
    exact hR.epi
  · rw [PACK_0_1, q1, ← hepi]
    apply get_congr
    intro y y1 _
    exact htop y y1

/-- After a search that has found nothing, `malloc` is its extension path. -/
theorem malloc_of_search_null (fuel : Nat) (h : Heap) (size : Nat) (h1 : 1 ≤ size)
    (hr : find_first_fit fuel h (adjust size) = some NULL) :
    malloc fuel h size = malloc_extend h (adjust size) := by
  have hsz : ¬ size = 0 := by omega
  unfold malloc malloc_extend
  rw [if_neg hsz]
  simp only [hr]
  simp only [NULL, ne_eq, not_true_eq_false, if_false]

/-- The value of the extension path on a represented heap: the payload of a
block at the old epilogue word in a heap grown by `max (adjust size) CHUNKSIZE`
words when `mem_sbrk` grants them, `(block_pointer) -1` and the heap as it was
when it refuses. -/
theorem malloc_extend_value {h : Heap} {bs : List Blk} {fl : Nat → List Nat}
    (hR : R h bs fl 0) (size : Nat) :
    (h.brk + 4 * max (adjust size) CHUNKSIZE ≤ h.max →
      ∃ h', malloc_extend h (adjust size) = some (block_mem (h.brk - 4), h') ∧
        h'.brk = h.brk + 4 * max (adjust size) CHUNKSIZE) ∧
    (h.brk + 4 * max (adjust size) CHUNKSIZE > h.max →
      malloc_extend h (adjust size) = some (MINUS_ONE, h)) := by
  have aev := adjust_even size
  have alt64 := adjust_lt size
  have hbg := hR.brk_ge
  have hb1 := hR.base_le
  have hb2 := hR.lo_le
  have hW : max (adjust size) CHUNKSIZE % 2 = 0 := by
    rw [CHUNKSIZE_eq]
    omega
  have hW4 : 4 ≤ max (adjust size) CHUNKSIZE := by
    rw [CHUNKSIZE_eq]
    omega
  unfold malloc_extend
  constructor
  · intro hok
    obtain ⟨x1, x2, x3, _⟩ := R_extend hR hW hW4 hok
    have hne : ¬ ((extend_heap h (max (adjust size) CHUNKSIZE)).1 = NULL) := by
      rw [x1]
      show ¬ (h.brk - 4 = 0)
      omega
    simp only [if_neg hne]
    rw [x1]
    obtain ⟨q1, _⟩ :=
      @place_shape _ _ [] _ ⟨h.brk - 4, max (adjust size) CHUNKSIZE, false⟩ (adjust size)
        x2 rfl aev (le_max_left _ _)
    exact ⟨_, rfl, by rw [q1, x3]⟩
  · intro hno
    have hfail := extend_heap_fail h (max (adjust size) CHUNKSIZE) hW
      (by rw [CHUNKSIZE_eq]; omega) hno
    rw [hfail]
    rfl

end MallocLab


namespace MallocLab

/-! ## The split branch of place, for every request of at least one word -/

theorem block_mark_spec1 (h : Heap) (b s : Nat) (f : Bool) (hs : s < 2 ^ 30) (h1 : 1 ≤ s)
    (hv : get h b = s ∨ get h b = s + 2 ^ 30) :
    get (block_mark h b f) b = (if f then s else s + 2 ^ 30) ∧
    get (block_mark h b f) (b + 4 * s - 4) = (if f then s else s + 2 ^ 30) ∧
    SameMeta h (block_mark h b f) ∧
    (∀ x, (x < b ∨ b + 4 ≤ x) → (x < b + 4 * s - 4 ∨ b + 4 * s ≤ x) →
      (block_mark h b f).mem x = h.mem x) := by
  rw [block_mark_eq h b s f hs h1 hv]
  have hv32 : (if f then s else s + 2 ^ 30) < 2 ^ 32 := by
    split <;> omega
  generalize (if f then s else s + 2 ^ 30) = v at hv32 ⊢
  refine ⟨?_, get_put_same_lt _ _ _ hv32, (SameMeta_put _ _ _).trans (SameMeta_put _ _ _), ?_⟩
  · by_cases e : s = 1
    · subst e
      exact get_put_same_lt _ _ _ hv32
    · rw [get_put_disj _ _ _ _ (by omega), get_put_same_lt _ _ _ hv32]
  · intro x x1 x2
    rw [put_mem_out _ _ _ _ (by omega), put_mem_out _ _ _ _ (by omega)]

theorem put_twice_get (h : Heap) (x ws : Nat) (h1 : 1 ≤ ws) (hws : ws < 2 ^ 32) :
    get (put (put h x ws) (x + 4 * ws - 4) ws) x = ws := by
  by_cases e : ws = 1
  · subst e
    exact get_put_same_lt _ _ _ hws
  · rw [get_put_disj _ _ _ _ (by omega), get_put_same_lt _ _ _ hws]

theorem place_split_eq1 (h : Heap) (x ws t : Nat) (hv : get h x = t ∨ get h x = t + 2 ^ 30)
    (ht : t < 2 ^ 30) (h1 : 1 ≤ ws) (hle : ws ≤ t) (hrem : 4 < t - ws) :
    place h x ws = add_to_free_list
      (block_mark (init_block (put (put h x ws) (x + 4 * ws - 4) ws) (x + 4 * ws) (t - ws))
        x false) (x + 4 * ws) := by
  unfold place
  have hsz := block_size_of_tag h x t ht hv
  simp only [hsz]
  have e : (t + 2 ^ 64 - ws) % 2 ^ 64 = t - ws := by omega
  have hws : ws < 2 ^ 30 := by omega
  have hws32 : ws < 2 ^ 32 := by omega
  rw [e, if_neg (show ¬ (t - ws ≤ 4) by omega)]
  have e1 : block_footer (put h x ws) x = x + 4 * ws - 4 := by
    unfold block_footer
    rw [block_size_of_tag _ x ws hws (Or.inl (get_put_same_lt _ _ _ hws32))]
  have e2 : block_next (put (put h x ws) (x + 4 * ws - 4) ws) x = x + 4 * ws := by
    unfold block_next
    rw [block_size_of_tag _ x ws hws (Or.inl (put_twice_get h x ws h1 hws32))]
  simp only [e1, e2]

theorem split_mem_spec1 (h : Heap) (x ws t : Nat) (ht : t < 2 ^ 30) (h1 : 1 ≤ ws)
    (hle : ws ≤ t) (hrem : 4 < t - ws) :
    get (block_mark (init_block (put (put h x ws) (x + 4 * ws - 4) ws) (x + 4 * ws) (t - ws))
        x false) x = ws + 2 ^ 30 ∧
    get (block_mark (init_block (put (put h x ws) (x + 4 * ws - 4) ws) (x + 4 * ws) (t - ws))
        x false) (x + 4 * ws - 4) = ws + 2 ^ 30 ∧
    get (block_mark (init_block (put (put h x ws) (x + 4 * ws - 4) ws) (x + 4 * ws) (t - ws))
        x false) (x + 4 * ws) = t - ws ∧
    SameMeta h (block_mark (init_block (put (put h x ws) (x + 4 * ws - 4) ws) (x + 4 * ws)
        (t - ws)) x false) := by
  have hws : ws < 2 ^ 30 := by omega
  have hws32 : ws < 2 ^ 32 := by omega
  have g0 := put_twice_get h x ws h1 hws32
  have m0 : SameMeta h (put (put h x ws) (x + 4 * ws - 4) ws) :=
    (SameMeta_put _ _ _).trans (SameMeta_put _ _ _)
  generalize put (put h x ws) (x + 4 * ws - 4) ws = h2 at g0 m0 ⊢
  obtain ⟨i1, _, _, _, i5, i6⟩ := init_block_spec h2 (x + 4 * ws) (t - ws) (by omega) (by omega)
  have g3 : get (init_block h2 (x + 4 * ws) (t - ws)) x = ws := by
    refine Eq.trans ?_ g0
    apply get_congr
    intro y y1 y2
    apply i6 <;> omega
  generalize init_block h2 (x + 4 * ws) (t - ws) = h3 at i1 i5 i6 g3 ⊢
  obtain ⟨b1, b2, b3, b4⟩ := block_mark_spec1 h3 x ws false hws h1 (Or.inl g3)
  simp only [Bool.false_eq_true, if_false] at b1 b2
  generalize block_mark h3 x false = h4 at b1 b2 b3 b4 ⊢
  refine ⟨b1, b2, ?_, (m0.trans i5).trans b3⟩
  refine Eq.trans ?_ i1
  apply get_congr
  intro y y1 y2
  apply b4 <;> omega

/-- The head of a class list of a represented heap lies outside the block in
transit. -/
theorem head_outside_block {h : Heap} {l1 l2 : List Blk} {fl : Nat → List Nat} {b : Blk}
    (hR : R h (l1 ++ b :: l2) fl b.addr) (hnf : b.free = false) (k : Nat) (hk : k < 12) :
    h.seg k = 0 ∨ h.seg k + 16 ≤ b.addr ∨ b.addr + 4 * b.size ≤ h.seg k := by
  have hb : b ∈ l1 ++ b :: l2 := by simp
  by_cases h0 : h.seg k = 0
  · exact Or.inl h0
  · right
    obtain ⟨hm, _⟩ := DLL_head_pred h (fl k) NULL (h.seg k) (hR.lists k hk) h0
    rcases hR.node_block_sep hk hm hb with e | e | e
    · exfalso
      obtain ⟨c, hc, e1, e2, _⟩ := hR.node hk hm
      have := hR.addr_inj hc hb (by rw [e1, e])
      rw [this, hnf] at e2
      cases e2
    · exact Or.inl e
    · exact Or.inr e

/-- What the split branch of `place` leaves, for a request of at least one word
that leaves more than 4 words over. -/
theorem place_split_post {h : Heap} {l1 l2 : List Blk} {fl : Nat → List Nat} {b : Blk}
    {ws : Nat} (hR : R h (l1 ++ b :: l2) fl b.addr) (hnf : b.free = false)
    (h1 : 1 ≤ ws) (hrem : 4 < b.size - ws) :
    get (place h b.addr ws) b.addr = ws + 2 ^ 30 ∧
    get (place h b.addr ws) (b.addr + 4 * ws - 4) = ws + 2 ^ 30 ∧
    get (place h b.addr ws) (b.addr + 4 * ws) = b.size - ws ∧
    get (place h b.addr ws) (b.addr + 4 * b.size - 4) = b.size - ws ∧
    get (place h b.addr ws) (b.addr + 4 * ws + 4) = 0 ∧
    get (place h b.addr ws) (b.addr + 4 * ws + 8) =
      CONVERT_64_TO_32 (h.seg (get_class_no (b.size - ws))) ∧
    (place h b.addr ws).seg =
      Function.update h.seg (get_class_no (b.size - ws)) (b.addr + 4 * ws) := by
  have hb : b ∈ l1 ++ b :: l2 := by simp
  obtain ⟨h4, hev, hs⟩ := hR.size_ok hb
  have hv := hR.hdr hb
  have hHx := head_outside_block hR hnf (get_class_no (b.size - ws)) (get_class_no_lt _)
  rw [place_split_eq1 h b.addr ws b.size hv hs h1 (by omega) hrem]
  obtain ⟨s1, s2, s3, s5⟩ := split_mem_spec1 h b.addr ws b.size hs h1 (by omega) hrem
  generalize block_mark (init_block (put (put h b.addr ws) (b.addr + 4 * ws - 4) ws)
    (b.addr + 4 * ws) (b.size - ws)) b.addr false = hm at s1 s2 s3 s5 ⊢
  have hseg : hm.seg = h.seg := s5.2.2.2.1
  generalize hH : h.seg (get_class_no (b.size - ws)) = H at hHx ⊢
  have hHm : hm.seg (get_class_no (b.size - ws)) = H := by rw [hseg, hH]
  have hHx' : H = 0 ∨ H + 16 ≤ b.addr + 4 * ws ∨ b.addr + 4 * ws + 4 * (b.size - ws) ≤ H := by
    rcases hHx with e | e | e
    · exact Or.inl e
    · exact Or.inr (Or.inl (by omega))
    · exact Or.inr (Or.inr (by omega))
  obtain ⟨a1, a2, a3, a4, _, _, _, _, _, a10, a11⟩ :=
    add_to_free_list_spec hm (b.addr + 4 * ws) (b.size - ws) H (Or.inl s3) (by omega) (by omega)
      hHm hHx'
  have hfr : ∀ y, y < b.addr + 4 * ws →
      (add_to_free_list hm (b.addr + 4 * ws)).mem y = hm.mem y ∨ y < b.addr := by
    intro y hy
    by_cases hyb : y < b.addr
    · exact Or.inr hyb
    · left
      apply a11 y (Or.inl hy) (Or.inl (by omega))
      rcases hHx with e | e | e
      · exact Or.inl e
      · exact Or.inr (Or.inr (by omega))
      · exact Or.inr (Or.inl (by omega))
  clear hHx hHx' a11
  refine ⟨?_, ?_, a1, ?_, a3, a4, ?_⟩
  · refine Eq.trans ?_ s1
    apply get_congr
    intro y y1 y2
    rcases hfr y (by omega) with e | e
    · exact e
    · omega
  · refine Eq.trans ?_ s2
    apply get_congr
    intro y y1 y2
    rcases hfr y (by omega) with e | e
    · exact e
    · omega
  · have e : b.addr + 4 * ws + 4 * (b.size - ws) - 4 = b.addr + 4 * b.size - 4 := by omega
    rw [← e]
    exact a2
  · rw [a10, hseg]

end MallocLab


namespace MallocLab

/-! ## The four cases of coalesce, with the tags they leave -/

/-- The tags `combine_block` writes: header and footer of the merged block hold
the sum of the two sizes, flag clear. -/
theorem combine_tags {h : Heap} {l1 l2 : List Blk} {fl : Nat → List Nat} {hole : Nat}
    {c1 c2 : Blk} (hR : R h (l1 ++ c1 :: c2 :: l2) fl hole) :
    get (combine_block h c1.addr c2.addr) c1.addr = c1.size + c2.size ∧
    get (combine_block h c1.addr c2.addr) (c1.addr + 4 * (c1.size + c2.size) - 4) =
      c1.size + c2.size := by
  have hm1 : c1 ∈ l1 ++ c1 :: c2 :: l2 := by simp
  have hm2 : c2 ∈ l1 ++ c1 :: c2 :: l2 := by simp
  obtain ⟨a4, _, _⟩ := hR.size_ok hm1
  have hr2 := hR.range hm2
  have hr1 := hR.range hm1
  obtain ⟨_, hc2⟩ := Contig_split _ _ _ _ _ hR.contig
  obtain ⟨hadj, _⟩ := hc2
  have hsum : c1.size + c2.size < 2 ^ 30 := by omega
  obtain ⟨k1, k2, _, _⟩ := combine_block_spec h c1.addr c2.addr c1.size c2.size
    (hR.block_size hm1) (hR.block_size hm2) (by omega) hsum
  exact ⟨k1, k2⟩

/-- `coalesce` on the block in transit whose header and footer carry its size
with the flag clear: which of the four cases applies is decided by the
neighbours in the block list; the surviving block `c` starts at the lowest
address of the merged run, has the sum of the sizes in header and footer, flag
clear, and every merged neighbour is erased from its list. -/
theorem coalesce_merge {h : Heap} {l1 l2 : List Blk} {fl : Nat → List Nat} {b : Blk}
    (hR : R h (l1 ++ b :: l2) fl b.addr) (hnf : b.free = false)
    (hhdr : get h b.addr = b.size) (hftr : get h (b.addr + 4 * b.size - 4) = b.size) :
    ∃ m1 m2 c fl',
      R (coalesce h b.addr).2 (m1 ++ c :: m2) fl' c.addr ∧
      (coalesce h b.addr).1 = c.addr ∧
      get (coalesce h b.addr).2 c.addr = c.size ∧
      get (coalesce h b.addr).2 (c.addr + 4 * c.size - 4) = c.size ∧
      ((block_free h (block_prev h b.addr) = false ∧
          block_free h (block_next h b.addr) = false ∧
          (∀ l1' p, l1 = l1' ++ [p] → p.free = false) ∧
          (∀ n l2', l2 = n :: l2' → n.free = false) ∧
          m1 = l1 ∧ m2 = l2 ∧ c = b ∧ fl' = fl ∧ coalesce h b.addr = (b.addr, h)) ∨
        (∃ p, block_free h (block_prev h b.addr) = true ∧
          block_free h (block_next h b.addr) = false ∧ block_prev h b.addr = p.addr ∧
          l1 = m1 ++ [p] ∧ p.free = true ∧
          (∀ n l2', l2 = n :: l2' → n.free = false) ∧ m2 = l2 ∧
          c = ⟨p.addr, p.size + b.size, false⟩ ∧ p.addr + 4 * p.size = b.addr ∧
          fl' = fun j => (fl j).erase p.addr) ∨
        (∃ n, block_free h (block_prev h b.addr) = false ∧
          block_free h (block_next h b.addr) = true ∧ block_next h b.addr = n.addr ∧
          l2 = n :: m2 ∧ n.free = true ∧
          (∀ l1' p, l1 = l1' ++ [p] → p.free = false) ∧ m1 = l1 ∧
          c = ⟨b.addr, b.size + n.size, false⟩ ∧ n.addr = b.addr + 4 * b.size ∧
          fl' = fun j => (fl j).erase n.addr) ∨
        (∃ p n, block_free h (block_prev h b.addr) = true ∧
          block_free h (block_next h b.addr) = true ∧ block_prev h b.addr = p.addr ∧
          block_next h b.addr = n.addr ∧
          l1 = m1 ++ [p] ∧ l2 = n :: m2 ∧ p.free = true ∧ n.free = true ∧
          c = ⟨p.addr, p.size + b.size + n.size, false⟩ ∧
          p.addr + 4 * p.size = b.addr ∧ n.addr = b.addr + 4 * b.size ∧
          fl' = fun j => ((fl j).erase p.addr).erase n.addr)) := by
  have hb : b ∈ l1 ++ b :: l2 := by simp
  have hbs := hR.size_ok hb
  rcases prev_alt hR with ⟨hp, hpl⟩ | ⟨l1', p, hl1, hpa, hp, hpf⟩
  · rcases next_alt hR with ⟨hn, hnl⟩ | ⟨n, l2', hl2, hna, hn, hnfr⟩
    · -- case 1
      rw [coalesce_case1 h b.addr hp hn]
      exact ⟨l1, l2, b, fl, hR, rfl, hhdr, hftr,
        Or.inl ⟨hp, hn, hpl, hnl, rfl, rfl, rfl, rfl, rfl⟩⟩
    · -- case 3
      have hn0 := hn
      rw [coalesce_case3 h b.addr hp hn, hna]
      subst hl2
      have e1 : l1 ++ b :: n :: l2' = (l1 ++ [b]) ++ n :: l2' := by simp
      have hR1 := hR
      rw [e1] at hR1
      obtain ⟨d1, _, _⟩ := R_delete_block hR1 hnfr
      have e2 : (l1 ++ [b]) ++ (⟨n.addr, n.size, false⟩ : Blk) :: l2'
          = l1 ++ b :: ⟨n.addr, n.size, false⟩ :: l2' := by simp
      rw [e2] at d1
      obtain ⟨k1, _, _⟩ := @R_combine _ _ _ _ _ b ⟨n.addr, n.size, false⟩ d1 hnf rfl
        (Or.inl rfl)
      obtain ⟨t1, t2⟩ := @combine_tags _ _ _ _ _ b ⟨n.addr, n.size, false⟩ d1
      have hnadj : n.addr = b.addr + 4 * b.size := by
        have := (next_view hR).1
        rw [← this, hna]
      exact ⟨l1, l2', ⟨b.addr, b.size + n.size, false⟩, _, k1, rfl, t1, t2,
        Or.inr (Or.inr (Or.inl ⟨n, hp, hna ▸ hn0, rfl, rfl, hnfr, hpl, rfl, rfl, hnadj, rfl⟩))⟩
  · subst hl1
    have hpadj : p.addr + 4 * p.size = b.addr := by
      obtain ⟨hc1, _⟩ := Contig_split _ _ _ _ _ hR.contig
      obtain ⟨m, _, hpa', hpe⟩ := (Contig_append l1' [p] _ _).1 hc1
      have : m + 4 * p.size = b.addr := hpe
      omega
    have e1 : l1' ++ [p] ++ b :: l2 = l1' ++ p :: (b :: l2) := by simp
    have hR1 := hR
    rw [e1] at hR1
    obtain ⟨d1, _, _⟩ := R_delete_block hR1 hpf
    rcases next_alt hR with ⟨hn, hnl⟩ | ⟨n, l2', hl2, hna, hn, hnfr⟩
    · -- case 2
      have hp0 := hp
      rw [coalesce_case2 h b.addr hp hn, hpa]
      obtain ⟨k1, _, _⟩ := @R_combine _ _ _ _ _ ⟨p.addr, p.size, false⟩ b d1 rfl hnf
        (Or.inr rfl)
      obtain ⟨t1, t2⟩ := @combine_tags _ _ _ _ _ ⟨p.addr, p.size, false⟩ b d1
      exact ⟨l1', l2, ⟨p.addr, p.size + b.size, false⟩, _, k1, rfl, t1, t2,
        Or.inr (Or.inl ⟨p, hpa ▸ hp0, hn, rfl, rfl, hpf, hnl, rfl, rfl, hpadj, rfl⟩)⟩
    · -- case 4
      have hp0 := hp
      have hn0 := hn
      rw [coalesce_case4 h b.addr hp hn, hpa, hna]
      subst hl2
      have hnadj : n.addr = b.addr + 4 * b.size := by
        have := (next_view hR).1
        rw [← this, hna]
      have e2 : l1' ++ (⟨p.addr, p.size, false⟩ : Blk) :: (b :: n :: l2')
          = (l1' ++ [⟨p.addr, p.size, false⟩, b]) ++ n :: l2' := by simp
      have d1' := d1
      rw [e2] at d1'
      obtain ⟨g1, _, _⟩ := R_delete_block d1' hnfr
      have e3 : (l1' ++ [⟨p.addr, p.size, false⟩, b]) ++ (⟨n.addr, n.size, false⟩ : Blk) :: l2'
          = l1' ++ (⟨p.addr, p.size, false⟩ : Blk) :: b :: (⟨n.addr, n.size, false⟩ :: l2') := by
        simp
      rw [e3] at g1
      obtain ⟨k1, _, _⟩ := @R_combine _ _ _ _ _ ⟨p.addr, p.size, false⟩ b g1 rfl hnf
        (Or.inr rfl)
      obtain ⟨j1, _, _⟩ := @R_combine _ _ _ _ _ ⟨p.addr, p.size + b.size, false⟩
        ⟨n.addr, n.size, false⟩ k1 rfl rfl (Or.inl rfl)
      obtain ⟨t1, t2⟩ := @combine_tags _ _ _ _ _ ⟨p.addr, p.size + b.size, false⟩
        ⟨n.addr, n.size, false⟩ k1
      exact ⟨l1', l2', ⟨p.addr, p.size + b.size + n.size, false⟩, _, j1, rfl, t1, t2,
        Or.inr (Or.inr (Or.inr ⟨p, n, hpa ▸ hp0, hna ▸ hn0, rfl, rfl, rfl, rfl, hpf, hnfr, rfl, hpadj, hnadj,
          rfl⟩))⟩

end MallocLab


namespace MallocLab

/-! ## The heap with its first block in transit -/

/-- The heap `open_heap`: the block of `init_heap`, off its list and in
transit. -/
theorem open_heap_R :
    R open_heap ([] ++ (⟨0x800000000 + 108, 64, false⟩ : Blk) :: [])
      (fun j => (init_lists j).erase (0x800000000 + 108)) (0x800000000 + 108) := by
  have hR : R init_heap ([] ++ (⟨0x800000000 + 108, 64, true⟩ : Blk) :: []) init_lists 0 :=
    init_heap_R
  have d : R open_heap ([] ++ (⟨0x800000000 + 108, 64, false⟩ : Blk) :: [])
      (fun j => (init_lists j).erase (0x800000000 + 108)) 0 := (R_delete_block hR rfl).1
  exact @R_open _ _ _ d ⟨0x800000000 + 108, 64, false⟩ (List.mem_singleton.2 rfl) rfl

/-- In a list without repetition, what `erase` removes is gone. -/
theorem not_mem_erase_self (l : List Nat) (x : Nat) (hn : l.Nodup) : x ∉ l.erase x := by
  intro hx
  exact (List.Nodup.mem_erase_iff hn).1 hx |>.1 rfl

set_option maxRecDepth 1000000 in
set_option maxHeartbeats 4000000 in
/-- On the heap after `mm_init()`, `malloc(2^64 - 15)` finds the free block,
takes it off its list and calls `place` with 0 words. -/
theorem malloc_wrapped_calls_place :
    malloc 4 init_heap (2 ^ 64 - 15) =
      some (0x800000000 + 112, place open_heap (0x800000000 + 108) 0) := by
  have hr : find_first_fit 4 init_heap (adjust (2 ^ 64 - 15)) = some (0x800000000 + 108) := by
    decide!
  unfold malloc
  rw [if_neg (by decide)]
  simp only [hr]
  rfl

set_option maxRecDepth 1000000 in
set_option maxHeartbeats 4000000 in
/-- On the heap after `mm_init()`, `malloc(232)` finds the free block, takes it
off its list and calls `place` with 60 words. -/
theorem malloc_tight_calls_place :
    malloc 4 init_heap 232 =
      some (0x800000000 + 112, place open_heap (0x800000000 + 108) 60) := by
  have hr : find_first_fit 4 init_heap (adjust 232) = some (0x800000000 + 108) := by
    decide!
  have ha : adjust 232 = 60 := by decide
  unfold malloc
  rw [if_neg (by decide)]
  simp only [hr]
  rw [ha]
  rfl

end MallocLab


namespace MallocLab

/-! ## Size adjustment, search, growth and the split rule (claims C21 to C25) -/

set_option maxRecDepth 1000000 in
/-- C21, counterexample: for the request `size = 2^64 - 15` the adjusted block
size in bytes that `malloc` computes on `size_t` is 0, which is not at least
`size + 8` (a number below `2^64`); for `size = 2^64 - 1` it is 8.  Both requests
are served on the heap after `mm_init()`. -/
theorem size_adjustment_wraps :
    adjust_bytes (2 ^ 64 - 15) = 0 ∧ (2 ^ 64 - 15) + 8 < 2 ^ 64 ∧
    ¬ ((2 ^ 64 - 15) + 8 ≤ adjust_bytes (2 ^ 64 - 15)) ∧
    adjust_bytes (2 ^ 64 - 1) = 8 ∧
    (malloc 4 init_heap (2 ^ 64 - 15)).map Prod.fst = some (0x800000000 + 112) ∧
    (malloc 4 init_heap (2 ^ 64 - 1)).map Prod.fst = some (0x800000000 + 112) :=
  ⟨by decide, by decide, by decide, by decide, by decide!, by decide!⟩

/-- C21, amended to requests of at most `2^64 - 16` bytes: for every such
`size ≥ 1` the adjusted block size in bytes that `malloc` computes is at least
`size + 8`, below `size + 16`, a multiple of 8, and four times the adjusted size
in words (nothing is reduced modulo `2^64`).  On a well-formed heap `malloc`
returns, and when it does not return `(block_pointer) -1` the adjusted size in
words is below `2^30`: a tag word written with it holds it unchanged in its
30-bit size field, and the size field of the header of the returned block holds
the adjusted size in words, or up to 4 words more when the block was not
split. -/
theorem adjustment_does_not_wrap {h : Heap} {bs : List Blk} {fl : Nat → List Nat}
    (hR : R h bs fl 0) (size : Nat) (h1 : 1 ≤ size) (h2 : size ≤ 2 ^ 64 - 16) :
    (size + 8 ≤ adjust_bytes size ∧ adjust_bytes size < size + 16 ∧
      adjust_bytes size % 8 = 0 ∧ adjust_bytes size = 4 * adjust size) ∧
    ∃ N, ∀ fuel, N ≤ fuel → ∃ p h', malloc fuel h size = some (p, h') ∧
      (p ≠ MINUS_ONE →
        adjust size < 2 ^ 30 ∧
        (∀ g a, block_size (put g a (adjust size)) a = adjust size) ∧
        adjust size ≤ block_size h' (block_header p) ∧
        block_size h' (block_header p) ≤ adjust size + 4) := by
  refine ⟨adjust_bytes_spec size h1 (by omega), ?_⟩
  have a4 := (adjust_spec size h1 (by omega)).1
  have key : ∀ (p : Nat) (h' : Heap) (c : Blk) (mid l1 l2 : List Blk),
      Placed c (adjust size) mid →
      adjust size ≤ c.size → c.size < 2 ^ 30 → Layout h' (l1 ++ mid ++ l2) →
      p = block_mem c.addr →
      adjust size < 2 ^ 30 ∧
      (∀ g a, block_size (put g a (adjust size)) a = adjust size) ∧
      adjust size ≤ block_size h' (block_header p) ∧
      block_size h' (block_header p) ≤ adjust size + 4 := by
    intro p h' c mid l1 l2 hpl hle hlt hlay hpc
    have hws : adjust size < 2 ^ 30 := by omega
    have hhd : block_header p = c.addr := by
      rw [hpc]
      unfold block_header block_mem
      omega
    rw [hhd]
    refine ⟨hws, ?_, ?_⟩
    · intro g a
      exact block_size_of_tag _ a _ hws (Or.inl (get_put_same_lt _ _ _ (by omega)))
    · rcases hpl with ⟨hrem, e⟩ | ⟨_, _, e⟩ | ⟨_, e0, _⟩
      · have := (hlay.2 ⟨c.addr, c.size, false⟩ (by rw [e]; simp)).2.1
        dsimp only at this
        rw [this]
        exact ⟨hle, by omega⟩
      · have := (hlay.2 ⟨c.addr, adjust size, false⟩ (by rw [e]; simp)).2.1
        dsimp only at this
        rw [this]
        exact ⟨le_refl _, by omega⟩
      · omega
  obtain ⟨N, hN⟩ := malloc_shape hR size h1 (by omega)
  refine ⟨N, fun fuel hf => ?_⟩
  obtain ⟨p, h', hm, hcase⟩ := hN fuel hf
  refine ⟨p, h', hm, fun hp => ?_⟩
  rcases hcase with ⟨e, _⟩ | ⟨l1, b, l2, mid, e, _, hle, hpb, _, hpl, hlay, _⟩ |
    ⟨_, hok, hpb, _, mid, hpl, hlay, _⟩
  · exact absurd e hp
  · have hb : b ∈ bs := by rw [e]; simp
    exact key p h' ⟨b.addr, b.size, false⟩ mid l1 l2 hpl hle (hR.size_ok hb).2.2 hlay hpb
  · have hbg := hR.brk_ge
    have hb1 := hR.base_le
    have hb2 := hR.lo_le
    have hmx := hR.max_le
    have hlay' : Layout h' (bs ++ mid ++ []) := by
      rw [List.append_nil]
      exact hlay
    exact key p h' ⟨h.brk - 4, max (adjust size) CHUNKSIZE, false⟩ mid bs [] hpl (le_max_left _ _)
      (by dsimp only; omega) hlay' hpb

/-- C21, witness: a request of 100 bytes on the heap after `mm_init()`. -/
theorem adjustment_does_not_wrap_witness :
    (R init_heap init_blocks init_lists 0 ∧ 1 ≤ 100 ∧ 100 ≤ 2 ^ 64 - 16) ∧
    (100 + 8 ≤ adjust_bytes 100 ∧ adjust_bytes 100 < 100 + 16 ∧
      adjust_bytes 100 % 8 = 0 ∧ adjust_bytes 100 = 4 * adjust 100) :=
  ⟨⟨init_heap_R, by decide, by decide⟩,
    (adjustment_does_not_wrap init_heap_R 100 (by decide) (by decide)).1⟩

/-- C22: let the lists of the classes `get_class_no s`, ..., 11 be well formed
(`fl j` is the list of class `j` read from its head along successor links; the
lists of the classes below are not constrained at all).  Then, given enough fuel
for the walk, `find_first_fit(s)` returns the first block of size at least `s`
met when these lists are walked in the order of their classes, each from its
head, and `NULL` when there is none.  So a block it returns is a member of one
of these lists of size at least `s`, and it returns `NULL` exactly when no
member of these lists has size at least `s`. -/
theorem first_fit_order (h : Heap) (fl : Nat → List Nat) (s : Nat)
    (hd : ∀ j, get_class_no s ≤ j → j < 12 → DLL h NULL (h.seg j) (fl j)) :
    ∃ N, ∀ fuel, N ≤ fuel → ∃ r, find_first_fit fuel h s = some r ∧
      r = ((lists_from fl (12 - get_class_no s) (get_class_no s)).find?
        (fun x => decide (s ≤ block_size h x))).getD NULL ∧
      (r ≠ NULL → s ≤ block_size h r ∧ ∃ j, get_class_no s ≤ j ∧ j < 12 ∧ r ∈ fl j) ∧
      (r = NULL ↔ ∀ j, get_class_no s ≤ j → j < 12 → ∀ x ∈ fl j, block_size h x < s) := by
  obtain ⟨N, hN⟩ := find_first_fit_first h fl s hd
  refine ⟨N, fun fuel hf => ⟨_, hN fuel hf, rfl, ?_⟩⟩
  have hc := get_class_no_lt s
  have hmem : ∀ x, x ∈ lists_from fl (12 - get_class_no s) (get_class_no s) ↔
      ∃ j, get_class_no s ≤ j ∧ j < 12 ∧ x ∈ fl j := by
    intro x
    rw [mem_lists_from]
    constructor
    · rintro ⟨j, a, b, c⟩
      exact ⟨j, a, by omega, c⟩
    · rintro ⟨j, a, b, c⟩
      exact ⟨j, a, by omega, c⟩
  cases hfi : (lists_from fl (12 - get_class_no s) (get_class_no s)).find?
      (fun x => decide (s ≤ block_size h x)) with
  | none =>
    rw [List.find?_eq_none] at hfi
    refine ⟨fun hne => absurd rfl hne, fun _ => ?_, fun _ => rfl⟩
    intro j a b x hx
    have := hfi x ((hmem x).2 ⟨j, a, b, hx⟩)
    simpa using this
  | some x =>
    have hx : x ∈ lists_from fl (12 - get_class_no s) (get_class_no s) :=
      List.mem_of_find?_eq_some hfi
    have hfit : s ≤ block_size h x := by
      have := List.find?_some hfi
      simpa using this
    obtain ⟨j, a, b, c⟩ := (hmem x).1 hx
    have hx0 : x ≠ 0 := DLL_ne_zero h (fl j) NULL (h.seg j) (hd j a b) x c
    refine ⟨fun _ => ⟨hfit, j, a, b, c⟩, fun e => absurd e hx0, fun hall => ?_⟩
    have := hall j a b x c
    omega

/-- C22, witness: a search for 4 words on the heap after `mm_init()`, whose
lists are all empty but the list of class 5. -/
theorem first_fit_order_witness :
    (∀ j, get_class_no 4 ≤ j → j < 12 → DLL init_heap NULL (init_heap.seg j) (init_lists j)) ∧
    ∃ N, ∀ fuel, N ≤ fuel → ∃ r, find_first_fit fuel init_heap 4 = some r ∧
      r = ((lists_from init_lists (12 - get_class_no 4) (get_class_no 4)).find?
        (fun x => decide (4 ≤ block_size init_heap x))).getD NULL ∧
      (r ≠ NULL → 4 ≤ block_size init_heap r ∧
        ∃ j, get_class_no 4 ≤ j ∧ j < 12 ∧ r ∈ init_lists j) ∧
      (r = NULL ↔ ∀ j, get_class_no 4 ≤ j → j < 12 → ∀ x ∈ init_lists j,
        block_size init_heap x < 4) :=
  ⟨fun j _ hj => init_heap_R.lists j hj,
    first_fit_order init_heap init_lists 4 (fun j _ hj => init_heap_R.lists j hj)⟩

/-- C23: on a well-formed heap, for every request `size ≥ 1` of type `size_t`,
`malloc` returns (given enough fuel for the walk) and its search
`find_first_fit` comes back with `NULL` exactly when no free block of the heap
has at least the adjusted number of words: starting at the class of the adjusted
size misses no block that fits.  Accordingly `malloc` goes on to extend the
heap (what it does and returns is its extension path `malloc_extend`: the result
is `(block_pointer) -1` because `mem_sbrk` refuses, or the high-water mark has
moved up) exactly when no free block fits; when `mem_sbrk` can grant the words,
the heap grows exactly when no free block fits; and when a free block fits the
heap does not grow and the result is the payload of a free block that fits. -/
theorem search_completeness {h : Heap} {bs : List Blk} {fl : Nat → List Nat}
    (hR : R h bs fl 0) (size : Nat) (h1 : 1 ≤ size) (h2 : size < 2 ^ 64) :
    ∃ N, ∀ fuel, N ≤ fuel → ∃ r p h',
      find_first_fit fuel h (adjust size) = some r ∧ malloc fuel h size = some (p, h') ∧
      (r = NULL ↔ ∀ b ∈ bs, b.free = true → b.size < adjust size) ∧
      (malloc fuel h size = malloc_extend h (adjust size) ↔
        ∀ b ∈ bs, b.free = true → b.size < adjust size) ∧
      ((p = MINUS_ONE ∨ h.brk < h'.brk) ↔ ∀ b ∈ bs, b.free = true → b.size < adjust size) ∧
      (h.brk + 4 * max (adjust size) CHUNKSIZE ≤ h.max →
        (h.brk < h'.brk ↔ ∀ b ∈ bs, b.free = true → b.size < adjust size)) ∧
      ((∃ b ∈ bs, b.free = true ∧ adjust size ≤ b.size) →
        h'.brk = h.brk ∧ ∃ b ∈ bs, b.free = true ∧ adjust size ≤ b.size ∧ p = block_mem b.addr) := by
  obtain ⟨N1, hN1⟩ := search_complete hR (adjust size)
  obtain ⟨N2, hN2⟩ := malloc_shape hR size h1 h2
  obtain ⟨v1, v2⟩ := malloc_extend_value hR size
  refine ⟨max N1 N2, fun fuel hf => ?_⟩
  obtain ⟨r, hr, hiff, _⟩ := hN1 fuel (le_trans (le_max_left _ _) hf)
  obtain ⟨p, h', hm, hcase⟩ := hN2 fuel (le_trans (le_max_right _ _) hf)
  refine ⟨r, p, h', hr, hm, hiff, ?_⟩
  have hW : 64 ≤ max (adjust size) CHUNKSIZE := by
    rw [CHUNKSIZE_eq]
    exact le_max_right _ _
  have hext : (∀ b ∈ bs, b.free = true → b.size < adjust size) →
      malloc fuel h size = malloc_extend h (adjust size) := by
    intro hno
    rw [hiff.2 hno] at hr
    exact malloc_of_search_null fuel h size h1 hr
  rcases hcase with ⟨e, e', hno, hnok⟩ | ⟨l1, b, l2, mid, e, hbf, hle, hpb, hk, _⟩ |
    ⟨hno, hok, hpb, hk, _⟩
  · refine ⟨⟨fun _ => hno, hext⟩, ⟨fun _ => hno, fun _ => Or.inl e⟩, ?_, ?_⟩
    · intro hok
      omega
    · rintro ⟨b0, hb0, hf0, hle0⟩
      have := hno b0 hb0 hf0
      omega
  · have hb : b ∈ bs := by rw [e]; simp
    have hrg := hR.range hb
    have hnot : ¬ (∀ b ∈ bs, b.free = true → b.size < adjust size) := by
      intro hno
      have := hno b hb hbf
      omega
    have hpm : p ≠ MINUS_ONE := by
      rw [hpb]
      unfold block_mem MINUS_ONE
      omega
    refine ⟨⟨?_, fun hno => absurd hno hnot⟩, ⟨?_, fun hno => absurd hno hnot⟩, ?_, ?_⟩
    · intro heq
      exfalso
      rw [hm] at heq
      by_cases hok : h.brk + 4 * max (adjust size) CHUNKSIZE ≤ h.max
      · obtain ⟨h'', hv, hbrk⟩ := v1 hok
        rw [hv] at heq
        have e2 : h' = h'' := congrArg Prod.snd (Option.some.inj heq)
        rw [← e2] at hbrk
        omega
      · rw [v2 (by omega)] at heq
        exact hpm (congrArg Prod.fst (Option.some.inj heq))
    · rintro (e0 | e0)
      · exact absurd e0 hpm
      · omega
    · intro _
      exact ⟨fun e0 => by omega, fun hno => absurd hno hnot⟩
    · intro _
      exact ⟨hk, b, hb, hbf, hle, hpb⟩
  · refine ⟨⟨fun _ => hno, hext⟩, ⟨fun _ => hno, fun _ => Or.inr (by omega)⟩, ?_, ?_⟩
    · intro _
      exact ⟨fun _ => hno, fun _ => by omega⟩
    · rintro ⟨b0, hb0, hf0, hle0⟩
      have := hno b0 hb0 hf0
      omega

/-- C23, witness: a request of 100 bytes on the heap after `mm_init()`. -/
theorem search_completeness_witness :
    (R init_heap init_blocks init_lists 0 ∧ 1 ≤ 100 ∧ 100 < 2 ^ 64) ∧
    ∃ N, ∀ fuel, N ≤ fuel → ∃ r p h',
      find_first_fit fuel init_heap (adjust 100) = some r ∧
      malloc fuel init_heap 100 = some (p, h') ∧
      (r = NULL ↔ ∀ b ∈ init_blocks, b.free = true → b.size < adjust 100) ∧
      (malloc fuel init_heap 100 = malloc_extend init_heap (adjust 100) ↔
        ∀ b ∈ init_blocks, b.free = true → b.size < adjust 100) ∧
      ((p = MINUS_ONE ∨ init_heap.brk < h'.brk) ↔
        ∀ b ∈ init_blocks, b.free = true → b.size < adjust 100) ∧
      (init_heap.brk + 4 * max (adjust 100) CHUNKSIZE ≤ init_heap.max →
        (init_heap.brk < h'.brk ↔ ∀ b ∈ init_blocks, b.free = true → b.size < adjust 100)) ∧
      ((∃ b ∈ init_blocks, b.free = true ∧ adjust 100 ≤ b.size) →
        h'.brk = init_heap.brk ∧
        ∃ b ∈ init_blocks, b.free = true ∧ adjust 100 ≤ b.size ∧ p = block_mem b.addr) :=
  ⟨⟨init_heap_R, by decide, by decide⟩,
    search_completeness init_heap_R 100 (by decide) (by decide)⟩

/-- C24: on a well-formed heap, for every request `size ≥ 1` of type `size_t`
that no free block fits, `malloc` returns (given enough fuel for the walk); it
does not return `(block_pointer) -1` when `mem_sbrk` can grant the words; and
when it does not return `(block_pointer) -1`, the heap has grown by exactly
`max (adjust size) CHUNKSIZE` words, `CHUNKSIZE` being 64, the returned pointer
is the payload of the block whose header is at the position of the old epilogue
word, the walk over the headers meets the old blocks and then what `place` made
of the new block, and the last word of the grown heap is an epilogue tag, size 0
and allocated. -/
theorem heap_growth {h : Heap} {bs : List Blk} {fl : Nat → List Nat}
    (hR : R h bs fl 0) (size : Nat) (h1 : 1 ≤ size) (h2 : size < 2 ^ 64)
    (hnofit : ∀ b ∈ bs, b.free = true → b.size < adjust size) :
    ∃ N, ∀ fuel, N ≤ fuel → ∃ p h', malloc fuel h size = some (p, h') ∧
      (h.brk + 4 * max (adjust size) CHUNKSIZE ≤ h.max → p ≠ MINUS_ONE) ∧
      (p ≠ MINUS_ONE →
        h'.brk = h.brk + 4 * max (adjust size) CHUNKSIZE ∧ CHUNKSIZE = 64 ∧
        get h (h.brk - 4) = PACK 0 1 ∧ block_header p = h.brk - 4 ∧
        p = block_mem (h.brk - 4) ∧
        get h' (h'.brk - 4) = PACK 0 1 ∧ block_size h' (h'.brk - 4) = 0 ∧
        block_free h' (h'.brk - 4) = false ∧
        ∃ mid, Placed ⟨h.brk - 4, max (adjust size) CHUNKSIZE, false⟩ (adjust size) mid ∧
          Layout h' (bs ++ mid)) := by
  have hbg := hR.brk_ge
  have hb1 := hR.base_le
  have hb2 := hR.lo_le
  have hmx := hR.max_le
  have hbm := hR.brk_le
  by_cases hok : h.brk + 4 * max (adjust size) CHUNKSIZE ≤ h.max
  · obtain ⟨N, hN⟩ := malloc_grow hR size h1 h2 hnofit hok
    refine ⟨N, fun fuel hf => ?_⟩
    obtain ⟨h', hm, hk, he0, he1, mid, hpl, hlay⟩ := hN fuel hf
    have hpm : block_mem (h.brk - 4) ≠ MINUS_ONE := by
      unfold block_mem MINUS_ONE
      omega
    have he2 : get h' (h'.brk - 4) = 0 + 2 ^ 30 := by
      rw [he1, PACK_0_1, Nat.zero_add]
    refine ⟨_, h', hm, fun _ => hpm, fun _ =>
      ⟨hk, CHUNKSIZE_eq, he0, ?_, rfl, he1,
        block_size_of_tag h' _ 0 (by decide) (Or.inr he2),
        block_free_of_alloc h' _ 0 (by decide) he2, mid, hpl, hlay⟩⟩
    unfold block_header block_mem
    omega
  · obtain ⟨N, hN⟩ := malloc_shape hR size h1 h2
    refine ⟨N, fun fuel hf => ?_⟩
    obtain ⟨p, h', hm, hcase⟩ := hN fuel hf
    refine ⟨p, h', hm, fun hok' => absurd hok' hok, fun hp => ?_⟩
    exfalso
    rcases hcase with ⟨e, _⟩ | ⟨l1, b, l2, mid, e, hbf, hle, _⟩ | ⟨_, hok', _⟩
    · exact hp e
    · have hb : b ∈ bs := by rw [e]; simp
      have := hnofit b hb hbf
      omega
    · exact hok hok'

set_option maxRecDepth 1000000 in
/-- C24, witness: a request of 8 bytes on the heap after `mm_init()` and
`malloc(248)`, which has no free block. -/
theorem heap_growth_witness :
    (R full_heap full_blocks no_lists 0 ∧ 1 ≤ 8 ∧ 8 < 2 ^ 64 ∧
      ∀ b ∈ full_blocks, b.free = true → b.size < adjust 8) ∧
    ∃ N, ∀ fuel, N ≤ fuel → ∃ p h', malloc fuel full_heap 8 = some (p, h') ∧
      (full_heap.brk + 4 * max (adjust 8) CHUNKSIZE ≤ full_heap.max → p ≠ MINUS_ONE) ∧
      (p ≠ MINUS_ONE →
        h'.brk = full_heap.brk + 4 * max (adjust 8) CHUNKSIZE ∧ CHUNKSIZE = 64 ∧
        get full_heap (full_heap.brk - 4) = PACK 0 1 ∧ block_header p = full_heap.brk - 4 ∧
        p = block_mem (full_heap.brk - 4) ∧
        get h' (h'.brk - 4) = PACK 0 1 ∧ block_size h' (h'.brk - 4) = 0 ∧
        block_free h' (h'.brk - 4) = false ∧
        ∃ mid, Placed ⟨full_heap.brk - 4, max (adjust 8) CHUNKSIZE, false⟩ (adjust 8) mid ∧
          Layout h' (full_blocks ++ mid)) :=
  ⟨⟨full_heap_R, by decide, by decide, by decide⟩,
    heap_growth full_heap_R 8 (by decide) (by decide) (by decide)⟩

set_option maxRecDepth 1000000 in
/-- C25, evaluation: the heap after `mm_init()` has one free block of 64 words.
`malloc(232)` adjusts the request to 60 words, finds that block, takes it off
its list (which gives `open_heap`) and calls `place(bp, 60)`; the leftover is 4
words, the minimum block size (the size of
the block `malloc(1)` asks for), and the block is not split: it is allocated
whole with its 64 words, and no list holds a block.  With a request of 58 words
(leftover 6) the block is split. -/
theorem exact_remainder_is_not_split :
    R init_heap init_blocks init_lists 0 ∧
    (adjust 232 = 60 ∧ block_size init_heap (0x800000000 + 108) = 64 ∧ 60 ≤ 64 ∧
      64 - 60 = BLOCKSIZE_MIN ∧ adjust 1 = BLOCKSIZE_MIN) ∧
    malloc 4 init_heap 232 =
      some (0x800000000 + 112, place open_heap (0x800000000 + 108) 60) ∧
    Layout tight_heap [⟨0x800000000 + 108, 64, false⟩] ∧
    (∀ i, i < 12 → tight_heap.seg i = NULL) ∧
    Layout (place open_heap (0x800000000 + 108) 60) [⟨0x800000000 + 108, 64, false⟩] ∧
    Layout (place open_heap (0x800000000 + 108) 58)
      [⟨0x800000000 + 108, 58, false⟩, ⟨0x800000000 + 340, 6, true⟩] :=
  ⟨init_heap_R, by decide, malloc_tight_calls_place, by decide!, by decide!, by decide!,
    by decide!⟩

end MallocLab


namespace MallocLab

/-! ## Splitting, coalescing, classes and the lists (claims C26 to C30) -/

set_option maxRecDepth 1000000 in
set_option maxHeartbeats 4000000 in
/-- C26, counterexample: `open_heap` is the heap after `mm_init()` with its one
block, of 64 words, taken off its list, as `malloc` hands it to `place`.  The
request `malloc(2^64 - 15)` is adjusted to 0 words, and what it does on the heap
after `mm_init()` is `place(bp, 0)` on `open_heap`.  `place(bp, 0)` takes the split branch (the leftover, 64 words, is more
than `BLOCKSIZE_MIN`), and afterwards the block at `bp` has 64 words, not 0, and
is marked free, not allocated. -/
theorem place_zero_words_frees_block :
    R open_heap ([] ++ (⟨0x800000000 + 108, 64, false⟩ : Blk) :: [])
      (fun j => (init_lists j).erase (0x800000000 + 108)) (0x800000000 + 108) ∧
    adjust (2 ^ 64 - 15) = 0 ∧
    malloc 4 init_heap (2 ^ 64 - 15) =
      some (0x800000000 + 112, place open_heap (0x800000000 + 108) 0) ∧
    (block_size open_heap (0x800000000 + 108) = 64 ∧ 0 ≤ 64 ∧
      ¬ ((block_size open_heap (0x800000000 + 108) + 2 ^ 64 - 0) % 2 ^ 64 ≤ BLOCKSIZE_MIN)) ∧
    block_size (place open_heap (0x800000000 + 108) 0) (0x800000000 + 108) = 64 ∧
    block_free (place open_heap (0x800000000 + 108) 0) (0x800000000 + 108) = true ∧
    ¬ (block_size (place open_heap (0x800000000 + 108) 0) (0x800000000 + 108) = 0 ∧
      block_free (place open_heap (0x800000000 + 108) 0) (0x800000000 + 108) = false) := by
  have e1 : block_size (place open_heap (0x800000000 + 108) 0) (0x800000000 + 108) = 64 := by decide!
  have e2 : block_free (place open_heap (0x800000000 + 108) 0) (0x800000000 + 108) = true := by decide!
  refine ⟨open_heap_R, by decide, malloc_wrapped_calls_place, by decide!, e1, e2, ?_⟩
  rw [e1]
  exact fun hc => absurd hc.1 (by decide)

/-- C26, amended to requests of at least one word: let `b` be a block of a
well-formed heap that is on no list and in transit (as `malloc` and `realloc`
hand it to `place`), of `t = b.size` words, and let `1 ≤ n ≤ t`.  Whenever
`place(bp, n)` takes its split branch, afterwards the block at `bp` has size `n`,
is marked allocated and has header equal to footer; the block at `bp + n` (in
words) has size `t - n`, is marked free, has header equal to footer, has an empty
predecessor link and is the head of the free list of class
`get_class_no (t - n)`; the second block starts where the first ends and ends
where the original block ended, and the sizes add up to `t`. -/
theorem split_postcondition {h : Heap} {l1 l2 : List Blk} {fl : Nat → List Nat} {b : Blk}
    (hR : R h (l1 ++ b :: l2) fl b.addr) (hnf : b.free = false) (n : Nat)
    (h1 : 1 ≤ n) (hle : n ≤ b.size)
    (hsplit : ¬ ((block_size h b.addr + 2 ^ 64 - n) % 2 ^ 64 ≤ BLOCKSIZE_MIN)) :
    block_size h b.addr = b.size ∧
    block_size (place h b.addr n) b.addr = n ∧
    block_free (place h b.addr n) b.addr = false ∧
    get (place h b.addr n) b.addr = get (place h b.addr n) (block_footer (place h b.addr n) b.addr) ∧
    block_next (place h b.addr n) b.addr = b.addr + 4 * n ∧
    block_size (place h b.addr n) (b.addr + 4 * n) = b.size - n ∧
    block_free (place h b.addr n) (b.addr + 4 * n) = true ∧
    get (place h b.addr n) (b.addr + 4 * n) =
      get (place h b.addr n) (block_footer (place h b.addr n) (b.addr + 4 * n)) ∧
    get_pred_ptr (place h b.addr n) (b.addr + 4 * n) = NULL ∧
    (place h b.addr n).seg (get_class_no (b.size - n)) = b.addr + 4 * n ∧
    block_next (place h b.addr n) (b.addr + 4 * n) = b.addr + 4 * b.size ∧
    n + (b.size - n) = b.size := by
  have hb : b ∈ l1 ++ b :: l2 := by simp
  obtain ⟨h4, hev, hs⟩ := hR.size_ok hb
  have hsz := hR.block_size hb
  have hrem : 4 < b.size - n := by
    have e : (b.size + 2 ^ 64 - n) % 2 ^ 64 = b.size - n := by omega
    rw [hsz, e] at hsplit
    change ¬ (b.size - n ≤ 4) at hsplit
    omega
  obtain ⟨p1, p2, p3, p4, p5, _, p7⟩ := place_split_post hR hnf h1 hrem
  generalize place h b.addr n = h' at p1 p2 p3 p4 p5 p7 ⊢
  have q1 : block_size h' b.addr = n := block_size_of_tag h' _ n (by omega) (Or.inr p1)
  have q2 : block_size h' (b.addr + 4 * n) = b.size - n :=
    block_size_of_tag h' _ (b.size - n) (by omega) (Or.inl p3)
  have e2 : b.addr + 4 * n + 4 * (b.size - n) = b.addr + 4 * b.size := by omega
  refine ⟨hsz, q1, block_free_of_alloc h' _ n (by omega) p1, ?_, ?_, q2,
    block_free_of_free h' _ (b.size - n) (by omega) p3, ?_, ?_, ?_, ?_, by omega⟩
  · unfold block_footer
    rw [q1, p1, p2]
  · unfold block_next
    rw [q1]
  · unfold block_footer
    rw [q2, e2, p3, p4]
  · unfold get_pred_ptr
    rw [p5]
    rfl
  · rw [p7, Function.update_same]
  · unfold block_next
    rw [q2, e2]

set_option maxRecDepth 1000000 in
/-- C26, witness: `place(bp, 58)` on the block of 64 words of `open_heap`. -/
theorem split_postcondition_witness :
    (R open_heap ([] ++ (⟨0x800000000 + 108, 64, false⟩ : Blk) :: [])
        (fun j => (init_lists j).erase (0x800000000 + 108)) (0x800000000 + 108) ∧
      1 ≤ 58 ∧ 58 ≤ 64 ∧
      ¬ ((block_size open_heap (0x800000000 + 108) + 2 ^ 64 - 58) % 2 ^ 64 ≤ BLOCKSIZE_MIN)) ∧
    (block_size open_heap (0x800000000 + 108) = 64 ∧
    block_size (place open_heap (0x800000000 + 108) 58) (0x800000000 + 108) = 58 ∧
    block_free (place open_heap (0x800000000 + 108) 58) (0x800000000 + 108) = false ∧
    get (place open_heap (0x800000000 + 108) 58) (0x800000000 + 108) = get (place open_heap (0x800000000 + 108) 58) (block_footer (place open_heap (0x800000000 + 108) 58) (0x800000000 + 108)) ∧
    block_next (place open_heap (0x800000000 + 108) 58) (0x800000000 + 108) = (0x800000000 + 108) + 4 * 58 ∧
    block_size (place open_heap (0x800000000 + 108) 58) ((0x800000000 + 108) + 4 * 58) = 64 - 58 ∧
    block_free (place open_heap (0x800000000 + 108) 58) ((0x800000000 + 108) + 4 * 58) = true ∧
    get (place open_heap (0x800000000 + 108) 58) ((0x800000000 + 108) + 4 * 58) =
      get (place open_heap (0x800000000 + 108) 58) (block_footer (place open_heap (0x800000000 + 108) 58) ((0x800000000 + 108) + 4 * 58)) ∧
    get_pred_ptr (place open_heap (0x800000000 + 108) 58) ((0x800000000 + 108) + 4 * 58) = NULL ∧
    (place open_heap (0x800000000 + 108) 58).seg (get_class_no (64 - 58)) = (0x800000000 + 108) + 4 * 58 ∧
    block_next (place open_heap (0x800000000 + 108) 58) ((0x800000000 + 108) + 4 * 58) = (0x800000000 + 108) + 4 * 64 ∧
    58 + (64 - 58) = 64) :=
  ⟨⟨open_heap_R, by decide, by decide, by decide!⟩,
    split_postcondition open_heap_R rfl 58 (by decide) (by decide) (by decide!)⟩

/-- C27: let `b` be an allocated block of a well-formed heap and `h` the heap
after `block_mark(bp, 1)`, as `free` hands it to `coalesce`.  Then `coalesce(bp)`
returns the address of the block `c` in transit of a heap that is well formed
again: `c` starts at the lowest address among `bp` and its free physical
neighbours (at `bp` when the previous block is not free, else at the previous
block, which lies below `bp`; a free next block lies above `bp`), header and
footer of `c` hold the sum of the sizes of the merged blocks with the free flag,
and every merged neighbour has been erased from its free list and is on no list.
Which of the four cases applies is what `block_free` reads at `block_prev(bp)`
and `block_next(bp)`; when neither neighbour is free the result is `bp` and the
heap is unchanged. -/
theorem coalesce_four_cases {h0 : Heap} {l1 l2 : List Blk} {fl : Nat → List Nat} {b : Blk}
    (hR : R h0 (l1 ++ b :: l2) fl 0) (hnf : b.free = false)
    (h : Heap) (hh : h = block_mark h0 b.addr true) :
    ∃ m1 m2 c fl',
      R (coalesce h b.addr).2 (m1 ++ c :: m2) fl' c.addr ∧
      (coalesce h b.addr).1 = c.addr ∧ c.addr ≤ b.addr ∧
      get (coalesce h b.addr).2 c.addr = c.size ∧
      get (coalesce h b.addr).2 (block_footer (coalesce h b.addr).2 c.addr) = c.size ∧
      block_free (coalesce h b.addr).2 c.addr = true ∧
      ((block_free h (block_prev h b.addr) = false ∧
          block_free h (block_next h b.addr) = false ∧
          (∀ l1' p, l1 = l1' ++ [p] → p.free = false) ∧
          (∀ n l2', l2 = n :: l2' → n.free = false) ∧
          m1 = l1 ∧ m2 = l2 ∧ c = b ∧ fl' = fl ∧ coalesce h b.addr = (b.addr, h)) ∨
        (∃ p, block_free h (block_prev h b.addr) = true ∧
          block_free h (block_next h b.addr) = false ∧ block_prev h b.addr = p.addr ∧
          l1 = m1 ++ [p] ∧ p.free = true ∧
          (∀ n l2', l2 = n :: l2' → n.free = false) ∧ m2 = l2 ∧
          c = ⟨p.addr, p.size + b.size, false⟩ ∧ p.addr < b.addr ∧
          ∀ j, j < 12 → fl' j = (fl j).erase p.addr ∧ p.addr ∉ fl' j) ∨
        (∃ n, block_free h (block_prev h b.addr) = false ∧
          block_free h (block_next h b.addr) = true ∧ block_next h b.addr = n.addr ∧
          l2 = n :: m2 ∧ n.free = true ∧
          (∀ l1' p, l1 = l1' ++ [p] → p.free = false) ∧ m1 = l1 ∧
          c = ⟨b.addr, b.size + n.size, false⟩ ∧ b.addr < n.addr ∧
          ∀ j, j < 12 → fl' j = (fl j).erase n.addr ∧ n.addr ∉ fl' j) ∨
        (∃ p n, block_free h (block_prev h b.addr) = true ∧
          block_free h (block_next h b.addr) = true ∧ block_prev h b.addr = p.addr ∧
          block_next h b.addr = n.addr ∧
          l1 = m1 ++ [p] ∧ l2 = n :: m2 ∧ p.free = true ∧ n.free = true ∧
          c = ⟨p.addr, p.size + b.size + n.size, false⟩ ∧ p.addr < b.addr ∧ b.addr < n.addr ∧
          ∀ j, j < 12 → fl' j = ((fl j).erase p.addr).erase n.addr ∧
            p.addr ∉ fl' j ∧ n.addr ∉ fl' j)) := by
  subst hh
  have hb : b ∈ l1 ++ b :: l2 := by simp
  obtain ⟨h4, hev, hs⟩ := hR.size_ok hb
  obtain ⟨hRm, _, _⟩ := R_mark_free hR hnf
  obtain ⟨g1, g2, _, _⟩ := block_mark_spec h0 b.addr b.size true hs (by omega) (hR.hdr hb)
  simp only [if_true] at g1 g2
  obtain ⟨m1, m2, c, fl', hR', hres, t1, t2, hcase⟩ := coalesce_merge hRm hnf g1 g2
  have hc : c ∈ m1 ++ c :: m2 := by simp
  have hcs := (hR'.size_ok hc).2.2
  have hnd := hRm.nodup
  have hsize : ∀ q ∈ l1 ++ b :: l2, 4 ≤ q.size := fun q hq => (hRm.size_ok hq).1
  generalize block_mark h0 b.addr true = h at hRm hR' hres t1 t2 hcase ⊢
  have q1 : block_size (coalesce h b.addr).2 c.addr = c.size :=
    block_size_of_tag _ _ _ hcs (Or.inl t1)
  have q2 : get (coalesce h b.addr).2 (block_footer (coalesce h b.addr).2 c.addr) = c.size := by
    unfold block_footer
    rw [q1]
    exact t2
  have q3 := block_free_of_free _ _ _ hcs t1
  refine ⟨m1, m2, c, fl', hR', hres, ?_, t1, q2, q3, ?_⟩
  · rcases hcase with ⟨_, _, _, _, _, _, e, _⟩ | ⟨p, _, _, _, e1, _, _, _, e, ha, _⟩ |
      ⟨n, _, _, _, _, _, _, _, e, _⟩ | ⟨p, n, _, _, _, _, e1, _, _, _, e, ha, _⟩
    · rw [e]
    · rw [e]
      show p.addr ≤ b.addr
      omega
    · rw [e]
    · rw [e]
      show p.addr ≤ b.addr
      omega
  · rcases hcase with ⟨a1, a2, a3, a4, a5, a6, a7, a8, a9⟩ |
      ⟨p, a1, a2, a3, a4, a5, a6, a7, a8, a9, a10⟩ |
      ⟨n, a1, a2, a3, a4, a5, a6, a7, a8, a9, a10⟩ |
      ⟨p, n, a1, a2, a3, a4, a5, a6, a7, a8, a9, a10, a11, a12⟩
    · exact Or.inl ⟨a1, a2, a3, a4, a5, a6, a7, a8, a9⟩
    · have hp4 := hsize p (by rw [a4]; simp)
      refine Or.inr (Or.inl ⟨p, a1, a2, a3, a4, a5, a6, a7, a8, by omega, ?_⟩)
      intro j hj
      rw [a10]
      exact ⟨rfl, not_mem_erase_self _ _ (hnd j hj)⟩
    · refine Or.inr (Or.inr (Or.inl ⟨n, a1, a2, a3, a4, a5, a6, a7, a8, by omega, ?_⟩))
      intro j hj
      rw [a10]
      exact ⟨rfl, not_mem_erase_self _ _ (hnd j hj)⟩
    · have hp4 := hsize p (by rw [a5]; simp)
      refine Or.inr (Or.inr (Or.inr ⟨p, n, a1, a2, a3, a4, a5, a6, a7, a8, a9, by omega,
        by omega, ?_⟩))
      intro j hj
      rw [a12]
      refine ⟨rfl, ?_, not_mem_erase_self _ _ ((hnd j hj).erase _)⟩
      intro hx
      exact not_mem_erase_self _ _ (hnd j hj) (List.mem_of_mem_erase hx)

/-- C27, witness: the heap after `mm_init()` and `malloc(216)`, an allocated
block of 56 words followed by a free block of 8 words; the block of 56 words is
marked free and handed to `coalesce`. -/
theorem coalesce_four_cases_witness :
    (R split_heap ([] ++ (⟨0x800000000 + 108, 56, false⟩ : Blk) :: [(⟨0x800000000 + 332, 8, true⟩ : Blk)]) split_lists 0 ∧
      (⟨0x800000000 + 108, 56, false⟩ : Blk).free = false) ∧
    ∃ m1 m2 c fl',
      R (coalesce (block_mark split_heap (0x800000000 + 108) true) (0x800000000 + 108)).2 (m1 ++ c :: m2) fl' c.addr ∧
      (coalesce (block_mark split_heap (0x800000000 + 108) true) (0x800000000 + 108)).1 = c.addr ∧ c.addr ≤ (0x800000000 + 108) ∧
      get (coalesce (block_mark split_heap (0x800000000 + 108) true) (0x800000000 + 108)).2 c.addr = c.size ∧
      get (coalesce (block_mark split_heap (0x800000000 + 108) true) (0x800000000 + 108)).2 (block_footer (coalesce (block_mark split_heap (0x800000000 + 108) true) (0x800000000 + 108)).2 c.addr) = c.size ∧
      block_free (coalesce (block_mark split_heap (0x800000000 + 108) true) (0x800000000 + 108)).2 c.addr = true ∧
      ((block_free (block_mark split_heap (0x800000000 + 108) true) (block_prev (block_mark split_heap (0x800000000 + 108) true) (0x800000000 + 108)) = false ∧
          block_free (block_mark split_heap (0x800000000 + 108) true) (block_next (block_mark split_heap (0x800000000 + 108) true) (0x800000000 + 108)) = false ∧
          (∀ l1' p, ([] : List Blk) = l1' ++ [p] → p.free = false) ∧
          (∀ n l2', [(⟨0x800000000 + 332, 8, true⟩ : Blk)] = n :: l2' → n.free = false) ∧
          m1 = ([] : List Blk) ∧ m2 = [(⟨0x800000000 + 332, 8, true⟩ : Blk)] ∧ c = (⟨0x800000000 + 108, 56, false⟩ : Blk) ∧ fl' = split_lists ∧ coalesce (block_mark split_heap (0x800000000 + 108) true) (0x800000000 + 108) = ((0x800000000 + 108), (block_mark split_heap (0x800000000 + 108) true))) ∨
        (∃ p, block_free (block_mark split_heap (0x800000000 + 108) true) (block_prev (block_mark split_heap (0x800000000 + 108) true) (0x800000000 + 108)) = true ∧
          block_free (block_mark split_heap (0x800000000 + 108) true) (block_next (block_mark split_heap (0x800000000 + 108) true) (0x800000000 + 108)) = false ∧ block_prev (block_mark split_heap (0x800000000 + 108) true) (0x800000000 + 108) = p.addr ∧
          ([] : List Blk) = m1 ++ [p] ∧ p.free = true ∧
          (∀ n l2', [(⟨0x800000000 + 332, 8, true⟩ : Blk)] = n :: l2' → n.free = false) ∧ m2 = [(⟨0x800000000 + 332, 8, true⟩ : Blk)] ∧
          c = ⟨p.addr, p.size + 56, false⟩ ∧ p.addr < (0x800000000 + 108) ∧
          ∀ j, j < 12 → fl' j = (split_lists j).erase p.addr ∧ p.addr ∉ fl' j) ∨
        (∃ n, block_free (block_mark split_heap (0x800000000 + 108) true) (block_prev (block_mark split_heap (0x800000000 + 108) true) (0x800000000 + 108)) = false ∧
          block_free (block_mark split_heap (0x800000000 + 108) true) (block_next (block_mark split_heap (0x800000000 + 108) true) (0x800000000 + 108)) = true ∧ block_next (block_mark split_heap (0x800000000 + 108) true) (0x800000000 + 108) = n.addr ∧
          [(⟨0x800000000 + 332, 8, true⟩ : Blk)] = n :: m2 ∧ n.free = true ∧
          (∀ l1' p, ([] : List Blk) = l1' ++ [p] → p.free = false) ∧ m1 = ([] : List Blk) ∧
          c = ⟨(0x800000000 + 108), 56 + n.size, false⟩ ∧ (0x800000000 + 108) < n.addr ∧
          ∀ j, j < 12 → fl' j = (split_lists j).erase n.addr ∧ n.addr ∉ fl' j) ∨
        (∃ p n, block_free (block_mark split_heap (0x800000000 + 108) true) (block_prev (block_mark split_heap (0x800000000 + 108) true) (0x800000000 + 108)) = true ∧
          block_free (block_mark split_heap (0x800000000 + 108) true) (block_next (block_mark split_heap (0x800000000 + 108) true) (0x800000000 + 108)) = true ∧ block_prev (block_mark split_heap (0x800000000 + 108) true) (0x800000000 + 108) = p.addr ∧
          block_next (block_mark split_heap (0x800000000 + 108) true) (0x800000000 + 108) = n.addr ∧
          ([] : List Blk) = m1 ++ [p] ∧ [(⟨0x800000000 + 332, 8, true⟩ : Blk)] = n :: m2 ∧ p.free = true ∧ n.free = true ∧
          c = ⟨p.addr, p.size + 56 + n.size, false⟩ ∧ p.addr < (0x800000000 + 108) ∧ (0x800000000 + 108) < n.addr ∧
          ∀ j, j < 12 → fl' j = ((split_lists j).erase p.addr).erase n.addr ∧
            p.addr ∉ fl' j ∧ n.addr ∉ fl' j)) :=
  ⟨⟨split_heap_R, rfl⟩,
    @coalesce_four_cases split_heap [] [⟨0x800000000 + 332, 8, true⟩] split_lists
      ⟨0x800000000 + 108, 56, false⟩ split_heap_R rfl _ rfl⟩

/-- C28: for every size `s1`, `get_class_no s1` is the index of the first
boundary in (4, 8, 16, 32, 64, 128, 256, 512, 1024, 2048, 4096) that is strictly
greater than `s1` (the boundary at that index is greater, every boundary before
it is not), and 11 when `s1 ≥ 4096`; it lies in 0..11, and `s1 ≤ s2` implies
`get_class_no s1 ≤ get_class_no s2`. -/
theorem size_classes (s1 s2 : Nat) (hle : s1 ≤ s2) :
    get_class_no s1 = first_boundary_above s1 ∧
    (get_class_no s1 < 11 → s1 < class_boundaries.getD (get_class_no s1) 0) ∧
    (∀ j, j < get_class_no s1 → class_boundaries.getD j 0 ≤ s1) ∧
    (4096 ≤ s1 → get_class_no s1 = 11) ∧
    get_class_no s1 ≤ 11 ∧ get_class_no s1 ≤ get_class_no s2 := by
  have hlt := get_class_no_lt s1
  refine ⟨(first_boundary_above_eq s1).symm, ?_, ?_, ?_, by omega, get_class_no_mono s1 s2 hle⟩
  · intro _
    rcases get_class_no_cases s1 with h | h | h | h | h | h | h | h | h | h | h | h <;>
      first
      | omega
      | simp [h, class_boundaries]
  · intro j hj
    rcases get_class_no_cases s1 with h | h | h | h | h | h | h | h | h | h | h | h <;>
      simp only [h] at hj <;> interval_cases j <;> simp [class_boundaries] <;> omega
  · intro h0
    rcases get_class_no_cases s1 with h | h | h | h | h | h | h | h | h | h | h | h <;>
      omega

/-- C28, witness: sizes 5 and 100, of classes 1 and 5. -/
theorem size_classes_witness :
    5 ≤ 100 ∧
    (get_class_no 5 = first_boundary_above 5 ∧
      (get_class_no 5 < 11 → 5 < class_boundaries.getD (get_class_no 5) 0) ∧
      (∀ j, j < get_class_no 5 → class_boundaries.getD j 0 ≤ 5) ∧
      (4096 ≤ 5 → get_class_no 5 = 11) ∧
      get_class_no 5 ≤ 11 ∧ get_class_no 5 ≤ get_class_no 100) :=
  ⟨by decide, size_classes 5 100 (by decide)⟩

/-- C29: let `b` be a block of a well-formed heap that is on no list (the block
in transit), `k = get_class_no b.size` the class of its size, and `fl k` what
the list of class `k` holds, read from its head along successor links.  After
`add_to_free_list(b)` the list of class `k`, read the same way, is `b` followed
by `fl k`; `b` is the head, its predecessor link is `NULL`, its successor link
is the old head (`NULL` if the list was empty), the predecessor link of the old
head, if there is one, is `b`, `b` is marked free, and every other class has the
head and the list it had. -/
theorem insertion_is_push_front {h : Heap} {l1 l2 : List Blk} {fl : Nat → List Nat} {b : Blk}
    (hR : R h (l1 ++ b :: l2) fl b.addr) (hnf : b.free = false) :
    (∀ i, i < 12 → b.addr ∉ fl i) ∧
    block_size h b.addr = b.size ∧
    DLL h NULL (h.seg (get_class_no b.size)) (fl (get_class_no b.size)) ∧
    DLL (add_to_free_list h b.addr) NULL
      ((add_to_free_list h b.addr).seg (get_class_no b.size))
      (b.addr :: fl (get_class_no b.size)) ∧
    (add_to_free_list h b.addr).seg (get_class_no b.size) = b.addr ∧
    get_pred_ptr (add_to_free_list h b.addr) b.addr = NULL ∧
    get_succ_ptr (add_to_free_list h b.addr) b.addr = h.seg (get_class_no b.size) ∧
    (h.seg (get_class_no b.size) ≠ NULL →
      get_pred_ptr (add_to_free_list h b.addr) (h.seg (get_class_no b.size)) = b.addr) ∧
    block_free (add_to_free_list h b.addr) b.addr = true ∧
    ∀ i, i < 12 → i ≠ get_class_no b.size →
      (add_to_free_list h b.addr).seg i = h.seg i ∧
      DLL (add_to_free_list h b.addr) NULL ((add_to_free_list h b.addr).seg i) (fl i) := by
  have hb : b ∈ l1 ++ b :: l2 := by simp
  have hk := get_class_no_lt b.size
  obtain ⟨r1, _, _⟩ := R_add_to_free_list hR hnf
  have hl := r1.lists (get_class_no b.size) hk
  rw [Function.update_same] at hl
  obtain ⟨d1, d2, d3, d4⟩ := hl
  have hold := hR.lists (get_class_no b.size) hk
  have e1 := DLL_head _ _ _ _ d4
  have e2 := DLL_head _ _ _ _ hold
  have hsucc : get_succ_ptr (add_to_free_list h b.addr) b.addr = h.seg (get_class_no b.size) := by
    rw [e1, e2]
  have hbm : (⟨b.addr, b.size, true⟩ : Blk) ∈ l1 ++ ⟨b.addr, b.size, true⟩ :: l2 := by simp
  refine ⟨?_, hR.block_size hb, hold, ⟨d1, d2, d3, d4⟩, d1, d3, hsucc, ?_, r1.block_free hbm, ?_⟩
  · intro i hi hx
    obtain ⟨c, hc, c1, c2, _⟩ := hR.node hi hx
    have := hR.addr_inj hc hb c1
    rw [this, hnf] at c2
    cases c2
  · intro h0
    rw [← hsucc]
    rw [← hsucc] at h0
    exact (DLL_head_pred _ _ _ _ d4 h0).2
  · intro i hi hne
    have hli := r1.lists i hi
    rw [Function.update_noteq hne] at hli
    refine ⟨?_, hli⟩
    rw [DLL_head _ _ _ _ hli, DLL_head _ _ _ _ (hR.lists i hi)]

/-- C29, witness: the block of 64 words of `open_heap`, which is on no list, is
put on the (empty) list of class 5. -/
theorem insertion_is_push_front_witness :
    (R open_heap ([] ++ (⟨0x800000000 + 108, 64, false⟩ : Blk) :: [])
        (fun j => (init_lists j).erase (0x800000000 + 108)) (0x800000000 + 108) ∧
      (⟨0x800000000 + 108, 64, false⟩ : Blk).free = false) ∧
    DLL (add_to_free_list open_heap (0x800000000 + 108)) NULL
      ((add_to_free_list open_heap (0x800000000 + 108)).seg (get_class_no 64))
      ((0x800000000 + 108) :: (init_lists (get_class_no 64)).erase (0x800000000 + 108)) ∧
    (add_to_free_list open_heap (0x800000000 + 108)).seg (get_class_no 64) = 0x800000000 + 108 := by
  have w := insertion_is_push_front open_heap_R rfl
  dsimp only at w
  exact ⟨⟨open_heap_R, rfl⟩, w.2.2.2.1, w.2.2.2.2.1⟩

/-- C30: let `b` be a free block of a well-formed heap, `k = get_class_no b.size`
the class of its size, and `fl k` what the list of class `k` holds, read from
its head along successor links; `b` is on that list, at whatever position.
After `delete_block(b)` the list of class `k`, read the same way with
predecessor and successor links consistent, is `fl k` with `b` erased, the
others in the order they had, and `b` is not on it; the head of the class is the
old successor of `b` when `b` was the head (`NULL` when `b` was the only
member) and the old head otherwise; every other class has the head and the list
it had. -/
theorem removal_is_unlink {h : Heap} {l1 l2 : List Blk} {fl : Nat → List Nat} {hole : Nat}
    {b : Blk} (hR : R h (l1 ++ b :: l2) fl hole) (hfree : b.free = true) :
    b.addr ∈ fl (get_class_no b.size) ∧
    DLL h NULL (h.seg (get_class_no b.size)) (fl (get_class_no b.size)) ∧
    DLL (delete_block h b.addr) NULL ((delete_block h b.addr).seg (get_class_no b.size))
      ((fl (get_class_no b.size)).erase b.addr) ∧
    (fl (get_class_no b.size)).erase b.addr =
      (fl (get_class_no b.size)).filter (fun x => x != b.addr) ∧
    b.addr ∉ (fl (get_class_no b.size)).erase b.addr ∧
    (h.seg (get_class_no b.size) = b.addr →
      (delete_block h b.addr).seg (get_class_no b.size) = get_succ_ptr h b.addr) ∧
    (fl (get_class_no b.size) = [b.addr] →
      (delete_block h b.addr).seg (get_class_no b.size) = NULL) ∧
    (h.seg (get_class_no b.size) ≠ b.addr →
      (delete_block h b.addr).seg (get_class_no b.size) = h.seg (get_class_no b.size)) ∧
    ∀ i, i < 12 → i ≠ get_class_no b.size →
      (delete_block h b.addr).seg i = h.seg i ∧
      DLL (delete_block h b.addr) NULL ((delete_block h b.addr).seg i) (fl i) := by
  have hb : b ∈ l1 ++ b :: l2 := by simp
  have hk := get_class_no_lt b.size
  have hmem := hR.fl_mem b hb hfree
  have hnd := hR.nodup (get_class_no b.size) hk
  have hold := hR.lists (get_class_no b.size) hk
  obtain ⟨d1, _, _⟩ := R_delete_block hR hfree
  have hnew := d1.lists (get_class_no b.size) hk
  have hb0 : b.addr ≠ 0 := DLL_ne_zero _ _ _ _ hold _ hmem
  have e1 := DLL_head _ _ _ _ hnew
  have e2 := DLL_head _ _ _ _ hold
  refine ⟨hmem, hold, hnew, List.Nodup.erase_eq_filter hnd _, not_mem_erase_self _ _ hnd,
    ?_, ?_, ?_, ?_⟩
  · intro hhead
    rw [e1]
    generalize fl (get_class_no b.size) = l at hold e2 hmem
    cases l with
    | nil => cases hmem
    | cons x xs =>
      have hx : x = b.addr := by
        rw [← hhead, e2]
        rfl
      subst hx
      rw [List.erase_cons_head]
      exact (DLL_head _ _ _ _ hold.2.2.2).symm
  · intro hone
    rw [e1, hone]
    simp
  · intro hhead
    rw [e1, e2]
    generalize fl (get_class_no b.size) = l at e2 hmem
    cases l with
    | nil => cases hmem
    | cons x xs =>
      have hx : x ≠ b.addr := by
        intro e
        apply hhead
        rw [e2, ← e]
        rfl
      rw [List.erase_cons_tail (by simpa using hx)]
      rfl
  · intro i hi hne
    have hni : b.addr ∉ fl i := fun hx => hne (hR.node_class hi hx hk hmem)
    have hli := d1.lists i hi
    simp only [List.erase_of_not_mem hni] at hli
    refine ⟨?_, hli⟩
    rw [DLL_head _ _ _ _ hli, DLL_head _ _ _ _ (hR.lists i hi)]

/-- C30, witness: the free block of 64 words of the heap after `mm_init()`, the
only member of the list of class 5, is removed. -/
theorem removal_is_unlink_witness :
    (R init_heap ([] ++ (⟨0x800000000 + 108, 64, true⟩ : Blk) :: []) init_lists 0 ∧
      (⟨0x800000000 + 108, 64, true⟩ : Blk).free = true) ∧
    DLL (delete_block init_heap (0x800000000 + 108)) NULL
      ((delete_block init_heap (0x800000000 + 108)).seg (get_class_no 64))
      ((init_lists (get_class_no 64)).erase (0x800000000 + 108)) :=
  ⟨⟨init_heap_R, rfl⟩,
    (@removal_is_unlink init_heap [] [] init_lists 0 ⟨0x800000000 + 108, 64, true⟩
      init_heap_R rfl).2.2.1⟩

end MallocLab


namespace MallocLab

/-! ## Tags, the checker, sentinels and contracts: auxiliary facts -/

theorem PACK_free (s : Nat) : PACK s 0 = s := by
  unfold PACK
  simp

theorem PACK_alloc (s : Nat) (hs : s < 2 ^ 30) : PACK s 1 = s + 2 ^ 30 := by
  unfold PACK
  have e : (1 <<< 30 : Nat) = 0x40000000 := by decide
  rw [e]
  exact tag_or s hs

theorem state_eq (r : Option (Nat × Heap)) (x : Nat × Heap) (e : r = some x) :
    state r = x.2 := by
  rw [e]
  rfl

/-- The walk of `check_seg_list` over one list prints nothing exactly when every
member is below the bound. -/
theorem check_one_list_spec (h : Heap) (rm : Nat) (l : List Nat) (p fuel : Nat)
    (hd : SuccList h p l) (hf : l.length < fuel) :
    ∃ out, check_one_list h rm fuel p = some out ∧
      (out = [] ↔ ∀ x ∈ l, block_size h x < rm) := by
  induction l generalizing p fuel with
  | nil =>
    have hp : p = 0 := hd
    cases fuel with
    | zero => cases hf
    | succ f =>
      refine ⟨[], ?_, ?_⟩
      · simp [check_one_list, hp]
      · simp
  | cons y ys ih =>
    obtain ⟨h1, h2, h3⟩ := hd
    cases fuel with
    | zero => cases hf
    | succ f =>
      have hp0 : ¬ (p = NULL) := by rw [h1]; exact h2
      obtain ⟨rest, hr, hiff⟩ := ih (get_succ_ptr h y) f h3 (by simpa using hf)
      refine ⟨(if block_size h y ≥ rm then [Report.wrong_bucket] else []) ++ rest, ?_, ?_⟩
      · rw [check_one_list, if_neg hp0, h1, hr]
      · by_cases hy : block_size h y ≥ rm
        · rw [if_pos hy]
          constructor
          · intro e
            cases e
          · intro hall
            have := hall y (List.mem_cons_self _ _)
            omega
        · rw [if_neg hy, List.nil_append, hiff]
          constructor
          · intro hall x hx
            rcases List.mem_cons.1 hx with q | q
            · rw [q]
              omega
            · exact hall x q
          · intro hall x hx
            exact hall x (List.mem_cons_of_mem _ hx)

/-- The loop of `check_seg_list` over the classes prints nothing exactly when
every member of every list walked is below the bound of its class. -/
theorem check_seg_from_spec (h : Heap) (fuel : Nat) (fl : Nat → List Nat) (n i : Nat)
    (hd : ∀ j, i ≤ j → j < i + n → SuccList h (h.seg j) (fl j) ∧ (fl j).length < fuel) :
    ∃ out, check_seg_from fuel h n i = some out ∧
      (out = [] ↔ ∀ j, i ≤ j → j < i + n → ∀ x ∈ fl j,
        block_size h x < (inverse_get_class_no j % 2 ^ 32).toNat) := by
  induction n generalizing i with
  | zero =>
    refine ⟨[], rfl, ?_⟩
    constructor
    · intro _ j a b
      omega
    · intro _
      rfl
  | succ n ih =>
    obtain ⟨hdl, hlen⟩ := hd i (le_refl _) (by omega)
    obtain ⟨out, ho, hiff⟩ := check_one_list_spec h (inverse_get_class_no i % 2 ^ 32).toNat
      (fl i) (h.seg i) fuel hdl hlen
    obtain ⟨rest, hr, hiff2⟩ := ih (i + 1) (fun j a b => hd j (by omega) (by omega))
    refine ⟨out ++ rest, ?_, ?_⟩
    · rw [check_seg_from, ho, hr]
    · rw [List.append_eq_nil, hiff, hiff2]
      constructor
      · rintro ⟨a1, a2⟩ j b c x hx
        by_cases e : j = i
        · subst e
          exact a1 x hx
        · exact a2 j (by omega) (by omega) x hx
      · intro hall
        exact ⟨fun x hx => hall i (le_refl _) (by omega) x hx,
          fun j b c x hx => hall j (by omega) (by omega) x hx⟩

/-- The declared bounds as natural numbers. -/
theorem inverse_bound (j : Nat) (hj : j < 12) (n : Nat) :
    n < (inverse_get_class_no j % 2 ^ 32).toNat ↔ (n : Int) < inverse_get_class_no j := by
  interval_cases j <;> simp [inverse_get_class_no, INT_MAX]

/-- With the epilogue word intact the loop of `mm_checkheap` does not enter its
body. -/
theorem check_blocks_intact (h : Heap) (bp start fuel : Nat) (he : block_size h bp = 0) :
    check_blocks h bp (fuel + 1) start = some [] := by
  rw [check_blocks, if_neg (by omega)]

/-- The sentinels of a represented heap. -/
theorem R.sentinels {h : Heap} {bs : List Blk} {fl : Nat → List Nat} (hR : R h bs fl 0) :
    Sentinels h := by
  have e : get h (h.brk - 4) = 0 + 2 ^ 30 := by
    rw [hR.epi, Nat.zero_add]
  exact ⟨⟨block_size_of_tag h _ 2 (by decide) (Or.inr hR.pro_hdr),
      block_free_of_alloc h _ 2 (by decide) hR.pro_hdr⟩,
    ⟨block_size_of_tag h _ 2 (by decide) (Or.inr hR.pro_ftr),
      block_free_of_alloc h _ 2 (by decide) hR.pro_ftr⟩,
    ⟨block_size_of_tag h _ 0 (by decide) (Or.inr e), block_free_of_alloc h _ 0 (by decide) e⟩⟩

theorem Sentinels_of_R {h : Heap} (hw : ∃ bs fl, R h bs fl 0) : Sentinels h := by
  obtain ⟨bs, fl, hR⟩ := hw
  exact hR.sentinels

/-- The result of `mm_init()` on the empty heap is `init_heap`. -/
theorem mm_init_start : mm_init start_heap = some (0, init_heap) := by
  obtain ⟨h', e, _⟩ := (mm_init_spec start_heap (by decide) (by decide) (by decide)
    (by decide)).1 (by decide)
  have : init_heap = h' := by
    unfold init_heap
    rw [e]
  rw [this]
  exact e

/-- With contracts enabled `set_pred_ptr(block, NULL)` fails. -/
theorem set_pred_ptr_checked_null (h : Heap) (block : Nat) :
    set_pred_ptr_checked h block NULL = none := by
  unfold set_pred_ptr_checked REQUIRES
  by_cases a : block ≠ NULL <;> by_cases b : in_heap h block = true <;> simp [a, b, bind]

/-- With contracts enabled `set_succ_ptr(block, NULL)` fails. -/
theorem set_succ_ptr_checked_null (h : Heap) (block : Nat) :
    set_succ_ptr_checked h block NULL = none := by
  unfold set_succ_ptr_checked REQUIRES
  by_cases a : block ≠ NULL <;> by_cases b : in_heap h block = true <;> simp [a, b, bind]

/-- With contracts enabled `init_block` fails whatever its arguments are. -/
theorem init_block_checked_none (h : Heap) (block size : Nat) :
    init_block_checked h block size = none := by
  unfold init_block_checked
  cases REQUIRES (decide (block ≠ NULL)) with
  | none => rfl
  | some _ =>
    cases REQUIRES (in_heap h block) with
    | none => rfl
    | some _ =>
      cases hf : block_footer_checked (put h block size) block with
      | none => simp [bind, hf]
      | some t => simp [bind, hf, set_pred_ptr_checked_null]

/-- A well-formed doubly linked list is in particular a successor chain. -/
theorem SuccList_of_DLL (h : Heap) (l : List Nat) (prev p : Nat) (hd : DLL h prev p l) :
    SuccList h p l := by
  induction l generalizing prev p with
  | nil => exact hd
  | cons x xs ih =>
    obtain ⟨h1, h2, _, h4⟩ := hd
    exact ⟨h1, h2, ih x _ h4⟩

/-- The header address of a block of a represented heap is 4 modulo 8, so that
`checkblock_align` applied to it prints its line. -/
theorem checkblock_align_header {h : Heap} {bs : List Blk} {fl : Nat → List Nat}
    (hR : R h bs fl 0) {b : Blk} (hb : b ∈ bs) : checkblock_align b.addr = [Report.not_aligned] := by
  have ha := hR.payload_aligned hb
  unfold block_mem at ha
  have hne : aligned b.addr ≠ true := by
    unfold aligned align
    simp only [beq_iff_eq, ne_eq]
    omega
  unfold checkblock_align
  rw [if_pos hne]

set_option maxRecDepth 1000000 in
set_option maxHeartbeats 4000000 in
/-- On the heap after `mm_init()` and `p = malloc(8)`, `realloc(p, 100)` takes the
moving path: `memcpy` with the length `MIN(old_size, size)`, `old_size` being
the size of the old block in bytes, then `free`. -/
theorem realloc_moved_eq :
    realloc 4 frag_heap_1 (0x800000000 + 112) 100 =
      some (0x800000000 + 128,
        free (memcpy (state (malloc 4 frag_heap_1 100)) (0x800000000 + 128) (0x800000000 + 112)
          (min (4 * WSIZE) 100)) (0x800000000 + 112)) := by
  have e1 : (malloc 4 frag_heap_1 100).map Prod.fst = some (0x800000000 + 128) := by decide!
  have e2 : block_size (state (malloc 4 frag_heap_1 100)) (block_header (0x800000000 + 112)) = 4 := by
    decide!
  have e3 : adjust 100 = 28 := by decide
  cases hm : malloc 4 frag_heap_1 100 with
  | none =>
    rw [hm] at e1
    cases e1
  | some r =>
    obtain ⟨q, h1⟩ := r
    rw [hm] at e1
    have hq : q = 0x800000000 + 128 := Option.some.inj e1
    subst hq
    have hs : state (some (0x800000000 + 128, h1)) = h1 := rfl
    rw [hs]
    rw [hm, hs] at e2
    unfold realloc
    rw [if_neg (by decide), if_neg (by decide)]
    simp only [hm]
    rw [if_neg (by decide), e2, e3, if_pos (by decide)]

end MallocLab


namespace MallocLab

/-! ## Codec, initial state, sentinels and realloc's copy (claims C31 to C35) -/

/-- C31: for every size `s < 2^30` and every flag `a` in {0, 1}, a header that
holds the tag word `PACK(s, a)` decodes to the pair: `block_size` reads `s` and
`block_free` reads true exactly when `a = 0`.  And for a block `b` of `s ≥ 1`
words whose header and footer hold the tag `PACK(s, a)`, `block_mark(b, f)`
leaves header and footer holding `PACK(s, 0)` for `f = 1` and `PACK(s, 1)` for
`f = 0`: both words keep every bit but bit 30, the size field still reads `s`,
header equals footer, the footer is where it was, and no other byte of memory
and nothing else of the state changes. -/
theorem tag_round_trip (h : Heap) (b s a : Nat) (f : Bool) (hs : s < 2 ^ 30)
    (ha : a = 0 ∨ a = 1) :
    (block_size (put h b (PACK s a)) b = s ∧
      (block_free (put h b (PACK s a)) b = true ↔ a = 0)) ∧
    (1 ≤ s → get h b = PACK s a → get h (block_footer h b) = PACK s a →
      block_size (block_mark h b f) b = s ∧
      block_free (block_mark h b f) b = f ∧
      get (block_mark h b f) b = PACK s (if f then 0 else 1) ∧
      get (block_mark h b f) (block_footer (block_mark h b f) b) =
        PACK s (if f then 0 else 1) ∧
      block_footer (block_mark h b f) b = block_footer h b ∧
      get (block_mark h b f) b &&& 0xBFFFFFFF = get h b &&& 0xBFFFFFFF ∧
      get (block_mark h b f) (block_footer h b) &&& 0xBFFFFFFF =
        get h (block_footer h b) &&& 0xBFFFFFFF ∧
      SameMeta h (block_mark h b f) ∧
      ∀ x, (x < b ∨ b + 4 ≤ x) → (x < block_footer h b ∨ block_footer h b + 4 ≤ x) →
        (block_mark h b f).mem x = h.mem x) := by
  have hP : PACK s a = s ∨ PACK s a = s + 2 ^ 30 := by
    rcases ha with e | e
    · rw [e, PACK_free]
      exact Or.inl rfl
    · rw [e, PACK_alloc s hs]
      exact Or.inr rfl
  have hPf : PACK s (if f then 0 else 1) = if f then s else s + 2 ^ 30 := by
    cases f
    · exact PACK_alloc s hs
    · exact PACK_free s
  have hclr : ∀ v, (v = s ∨ v = s + 2 ^ 30) → v &&& 0xBFFFFFFF = s := by
    intro v hv
    rcases hv with e | e
    · rw [e]
      exact tag_clear s hs
    · rw [e]
      exact tag_clear_alloc s hs
  constructor
  · rcases ha with e | e
    · subst e
      have g : get (put h b (PACK s 0)) b = s := by
        rw [PACK_free]
        exact get_put_same_lt _ _ _ (by omega)
      exact ⟨block_size_of_tag _ b s hs (Or.inl g),
        ⟨fun _ => rfl, fun _ => block_free_of_free _ b s hs g⟩⟩
    · subst e
      have g : get (put h b (PACK s 1)) b = s + 2 ^ 30 := by
        rw [PACK_alloc s hs]
        exact get_put_same_lt _ _ _ (by omega)
      refine ⟨block_size_of_tag _ b s hs (Or.inr g), ⟨fun e0 => ?_, fun e0 => by omega⟩⟩
      rw [block_free_of_alloc _ b s hs g] at e0
      cases e0
  · intro h1 hhdr hftr
    have hv : get h b = s ∨ get h b = s + 2 ^ 30 := by
      rw [hhdr]
      exact hP
    have hsz : block_size h b = s := block_size_of_tag h b s hs hv
    have hfa : block_footer h b = b + 4 * s - 4 := by
      unfold block_footer
      rw [hsz]
    obtain ⟨b1, b2, b3, b4⟩ := block_mark_spec1 h b s f hs h1 hv
    have hv' : get (block_mark h b f) b = s ∨ get (block_mark h b f) b = s + 2 ^ 30 := by
      rw [b1]
      cases f
      · exact Or.inr rfl
      · exact Or.inl rfl
    have hsz' : block_size (block_mark h b f) b = s := block_size_of_tag _ b s hs hv'
    have hfa' : block_footer (block_mark h b f) b = b + 4 * s - 4 := by
      unfold block_footer
      rw [hsz']
    have hfree : block_free (block_mark h b f) b = f := by
      cases f
      · exact block_free_of_alloc _ b s hs b1
      · exact block_free_of_free _ b s hs b1
    refine ⟨hsz', hfree, ?_, ?_, ?_, ?_, ?_, b3, ?_⟩
    · rw [b1, hPf]
    · rw [hfa', b2, hPf]
    · rw [hfa', hfa]
    · rw [hclr _ hv', hclr _ hv]
    · rw [hfa, hclr _ (by rw [b2]; cases f; exact Or.inr rfl; exact Or.inl rfl), hclr _ (by
        rw [← hfa, hftr]
        exact hP)]
    · intro x x1 x2
      rw [hfa] at x2
      apply b4 x x1
      omega

set_option maxRecDepth 1000000 in
/-- C31, witness: the free block of 64 words of the heap after `mm_init()`,
marked allocated. -/
theorem tag_round_trip_witness :
    ((64 : Nat) < 2 ^ 30 ∧ ((0 : Nat) = 0 ∨ (0 : Nat) = 1) ∧ 1 ≤ 64 ∧
      get init_heap (0x800000000 + 108) = PACK 64 0 ∧
      get init_heap (block_footer init_heap (0x800000000 + 108)) = PACK 64 0) ∧
    (block_size (put init_heap (0x800000000 + 108) (PACK 64 0)) (0x800000000 + 108) = 64 ∧
      (block_free (put init_heap (0x800000000 + 108) (PACK 64 0)) (0x800000000 + 108) = true ↔
        (0 : Nat) = 0)) ∧
    block_size (block_mark init_heap (0x800000000 + 108) false) (0x800000000 + 108) = 64 ∧
    block_free (block_mark init_heap (0x800000000 + 108) false) (0x800000000 + 108) = false := by
  have w := tag_round_trip init_heap (0x800000000 + 108) 64 0 false (by decide) (Or.inl rfl)
  have w2 := w.2 (by decide) (by decide!) (by decide!)
  exact ⟨⟨by decide, Or.inl rfl, by decide, by decide!, by decide!⟩, w.1, w2.1, w2.2.1⟩

/-- C32: for every address `p` strictly above the heap base `0x800000000` and
less than `2^32` bytes above it, decoding the 32-bit offset that encodes `p`
gives back `p`, and the offset is not 0; `NULL` encodes to 0 and 0 decodes to
`NULL`; every block address of a well-formed heap is such an address, so none
encodes to 0.  Consequently `get_succ_ptr` after `set_succ_ptr(b, p)` returns
`p`, likewise `get_pred_ptr` after `set_pred_ptr(b, p)`, and likewise for the
`NULL` link. -/
theorem link_round_trip {h : Heap} {bs : List Blk} {fl : Nat → List Nat} (hR : R h bs fl 0)
    (p : Nat) (hp1 : 0x800000000 < p) (hp2 : p < 0x800000000 + 2 ^ 32) (g : Heap) (b : Nat) :
    CONVERT_32_TO_64 (CONVERT_64_TO_32 p) = p ∧ CONVERT_64_TO_32 p < 2 ^ 32 ∧
    CONVERT_64_TO_32 p ≠ 0 ∧
    CONVERT_64_TO_32 NULL = 0 ∧ CONVERT_32_TO_64 0 = NULL ∧
    (∀ c ∈ bs, (0x800000000 < c.addr ∧ c.addr < 0x800000000 + 2 ^ 32) ∧
      CONVERT_64_TO_32 c.addr ≠ 0 ∧ CONVERT_32_TO_64 (CONVERT_64_TO_32 c.addr) = c.addr) ∧
    get_succ_ptr (set_succ_ptr g b p) b = p ∧ get_pred_ptr (set_pred_ptr g b p) b = p ∧
    get_succ_ptr (set_succ_ptr g b NULL) b = NULL ∧
    get_pred_ptr (set_pred_ptr g b NULL) b = NULL := by
  have hne : ∀ q, 0x800000000 < q → q < 0x800000000 + 2 ^ 32 → CONVERT_64_TO_32 q ≠ 0 := by
    intro q q1 q2
    unfold CONVERT_64_TO_32
    rw [if_neg (by omega)]
    omega
  have hrt : ∀ q, q = 0 ∨ (0x800000000 < q ∧ q < 0x800000000 + 2 ^ 32) →
      get_succ_ptr (set_succ_ptr g b q) b = q ∧ get_pred_ptr (set_pred_ptr g b q) b = q := by
    intro q hq
    unfold get_succ_ptr set_succ_ptr get_pred_ptr set_pred_ptr
    rw [get_put_same_lt _ _ _ (encode_lt q), get_put_same_lt _ _ _ (encode_lt q)]
    exact ⟨decode_encode' q hq, decode_encode' q hq⟩
  refine ⟨decode_encode' p (Or.inr ⟨hp1, hp2⟩), encode_lt p, hne p hp1 hp2, encode_null,
    decode_zero, ?_, (hrt p (Or.inr ⟨hp1, hp2⟩)).1, (hrt p (Or.inr ⟨hp1, hp2⟩)).2,
    (hrt NULL (Or.inl rfl)).1, (hrt NULL (Or.inl rfl)).2⟩
  intro c hc
  have hr := hR.range hc
  have hc2 : c.addr < 0x800000000 + 2 ^ 32 := by omega
  exact ⟨⟨hr.1, hc2⟩, hne c.addr hr.1 hc2, decode_encode' c.addr (Or.inr ⟨hr.1, hc2⟩)⟩

/-- C32, witness: the address of the first block of the heap after `mm_init()`,
written as a link into a block at the same address. -/
theorem link_round_trip_witness :
    (R init_heap init_blocks init_lists 0 ∧ 0x800000000 < 0x800000000 + 108 ∧
      0x800000000 + 108 < 0x800000000 + 2 ^ 32) ∧
    CONVERT_32_TO_64 (CONVERT_64_TO_32 (0x800000000 + 108)) = 0x800000000 + 108 ∧
    get_succ_ptr (set_succ_ptr init_heap (0x800000000 + 108) (0x800000000 + 108))
      (0x800000000 + 108) = 0x800000000 + 108 := by
  have w := link_round_trip init_heap_R (0x800000000 + 108) (by decide) (by decide) init_heap
    (0x800000000 + 108)
  exact ⟨⟨init_heap_R, by decide, by decide⟩, w.1, w.2.2.2.2.2.2.1⟩

/-- C33: let the memory system start with a heap at or above `0x800000000`,
8-byte aligned, that may grow to at most 4 GiB above `0x800000000`.  After a
successful `mm_init()` the walk over the headers between prologue and epilogue
meets exactly one block; it is free, has `CHUNKSIZE` = 64 words, header equal to
footer, both links `NULL`, and is the only member of the free list of its class,
class 5; the heads of the other 11 classes are `NULL`. -/
theorem initial_state (h0 h' : Heap) (hb1 : 0x800000000 ≤ h0.lo) (hb2 : h0.lo ≤ h0.brk)
    (hal : h0.brk % 8 = 0) (hmax : h0.max ≤ 0x800000000 + 2 ^ 32)
    (hi : mm_init h0 = some (0, h')) :
    Layout h' [⟨h'.heap_listp + 4, CHUNKSIZE, true⟩] ∧ CHUNKSIZE = 64 ∧
    block_size h' (h'.heap_listp + 4) = 64 ∧ block_free h' (h'.heap_listp + 4) = true ∧
    get h' (h'.heap_listp + 4) = get h' (block_footer h' (h'.heap_listp + 4)) ∧
    get_pred_ptr h' (h'.heap_listp + 4) = NULL ∧
    get_succ_ptr h' (h'.heap_listp + 4) = NULL ∧
    get_class_no CHUNKSIZE = 5 ∧
    DLL h' NULL (h'.seg 5) [h'.heap_listp + 4] ∧ h'.seg 5 = h'.heap_listp + 4 ∧
    ∀ i, i < 12 → i ≠ 5 → h'.seg i = NULL := by
  obtain ⟨k1, k2⟩ := mm_init_spec h0 hb1 hb2 hal hmax
  obtain ⟨h'', e, r, _, hlp⟩ := k1 (k2 h' hi)
  rw [hi] at e
  simp only [Option.some.injEq, Prod.mk.injEq, true_and] at e
  subst e
  have hx : h'.heap_listp + 4 = h0.brk + 108 := by omega
  rw [hx]
  have hm : (⟨h0.brk + 108, 64, true⟩ : Blk) ∈ [] ++ (⟨h0.brk + 108, 64, true⟩ : Blk) :: [] := by
    simp
  have hlay : Layout h' [⟨h0.brk + 108, 64, true⟩] := r.layout
  have hl5 := r.lists 5 (by decide)
  rw [Function.update_same] at hl5
  obtain ⟨d1, d2, d3, d4⟩ := hl5
  have hbk := r.blocks _ hm
  obtain ⟨_, _, _, hfr, _, _⟩ := hbk
  obtain ⟨_, g1, g2⟩ := hfr rfl
  have hsz := r.block_size hm
  refine ⟨hlay, CHUNKSIZE_eq, hsz, r.block_free hm, ?_, d3, d4, by decide, ⟨d1, d2, d3, d4⟩, d1, ?_⟩
  · unfold block_footer
    rw [hsz]
    exact g1.trans g2.symm
  · intro i hi5 hne
    have hli := r.lists i hi5
    rw [Function.update_noteq hne] at hli
    exact hli

/-- C33, witness: `mm_init()` on the empty heap at `0x800000000`. -/
theorem initial_state_witness :
    (0x800000000 ≤ start_heap.lo ∧ start_heap.lo ≤ start_heap.brk ∧ start_heap.brk % 8 = 0 ∧
      start_heap.max ≤ 0x800000000 + 2 ^ 32 ∧ mm_init start_heap = some (0, init_heap)) ∧
    Layout init_heap [⟨init_heap.heap_listp + 4, CHUNKSIZE, true⟩] ∧
    init_heap.seg 5 = init_heap.heap_listp + 4 :=
  ⟨⟨by decide, by decide, by decide, by decide, mm_init_start⟩,
    (initial_state start_heap init_heap (by decide) (by decide) (by decide) (by decide)
      mm_init_start).1,
    (initial_state start_heap init_heap (by decide) (by decide) (by decide) (by decide)
      mm_init_start).2.2.2.2.2.2.2.2.2.1⟩

set_option maxRecDepth 1000000 in
/-- C34, counterexample: after the successful `mm_init()` on the empty heap the
prologue header and footer hold `PACK(2, 1)`: they decode to size 2, not size 0
(the last word of the heap does hold `PACK(0, 1)`).  And after the valid call
`malloc(2^64 - 15)` on that heap, a request that is adjusted to 0 words, the
prologue footer holds `PACK(0, 0)`: it decodes to free, not allocated. -/
theorem prologue_has_two_words :
    mm_init start_heap = some (0, init_heap) ∧
    (get init_heap (init_heap.heap_listp - 4) = PACK 2 1 ∧
      get init_heap init_heap.heap_listp = PACK 2 1 ∧
      block_size init_heap (init_heap.heap_listp - 4) = 2 ∧
      block_size init_heap init_heap.heap_listp = 2 ∧
      ¬ (block_size init_heap (init_heap.heap_listp - 4) = 0) ∧
      get init_heap (init_heap.brk - 4) = PACK 0 1) ∧
    ((malloc 4 init_heap (2 ^ 64 - 15)).map Prod.fst = some (0x800000000 + 112) ∧
      wrap_heap_1.heap_listp = init_heap.heap_listp ∧
      get wrap_heap_1 wrap_heap_1.heap_listp = PACK 0 0 ∧
      block_free wrap_heap_1 wrap_heap_1.heap_listp = true) :=
  ⟨mm_init_start, by decide!, by decide!⟩

/-- C34, amended to the prologue as the code writes it and to requests of at
most `2^64 - 16` bytes: after a successful `mm_init()` the prologue header and
footer decode to (size 2, allocated) and the epilogue tag, the last word of the
heap, decodes to (size 0, allocated); and on a well-formed heap the same holds
after every `malloc`, `free` and `realloc` (`free` and `realloc` on the payload
pointer of an allocated block, `realloc` also on `NULL`) that does not return
`(block_pointer) -1`. -/
theorem sentinels_invariant {h : Heap} {bs : List Blk} {fl : Nat → List Nat}
    (hR : R h bs fl 0) :
    Sentinels h ∧
    (∀ h0 h', 0x800000000 ≤ h0.lo → h0.lo ≤ h0.brk → h0.brk % 8 = 0 →
      h0.max ≤ 0x800000000 + 2 ^ 32 → mm_init h0 = some (0, h') → Sentinels h') ∧
    (∀ size, size ≤ 2 ^ 64 - 16 →
      ∃ N, ∀ fuel, N ≤ fuel → ∃ p h', malloc fuel h size = some (p, h') ∧ Sentinels h') ∧
    (∀ b ∈ bs, b.free = false → Sentinels (free h (block_mem b.addr))) ∧
    (∀ p size, (p = NULL ∨ ∃ b ∈ bs, b.free = false ∧ p = block_mem b.addr) →
      size ≤ 2 ^ 64 - 16 →
      ∃ N, ∀ fuel, N ≤ fuel → ∃ q h', realloc fuel h p size = some (q, h') ∧
        (q ≠ MINUS_ONE → Sentinels h')) := by
  refine ⟨hR.sentinels, ?_, ?_, ?_, ?_⟩
  · intro h0 h' a1 a2 a3 a4 hi
    exact Sentinels_of_R (mm_init_keeps_R h0 h' a1 a2 a3 a4 hi)
  · intro size hs
    obtain ⟨N, hN⟩ := malloc_keeps_R hR size (by omega)
    refine ⟨N, fun fuel hf => ?_⟩
    obtain ⟨p, h', hm, hr⟩ := hN fuel hf
    exact ⟨p, h', hm, Sentinels_of_R hr⟩
  · intro b hb hnf
    exact Sentinels_of_R (free_keeps_R hR hb hnf)
  · intro p size hp hs
    obtain ⟨N, hN⟩ := realloc_keeps_R hR p hp size (by omega)
    refine ⟨N, fun fuel hf => ?_⟩
    obtain ⟨q, h', hm, hr⟩ := hN fuel hf
    exact ⟨q, h', hm, fun hq => Sentinels_of_R (hr hq)⟩

/-- C34, witness: the amended claim at the heap after `mm_init()` and
`malloc(216)`, which has an allocated block and a free block. -/
theorem sentinels_invariant_witness :
    R split_heap split_blocks split_lists 0 ∧
    (Sentinels split_heap ∧
    (∀ h0 h', 0x800000000 ≤ h0.lo → h0.lo ≤ h0.brk → h0.brk % 8 = 0 →
      h0.max ≤ 0x800000000 + 2 ^ 32 → mm_init h0 = some (0, h') → Sentinels h') ∧
    (∀ size, size ≤ 2 ^ 64 - 16 →
      ∃ N, ∀ fuel, N ≤ fuel → ∃ p h', malloc fuel split_heap size = some (p, h') ∧
        Sentinels h') ∧
    (∀ b ∈ split_blocks, b.free = false → Sentinels (free split_heap (block_mem b.addr))) ∧
    (∀ p size, (p = NULL ∨ ∃ b ∈ split_blocks, b.free = false ∧ p = block_mem b.addr) →
      size ≤ 2 ^ 64 - 16 →
      ∃ N, ∀ fuel, N ≤ fuel → ∃ q h', realloc fuel split_heap p size = some (q, h') ∧
        (q ≠ MINUS_ONE → Sentinels h'))) :=
  ⟨split_heap_R, sentinels_invariant split_heap_R⟩

set_option maxRecDepth 1000000 in
set_option maxHeartbeats 4000000 in
/-- C35, evaluated at the failing input: after `mm_init()` and `p = malloc(8)`
the block of `p` has `s = 4` words, so its payload has `4 * 4 - 8 = 8` bytes;
the word after the payload is the footer of the block and the next one the
header of the next block.  `realloc(p, 100)` needs 28 words, takes the moving
path and returns the new pointer `0x800000000 + 128`; the length it passes to
`memcpy` is `MIN(4 * s, 100) = 16`, not 8.  Bytes 8 to 15 of the new payload,
which held `0xAA` after the `malloc` inside `realloc`, hold afterwards the footer
of the old block and the header that followed it. -/
theorem realloc_copies_block_size :
    Layout frag_heap_1 [⟨0x800000000 + 108, 4, false⟩, ⟨0x800000000 + 124, 60, true⟩] ∧
    (block_size frag_heap_1 (block_header (0x800000000 + 112)) = 4 ∧ 4 < adjust 100 ∧
      4 * 4 - 8 = 8) ∧
    realloc 4 frag_heap_1 (0x800000000 + 112) 100 =
      some (0x800000000 + 128,
        free (memcpy (state (malloc 4 frag_heap_1 100)) (0x800000000 + 128) (0x800000000 + 112)
          (min (4 * WSIZE) 100)) (0x800000000 + 112)) ∧
    (min (4 * WSIZE) 100 = 16 ∧ min (4 * 4 - 8) 100 = 8) ∧
    (get (state (malloc 4 frag_heap_1 100)) (0x800000000 + 112 + 8) = PACK 4 1 ∧
      get (state (malloc 4 frag_heap_1 100)) (0x800000000 + 112 + 12) = PACK 28 1 ∧
      get (state (malloc 4 frag_heap_1 100)) (0x800000000 + 128 + 8) = 0xAAAAAAAA ∧
      get (state (malloc 4 frag_heap_1 100)) (0x800000000 + 128 + 12) = 0xAAAAAAAA) ∧
    (get moved_heap (0x800000000 + 128 + 8) = PACK 4 1 ∧
      get moved_heap (0x800000000 + 128 + 12) = PACK 28 1) :=
  ⟨by decide!, by decide!, realloc_moved_eq, by decide, by decide!, by decide!⟩

end MallocLab


namespace MallocLab

/-! ## calloc, the checker and the contracts (claims C36 to C40) -/

/-- C36: for every heap state and every `nmemb` and `size`, `calloc(nmemb, size)`
is `malloc(nmemb * max(size, 4))`, the product taken modulo `2^64`: it returns
the same pointer and leaves the same state, having written nothing else (and it
runs out of fuel exactly when that `malloc` does). -/
theorem calloc_delegates (fuel : Nat) (h : Heap) (nmemb size : Nat) :
    calloc fuel h nmemb size = calloc_delegate fuel h nmemb size ∧
    calloc fuel h nmemb size = malloc fuel h (nmemb * max size 4 % 2 ^ 64) := by
  have e : (if size < BLOCKSIZE_MIN then BLOCKSIZE_MIN else size) = max size 4 := by
    show (if size < 4 then 4 else size) = max size 4
    split <;> omega
  have e2 : calloc fuel h nmemb size = malloc fuel h (nmemb * max size 4 % 2 ^ 64) := by
    unfold calloc
    simp only [e]
  exact ⟨e2, e2⟩

set_option maxRecDepth 1000000 in
set_option maxHeartbeats 4000000 in
/-- C37, evaluated at the failing input: the heap after `mm_init()`,
`p = malloc(216)` and `realloc(p, 100)` has intact sentinels, and the walk over
its headers meets two consecutive free blocks, at `0x800000000 + 220` and
`0x800000000 + 332`; `check_coalescing` applied to the second prints its line.
Yet `mm_checkheap(1)` returns 0 having printed nothing.  The condition of its
loop reads the size at `bp`, the epilogue word, and not at `start`: on every
heap whose epilogue word has size 0 the loop body is never entered, for any
start. -/
theorem checker_skips_every_block :
    Sentinels adjacent_heap ∧
    Layout adjacent_heap
      [⟨0x800000000 + 108, 28, false⟩, ⟨0x800000000 + 220, 28, true⟩,
        ⟨0x800000000 + 332, 8, true⟩, ⟨0x800000000 + 364, 28, false⟩,
        ⟨0x800000000 + 476, 36, true⟩] ∧
    (block_free adjacent_heap (0x800000000 + 220) = true ∧
      block_next adjacent_heap (0x800000000 + 220) = 0x800000000 + 332 ∧
      block_free adjacent_heap (0x800000000 + 332) = true) ∧
    check_coalescing adjacent_heap (0x800000000 + 332) = [Report.consecutive_free] ∧
    mm_checkheap 4 adjacent_heap 1 = some (0, []) ∧
    (∀ (h : Heap) (fuel start : Nat), block_size h (mem_heap_hi h + 1 - 4) = 0 →
      check_blocks h (mem_heap_hi h + 1 - 4) (fuel + 1) start = some []) :=
  ⟨by decide!, by decide!, by decide!, by decide!, by decide!,
    fun h fuel start he => check_blocks_intact h _ start fuel he⟩

set_option maxRecDepth 1000000 in
/-- C38, evaluated at the failing input: the heap right after `mm_init()` is
well-formed (one free block of 64 words, header equal to footer, on the list of
its class, payload 8-byte aligned, inside the heap).  Applied to the header
address of that block, as `mm_checkheap` applies them, `check_in_heap`,
`check_header_footer` and `check_coalescing` print nothing, but
`checkblock_align` prints its line (the header address is 4 modulo 8) and
`check_prev_next_ptr` prints its line (it compares the list links with the
physically previous block).  On every well-formed heap `checkblock_align` prints
its line for every block. -/
theorem checker_reports_on_valid_heap :
    R init_heap init_blocks init_lists 0 ∧ BlocksOK init_heap init_blocks ∧
    NoAdjacentFree init_blocks ∧
    (init_heap.heap_listp + 4 = 0x800000000 + 108 ∧
      aligned (block_mem (0x800000000 + 108)) = true) ∧
    (check_in_heap init_heap (0x800000000 + 108) = [] ∧
      check_header_footer init_heap (0x800000000 + 108) = [] ∧
      check_coalescing init_heap (0x800000000 + 108) = []) ∧
    checkblock_align (0x800000000 + 108) = [Report.not_aligned] ∧
    check_prev_next_ptr init_heap (0x800000000 + 108) = [Report.links_inconsistent] ∧
    (get_pred_ptr init_heap (0x800000000 + 108) = NULL ∧
      block_prev init_heap (0x800000000 + 108) = init_heap.heap_listp - 4) ∧
    (∀ (h : Heap) (bs : List Blk) (fl : Nat → List Nat), R h bs fl 0 →
      ∀ b ∈ bs, checkblock_align b.addr = [Report.not_aligned]) :=
  ⟨init_heap_R, init_heap_R.blocks_ok, by decide, by decide!, by decide!, by decide,
    by decide!, by decide!, fun _ _ _ hR _ hb => checkblock_align_header hR hb⟩

/-- C39: let `fl i` be what following successor links from the head of class
`i` meets before `NULL`, for each of the 12 classes (the lists are finite).
Then `check_seg_list` returns, given enough fuel for the walk, and prints
nothing if and only if every member of every list `i` has a size strictly below
`inverse_get_class_no(i)`.  And for every size `s < INT_MAX`,
`s < inverse_get_class_no(get_class_no(s))`, and when `get_class_no(s) = c ≥ 1`,
`s ≥ inverse_get_class_no(c - 1)`. -/
theorem class_bound_check (h : Heap) (fl : Nat → List Nat)
    (hd : ∀ i, i < 12 → SuccList h (h.seg i) (fl i)) (s : Nat) (hs : (s : Int) < INT_MAX) :
    (∃ N, ∀ fuel, N ≤ fuel → ∃ out, check_seg_list fuel h = some out ∧
      (out = [] ↔ ∀ i, i < 12 → ∀ x ∈ fl i,
        (block_size h x : Int) < inverse_get_class_no i)) ∧
    (s : Int) < inverse_get_class_no (get_class_no s) ∧
    (1 ≤ get_class_no s → inverse_get_class_no ((get_class_no s : Int) - 1) ≤ s) := by
  refine ⟨?_, ?_, ?_⟩
  · obtain ⟨N, hN⟩ := lengths_bounded fl 12
    refine ⟨N, fun fuel hf => ?_⟩
    obtain ⟨out, ho, hiff⟩ := check_seg_from_spec h fuel fl 12 0
      (fun j _ b => ⟨hd j (by omega), lt_of_lt_of_le (hN j (by omega)) hf⟩)
    refine ⟨out, ho, ?_⟩
    rw [hiff]
    constructor
    · intro hall i hi x hx
      exact (inverse_bound i hi _).1 (hall i (Nat.zero_le _) (by omega) x hx)
    · intro hall j _ hj x hx
      exact (inverse_bound j (by omega) _).2 (hall j (by omega) x hx)
  · rcases get_class_no_cases s with c | c | c | c | c | c | c | c | c | c | c | c <;>
      simp only [c, inverse_get_class_no, INT_MAX] at hs ⊢ <;> simp <;> omega
  · intro h1
    rcases get_class_no_cases s with c | c | c | c | c | c | c | c | c | c | c | c <;>
      simp only [c, inverse_get_class_no, INT_MAX] at h1 hs ⊢ <;> simp <;> omega

/-- C39, witness: the lists of the heap after `mm_init()`, and a size of 100
words. -/
theorem class_bound_check_witness :
    ((∀ i, i < 12 → SuccList init_heap (init_heap.seg i) (init_lists i)) ∧
      ((100 : Nat) : Int) < INT_MAX) ∧
    ((∃ N, ∀ fuel, N ≤ fuel → ∃ out, check_seg_list fuel init_heap = some out ∧
      (out = [] ↔ ∀ i, i < 12 → ∀ x ∈ init_lists i,
        (block_size init_heap x : Int) < inverse_get_class_no i)) ∧
    ((100 : Nat) : Int) < inverse_get_class_no (get_class_no 100) ∧
    (1 ≤ get_class_no 100 → inverse_get_class_no ((get_class_no 100 : Int) - 1) ≤ (100 : Nat))) :=
  ⟨⟨fun i hi => SuccList_of_DLL _ _ _ _ (init_heap_R.lists i hi), by decide⟩,
    class_bound_check init_heap init_lists
      (fun i hi => SuccList_of_DLL _ _ _ _ (init_heap_R.lists i hi)) 100 (by decide)⟩

set_option maxRecDepth 1000000 in
/-- C40, evaluated at the failing input: `set_pred_ptr` and `set_succ_ptr` assert
`pred != NULL` and `succ != NULL`, and `init_block` calls both with `NULL`.  With
contracts enabled `set_pred_ptr(block, NULL)` and `set_succ_ptr(block, NULL)`
fail for every state and block, and so does `init_block` for all its arguments:
also for the first call `mm_init()` makes (through `extend_heap`), whose own
arguments are fine (a block inside the heap), and which without contracts sets
up the block. -/
theorem init_block_breaks_contract :
    (∀ (h : Heap) (block : Nat), set_pred_ptr_checked h block NULL = none) ∧
    (∀ (h : Heap) (block : Nat), set_succ_ptr_checked h block NULL = none) ∧
    (∀ (h : Heap) (block size : Nat), init_block_checked h block size = none) ∧
    (mm_init start_heap = some (0, init_heap) ∧
      (0x800000000 + 108 ≠ NULL ∧ in_heap init_heap (0x800000000 + 108) = true) ∧
      init_block_checked init_heap (0x800000000 + 108) 64 = none ∧
      block_size (init_block init_heap (0x800000000 + 108) 64) (0x800000000 + 108) = 64) :=
  ⟨set_pred_ptr_checked_null, set_succ_ptr_checked_null, init_block_checked_none,
    mm_init_start, by decide!, init_block_checked_none _ _ _, by decide!⟩

end MallocLab
